import Mathlib

/-! dbus-asio: a verification development

A shallow embedding of the message layer of dbus-asio: the signature
validator and the signature cursor (`dbus_type_signature.cpp`), the name and
object-path validators (`dbus_names.cpp`), the output stream and the codec
values (`dbus_messageostream.h`, `dbus_type_*.cpp`) and the handler tables of
the message multiplexer (`dbus_messageprotocol.h`).

Conventions of the embedding.

* A `std::string` is a `List Char`; every `Char` stands for one byte of the
  string, so `List.length` is `std::string::size`.
* A thrown exception is the `Except.error` result, carrying the text of the
  exception where the source builds it from constants.
* A `std::vector` used as a stack is a list whose head is the vector's back.
-/

namespace DBus

/-- A `std::string`: one `Char` per byte. -/
abbrev Str := List Char

/-- The `what()` of a thrown exception. -/
abbrev Thrown := String

/-! ## Type codes (`dbus_type.cpp`) -/

/-- `Type::isBasicTypeCode`: the twelve codes the source lists. The source
names each code as the constant `code` of its class; for the classes whose
header is not among the sources (`Boolean`, `Double`, `Int16`, `Int64`,
`String`, `Uint16`, `Uint32`, `Uint64`, `Variant`) the character is the one
the spec lists for the type (`b d n x s q u t v`). -/
def isBasicTypeCode (code : Char) : Bool :=
  code == 'y' || code == 'b' ||
  code == 'n' || code == 'q' ||
  code == 'i' || code == 'u' ||
  code == 'x' || code == 't' ||
  code == 'd' || code == 's' ||
  code == 'o' || code == 'g'

/-! ## Signature validation (`Signature::Signature`) -/

/-- The local `enum Container` of the signature constructor. -/
inductive Container
  | Array
  | Struct
  | DictEntry
  deriving DecidableEq, Repr

/-- The local `struct ContainerStack`; the head of `m_stack` is `m_stack.back()`. -/
structure ContainerStack where
  m_arrayLevel : Nat
  m_structLevel : Nat
  m_stack : List Container
  deriving DecidableEq, Repr

namespace ContainerStack

/-- A default-constructed stack. -/
def empty : ContainerStack :=
  { m_arrayLevel := 0, m_structLevel := 0, m_stack := [] }

def size (s : ContainerStack) : Nat := s.m_stack.length

def level (s : ContainerStack) : Nat := s.m_arrayLevel + s.m_structLevel

def MaxStructDepth : Nat := 32

def MaxArrayDepth : Nat := 32

def MaxDepth : Nat := MaxStructDepth + MaxArrayDepth

/-- `topmostIs`: the stack is non-empty and its back is `type`. -/
def topmostIs (s : ContainerStack) (type : Container) : Bool :=
  match s.m_stack with
  | [] => false
  | top :: _ => top == type

/-- `push`: the container is pushed in every case; the result tells whether
the level of its kind is still within its bound. -/
def push (s : ContainerStack) (type : Container) : Bool × ContainerStack :=
  match type with
  | Container.Struct =>
    (decide (s.m_structLevel + 1 ≤ MaxStructDepth),
      { s with m_structLevel := s.m_structLevel + 1, m_stack := type :: s.m_stack })
  | Container.Array =>
    (decide (s.m_arrayLevel + 1 ≤ MaxArrayDepth),
      { s with m_arrayLevel := s.m_arrayLevel + 1, m_stack := type :: s.m_stack })
  | Container.DictEntry =>
    (true, { s with m_stack := type :: s.m_stack })

/-- The loop `while (topmostIs(Array)) pop();` at the end of `pop`: every
array on top of the stack is removed and counted down. -/
def popArrays : List Container → Nat → List Container × Nat
  | Container.Array :: rest, arrayLevel => popArrays rest (arrayLevel - 1)
  | Container.Struct :: rest, arrayLevel => (Container.Struct :: rest, arrayLevel)
  | Container.DictEntry :: rest, arrayLevel => (Container.DictEntry :: rest, arrayLevel)
  | [], arrayLevel => ([], arrayLevel)

/-- `pop`: nothing on an empty stack; otherwise the level of the topmost
container is counted down, the container is removed, and with it every array
that is then on top. -/
def pop (s : ContainerStack) : ContainerStack :=
  match s.m_stack with
  | [] => s
  | Container.Struct :: rest =>
    let r := popArrays rest s.m_arrayLevel
    { m_arrayLevel := r.2, m_structLevel := s.m_structLevel - 1, m_stack := r.1 }
  | Container.Array :: rest =>
    let r := popArrays rest (s.m_arrayLevel - 1)
    { m_arrayLevel := r.2, m_structLevel := s.m_structLevel, m_stack := r.1 }
  | Container.DictEntry :: rest =>
    let r := popArrays rest s.m_arrayLevel
    { m_arrayLevel := r.2, m_structLevel := s.m_structLevel, m_stack := r.1 }

end ContainerStack

/-- The locals of the signature constructor that live across loop iterations. -/
structure SigState where
  stack : ContainerStack
  haveStructElement : Bool
  haveDictEntryKey : Bool
  haveDictEntryVal : Bool
  deriving DecidableEq, Repr

namespace Signature

open ContainerStack in
/-- The `if (code == Array::code) ... else logAndThrow("unknown type code")`
chain of the loop body. -/
def dispatch (level : Nat) (st : SigState) (code : Char) : Except String SigState :=
  if code == 'a' then
    let r := st.stack.push Container.Array
    if r.1 == false then
      Except.error "Arrays nested more than 32 times"
    else if level + r.2.level > MaxDepth then
      Except.error "total message depth larger then 64"
    else
      Except.ok { st with stack := r.2 }
  else if code == '(' then
    let r := st.stack.push Container.Struct
    if r.1 == false then
      Except.error "Structs nested more than 32 times"
    else if level + r.2.level > MaxDepth then
      Except.error "total message depth larger then 64"
    else
      Except.ok { st with stack := r.2, haveStructElement := false }
  else if code == ')' then
    if !st.stack.topmostIs Container.Struct || !st.haveStructElement then
      Except.error "Struct end unexpected"
    else
      Except.ok { st with stack := st.stack.pop }
  else if code == '{' then
    if !st.stack.topmostIs Container.Array then
      Except.error "DictEntry outside of an ARRAY"
    else
      Except.ok { st with stack := (st.stack.push Container.DictEntry).2,
                          haveDictEntryKey := false, haveDictEntryVal := false }
  else if code == '}' then
    if !st.stack.topmostIs Container.DictEntry || !st.haveDictEntryVal then
      Except.error "DictEntry end unexpected"
    else
      Except.ok { st with stack := st.stack.pop }
  else if isBasicTypeCode code || code == 'v' then
    if st.stack.topmostIs Container.Array then
      Except.ok { st with stack := st.stack.pop }
    else
      Except.ok st
  else
    Except.error "unknown type code"

/-- One iteration of `for (const int code : m_Value)`: the dict-entry and
struct bookkeeping, then `dispatch` (skipped by the `continue` after a key). -/
def step (level : Nat) (st : SigState) (code : Char) : Except String SigState :=
  if st.stack.topmostIs Container.DictEntry then
    if !st.haveDictEntryKey then
      if !isBasicTypeCode code then
        Except.error "DictEntry key is not a basic type"
      else
        Except.ok { st with haveDictEntryKey := true }
    else if code != '}' then
      if st.haveDictEntryVal then
        Except.error "DictEntry has multiple values"
      else
        dispatch level { st with haveDictEntryVal := true } code
    else
      dispatch level st code
  else if st.stack.topmostIs Container.Struct && code != ')' then
    dispatch level { st with haveStructElement := true } code
  else
    dispatch level st code

/-- The whole `for` loop, from the state `st`. -/
def loop (level : Nat) : SigState → List Char → Except String SigState
  | st, [] => Except.ok st
  | st, code :: rest =>
    match step level st code with
    | Except.error e => Except.error e
    | Except.ok st1 => loop level st1 rest

/-- The state before the first iteration. The three flags are not
initialised by the source; each is written before it is first read (a flag
is read only while a container of its kind is on top of the stack, and the
push of that container writes it), so the value chosen here is not observed. -/
def initial : SigState :=
  { stack := ContainerStack.empty, haveStructElement := false,
    haveDictEntryKey := false, haveDictEntryVal := false }

def MaxLength : Nat := 255

/-- The checks of `Signature::Signature(v, level)`: `Except.ok ()` when the
constructor returns, the text of `logAndThrow` when it throws. -/
def validate (v : Str) (level : Nat) : Except String Unit :=
  if v.length > MaxLength then
    Except.error "length exceeds 255"
  else
    match loop level initial v with
    | Except.error e => Except.error e
    | Except.ok st =>
      if st.stack.size != 0 then
        if st.stack.topmostIs Container.DictEntry then
          Except.error "DictEntry incomplete"
        else if st.stack.topmostIs Container.Array then
          Except.error "Array incomplete"
        else if st.stack.topmostIs Container.Struct then
          Except.error "Struct incomplete"
        else
          Except.ok ()
      else
        Except.ok ()

end Signature

/-- The class `Type::Signature`: the text and the cursor of `getNextTypeCode`. -/
structure Signature where
  m_typeCodeIndex : Nat
  m_Value : Str
  deriving DecidableEq, Repr

namespace Signature

/-- `Signature()`: the default constructor, an empty text. -/
def default : Signature := { m_typeCodeIndex := 0, m_Value := [] }

/-- `Signature(v, level)`: the validated constructor. -/
def ctor (v : Str) (level : Nat) : Except String Signature :=
  match validate v level with
  | Except.error e => Except.error e
  | Except.ok _ => Except.ok { m_typeCodeIndex := 0, m_Value := v }

/-- The bracket search of `getNextTypeCode`, run on the characters after the
opening bracket with `open_brackets` brackets open: the number of characters
up to and including the one that closes the last open bracket, or `none`
when the loop reaches the end of the text. -/
def findClose (openCode closeCode : Char) : List Char → Nat → Option Nat
  | [], _ => none
  | c :: rest, open_brackets =>
    if c == openCode then
      (findClose openCode closeCode rest (open_brackets + 1)).map (· + 1)
    else if c == closeCode then
      if open_brackets - 1 == 0 then some 1
      else (findClose openCode closeCode rest (open_brackets - 1)).map (· + 1)
    else
      (findClose openCode closeCode rest open_brackets).map (· + 1)

/-- The body of `getNextTypeCode` on the text from the cursor on
(`m_Value.substr(m_typeCodeIndex)`), the cursor being `idx`: the type code
returned and the new cursor. A bracket that is never closed runs the cursor
to the end of the text, where `m_Value[size()]` is the NUL character. -/
def getNextFrom : List Char → Nat → Str × Nat
  | [], _ => ([], 0)
  | c :: rest, idx =>
    if c == '(' then
      match findClose '(' ')' rest 1 with
      | some n => (c :: rest.take n, idx + 1 + n)
      | none => ([Char.ofNat 0], idx + 1 + rest.length + 1)
    else if c == '{' then
      match findClose '{' '}' rest 1 with
      | some n => (c :: rest.take n, idx + 1 + n)
      | none => ([Char.ofNat 0], idx + 1 + rest.length + 1)
    else if c == 'a' then
      let r := getNextFrom rest (idx + 1)
      (c :: r.1, r.2)
    else
      ([c], idx + 1)

/-- `Signature::getNextTypeCode`: the next type code and the signature with
its cursor moved. -/
def getNextTypeCode (s : Signature) : Str × Signature :=
  let r := getNextFrom (s.m_Value.drop s.m_typeCodeIndex) s.m_typeCodeIndex
  (r.1, { s with m_typeCodeIndex := r.2 })

/-- The caller's loop `code = getNextTypeCode(); while (!code.empty()) ...`
(as in `Struct::unmarshall`), run for at most `fuel` calls: the type codes
returned before the first empty one, or `none` when `fuel` calls did not
reach an empty one. -/
def enumerate : Nat → Signature → Option (List Str)
  | 0, _ => none
  | fuel + 1, s =>
    let r := getNextTypeCode s
    if r.1.isEmpty then some []
    else (enumerate fuel r.2).map (r.1 :: ·)

end Signature

/-! ## Names and object paths (`dbus_names.cpp`) -/

/-- The `enum Type` of `class Name`. -/
inductive NameType
  | BusName
  | UniqueName
  | WellKnownName
  | ErrorName
  | InterfaceName
  | NamespaceName
  | MemberName
  deriving DecidableEq, Repr

namespace Name

def MaximumSize : Nat := 255

/-- The table `nameStr`. -/
def nameStr : NameType → String
  | NameType.BusName => "bus name"
  | NameType.UniqueName => "unique connection name"
  | NameType.WellKnownName => "well-known name"
  | NameType.ErrorName => "error name"
  | NameType.InterfaceName => "interface name"
  | NameType.NamespaceName => "namespace name"
  | NameType.MemberName => "member name"

/-- The test `ch >= '0' && ch <= '9'`. -/
def isDigit (ch : Char) : Bool := decide ('0' ≤ ch) && decide (ch ≤ '9')

/-- The test `ch >= 'A' && ch <= 'Z'`. -/
def isUpper (ch : Char) : Bool := decide ('A' ≤ ch) && decide (ch ≤ 'Z')

/-- The test `ch >= 'a' && ch <= 'z'`. -/
def isLower (ch : Char) : Bool := decide ('a' ≤ ch) && decide (ch ≤ 'z')

/-- The `for` loop of `Name::validate` on the characters not yet visited,
with the locals `prev` and `havePeriod`; it returns the final `havePeriod`. -/
def validateLoop (name : Str) (isUnique allowHyphen allowPeriod : Bool) :
    List Char → Char → Bool → Except String Bool
  | [], _, havePeriod => Except.ok havePeriod
  | ch :: rest, prev, havePeriod =>
    if allowPeriod && ch == '.' && prev == '.' then
      Except.error (String.mk name ++ " has empty element")
    else
      let havePeriod1 := havePeriod || (allowPeriod && ch == '.')
      if !isUnique && prev == '.' && isDigit ch then
        Except.error (String.mk name ++ (if allowPeriod then " element" else "")
          ++ " starts with digit")
      else if (allowHyphen && ch == '-') || (allowPeriod && ch == '.') ||
          ch == '_' || isUpper ch || isLower ch || isDigit ch then
        validateLoop name isUnique allowHyphen allowPeriod rest ch havePeriod1
      else
        Except.error (String.mk name ++ " has invalid character")

/-- `Name::validate(name, type)`: `Except.ok ()` when it returns, the text of
the `InvalidName` when it throws. -/
def validate (name : Str) (type : NameType) : Except String Unit :=
  if name.isEmpty then
    Except.error "name is empty"
  else if name.length > MaximumSize then
    Except.error (String.mk (name.take 16) ++ "... exceeds " ++ toString MaximumSize
      ++ " characters")
  else
    let startsWithColon := name.head? == some ':'
    if startsWithColon && type != NameType.BusName && type != NameType.UniqueName then
      Except.error (String.mk name ++ " is not a " ++ nameStr type)
    else if !startsWithColon && type == NameType.UniqueName then
      Except.error (String.mk name ++ " is not a " ++ nameStr type)
    else
      let isUnique := startsWithColon
      let allowHyphen := type == NameType.BusName || type == NameType.UniqueName ||
        type == NameType.WellKnownName
      let needPeriod := type != NameType.MemberName && type != NameType.NamespaceName
      let allowPeriod := type != NameType.MemberName
      match validateLoop name isUnique allowHyphen allowPeriod
          (name.drop (if isUnique then 1 else 0)) '.' false with
      | Except.error e => Except.error e
      | Except.ok havePeriod =>
        if needPeriod && !havePeriod then
          Except.error (String.mk name ++ " doesn't have two elements")
        else
          Except.ok ()

end Name

/-- `BusName::BusName(name)`: the validated name, or the error thrown. -/
def BusName (name : Str) : Except String Str :=
  (Name.validate name NameType.BusName).map (fun _ => name)

/-- `UniqueName::UniqueName(name)`. -/
def UniqueName (name : Str) : Except String Str :=
  (Name.validate name NameType.UniqueName).map (fun _ => name)

/-- `WellKnownName::WellKnownName(name)`. -/
def WellKnownName (name : Str) : Except String Str :=
  (Name.validate name NameType.WellKnownName).map (fun _ => name)

/-- `InterfaceName::InterfaceName(name)`. -/
def InterfaceName (name : Str) : Except String Str :=
  (Name.validate name NameType.InterfaceName).map (fun _ => name)

/-- `ErrorName::ErrorName(name)`. -/
def ErrorName (name : Str) : Except String Str :=
  (Name.validate name NameType.ErrorName).map (fun _ => name)

/-- `NamespaceName::NamespaceName(name)`. -/
def NamespaceName (name : Str) : Except String Str :=
  (Name.validate name NameType.NamespaceName).map (fun _ => name)

/-- `MemberName::MemberName(name)`. -/
def MemberName (name : Str) : Except String Str :=
  (Name.validate name NameType.MemberName).map (fun _ => name)

namespace ObjectPath

/-- The character test of the object-path loop. -/
def isPathChar (ch : Char) : Bool :=
  ch == '/' || ch == '_' || Name.isUpper ch || Name.isLower ch || Name.isDigit ch

/-- The `for (const auto& ch : path)` loop of the constructor on the
characters not yet visited, with the local `prev`. -/
def checkLoop (path : Str) : List Char → Char → Except String Unit
  | [], _ => Except.ok ()
  | ch :: rest, prev =>
    if ch == '/' && prev == '/' then
      Except.error (String.mk path ++ " has // sequence")
    else if isPathChar ch then
      checkLoop path rest ch
    else
      Except.error (String.mk path ++ " has invalid character")

/-- `ObjectPath::ObjectPath(path)`: the stored path, or the text of the
`InvalidObjectPath` thrown. -/
def ctor (path : Str) : Except String Str :=
  if path.isEmpty then
    Except.error "path is empty"
  else if path.head? != some '/' then
    Except.error (String.mk path ++ " doesn't start with slash")
  else if path.length > 1 then
    if path.getLast? == some '/' then
      Except.error (String.mk path ++ " ends with slash")
    else
      match checkLoop path path ' ' with
      | Except.error e => Except.error e
      | Except.ok _ => Except.ok path
  else
    Except.ok path

end ObjectPath

/-! ## Handler tables of the multiplexer (`dbus_messageprotocol.h`) -/

/-- A `std::map<K, V>` as an association list; `find` returns the first
entry of a key and `erase` removes the entries of a key, so the list is read
as the map that binds every key to its first entry. -/
abbrev Map (K V : Type) := List (K × V)

namespace Map

variable {K V : Type} [DecidableEq K]

/-- `find(key)`: the mapped value, `none` for `end()`. -/
def find (m : Map K V) (key : K) : Option V :=
  match m with
  | [] => none
  | (k, v) :: rest => if k = key then some v else find rest key

/-- `erase(it)` for the iterator that `find(key)` returned. -/
def erase (m : Map K V) (key : K) : Map K V :=
  m.filter (fun e => !decide (e.1 = key))

end Map

/-- What the multiplexer does to the outside: each handler invocation, with
the arguments that tell the call sites apart. `H` is the type of the stored
completion handlers, `Msg` the type of a decoded message, `Err` the type of
an error object. -/
inductive Invocation (H Msg Err : Type)
  /-- A reply handler `invoke(error, methodReturn)`; `none` is the empty error `{}`. -/
  | methodReturn (handler : H) (error : Option Err) (message : Option Msg)
  | methodCall (handler : H) (message : Option Msg)
  | signal (handler : H) (message : Option Msg)
  | error (handler : H) (error : Option Err)
  deriving DecidableEq, Repr

/-- The handler tables of `class MessageProtocol`, and the trace of the
handler invocations made so far (oldest first). -/
structure MessageProtocol (H Msg Err : Type) where
  m_methodReturnHandlers : Map Nat H
  m_methodCallHandlers : Map Str H
  m_signalHandlers : Map Str H
  m_errorHandler : Option H
  invoked : List (Invocation H Msg Err)

namespace MessageProtocol

variable {H Msg Err : Type}

/-- `std::string::rfind(ch)` on the characters of `s`: the index of the last
occurrence, `none` for `npos`. -/
def rfind (s : Str) (ch : Char) : Option Nat :=
  match s with
  | [] => none
  | c :: rest =>
    match rfind rest ch with
    | some i => some (i + 1)
    | none => if c == ch then some 0 else none

/-- `std::string any_method(interface, 0, interface.rfind('.'))`: the
characters before the last period, the whole string when there is none. -/
def anyMethod (interface : Str) : Str :=
  match rfind interface '.' with
  | some i => interface.take i
  | none => interface

/-- `invokeMethodReturnHandler(replySerial, methodReturn)`. -/
def invokeMethodReturnHandler (p : MessageProtocol H Msg Err) (replySerial : Nat)
    (methodReturn : Msg) : MessageProtocol H Msg Err :=
  match p.m_methodReturnHandlers.find replySerial with
  | some h =>
    { p with invoked := p.invoked ++ [Invocation.methodReturn h none (some methodReturn)],
             m_methodReturnHandlers := p.m_methodReturnHandlers.erase replySerial }
  | none => p

/-- `invokeMethodCallHandler(interface, methodCall)`; the parameter named
`interface` receives `header.getFullName()`. -/
def invokeMethodCallHandler (p : MessageProtocol H Msg Err) (interface : Str)
    (methodCall : Msg) : MessageProtocol H Msg Err :=
  match p.m_methodCallHandlers.find interface with
  | some h =>
    { p with invoked := p.invoked ++ [Invocation.methodCall h (some methodCall)],
             m_methodCallHandlers := p.m_methodCallHandlers.erase interface }
  | none =>
    match p.m_methodCallHandlers.find (anyMethod interface) with
    | some h =>
      { p with invoked := p.invoked ++ [Invocation.methodCall h (some methodCall)],
               m_methodCallHandlers := p.m_methodCallHandlers.erase (anyMethod interface) }
    | none =>
      match p.m_methodCallHandlers.find [] with
      | some h =>
        { p with invoked := p.invoked ++ [Invocation.methodCall h (some methodCall)],
                 m_methodCallHandlers := p.m_methodCallHandlers.erase [] }
      | none => p

/-- `invokeSignalHandler(name, signal)`. -/
def invokeSignalHandler (p : MessageProtocol H Msg Err) (name : Str)
    (signal : Msg) : MessageProtocol H Msg Err :=
  match p.m_signalHandlers.find name with
  | some h =>
    { p with invoked := p.invoked ++ [Invocation.signal h (some signal)],
             m_signalHandlers := p.m_signalHandlers.erase name }
  | none =>
    match p.m_signalHandlers.find [] with
    | some h =>
      { p with invoked := p.invoked ++ [Invocation.signal h (some signal)],
               m_signalHandlers := p.m_signalHandlers.erase [] }
    | none => p

/-- `invokeErrorHandler(replySerial, error)`. -/
def invokeErrorHandler (p : MessageProtocol H Msg Err) (replySerial : Nat)
    (error : Err) : MessageProtocol H Msg Err :=
  match (if replySerial != 0 then p.m_methodReturnHandlers.find replySerial else none) with
  | some h =>
    { p with invoked := p.invoked ++ [Invocation.methodReturn h (some error) none],
             m_methodReturnHandlers := p.m_methodReturnHandlers.erase replySerial }
  | none =>
    match p.m_errorHandler with
    | some h =>
      { p with invoked := p.invoked ++ [Invocation.error h (some error)],
               m_errorHandler := none }
    | none => p

/-- `Header::getFullName`: `interface + '.' + member`. -/
def getFullName (interface member : Str) : Str := interface ++ '.' :: member

end MessageProtocol

/-- `Message::Type`. -/
inductive MessageType
  | Invalid
  | MethodCall
  | MethodReturn
  | Error
  | Signal
  deriving DecidableEq, Repr

/-- The fields of a decoded `Message::Header` that `dispatchMessage` reads. -/
structure DispatchHeader where
  type : MessageType
  interface : Str
  member : Str
  replySerial : Nat

namespace MessageProtocol

variable {H Msg Err : Type}

/-- The `switch (header.type)` of `dispatchMessage`, for a message whose
header and body have been decoded: `message` is the decoded message and
`asError` the error object a `Message::Error` converts to. The decoding that
the function does before it reaches a handler table, and that can throw, is
part of `dispatchOctetBuffer`, the whole function. The statistics counters
are not part of the model. -/
def dispatchMessage (p : MessageProtocol H Msg Err) (header : DispatchHeader)
    (message : Msg) (asError : Err) : MessageProtocol H Msg Err :=
  match header.type with
  | MessageType.MethodCall =>
    p.invokeMethodCallHandler (getFullName header.interface header.member) message
  | MessageType.MethodReturn =>
    p.invokeMethodReturnHandler header.replySerial message
  | MessageType.Signal =>
    p.invokeSignalHandler (getFullName header.interface header.member) message
  | MessageType.Error =>
    p.invokeErrorHandler header.replySerial asError
  | MessageType.Invalid => p

end MessageProtocol

/-! ## The output stream (`dbus_messageostream.h`) -/

namespace Utils

/-- Modelled from the spec: `Utils::getPadding(padding, offset)`, declared in
`dbus_utils.h`, which is not among the sources. The spec says that alignment
is enforced "by padding the current output offset up to the type's
alignment": the number of bytes from `offset` to the next multiple of
`padding`. -/
def getPadding (padding offset : Nat) : Nat :=
  (padding - offset % padding) % padding

end Utils

/-- The `n` bytes of `value` in host order. The host is taken to be
little-endian (`Header::marshall` then writes the marker `l`). -/
def leBytes : Nat → Nat → List Nat
  | 0, _ => []
  | n + 1, value => value % 256 :: leBytes n (value / 256)

/-- The bytes of a `std::string`. -/
def strBytes (str : Str) : List Nat := str.map (fun c => c.toNat % 256)

/-- `class MessageOStream`: `data` holds one number below 256 per byte. -/
structure MessageOStream where
  data : List Nat
  fds : List Int
  deriving DecidableEq, Repr

namespace MessageOStream

/-- A default-constructed stream. -/
def empty : MessageOStream := { data := [], fds := [] }

def size (s : MessageOStream) : Nat := s.data.length

def pad (s : MessageOStream) (padding : Nat) : MessageOStream :=
  { s with data := s.data ++ List.replicate (Utils.getPadding padding s.data.length) 0 }

def pad2 (s : MessageOStream) : MessageOStream := s.pad 2

def pad4 (s : MessageOStream) : MessageOStream := s.pad 4

def pad8 (s : MessageOStream) : MessageOStream := s.pad 8

def writeByte (s : MessageOStream) (byte : Nat) : MessageOStream :=
  { s with data := s.data ++ [byte % 256] }

/-- `writeInt16`, the argument being read modulo `2 ^ 16` (two's complement). -/
def writeInt16 (s : MessageOStream) (value : Int) : MessageOStream :=
  let s1 := s.pad2
  { s1 with data := s1.data ++ leBytes 2 (value % 2 ^ 16).toNat }

def writeUint16 (s : MessageOStream) (value : Nat) : MessageOStream :=
  let s1 := s.pad2
  { s1 with data := s1.data ++ leBytes 2 (value % 2 ^ 16) }

def writeInt32 (s : MessageOStream) (value : Int) : MessageOStream :=
  let s1 := s.pad4
  { s1 with data := s1.data ++ leBytes 4 (value % 2 ^ 32).toNat }

def writeUint32 (s : MessageOStream) (value : Nat) : MessageOStream :=
  let s1 := s.pad4
  { s1 with data := s1.data ++ leBytes 4 (value % 2 ^ 32) }

def writeInt64 (s : MessageOStream) (value : Int) : MessageOStream :=
  let s1 := s.pad8
  { s1 with data := s1.data ++ leBytes 8 (value % 2 ^ 64).toNat }

def writeUint64 (s : MessageOStream) (value : Nat) : MessageOStream :=
  let s1 := s.pad8
  { s1 with data := s1.data ++ leBytes 8 (value % 2 ^ 64) }

/-- `writeDouble`; a `double` is its 64-bit pattern. -/
def writeDouble (s : MessageOStream) (bits : Nat) : MessageOStream :=
  let s1 := s.pad8
  { s1 with data := s1.data ++ leBytes 8 (bits % 2 ^ 64) }

def writeBoolean (s : MessageOStream) (value : Bool) : MessageOStream :=
  s.writeUint32 (if value then 1 else 0)

def writeString (s : MessageOStream) (str : Str) : MessageOStream :=
  let s1 := s.pad4
  let s2 := s1.writeUint32 str.length
  let s3 := { s2 with data := s2.data ++ strBytes str }
  s3.writeByte 0

def writeSignature (s : MessageOStream) (str : Str) : MessageOStream :=
  let s1 := s.writeByte str.length
  let s2 := { s1 with data := s1.data ++ strBytes str }
  s2.writeByte 0

def writeUnixFd (s : MessageOStream) (fd : Int) : Except String MessageOStream :=
  if s.fds.length > 253 then
    Except.error "more than 253 UnixFds"
  else
    let s1 := { s with fds := s.fds ++ [fd] }
    Except.ok (s1.writeUint32 (s1.fds.length - 1))

/-- `data.replace(pos, len, bytes)`. -/
def replace (s : MessageOStream) (pos len : Nat) (bytes : List Nat) : MessageOStream :=
  { s with data := s.data.take pos ++ bytes ++ s.data.drop (pos + len) }

end MessageOStream

/-! ## The scalar classes whose source file is missing -/

/-- Modelled from the spec: `Byte::marshall` (`dbus_type_byte.cpp` is not
among the sources). The spec gives `byte(u8)` the alignment 1; the class
calls the stream operation of its type, as the scalar classes among the
sources do. -/
def Byte.marshall (m_Value : Nat) (stream : MessageOStream) : MessageOStream :=
  stream.writeByte m_Value

/-- Modelled from the spec: `Int16::marshall` (`dbus_type_int16.cpp` is not
among the sources); alignment 2. -/
def Int16.marshall (m_Value : Int) (stream : MessageOStream) : MessageOStream :=
  stream.writeInt16 m_Value

/-- Modelled from the spec: `Int32::marshall` (`dbus_type_int32.cpp` is not
among the sources); alignment 4. -/
def Int32.marshall (m_Value : Int) (stream : MessageOStream) : MessageOStream :=
  stream.writeInt32 m_Value

/-- Modelled from the spec: `Uint64::marshall` (`dbus_type_uint64.cpp` is not
among the sources); alignment 8. -/
def Uint64.marshall (m_Value : Nat) (stream : MessageOStream) : MessageOStream :=
  stream.writeUint64 m_Value

/-- Modelled from the spec: `Double::marshall` (`dbus_type_double.cpp` is not
among the sources); alignment 8, the value being its 64-bit pattern. -/
def Double.marshall (bits : Nat) (stream : MessageOStream) : MessageOStream :=
  stream.writeDouble bits

/-- Modelled from the spec: `String::marshall` (`dbus_type_string.cpp` is not
among the sources): "Strings are `uint32 length + bytes + NUL`", which is
what `writeString` writes. -/
def String.marshall (m_Value : Str) (stream : MessageOStream) : MessageOStream :=
  stream.writeString m_Value

/-! ## Codec values (`dbus_type_any.cpp` and the `dbus_type_*` classes) -/

/-- `Type::Any`, one constructor per `enum class Value`, each with the
members of the class it holds. Integers are unbounded here; the stream
operations reduce them to their width. A `double` is its bit pattern, a
file descriptor the number of the open file it refers to (so that `dup`
returns its argument). -/
inductive Any
  | None
  | Byte (m_Value : Nat)
  | Boolean (m_Value : Bool)
  | Double (bits : Nat)
  | Int16 (m_Value : Int)
  | Int32 (m_Value : Int)
  | Int64 (m_Value : Int)
  | Uint16 (m_Value : Nat)
  | Uint32 (m_Value : Nat)
  | Uint64 (m_Value : Nat)
  | UnixFd (m_fd : Int)
  | String (m_Value : Str)
  | ObjectPath (m_Value : Str)
  | Signature (value : DBus.Signature)
  | Array (m_signature : Str) (m_contents : List Any)
  | Struct (m_Signature : DBus.Signature) (m_elements : List Any)
  | Variant (m_Value : Any)
  | DictEntry (m_signature : DBus.Signature) (key : Any) (value : Any)

/-- `Type::getAlignment(typeCode)`: the `switch` on `typeCode[0]`, which is
the NUL character for an empty string. The cases return the `alignment`
constant of their class; for the classes whose header is not among the
sources (`Boolean`, `Int16`, `Int64`, `Uint16`, `Uint32`, `Uint64`, `Double`,
`String`, `Variant`) the constant is the alignment the data model of the
specification gives the type. -/
def getAlignment (typeCode : Str) : Except String Nat :=
  match typeCode.headD (Char.ofNat 0) with
  | 'y' => Except.ok 1
  | 'b' => Except.ok 4
  | 'n' => Except.ok 2
  | 'i' => Except.ok 4
  | 'x' => Except.ok 8
  | 'q' => Except.ok 2
  | 'u' => Except.ok 4
  | 't' => Except.ok 8
  | 'd' => Except.ok 8
  | 's' => Except.ok 4
  | 'o' => Except.ok 4
  | 'g' => Except.ok 1
  | 'a' => Except.ok 4
  | 'v' => Except.ok 1
  | '(' => Except.ok 8
  | '{' => Except.ok 8
  | _ => Except.error ("Type::getAlignment() called with invalid type code "
      ++ String.mk typeCode)

namespace Any

/-- `Any::getSignature`, through `value()` and the `getSignature` of the
class held. -/
def getSignature : Any → Except Thrown Str
  | Any.None => Except.error "value: Any object has no type"
  | Any.Byte _ => Except.ok ['y']
  | Any.Boolean _ => Except.ok ['b']
  | Any.Double _ => Except.ok ['d']
  | Any.Int16 _ => Except.ok ['n']
  | Any.Int32 _ => Except.ok ['i']
  | Any.Int64 _ => Except.ok ['x']
  | Any.Uint16 _ => Except.ok ['q']
  | Any.Uint32 _ => Except.ok ['u']
  | Any.Uint64 _ => Except.ok ['t']
  | Any.UnixFd _ => Except.ok ['h']
  | Any.String _ => Except.ok ['s']
  | Any.ObjectPath _ => Except.ok ['o']
  | Any.Signature _ => Except.ok ['g']
  | Any.Array m_signature _ => Except.ok ('a' :: m_signature)
  | Any.Struct m_Signature _ =>
    if m_Signature.m_Value.isEmpty then
      Except.error "Struct::getSignature() called when undefined"
    else
      Except.ok ('(' :: m_Signature.m_Value ++ [')'])
  | Any.Variant _ => Except.ok ['v']
  | Any.DictEntry _ key value =>
    match key.getSignature with
    | Except.error e => Except.error e
    | Except.ok k =>
      match value.getSignature with
      | Except.error e => Except.error e
      | Except.ok v => Except.ok ('{' :: k ++ v ++ ['}'])

/-- `Array::MaximumSize`. -/
def Array.MaximumSize : Nat := 67108864

mutual

/-- `Any::marshall`, through `value()` and the `marshall` of the class held.
`UnixFd::marshall` writes `dup()` of its descriptor, which refers to the same
open file. -/
def marshall : Any → MessageOStream → Except Thrown MessageOStream
  | Any.None, _ => Except.error "value: Any object has no type"
  | Any.Byte v, stream => Except.ok (Byte.marshall v stream)
  | Any.Boolean v, stream => Except.ok (stream.writeBoolean v)
  | Any.Double v, stream => Except.ok (Double.marshall v stream)
  | Any.Int16 v, stream => Except.ok (Int16.marshall v stream)
  | Any.Int32 v, stream => Except.ok (Int32.marshall v stream)
  | Any.Int64 v, stream => Except.ok (stream.writeInt64 v)
  | Any.Uint16 v, stream => Except.ok (stream.writeUint16 v)
  | Any.Uint32 v, stream => Except.ok (stream.writeUint32 v)
  | Any.Uint64 v, stream => Except.ok (Uint64.marshall v stream)
  | Any.UnixFd fd, stream => stream.writeUnixFd fd
  | Any.String v, stream => Except.ok (String.marshall v stream)
  | Any.ObjectPath v, stream =>
    if v.isEmpty then Except.error "Cannot marshall empty ObjectPath"
    else Except.ok (String.marshall v stream)
  | Any.Signature v, stream => Except.ok (stream.writeSignature v.m_Value)
  | Any.Array m_signature m_contents, stream =>
    -- Array::marshall
    let sizePos := stream.size
    let stream1 := stream.writeUint32 0
    match getAlignment m_signature with
    | Except.error e => Except.error e
    | Except.ok alignment =>
      let stream2 := stream1.pad alignment
      let contentsStartPos := stream2.size
      match marshallAll m_contents stream2 with
      | Except.error e => Except.error e
      | Except.ok stream3 =>
        let contentsSize := (stream3.size - contentsStartPos) % 2 ^ 32
        if contentsSize > Array.MaximumSize then
          Except.error "Array: size exceeds 64 MiB"
        else
          Except.ok (stream3.replace sizePos 4 (leBytes 4 contentsSize))
  | Any.Struct _ m_elements, stream =>
    -- Struct::marshall
    marshallAll m_elements stream.pad8
  | Any.Variant m_Value, stream =>
    -- Variant::marshall
    match m_Value.getSignature with
    | Except.error e => Except.error e
    | Except.ok signature => marshall m_Value (stream.writeSignature signature)
  | Any.DictEntry _ key value, stream =>
    -- DictEntry::marshall
    match marshall key stream.pad8 with
    | Except.error e => Except.error e
    | Except.ok stream1 => marshall value stream1

/-- The loops `for (auto& elem : m_contents) elem.marshall(stream);`. -/
def marshallAll : List Any → MessageOStream → Except Thrown MessageOStream
  | [], stream => Except.ok stream
  | elem :: rest, stream =>
    match marshall elem stream with
    | Except.error e => Except.error e
    | Except.ok stream1 => marshallAll rest stream1

end

/-- `Any::isBasicType`. -/
def isBasicType (v : Any) : Except Thrown Bool :=
  match v.getSignature with
  | Except.error e => Except.error e
  | Except.ok signature => Except.ok (isBasicTypeCode (signature.headD (Char.ofNat 0)))

end Any

/-- `Type::create(typeCode)`: the `switch` on `typeCode[0]`. `Struct` and
`DictEntry` convert the text between the brackets to a `Signature`, which
validates it. -/
def create (typeCode : Str) : Except String Any :=
  match typeCode.headD (Char.ofNat 0) with
  | 'y' => Except.ok (Any.Byte 0)
  | 'b' => Except.ok (Any.Boolean false)
  | 'n' => Except.ok (Any.Int16 0)
  | 'i' => Except.ok (Any.Int32 0)
  | 'x' => Except.ok (Any.Int64 0)
  | 'q' => Except.ok (Any.Uint16 0)
  | 'u' => Except.ok (Any.Uint32 0)
  | 't' => Except.ok (Any.Uint64 0)
  | 'd' => Except.ok (Any.Double 0)
  | 's' => Except.ok (Any.String [])
  | 'o' => Except.ok (Any.ObjectPath [])
  | 'g' => Except.ok (Any.Signature Signature.default)
  | 'a' => Except.ok (Any.Array (typeCode.drop 1) [])
  | 'v' => Except.ok (Any.Variant Any.None)
  | '(' =>
    match Signature.ctor ((typeCode.drop 1).take (typeCode.length - 2)) 0 with
    | Except.error e => Except.error e
    | Except.ok signature => Except.ok (Any.Struct signature [])
  | '{' =>
    match Signature.ctor ((typeCode.drop 1).take (typeCode.length - 2)) 0 with
    | Except.error e => Except.error e
    | Except.ok signature => Except.ok (Any.DictEntry signature Any.None Any.None)
  | _ => Except.error ("Type::create() called with invalid type code "
      ++ String.mk typeCode)

/-! ## The input stream and unmarshalling -/

/-- Modelled from the spec: `class MessageIStream`, declared in
`dbus_messageistream.h`, which is not among the sources. The spec: "the
input stream holds a byte slice, a read cursor, an endian-swap flag, and (for
recv) the same fd vector". The cursor counts from the start of the slice, so
that alignment follows the offsets the output stream padded to. -/
structure MessageIStream where
  m_data : List Nat
  m_offset : Nat
  m_swapByteOrder : Bool
  m_fds : List Int
  deriving DecidableEq, Repr

/-- The number a sequence of bytes in host (little-endian) order stands for. -/
def fromLeBytes : List Nat → Nat
  | [] => 0
  | b :: rest => b + 256 * fromLeBytes rest

/-- The signed reading of a `width`-bit pattern (two's complement). -/
def toSigned (width : Nat) (n : Nat) : Int :=
  if n < 2 ^ (width - 1) then (n : Int) else (n : Int) - 2 ^ width

namespace MessageIStream

/-- Modelled from the spec: a stream over a received byte slice, the cursor
at its start. -/
def ofBytes (bytes : List Nat) (swapByteOrder : Bool) (fds : List Int) : MessageIStream :=
  { m_data := bytes, m_offset := 0, m_swapByteOrder := swapByteOrder, m_fds := fds }

/-- Modelled from the spec: `empty()`, the cursor has reached the end of the
slice. -/
def empty (s : MessageIStream) : Bool := decide (s.m_data.length ≤ s.m_offset)

/-- Modelled from the spec: `read()`, the byte at the cursor; reading past
the end of the slice throws. -/
def readByte (s : MessageIStream) : Except Thrown (Nat × MessageIStream) :=
  match s.m_data.drop s.m_offset with
  | [] => Except.error "MessageIStream: read past the end"
  | b :: _ => Except.ok (b, { s with m_offset := s.m_offset + 1 })

/-- Modelled from the spec: `read(value, size)`, the next `size` bytes. -/
def readBytes (s : MessageIStream) (size : Nat) : Except Thrown (List Nat × MessageIStream) :=
  if s.m_offset + size ≤ s.m_data.length then
    Except.ok ((s.m_data.drop s.m_offset).take size, { s with m_offset := s.m_offset + size })
  else
    Except.error "MessageIStream: read past the end"

/-- Modelled from the spec: `align(alignment)`, "advancing the input cursor
by the same amount" as the output stream pads. -/
def align (s : MessageIStream) (alignment : Nat) : MessageIStream :=
  { s with m_offset := s.m_offset + Utils.getPadding alignment s.m_offset }

/-- Modelled from the spec: `read<T>(&value)` for a scalar of `width` bytes:
the cursor is aligned to the width, the bytes are read, and they are
"byte-swapped on read when the swap flag is set". -/
def readScalar (s : MessageIStream) (width : Nat) : Except Thrown (Nat × MessageIStream) :=
  match (s.align width).readBytes width with
  | Except.error e => Except.error e
  | Except.ok (bytes, s1) =>
    Except.ok (fromLeBytes (if s.m_swapByteOrder then bytes.reverse else bytes), s1)

/-- Modelled from the spec: `read(string, size)`, the next `size` bytes as a
string. -/
def readString (s : MessageIStream) (size : Nat) : Except Thrown (Str × MessageIStream) :=
  match s.readBytes size with
  | Except.error e => Except.error e
  | Except.ok (bytes, s1) => Except.ok (bytes.map Char.ofNat, s1)

/-- Modelled from the spec: the constructor `MessageIStream(stream, size)`
that `Array::unmarshall` uses to "read elements until the length is
consumed": a stream over the next `size` bytes of `stream`, which is moved
past them. -/
def sub (s : MessageIStream) (size : Nat) : Except Thrown (MessageIStream × MessageIStream) :=
  if s.m_offset + size ≤ s.m_data.length then
    Except.ok ({ s with m_data := s.m_data.take (s.m_offset + size) },
               { s with m_offset := s.m_offset + size })
  else
    Except.error "MessageIStream: read past the end"

/-- Modelled from the spec: `readUnixFd()`, "reading the index and resolving
it against the companion fd list". -/
def readUnixFd (s : MessageIStream) : Except Thrown (Int × MessageIStream) :=
  match s.readScalar 4 with
  | Except.error e => Except.error e
  | Except.ok (index, s1) =>
    match s1.m_fds.get? index with
    | none => Except.error "MessageIStream: no such UnixFd"
    | some fd => Except.ok (fd, s1)

end MessageIStream

namespace Signature

/-- `Signature::unmarshall`: a length byte, the text, the NUL. The text is
stored as read. -/
def unmarshall (sig : Signature) (stream : MessageIStream) :
    Except Thrown (Signature × MessageIStream) :=
  match stream.readByte with
  | Except.error e => Except.error e
  | Except.ok (size, s1) =>
    match s1.readString size with
    | Except.error e => Except.error e
    | Except.ok (text, s2) =>
      match s2.readByte with
      | Except.error e => Except.error e
      | Except.ok (_, s3) => Except.ok ({ sig with m_Value := text }, s3)

end Signature

/-- Modelled from the spec: `Byte::unmarshall` (`dbus_type_byte.cpp` is not
among the sources): one byte, alignment 1. -/
def Byte.unmarshall (stream : MessageIStream) : Except Thrown (Nat × MessageIStream) :=
  stream.readByte

/-- Modelled from the spec: `Int16::unmarshall` (`dbus_type_int16.cpp` is not
among the sources): `stream.read<std::int16_t>(&m_Value)`, as the scalar
classes among the sources do. -/
def Int16.unmarshall (stream : MessageIStream) : Except Thrown (Int × MessageIStream) :=
  match stream.readScalar 2 with
  | Except.error e => Except.error e
  | Except.ok (n, s1) => Except.ok (toSigned 16 n, s1)

/-- Modelled from the spec: `Int32::unmarshall` (`dbus_type_int32.cpp` is not
among the sources): `stream.read<std::int32_t>(&m_Value)`. -/
def Int32.unmarshall (stream : MessageIStream) : Except Thrown (Int × MessageIStream) :=
  match stream.readScalar 4 with
  | Except.error e => Except.error e
  | Except.ok (n, s1) => Except.ok (toSigned 32 n, s1)

/-- Modelled from the spec: `Uint64::unmarshall` (`dbus_type_uint64.cpp` is
not among the sources): `stream.read<std::uint64_t>(&m_Value)`. -/
def Uint64.unmarshall (stream : MessageIStream) : Except Thrown (Nat × MessageIStream) :=
  stream.readScalar 8

/-- Modelled from the spec: `Double::unmarshall` (`dbus_type_double.cpp` is
not among the sources): eight bytes at alignment 8, swapped like the other
multi-byte scalars. -/
def Double.unmarshall (stream : MessageIStream) : Except Thrown (Nat × MessageIStream) :=
  stream.readScalar 8

/-- Modelled from the spec: `String::unmarshall` (`dbus_type_string.cpp` is
not among the sources): "Strings are `uint32 length + bytes + NUL`". -/
def String.unmarshall (stream : MessageIStream) : Except Thrown (Str × MessageIStream) :=
  match stream.readScalar 4 with
  | Except.error e => Except.error e
  | Except.ok (size, s1) =>
    match s1.readString size with
    | Except.error e => Except.error e
    | Except.ok (text, s2) =>
      match s2.readByte with
      | Except.error e => Except.error e
      | Except.ok (_, s3) => Except.ok (text, s3)

namespace Any

/-- The `unmarshall` of a scalar class among the sources:
`stream.read<T>(&m_Value)`. -/
def readInto (stream : MessageIStream) (width : Nat) (mk : Nat → Any) :
    Except Thrown (Any × MessageIStream) :=
  match stream.readScalar width with
  | Except.error e => Except.error e
  | Except.ok (n, s1) => Except.ok (mk n, s1)

/-- The result of a class's `unmarshall`, stored in the `Any` that holds the
class. -/
def store {α : Type} (r : Except Thrown (α × MessageIStream)) (mk : α → Any) :
    Except Thrown (Any × MessageIStream) :=
  match r with
  | Except.error e => Except.error e
  | Except.ok (x, s1) => Except.ok (mk x, s1)

mutual

/-- `Any::unmarshall`, through the `unmarshall` of the class held. The
recursion of the source is not bounded by its arguments (an array of a type
that reads no byte never ends), so the model counts the nested calls and
loop iterations down from `fuel`. -/
def unmarshall : Nat → Any → MessageIStream → Except Thrown (Any × MessageIStream)
  | 0, _, _ => Except.error "out of fuel"
  | fuel + 1, v, stream =>
    match v with
    | Any.None => Except.error "unmarshall: Any object has no type"
    | Any.Byte _ => store (Byte.unmarshall stream) Any.Byte
    | Any.Boolean _ => readInto stream 4 (fun n => Any.Boolean (n != 0))
    | Any.Double _ => store (Double.unmarshall stream) Any.Double
    | Any.Int16 _ => store (Int16.unmarshall stream) Any.Int16
    | Any.Int32 _ => store (Int32.unmarshall stream) Any.Int32
    | Any.Int64 _ => readInto stream 8 (fun n => Any.Int64 (toSigned 64 n))
    | Any.Uint16 _ => readInto stream 2 Any.Uint16
    | Any.Uint32 _ => readInto stream 4 Any.Uint32
    | Any.Uint64 _ => store (Uint64.unmarshall stream) Any.Uint64
    | Any.UnixFd _ =>
      match stream.readUnixFd with
      | Except.error e => Except.error e
      | Except.ok (fd, s1) => Except.ok (Any.UnixFd fd, s1)
    | Any.String _ => store (String.unmarshall stream) Any.String
    | Any.ObjectPath _ => store (String.unmarshall stream) Any.ObjectPath
    | Any.Signature sig =>
      match sig.unmarshall stream with
      | Except.error e => Except.error e
      | Except.ok (sig1, s1) => Except.ok (Any.Signature sig1, s1)
    | Any.Array m_signature m_contents =>
      -- Array::unmarshall
      match stream.readScalar 4 with
      | Except.error e => Except.error e
      | Except.ok (size, s1) =>
        if size > Array.MaximumSize then
          Except.error "Array: size exceeds 64 MiB"
        else
          match getAlignment m_signature with
          | Except.error e => Except.error e
          | Except.ok alignment =>
            match (s1.align alignment).sub size with
            | Except.error e => Except.error e
            | Except.ok (arrayStream, s2) =>
              match unmarshallArray fuel m_signature m_contents arrayStream with
              | Except.error e => Except.error e
              | Except.ok contents => Except.ok (Any.Array m_signature contents, s2)
    | Any.Struct m_Signature m_elements =>
      -- Struct::unmarshall
      let r := m_Signature.getNextTypeCode
      match unmarshallStruct fuel r.2 m_elements r.1 (stream.align 8) with
      | Except.error e => Except.error e
      | Except.ok (sig1, elements, s1) => Except.ok (Any.Struct sig1 elements, s1)
    | Any.Variant _ =>
      -- Variant::unmarshall
      match Signature.default.unmarshall stream with
      | Except.error e => Except.error e
      | Except.ok (signature, s1) =>
        match create signature.m_Value with
        | Except.error e => Except.error e
        | Except.ok value0 =>
          match unmarshall fuel value0 s1 with
          | Except.error e => Except.error e
          | Except.ok (value, s2) => Except.ok (Any.Variant value, s2)
    | Any.DictEntry m_signature _ _ =>
      -- DictEntry::unmarshall
      let r1 := m_signature.getNextTypeCode
      match create r1.1 with
      | Except.error e => Except.error e
      | Except.ok key0 =>
        let r2 := r1.2.getNextTypeCode
        match create r2.1 with
        | Except.error e => Except.error e
        | Except.ok value0 =>
          match unmarshall fuel key0 (stream.align 8) with
          | Except.error e => Except.error e
          | Except.ok (key, s1) =>
            match unmarshall fuel value0 s1 with
            | Except.error e => Except.error e
            | Except.ok (value, s2) =>
              -- set(key, value)
              match key.isBasicType with
              | Except.error e => Except.error e
              | Except.ok false => Except.error "DictEntry key has invalid basic type"
              | Except.ok true => Except.ok (Any.DictEntry r2.2 key value, s2)

/-- The loop `while (!arrayStream.empty())` of `Array::unmarshall`. -/
def unmarshallArray : Nat → Str → List Any → MessageIStream → Except Thrown (List Any)
  | 0, _, _, _ => Except.error "out of fuel"
  | fuel + 1, m_signature, m_contents, arrayStream =>
    if arrayStream.empty then
      Except.ok m_contents
    else
      match create m_signature with
      | Except.error e => Except.error e
      | Except.ok elem0 =>
        match unmarshall fuel elem0 arrayStream with
        | Except.error e => Except.error e
        | Except.ok (elem, s1) =>
          unmarshallArray fuel m_signature (m_contents ++ [elem]) s1

/-- The loop `while (!code.empty())` of `Struct::unmarshall`. -/
def unmarshallStruct : Nat → DBus.Signature → List Any → Str → MessageIStream →
    Except Thrown (DBus.Signature × List Any × MessageIStream)
  | 0, _, _, _, _ => Except.error "out of fuel"
  | fuel + 1, m_Signature, m_elements, code, stream =>
    if code.isEmpty then
      Except.ok (m_Signature, m_elements, stream)
    else
      match create code with
      | Except.error e => Except.error e
      | Except.ok elem0 =>
        match unmarshall fuel elem0 stream with
        | Except.error e => Except.error e
        | Except.ok (elem, s1) =>
          let r := m_Signature.getNextTypeCode
          unmarshallStruct fuel r.2 (m_elements ++ [elem]) r.1 s1

end

/-- Unmarshalling received bytes with a signature: the value `create` makes
for the signature, filled from a stream over the bytes. -/
def unmarshallAs (fuel : Nat) (signature : Str) (bytes : List Nat) (swapByteOrder : Bool)
    (fds : List Int) : Except Thrown Any :=
  match create signature with
  | Except.error e => Except.error e
  | Except.ok value0 =>
    match unmarshall fuel value0 (MessageIStream.ofBytes bytes swapByteOrder fds) with
    | Except.error e => Except.error e
    | Except.ok (value, _) => Except.ok value

end Any

/-! ## Streams that continue a stream -/

/-- The stream `s1` continues `s`: it is at least as long and starts with
the bytes of `s`. -/
def Grows (s s1 : MessageOStream) : Prop :=
  s.data.length ≤ s1.data.length ∧ s1.data.take s.data.length = s.data


/-! ## The documented syntaxes of names and object paths -/

/-- The elements of a name: the pieces between the occurrences of `sep`. -/
def splitOnChar (sep : Char) : List Char → List Str
  | [] => [[]]
  | c :: rest =>
    if c == sep then [] :: splitOnChar sep rest
    else
      match splitOnChar sep rest with
      | [] => [[c]]
      | e :: es => (c :: e) :: es

/-- The characters `[A-Za-z0-9_-]` of a bus-name element. -/
def isBusNameChar (ch : Char) : Bool :=
  ch == '-' || ch == '_' || Name.isUpper ch || Name.isLower ch || Name.isDigit ch

/-- The documented syntax of a bus name: between 1 and 255 characters and,
after an optional leading colon, two or more non-empty elements separated by
periods, each made of `[A-Za-z0-9_-]`, none starting with a digit unless the
name began with the colon. -/
def BusNameSyntax (s : Str) : Bool :=
  let unique := s.head? == some ':'
  let elements := splitOnChar '.' (if unique then s.drop 1 else s)
  decide (1 ≤ s.length) && decide (s.length ≤ 255) &&
  decide (2 ≤ elements.length) &&
  elements.all (fun e =>
    !e.isEmpty && e.all isBusNameChar &&
    (unique || !((e.head?.map Name.isDigit).getD false)))

/-- The characters `[A-Za-z0-9_]` of an object-path element. -/
def isPathElementChar (ch : Char) : Bool :=
  ch == '_' || Name.isUpper ch || Name.isLower ch || Name.isDigit ch

/-- The documented syntax of an object path: the root path, or one or more
segments, each a slash followed by one or more characters of `[A-Za-z0-9_]`. -/
def ObjectPathSyntax (p : Str) : Prop :=
  p = ['/'] ∨
  ∃ segs : List Str, segs ≠ [] ∧
    (∀ seg ∈ segs, seg ≠ [] ∧ ∀ c ∈ seg, isPathElementChar c = true) ∧
    p = (segs.map (fun seg => '/' :: seg)).flatten

/-! ## The documented grammar of signatures -/

/-- Single complete types with bounded nesting: `SCT a s t` says that the
text `t` is a single complete type in which arrays are nested at most `a`
deep and structs at most `s` deep. A single complete type is a basic code,
the variant code, `a` followed by a single complete type, `a` followed by a
dict entry `{`, basic key, one single complete type, `}` (so a dict entry
occurs only directly after `a`), or `(`, one or more single complete types,
`)`. -/
inductive SCT : Nat → Nat → Str → Prop
  | basic (a s : Nat) (c : Char) : isBasicTypeCode c = true → SCT a s [c]
  | variant (a s : Nat) : SCT a s ['v']
  | array (a s : Nat) (t : Str) : SCT a s t → SCT (a + 1) s ('a' :: t)
  | dict (a s : Nat) (k : Char) (t : Str) :
      isBasicTypeCode k = true → SCT a s t → SCT (a + 1) s ('a' :: '{' :: k :: (t ++ ['}']))
  | struct (a s : Nat) (ts : List Str) :
      ts ≠ [] → (∀ t ∈ ts, SCT a s t) → SCT a (s + 1) ('(' :: (ts.flatten ++ [')']))

/-- A signature in the documented sense: a concatenation of zero or more
single complete types, arrays nested at most 32 deep and structs at most 32
deep. -/
def IsSignatureText (v : Str) : Prop :=
  ∃ ts : List Str, (∀ t ∈ ts, SCT 32 32 t) ∧ v = ts.flatten

/-! ## What the validator has read: the open containers and their contents -/

/-- An open container on the validator's stack together with what has been
read inside it: the complete element types of a struct, and for a dict
entry nothing, its key, or its key and its value. -/
inductive Frame
  | arr
  | str (ts : List Str)
  | dctEmpty
  | dctKey (k : Char)
  | dctFull (k : Char) (v : Str)

namespace Frame

def kind : Frame → Container
  | arr => Container.Array
  | str _ => Container.Struct
  | dctEmpty => Container.DictEntry
  | dctKey _ => Container.DictEntry
  | dctFull _ _ => Container.DictEntry

/-- The characters read since the container was opened, the opening one
included, as far as they belong to this frame. -/
def render : Frame → Str
  | arr => ['a']
  | str ts => '(' :: ts.flatten
  | dctEmpty => ['{']
  | dctKey k => ['{', k]
  | dctFull k v => '{' :: k :: v

def isArr : Frame → Bool
  | arr => true
  | _ => false

def isStr : Frame → Bool
  | str _ => true
  | _ => false

def isDct : Frame → Bool
  | dctEmpty => true
  | dctKey _ => true
  | dctFull _ _ => true
  | _ => false

/-- A frame that may lie below another one: a dict entry is covered only
while its value is being read. -/
def coverable : Frame → Bool
  | dctEmpty => false
  | dctFull _ _ => false
  | _ => true

end Frame

/-- The number of array frames. -/
def aCount : List Frame → Nat
  | [] => 0
  | f :: below => (if f.isArr then 1 else 0) + aCount below

/-- The number of struct frames. -/
def sCount : List Frame → Nat
  | [] => 0
  | f :: below => (if f.isStr then 1 else 0) + sCount below

/-- The text of a list of frames, the topmost frame first in the list and
last in the text. -/
def renderFrames : List Frame → Str
  | [] => []
  | f :: below => renderFrames below ++ f.render

/-- The top of the frames below is an array. -/
def headIsArr : List Frame → Prop
  | Frame.arr :: _ => True
  | _ => False

/-- The top of the frames below may be covered. -/
def headCoverable : List Frame → Prop
  | [] => True
  | f :: _ => f.coverable = true

/-- The contents of a frame respect the grammar and the nesting budget that
the frames below leave. -/
def FrameOK : Frame → List Frame → Prop
  | Frame.arr, _ => True
  | Frame.str ts, below =>
    ∀ t ∈ ts, SCT (32 - aCount below) (32 - (sCount below + 1)) t
  | Frame.dctEmpty, below => headIsArr below
  | Frame.dctKey k, below => isBasicTypeCode k = true ∧ headIsArr below
  | Frame.dctFull k v, below =>
    isBasicTypeCode k = true ∧ headIsArr below ∧
      SCT (32 - aCount below) (32 - sCount below) v

def FramesOK : List Frame → Prop
  | [] => True
  | f :: below => FrameOK f below ∧ headCoverable below ∧ FramesOK below

/-- The flag `haveStructElement` agrees with the frames: it tells whether
the topmost struct has an element, and it is set whenever a struct is
covered. -/
def hsRel : List Frame → Bool → Prop
  | [], _ => True
  | Frame.str ts :: _, hs => (hs = true ↔ ts ≠ [])
  | Frame.arr :: below, hs => (∃ f ∈ below, f.isStr = true) → hs = true
  | Frame.dctEmpty :: below, hs => (∃ f ∈ below, f.isStr = true) → hs = true
  | Frame.dctKey _ :: below, hs => (∃ f ∈ below, f.isStr = true) → hs = true
  | Frame.dctFull _ _ :: below, hs => (∃ f ∈ below, f.isStr = true) → hs = true

/-- The flags `haveDictEntryKey` and `haveDictEntryVal` agree with the
frames. -/
def dRel : List Frame → Bool → Bool → Prop
  | [], _, _ => True
  | Frame.dctEmpty :: _, hk, hv => hk = false ∧ hv = false
  | Frame.dctKey _ :: _, hk, hv => hk = true ∧ hv = false
  | Frame.dctFull _ _ :: _, hk, hv => hk = true ∧ hv = true
  | Frame.arr :: below, hk, hv => (∃ f ∈ below, f.isDct = true) → hk = true ∧ hv = true
  | Frame.str _ :: below, hk, hv => (∃ f ∈ below, f.isDct = true) → hk = true ∧ hv = true

/-- The stack of the validator after it has read `consumed`: the complete
types `done` read at the top level, followed by the open `frames`. -/
structure Shape (done : List Str) (frames : List Frame) (consumed : Str)
    (stack : ContainerStack) : Prop where
  stack_eq : stack.m_stack = frames.map Frame.kind
  arrayLevel_eq : stack.m_arrayLevel = aCount frames
  structLevel_eq : stack.m_structLevel = sCount frames
  arrayLevel_le : aCount frames ≤ 32
  structLevel_le : sCount frames ≤ 32
  done_ok : ∀ t ∈ done, SCT 32 32 t
  frames_ok : FramesOK frames
  text_eq : consumed = done.flatten ++ renderFrames frames

/-- The state of the validator after it has read `consumed`. -/
structure Reading (done : List Str) (frames : List Frame) (consumed : Str)
    (st : SigState) : Prop where
  shape : Shape done frames consumed st.stack
  hs_rel : hsRel frames st.haveStructElement
  d_rel : dRel frames st.haveDictEntryKey st.haveDictEntryVal

/-- The flags allow the topmost frame to be covered by a new container, or
to receive an element. -/
def Ready (frames : List Frame) (hs hk hv : Bool) : Prop :=
  headCoverable frames ∧
  ((∃ f ∈ frames, f.isStr = true) → hs = true) ∧
  ((∃ f ∈ frames, f.isDct = true) → hk = true ∧ hv = true)

/-- The arrays on top of the frames are complete as soon as their element
type `t` is: they are closed, innermost first. -/
def wrapArrays : List Frame → Str → List Frame × Str
  | [], t => ([], t)
  | Frame.arr :: below, t => wrapArrays below ('a' :: t)
  | Frame.str ts :: below, t => (Frame.str ts :: below, t)
  | Frame.dctEmpty :: below, t => (Frame.dctEmpty :: below, t)
  | Frame.dctKey k :: below, t => (Frame.dctKey k :: below, t)
  | Frame.dctFull k v :: below, t => (Frame.dctFull k v :: below, t)

/-- A complete type becomes an element of the topmost frame, or of the top
level when no container is open. -/
def addElement (done : List Str) : List Frame → Str → List Str × List Frame
  | [], t => (done ++ [t], [])
  | Frame.str ts :: below, t => (done, Frame.str (ts ++ [t]) :: below)
  | Frame.dctKey k :: below, t => (done, Frame.dctFull k t :: below)
  | Frame.arr :: below, _ => (done, Frame.arr :: below)
  | Frame.dctEmpty :: below, _ => (done, Frame.dctEmpty :: below)
  | Frame.dctFull k v :: below, _ => (done, Frame.dctFull k v :: below)

/-- The reading after the complete type `t`. -/
def complete (done : List Str) (frames : List Frame) (t : Str) : List Str × List Frame :=
  addElement done (wrapArrays frames t).1 (wrapArrays frames t).2

/-- The validator reads the text `t` as one complete type: from every state
in which an element may begin and whose open containers leave room for `a`
nested arrays and `s` nested structs, the loop runs over `t` without
failing and reaches the state in which `t` is complete. -/
def Accepts (a s : Nat) (t : Str) : Prop :=
  ∀ (done : List Str) (frames : List Frame) (consumed : Str) (st : SigState),
    Reading done frames consumed st → headCoverable frames →
    a + aCount frames ≤ 32 → s + sCount frames ≤ 32 →
    ∃ st1, (∀ rest, Signature.loop 0 st (t ++ rest) = Signature.loop 0 st1 rest) ∧
      Reading (complete done frames t).1 (complete done frames t).2 (consumed ++ t) st1

/-- The reading after a character that `dispatch` accepts while a new
element may begin: a container is opened, or the character is a complete
type by itself. -/
def nextFrames (done : List Str) (frames : List Frame) (c : Char) : List Str × List Frame :=
  if c = 'a' then (done, Frame.arr :: frames)
  else if c = '(' then (done, Frame.str [] :: frames)
  else if c = '{' then (done, Frame.dctEmpty :: frames)
  else complete done frames [c]

/-- The reading after one more character. -/
def stepFrames (done : List Str) (frames : List Frame) (c : Char) : List Str × List Frame :=
  match frames with
  | Frame.dctEmpty :: below => (done, Frame.dctKey c :: below)
  | Frame.dctFull k v :: Frame.arr :: below =>
    complete done below ('a' :: '{' :: k :: (v ++ ['}']))
  | Frame.str ts :: below =>
    if c = ')' then complete done below ('(' :: (ts.flatten ++ [')']))
    else nextFrames done frames c
  | _ => nextFrames done frames c

/-- The signature `a{sv}(ii)`, an array of dict entries followed by a
struct. -/
def exampleSignature : Str := ['a', '{', 's', 'v', '}', '(', 'i', 'i', ')']

/-! ## Sequences of stream operations -/

/-- The calls `writeUnixFd(fd)` for the descriptors of `fds` in turn, on the
stream `s`; the first call that throws ends the sequence with its exception. -/
def MessageOStream.writeUnixFds (s : MessageOStream) : List Int → Except String MessageOStream
  | [] => Except.ok s
  | fd :: rest =>
    match s.writeUnixFd fd with
    | Except.error e => Except.error e
    | Except.ok s1 => s1.writeUnixFds rest

/-! ## The serial counter of the connection (`dbus_connection.h`) -/

/-- The four kinds of message a connection sends. -/
inductive Outgoing
  | MethodCall
  | MethodReturn
  | Signal
  | Error
  deriving DecidableEq, Repr

/-- The member `std::uint32_t m_nextSerial` of `class Connection`; the other
members do not touch it. -/
structure Connection where
  m_nextSerial : Nat
  deriving DecidableEq, Repr

namespace Connection

/-- A newly created connection: `std::uint32_t m_nextSerial = 1`. -/
def create : Connection := { m_nextSerial := 1 }

/-- `disconnect()`: `m_nextSerial = 1` (stopping the message protocol leaves
the counter alone). -/
def disconnect (_c : Connection) : Connection := { m_nextSerial := 1 }

/-- `sendMethodCall`, `sendMethodReturn`, `sendSignal` and `sendError`: each
passes `m_nextSerial++` to the message protocol as the serial of the message.
The result is that serial and the connection after the increment, which is
the increment of a 32-bit unsigned integer. -/
def send (c : Connection) (kind : Outgoing) : Nat × Connection :=
  match kind with
  | Outgoing.MethodCall => (c.m_nextSerial, { m_nextSerial := (c.m_nextSerial + 1) % 2 ^ 32 })
  | Outgoing.MethodReturn => (c.m_nextSerial, { m_nextSerial := (c.m_nextSerial + 1) % 2 ^ 32 })
  | Outgoing.Signal => (c.m_nextSerial, { m_nextSerial := (c.m_nextSerial + 1) % 2 ^ 32 })
  | Outgoing.Error => (c.m_nextSerial, { m_nextSerial := (c.m_nextSerial + 1) % 2 ^ 32 })

/-- The messages of `kinds` sent one after the other. -/
def sendAll (c : Connection) : List Outgoing → Connection
  | [] => c
  | kind :: rest => sendAll (c.send kind).2 rest

end Connection

/-! ## Message framing (`dbus_message.h`, `dbus_message.cpp`) -/

namespace Message

/-- `Message::MaximumSize`, 128 MiB. -/
def MaximumSize : Nat := 134217728

/-- `enum class Endian`. -/
inductive Endian
  | Little
  | Big
  deriving DecidableEq, Repr

/-- `Message::endianness(message)`, a received buffer being the list of its
octets: `message[0]` is compared with `l` (108) and `B` (66). The callers
below test the size of the buffer first; on an empty buffer the model throws. -/
def endianness (message : List Nat) : Except Thrown Endian :=
  match message.head? with
  | some 108 => Except.ok Endian.Little
  | some 66 => Except.ok Endian.Big
  | _ => Except.error "message endian marker invalid"

/-- `Message::swapRequired(endian)` on the little-endian host of this model. -/
def swapRequired (endian : Endian) : Bool :=
  endian == Endian.Big

/-- `bswap_32(value)`. -/
def bswap_32 (value : Nat) : Nat :=
  fromLeBytes (leBytes 4 value).reverse

/-- `Message::correctEndianess(endian, value)`. -/
def correctEndianess (endian : Endian) (value : Nat) : Nat :=
  if swapRequired endian then bswap_32 value else value

/-- The load `*(uint32_t*)(message.data() + offset)`: the four octets at
`offset`, read in host order. -/
def loadUint32 (message : List Nat) (offset : Nat) : Nat :=
  fromLeBytes ((message.drop offset).take 4)

namespace Header

/-- `Header::MinimumSize`. -/
def MinimumSize : Nat := 16

/-- `Header::MaximumSize`. -/
def MaximumSize : Nat := MinimumSize + Any.Array.MaximumSize

/-- `Header::getSize(message)`. `std::size_t` is taken to be 64 bits wide:
the sums below stay under `2 ^ 33` and are written without reduction. -/
def getSize (message : List Nat) : Except Thrown Nat :=
  let size := MinimumSize
  if message.length < size then
    Except.ok 0
  else
    match endianness message with
    | Except.error e => Except.error e
    | Except.ok endian =>
      let size1 := size + correctEndianess endian (loadUint32 message 12)
      let size2 := size1 + (if size1 % 8 = 0 then 0 else 8 - size1 % 8)
      if size2 > MaximumSize then
        Except.error "DBus message error: maximum header size exceeded"
      else
        Except.ok size2

/-- `Header::getMessageSize(message)`. -/
def getMessageSize (message : List Nat) : Except Thrown Nat :=
  if message.length < MinimumSize then
    Except.ok 0
  else
    match endianness message with
    | Except.error e => Except.error e
    | Except.ok endian =>
      let body_size := correctEndianess endian (loadUint32 message 4)
      match getSize message with
      | Except.error e => Except.error e
      | Except.ok headerSize =>
        let msg_size := headerSize + body_size
        if msg_size > Message.MaximumSize then
          Except.error "DBus message error: maximum message size exceeded"
        else
          Except.ok msg_size

end Header

/-- The marker octet of a byte order: `l` for little-endian, `B` for
big-endian. -/
def Endian.marker : Endian → Nat
  | Endian.Little => 108
  | Endian.Big => 66

/-- The unsigned 32-bit number that the four octets of `message` at `offset`
spell in the byte order `endian`. -/
def uint32At (endian : Endian) (message : List Nat) (offset : Nat) : Nat :=
  match endian with
  | Endian.Little =>
    message.getD offset 0 + 256 * message.getD (offset + 1) 0 +
      65536 * message.getD (offset + 2) 0 + 16777216 * message.getD (offset + 3) 0
  | Endian.Big =>
    message.getD (offset + 3) 0 + 256 * message.getD (offset + 2) 0 +
      65536 * message.getD (offset + 1) 0 + 16777216 * message.getD offset 0

/-- The size of a header whose field array is `fieldsLength` octets long: the
16 octets before the fields, the fields, and the padding to the next multiple
of 8. -/
def paddedHeaderSize (fieldsLength : Nat) : Nat :=
  (16 + fieldsLength + 7) / 8 * 8

/-- A buffer of 16 octets that announces a header of exactly the maximum
header size, `16 + 67108864`, and no body. -/
def headerAtCeiling : List Nat := [108, 1, 0, 1, 0, 0, 0, 0, 1, 0, 0, 0, 0, 0, 0, 4]

/-- A big-endian buffer of 16 octets that announces an empty field array and
a body of `134217728 - 16` octets: a message of exactly the maximum size. -/
def messageAtCeiling : List Nat := [66, 1, 0, 1, 7, 255, 255, 240, 0, 0, 0, 1, 0, 0, 0, 0]

end Message

/-! ## The conversion operators of `Type::Any` (`dbus_type_any.cpp`) -/

/-- A `std::string` that holds text. (Inside the scope of `Any`, `String` is
the D-Bus string class.) -/
abbrev Text := String

/-- `enum class Value`: the runtime type of the value an `Any` holds. -/
inductive Any.Value
  | None
  | Byte
  | Boolean
  | Double
  | Int16
  | Int32
  | Int64
  | Uint16
  | Uint32
  | Uint64
  | UnixFd
  | String
  | ObjectPath
  | Signature
  | Array
  | Struct
  | Variant
  | DictEntry
  deriving DecidableEq, Repr

open Any (Value)

/-- The member `m_valueType`. -/
def Any.m_valueType : Any → Value
  | Any.None => Value.None
  | Any.Byte _ => Value.Byte
  | Any.Boolean _ => Value.Boolean
  | Any.Double _ => Value.Double
  | Any.Int16 _ => Value.Int16
  | Any.Int32 _ => Value.Int32
  | Any.Int64 _ => Value.Int64
  | Any.Uint16 _ => Value.Uint16
  | Any.Uint32 _ => Value.Uint32
  | Any.Uint64 _ => Value.Uint64
  | Any.UnixFd _ => Value.UnixFd
  | Any.String _ => Value.String
  | Any.ObjectPath _ => Value.ObjectPath
  | Any.Signature _ => Value.Signature
  | Any.Array _ _ => Value.Array
  | Any.Struct _ _ => Value.Struct
  | Any.Variant _ => Value.Variant
  | Any.DictEntry _ _ _ => Value.DictEntry

/-- The constant `name` of the class of each runtime type, which `getName()`
returns. The headers among the sources name each class after itself (`Byte`,
`Int32`, `UnixFd`, `ObjectPath`, `Signature`, `Array`, `Struct`, `DictEntry`);
the classes whose header is not among the sources are named here in the same
way. `None` has no class and its entry is not read. The conversion operators
take the names as a parameter. -/
def Any.Value.name : Value → Text
  | Value.None => ""
  | Value.Byte => "Byte"
  | Value.Boolean => "Boolean"
  | Value.Double => "Double"
  | Value.Int16 => "Int16"
  | Value.Int32 => "Int32"
  | Value.Int64 => "Int64"
  | Value.Uint16 => "Uint16"
  | Value.Uint32 => "Uint32"
  | Value.Uint64 => "Uint64"
  | Value.UnixFd => "UnixFd"
  | Value.String => "String"
  | Value.ObjectPath => "ObjectPath"
  | Value.Signature => "Signature"
  | Value.Array => "Array"
  | Value.Struct => "Struct"
  | Value.Variant => "Variant"
  | Value.DictEntry => "DictEntry"

/-- `class BadCast`, with the text of `what()`. -/
structure Any.BadCast where
  what : Text
  deriving DecidableEq, Repr

/-- The local `what` of `tryVariantTo` and of `operator const Variant&`:
`"empty object"` for an empty value, `value().getName()` otherwise. -/
def Any.what (name : Value → Text) (v : Any) : Text :=
  if v.m_valueType = Value.None then "empty object" else name v.m_valueType

/-- The conversion operators `operator const T&() const`, one for each class
`T` (`T` is the runtime type of that class; there is no operator for
`Value::None`), with `tryVariantTo<T>()`. The result is the object the
returned reference refers to; `name` gives `T::name` and `getName()`.

Every operator but that of `Variant` returns the value held when
`m_valueType` is `T` (the operator of `String` also when it is `ObjectPath`,
a subclass of `String`) and calls `tryVariantTo<T>()` otherwise, which, on a
variant, converts the value of the variant with the same operator,
`static_cast<const T&>(m_variant->getValue())`, and prefixes the text of a
`BadCast` from there. The operator of `Variant` does not call
`tryVariantTo`. -/
def Any.convert (name : Value → Text) (T : Value) : Any → Except Any.BadCast Any
  | Any.Variant m_Value =>
    if T = Value.Variant then
      Except.ok (Any.Variant m_Value)
    else
      match Any.convert name T m_Value with
      | Except.ok r => Except.ok r
      | Except.error e =>
        Except.error { what := Any.what name (Any.Variant m_Value) ++ " > " ++ e.what }
  | v =>
    if v.m_valueType = T then
      Except.ok v
    else if T = Value.String ∧ v.m_valueType = Value.ObjectPath then
      Except.ok v
    else if T = Value.Variant then
      Except.error { what := Any.what name v ++ ": can't cast to Variant" }
    else
      Except.error { what := Any.what name v ++ ": cannot cast to " ++ name T }

/-- The runtime type the claim lets convert to `T`: `T` itself, or a variant
whose directly contained value has the runtime type `T`. -/
def Any.OneLevel (T : Value) (v : Any) : Prop :=
  v.m_valueType = T ∨ ∃ inner, v = Any.Variant inner ∧ inner.m_valueType = T

/-- The value left when every enclosing variant is removed. -/
def Any.unwrapped : Any → Any
  | Any.Variant m_Value => Any.unwrapped m_Value
  | v => v

/-- The values the operators convert to `T`: for `Variant` the variants; for
another class the values that, with every enclosing variant removed, have the
runtime type `T`, or `ObjectPath` when `T` is `String`. -/
def Any.Convertible (T : Value) (v : Any) : Prop :=
  if T = Value.Variant then v.m_valueType = Value.Variant
  else v.unwrapped.m_valueType = T ∨ (T = Value.String ∧ v.unwrapped.m_valueType = Value.ObjectPath)

/-! ## Marshalling a message header (`dbus_message.cpp`) -/

/-- The number of a `Message::Type`. -/
def MessageType.toNat : MessageType → Nat
  | MessageType.Invalid => 0
  | MessageType.MethodCall => 1
  | MessageType.MethodReturn => 2
  | MessageType.Error => 3
  | MessageType.Signal => 4

/-- `Struct::add(v)` on a struct with the members `m_Signature` and
`m_elements`: the members afterwards. The assignment of the `std::string` to
`m_Signature` constructs a `Signature`, which validates the text. -/
def Any.Struct.add (m_Signature : DBus.Signature) (m_elements : List Any) (v : Any) :
    Except Thrown (DBus.Signature × List Any) :=
  match v.getSignature with
  | Except.error e => Except.error e
  | Except.ok signature =>
    match DBus.Signature.ctor (m_Signature.m_Value ++ signature) 0 with
    | Except.error e => Except.error e
    | Except.ok s => Except.ok (s, m_elements ++ [v])

/-- `Array::add(v)` on an array with the members `m_signature` and
`m_contents`: the members afterwards. -/
def Any.Array.add (m_signature : Str) (m_contents : List Any) (v : Any) :
    Except Thrown (Str × List Any) :=
  match v.getSignature with
  | Except.error e => Except.error e
  | Except.ok signature =>
    if m_signature.isEmpty then
      Except.ok (signature, m_contents ++ [v])
    else if m_signature != signature then
      Except.error ("adding value to Array with wrong signature: " ++ String.mk signature)
    else
      Except.ok (m_signature, m_contents ++ [v])

namespace Message

/-- `struct Header`: the members that `Header::marshall` and the constructor
of `Fields` read. -/
structure Header where
  type : MessageType
  flags : Nat
  bodySize : Nat
  serial : Nat
  path : Str
  interface : Str
  member : Str
  errorName : Str
  replySerial : Nat
  destination : Str
  signature : Signature
  sender : Str
  unixFds : Nat

namespace Header

/-- `Fields::add(type, value)` on the array members `fields`: a struct of the
byte `type` and the variant of `value` is added to the array. -/
def Fields.add (fields : Str × List Any) (type : Nat) (value : Any) :
    Except Thrown (Str × List Any) :=
  match Any.Struct.add Signature.default [] (Any.Byte type) with
  | Except.error e => Except.error e
  | Except.ok field1 =>
    match Any.Struct.add field1.1 field1.2 (Any.Variant value) with
    | Except.error e => Except.error e
    | Except.ok field2 => Any.Array.add fields.1 fields.2 (Any.Struct field2.1 field2.2)

/-- One line `if (cond) add(type, value);` of the constructor of `Fields`;
`value` may throw while it is built. -/
def Fields.addIf (fields : Str × List Any) (cond : Bool) (type : Nat)
    (value : Except Thrown Any) : Except Thrown (Str × List Any) :=
  if cond then
    match value with
    | Except.error e => Except.error e
    | Except.ok v => Fields.add fields type v
  else
    Except.ok fields

/-- `Fields::Fields(header)`: the members `m_signature` and `m_contents` of
the array `a(yv)` of header fields, or the exception thrown. The field codes
are those of `enum Field`. -/
def Fields.ctor (header : Header) : Except Thrown (Str × List Any) :=
  if header.type != MessageType.Signal && header.destination.isEmpty then
    Except.error "Message without destination"
  else if header.type == MessageType.Signal && header.path.isEmpty then
    Except.error "Signal without ObjectPath"
  else if header.type == MessageType.Signal && header.interface.isEmpty then
    Except.error "Signal without Interface"
  else if header.type != MessageType.Signal && header.type == MessageType.MethodCall
      && header.path.isEmpty then
    Except.error "MethodCall without ObjectPath"
  else do
    let f0 : Str × List Any := (['(', 'y', 'v', ')'], [])
    let f1 ← Fields.addIf f0 (!header.destination.isEmpty) 6
      (Except.ok (Any.String header.destination))
    let f2 ← Fields.addIf f1 (!header.path.isEmpty) 1
      ((ObjectPath.ctor header.path).map Any.ObjectPath)
    let f3 ← Fields.addIf f2 (!header.interface.isEmpty) 2
      (Except.ok (Any.String header.interface))
    let f4 ← Fields.addIf f3 (!header.member.isEmpty) 3 (Except.ok (Any.String header.member))
    let f5 ← Fields.addIf f4 (!header.errorName.isEmpty) 4
      (Except.ok (Any.String header.errorName))
    let f6 ← Fields.addIf f5 (header.replySerial != 0) 5
      (Except.ok (Any.Uint32 header.replySerial))
    let f7 ← Fields.addIf f6 (!header.sender.isEmpty) 7 (Except.ok (Any.String header.sender))
    let f8 ← Fields.addIf f7 (!header.signature.m_Value.isEmpty) 8
      (Except.ok (Any.Signature header.signature))
    Fields.addIf f8 (header.unixFds > 0) 9 (Except.ok (Any.Uint32 header.unixFds))

/-- `Header::marshall(stream)` on a little-endian host: the stream
afterwards, or the exception thrown. -/
def marshall (header : Header) (stream : MessageOStream) : Except Thrown MessageOStream :=
  let stream1 := stream.writeByte 108
  let stream2 := stream1.writeByte header.type.toNat
  let stream3 := stream2.writeByte header.flags
  let stream4 := stream3.writeByte 1
  let stream5 := stream4.writeUint32 header.bodySize
  let stream6 := stream5.writeUint32 header.serial
  match Fields.ctor header with
  | Except.error e => Except.error e
  | Except.ok headerFields =>
    match (Any.Array headerFields.1 headerFields.2).marshall stream6 with
    | Except.error e => Except.error e
    | Except.ok stream7 => Except.ok stream7.pad8

/-- A header with every field absent. -/
def blank (type : MessageType) : Header :=
  { type := type, flags := 0, bodySize := 0, serial := 1, path := [], interface := [],
    member := [], errorName := [], replySerial := 0, destination := [],
    signature := Signature.default, sender := [], unixFds := 0 }

end Header

end Message

/-! ## Registration, sending and closing in the multiplexer (`dbus_messageprotocol.h`) -/

namespace Map

variable {K V : Type} [DecidableEq K] [LT K] [DecidableRel (fun a b : K => a < b)]

/-- The place of a new key in a `std::map`: before the first entry with a
greater key, which is where `for (auto& elem : map)` visits it. -/
def insertOrdered : Map K V → K → V → Map K V
  | [], key, value => [(key, value)]
  | (k, v) :: rest, key, value =>
    if key < k then (key, value) :: (k, v) :: rest
    else (k, v) :: insertOrdered rest key value

/-- `emplace(std::make_pair(key, value))`: the map afterwards and `.second`.
A key that has an entry keeps it. -/
def emplace (m : Map K V) (key : K) (value : V) : Map K V × Bool :=
  match m.find key with
  | some _ => (m, false)
  | none => (m.insertOrdered key value, true)

end Map

/-- The completion handler that `sendMethodCall` hands to `asyncWrite`: for
a call that expects a reply the lambda that holds `replySerial`, otherwise the
lambda that holds the caller's `handler`. -/
inductive WriteCompletion (H : Type)
  | reply (replySerial : Nat)
  | direct (handler : H)
  deriving DecidableEq, Repr

namespace MessageProtocol

variable {H Msg Err : Type}

/-- The tables of a protocol object as its constructor leaves them. -/
def initial : MessageProtocol H Msg Err :=
  { m_methodReturnHandlers := [], m_methodCallHandlers := [], m_signalHandlers := [],
    m_errorHandler := none, invoked := [] }

/-- `storeMethodReturnHandler(serial, handler)`: the value returned and the
state afterwards. -/
def storeMethodReturnHandler (p : MessageProtocol H Msg Err) (serial : Nat) (handler : H) :
    Bool × MessageProtocol H Msg Err :=
  let r := p.m_methodReturnHandlers.emplace serial handler
  (r.2, { p with m_methodReturnHandlers := r.1 })

/-- `storeMethodCallHandler(interface, handler)`. -/
def storeMethodCallHandler (p : MessageProtocol H Msg Err) (interface : Str) (handler : H) :
    Bool × MessageProtocol H Msg Err :=
  let r := p.m_methodCallHandlers.emplace interface handler
  (r.2, { p with m_methodCallHandlers := r.1 })

/-- `storeSignalHandler(signal, handler)`. -/
def storeSignalHandler (p : MessageProtocol H Msg Err) (signal : Str) (handler : H) :
    Bool × MessageProtocol H Msg Err :=
  let r := p.m_signalHandlers.emplace signal handler
  (r.2, { p with m_signalHandlers := r.1 })

/-- `sendMethodCall(serial, methodCall, token)`, for a call whose
`isReplyExpected()` is `isReplyExpected` and whose completion handler is
`handler`: the state after the initiation, and the completion handler handed
to `asyncWrite`. Marshalling and the statistics are not part of the model. -/
def sendMethodCall (p : MessageProtocol H Msg Err) (serial : Nat) (isReplyExpected : Bool)
    (handler : H) : MessageProtocol H Msg Err × WriteCompletion H :=
  let replySerial := if isReplyExpected then serial else 0
  if replySerial != 0 then
    ((p.storeMethodReturnHandler replySerial handler).2, WriteCompletion.reply replySerial)
  else
    (p, WriteCompletion.direct handler)

/-- The completion of the `asyncWrite` of a method call, `error` being `none`
when the write succeeded: the lambda of `sendMethodCall` runs. -/
def writeCompleted (p : MessageProtocol H Msg Err) (completion : WriteCompletion H)
    (error : Option Err) : MessageProtocol H Msg Err :=
  match completion with
  | WriteCompletion.reply replySerial =>
    match error with
    | some e => p.invokeErrorHandler replySerial e
    | none => p
  | WriteCompletion.direct handler =>
    { p with invoked := p.invoked ++ [Invocation.methodReturn handler error none] }

/-- `receiveMethodCall(interface, token)`. -/
def receiveMethodCall (p : MessageProtocol H Msg Err) (interface : Str) (handler : H) :
    MessageProtocol H Msg Err :=
  (p.storeMethodCallHandler interface handler).2

/-- `receiveSignal(signal, token)`. -/
def receiveSignal (p : MessageProtocol H Msg Err) (signal : Str) (handler : H) :
    MessageProtocol H Msg Err :=
  (p.storeSignalHandler signal handler).2

/-- `cancelReceiveSignal(signal)`: the value returned and the state
afterwards. -/
def cancelReceiveSignal (p : MessageProtocol H Msg Err) (signal : Str) :
    Bool × MessageProtocol H Msg Err :=
  match p.m_signalHandlers.find signal with
  | some _ => (true, { p with m_signalHandlers := p.m_signalHandlers.erase signal })
  | none => (false, p)

/-- `receiveError(token)`: the handler becomes the error sink. -/
def receiveError (p : MessageProtocol H Msg Err) (handler : H) : MessageProtocol H Msg Err :=
  { p with m_errorHandler := some handler }

/-- `releasePendingHandlers()`: every stored handler is invoked with empty
arguments, table by table. -/
def releasePendingHandlers (p : MessageProtocol H Msg Err) : MessageProtocol H Msg Err :=
  { p with invoked := p.invoked
      ++ p.m_methodReturnHandlers.map (fun elem => Invocation.methodReturn elem.2 none none)
      ++ p.m_methodCallHandlers.map (fun elem => Invocation.methodCall elem.2 none)
      ++ p.m_signalHandlers.map (fun elem => Invocation.signal elem.2 none)
      ++ (match p.m_errorHandler with
          | some h => [Invocation.error h none]
          | none => []) }

/-- The states a protocol object can be in: the state its constructor leaves,
and every state that an operation of the class or a completion of the read
loop or of a write makes of such a state. -/
inductive Reachable : MessageProtocol H Msg Err → Prop
  | start : Reachable initial
  | sendMethodCall (p : MessageProtocol H Msg Err) (serial : Nat) (isReplyExpected : Bool)
      (handler : H) : Reachable p → Reachable (p.sendMethodCall serial isReplyExpected handler).1
  | writeCompleted (p : MessageProtocol H Msg Err) (completion : WriteCompletion H)
      (error : Option Err) : Reachable p → Reachable (p.writeCompleted completion error)
  | receiveMethodCall (p : MessageProtocol H Msg Err) (interface : Str) (handler : H) :
      Reachable p → Reachable (p.receiveMethodCall interface handler)
  | receiveSignal (p : MessageProtocol H Msg Err) (signal : Str) (handler : H) :
      Reachable p → Reachable (p.receiveSignal signal handler)
  | cancelReceiveSignal (p : MessageProtocol H Msg Err) (signal : Str) :
      Reachable p → Reachable (p.cancelReceiveSignal signal).2
  | receiveError (p : MessageProtocol H Msg Err) (handler : H) :
      Reachable p → Reachable (p.receiveError handler)
  | dispatchMessage (p : MessageProtocol H Msg Err) (header : DispatchHeader) (message : Msg)
      (asError : Err) : Reachable p → Reachable (p.dispatchMessage header message asError)
  | readFailed (p : MessageProtocol H Msg Err) (error : Err) :
      Reachable p → Reachable (p.invokeErrorHandler 0 error)
  | releasePendingHandlers (p : MessageProtocol H Msg Err) :
      Reachable p → Reachable p.releasePendingHandlers

end MessageProtocol

/-- A multiplexer with an error sink and one method call in flight: the call
was sent with the serial 5 and expects a reply. -/
def exampleProtocol : MessageProtocol String Unit String :=
  ((MessageProtocol.initial.receiveError "sink").sendMethodCall 5 true "reply").1

/-- A new multiplexer on which one method call has been sent, with the serial
1 and a reply expected: the state, and the completion handler of the write
that is still in flight. -/
def callInFlight : MessageProtocol String Unit String × WriteCompletion String :=
  MessageProtocol.initial.sendMethodCall 1 true "reply handler"

/-! ## Long names and paths -/

/-- A name of 256 characters, each the letter `a`. -/
def longName : Str := List.replicate 256 'a'

/-- An object path of 256 characters: a slash and 255 times the letter `a`. -/
def longPath : Str := '/' :: List.replicate 255 'a'

/-! ## Match rules (`dbus_matchrule.cpp`) -/

namespace Map

variable {K V : Type} [DecidableEq K] [LT K] [DecidableRel (fun a b : K => a < b)]

/-- `map[key] = value`: the entry of `key` gets the value; a new key is put
at its place in the order of the keys. -/
def assign : Map K V → K → V → Map K V
  | [], key, value => [(key, value)]
  | (k, v) :: rest, key, value =>
    if key < k then (key, value) :: (k, v) :: rest
    else if k = key then (k, value) :: rest
    else (k, v) :: assign rest key value

end Map

/-- The characters of a string literal. -/
def lit (s : String) : Str := s.data

/-- `enum class Type` of `MatchRule`. -/
inductive RuleType
  | MethodCall
  | MethodReturn
  | Signal
  | Error
  deriving DecidableEq, Repr

/-- `class MatchRule`: its members. The keys of the two maps are
`std::uint8_t` indices. -/
structure MatchRule where
  m_type : Str
  m_sender : Str
  m_interface : Str
  m_member : Str
  m_path : Str
  m_pathNamespace : Str
  m_destination : Str
  m_arg0Namespace : Str
  m_arg : Map Nat Str
  m_argPath : Map Nat Str
  deriving DecidableEq, Repr

namespace MatchRule

/-- `MatchRule::MaximumIndex`. -/
def MaximumIndex : Nat := 63

/-- `MatchRule()`: every member empty. -/
def new : MatchRule :=
  { m_type := [], m_sender := [], m_interface := [], m_member := [], m_path := [],
    m_pathNamespace := [], m_destination := [], m_arg0Namespace := [], m_arg := [],
    m_argPath := [] }

/-- The index of the first occurrence of `what` in a string, `none` when
there is none. -/
def firstIndex (what : Char) : Str → Option Nat
  | [] => none
  | c :: rest => if c = what then some 0 else (firstIndex what rest).map (fun i => i + 1)

/-- `value.find(what, pos)` for the one-character string `what`: the index of
the first occurrence at or after `pos`, `none` for `npos`. -/
def find (value : Str) (what : Char) (pos : Nat) : Option Nat :=
  (firstIndex what (value.drop pos)).map (fun i => i + pos)

/-- The loop of `escapeApostrophes`, `fuel` bounding the number of its
rounds: `value` and `pos` are the locals. -/
def escapeLoop : Nat → Str → Nat → Str
  | 0, value, _ => value
  | fuel + 1, value, pos =>
    match find value '\'' pos with
    | none => value
    | some p => escapeLoop fuel (value.take p ++ lit "'\\''" ++ value.drop (p + 1)) (p + 4)

/-- `escapeApostrophes(value)`: the string afterwards. Each round of the loop
consumes one apostrophe of the string, so one round more than the string has
characters is enough. -/
def escapeApostrophes (value : Str) : Str :=
  escapeLoop (value.length + 1) value 0

/-- `type(type)`. -/
def type (r : MatchRule) (type : RuleType) : MatchRule :=
  match type with
  | RuleType.MethodCall => { r with m_type := lit "method_call" }
  | RuleType.MethodReturn => { r with m_type := lit "method_return" }
  | RuleType.Signal => { r with m_type := lit "signal" }
  | RuleType.Error => { r with m_type := lit "error" }

/-- `sender(name)`, `name` being the string of the `BusName`. -/
def sender (r : MatchRule) (name : Str) : MatchRule := { r with m_sender := name }

/-- `interface(name)`. -/
def interface (r : MatchRule) (name : Str) : MatchRule := { r with m_interface := name }

/-- `member(name)`. -/
def member (r : MatchRule) (name : Str) : MatchRule := { r with m_member := name }

/-- `path(name)`: the exception thrown, if any, and the rule afterwards. -/
def path (r : MatchRule) (name : Str) : Option Thrown × MatchRule :=
  if !r.m_pathNamespace.isEmpty then
    (some "path and path_namespace are not allowed together.", r)
  else
    (none, { r with m_path := name })

/-- `pathNamespace(name)`: the exception thrown, if any, and the rule
afterwards. -/
def pathNamespace (r : MatchRule) (name : Str) : Option Thrown × MatchRule :=
  if !r.m_path.isEmpty then
    (some "path and path_namespace are not allowed together.", r)
  else
    (none, { r with m_pathNamespace := name })

/-- `destination(name)`. -/
def destination (r : MatchRule) (name : Str) : MatchRule := { r with m_destination := name }

/-- `arg0Namespace(name)`. -/
def arg0Namespace (r : MatchRule) (name : Str) : MatchRule :=
  { r with m_arg0Namespace := name }

/-- `arg(index, string)`: the exception thrown, if any, and the rule
afterwards. -/
def arg (r : MatchRule) (index : Nat) (string : Str) : Option Thrown × MatchRule :=
  if index > MaximumIndex then
    (some ("arg index exceeds " ++ toString MaximumIndex), r)
  else
    (none, { r with m_arg := r.m_arg.assign index (escapeApostrophes string) })

/-- `argPath(index, string)`: the exception thrown, if any, and the rule
afterwards. -/
def argPath (r : MatchRule) (index : Nat) (string : Str) : Option Thrown × MatchRule :=
  if index > MaximumIndex then
    (some ("arg path index exceeds " ++ toString MaximumIndex), r)
  else
    (none, { r with m_argPath := r.m_argPath.assign index (escapeApostrophes string) })

/-- One line `if (!member.empty()) matchRule << ",key='" << member << "'";`
of `str()`. -/
def put (matchRule : Str) (key : String) (member : Str) : Str :=
  if !member.isEmpty then matchRule ++ lit "," ++ lit key ++ lit "='" ++ member ++ lit "'"
  else matchRule

/-- `str()`. -/
def str (r : MatchRule) : Str :=
  let s1 := put [] "type" r.m_type
  let s2 := put s1 "sender" r.m_sender
  let s3 := put s2 "interface" r.m_interface
  let s4 := put s3 "member" r.m_member
  let s5 := put s4 "path" r.m_path
  let s6 := put s5 "path_namespace" r.m_pathNamespace
  let s7 := put s6 "destination" r.m_destination
  let s8 := put s7 "arg0namespace" r.m_arg0Namespace
  let s9 := r.m_arg.foldl
    (fun out it => out ++ lit ",arg" ++ lit (toString it.1) ++ lit "='" ++ it.2 ++ lit "'") s8
  let s10 := r.m_argPath.foldl
    (fun out it => out ++ lit ",arg" ++ lit (toString it.1) ++ lit "path='" ++ it.2 ++ lit "'") s9
  if s10.length = 0 then [] else s10.drop 1

/-- The rules that the builder calls make of `MatchRule()`. The arguments of
the calls that take a name are the strings of validated names. -/
inductive Built : MatchRule → Prop
  | new : Built MatchRule.new
  | type (r : MatchRule) (t : RuleType) : Built r → Built (r.type t)
  | sender (r : MatchRule) (name : Str) :
      Built r → BusName name = Except.ok name → Built (r.sender name)
  | interface (r : MatchRule) (name : Str) :
      Built r → InterfaceName name = Except.ok name → Built (r.interface name)
  | member (r : MatchRule) (name : Str) :
      Built r → MemberName name = Except.ok name → Built (r.member name)
  | path (r : MatchRule) (name : Str) :
      Built r → ObjectPath.ctor name = Except.ok name → Built (r.path name).2
  | pathNamespace (r : MatchRule) (name : Str) :
      Built r → ObjectPath.ctor name = Except.ok name → Built (r.pathNamespace name).2
  | destination (r : MatchRule) (name : Str) :
      Built r → UniqueName name = Except.ok name → Built (r.destination name)
  | arg0Namespace (r : MatchRule) (name : Str) :
      Built r → NamespaceName name = Except.ok name → Built (r.arg0Namespace name)
  | arg (r : MatchRule) (index : Nat) (string : Str) :
      Built r → index < 256 → Built (r.arg index string).2
  | argPath (r : MatchRule) (index : Nat) (string : Str) :
      Built r → index < 256 → Built (r.argPath index string).2

/-- A string with every apostrophe replaced by the four characters `'\''`
and every other character left as it is. -/
def replaceApostrophes : Str → Str
  | [] => []
  | c :: rest =>
    if c = '\'' then '\'' :: '\\' :: '\'' :: '\'' :: replaceApostrophes rest
    else c :: replaceApostrophes rest

/-- The strings of `parts` joined by single commas. -/
def joinComma : List Str → Str
  | [] => []
  | [part] => part
  | part :: rest => part ++ ',' :: joinComma rest

/-- The entry `key='value'`. -/
def renderEntry (entry : Str × Str) : Str :=
  entry.1 ++ lit "='" ++ entry.2 ++ lit "'"

/-- One key of the fixed order: listed when its value is set, that is not
empty. -/
def entry (key : String) (value : Str) : List (Str × Str) :=
  if value = [] then [] else [(lit key, value)]

/-- The keys that are set in a rule, with their values, in the documented
order: type, sender, interface, member, path, path_namespace, destination,
arg0namespace, then `argN` for `N` from 0 to 63, then `argNpath` for `N` from
0 to 63. -/
def entries (r : MatchRule) : List (Str × Str) :=
  entry "type" r.m_type ++ entry "sender" r.m_sender ++ entry "interface" r.m_interface ++
  entry "member" r.m_member ++ entry "path" r.m_path ++
  entry "path_namespace" r.m_pathNamespace ++ entry "destination" r.m_destination ++
  entry "arg0namespace" r.m_arg0Namespace ++
  (List.range 64).filterMap
    (fun n => (r.m_arg.find n).map (fun v => (lit "arg" ++ lit (toString n), v))) ++
  (List.range 64).filterMap
    (fun n => (r.m_argPath.find n).map
      (fun v => (lit "arg" ++ lit (toString n) ++ lit "path", v)))

/-- A rule built with calls in an order other than the order of the keys. -/
def exampleRule : MatchRule :=
  (((((MatchRule.new.arg 42 (lit "bar")).2.argPath 3 (lit "/it's")).2.member
    (lit "Changed")).arg 0 (lit "foo")).2.type RuleType.Signal).sender (lit ":1.234")

end MatchRule

/-- The keys of a map in strictly ascending order, as a `std::map` keeps
them. -/
def Map.Ascending {V : Type} (m : Map Nat V) : Prop :=
  List.Pairwise (fun a b => a.1 < b.1) m

/-! ## Outgoing method calls (`dbus_message.cpp`) -/

namespace Message

/-- `Flag::NoReplyExpected`. -/
def Flag.NoReplyExpected : Nat := 0x01

/-- `Flag::NoAutoStart`. -/
def Flag.NoAutoStart : Nat := 0x02

/-- `Flag::AllowInteractiveAuthorization`. -/
def Flag.AllowInteractiveAuthorization : Nat := 0x04

/-- `Flag::_Mask`. -/
def Flag._Mask : Nat := 0x07

/-- `Header()`: the default member initialisers of the header. -/
def Header.defaultCtor : Header :=
  { type := MessageType.Invalid, flags := 0, bodySize := 0, serial := 0, path := [],
    interface := [], member := [], errorName := [], replySerial := 0, destination := [],
    signature := Signature.default, sender := [], unixFds := 0 }

/-- `struct Identifier`: the path, the interface and the member of a method
call or a signal. -/
structure Identifier where
  path : Str
  interface : Str
  member : Str

/-- The members of a `Message`, and the lines that its constructor logged. -/
structure Members where
  m_Header : Header
  m_Parameters : List Any
  logged : List Text

/-- The constructor of an outgoing `MethodCall`. `flags` is a `uint32_t`;
the operand `~AllowInteractiveAuthorization` is the `int` -5, which converts
to the 32-bit pattern `2^32 - 5`; the member `flags` of the header is a
`uint8_t`, so the assignment keeps the low eight bits. -/
def MethodCall.ctor (destination : Str) (name : Identifier) (params : List Any)
    (flags : Nat) : Members :=
  let interactive := flags &&& Flag.AllowInteractiveAuthorization != 0
  let logged :=
    if interactive then ["DBus :: ALLOW_INTERACTIVE_AUTHORIZATION is not supported."] else []
  let flags1 :=
    if interactive then flags &&& (2 ^ 32 - 1 - Flag.AllowInteractiveAuthorization) else flags
  -- Ignore any extraneous flags, also.
  let flags2 := flags1 &&& Flag._Mask
  { m_Header :=
      { Header.defaultCtor with
        flags := flags2 % 2 ^ 8
        type := MessageType.MethodCall
        destination := destination
        path := name.path
        interface := name.interface
        member := name.member }
    m_Parameters := params
    logged := logged }

end Message

/-! ## The authentication handshake (`dbus_auth.h`, `dbus_auth.cpp`) -/

/-- `enum State` of the authentication protocol. -/
inductive AuthenticationProtocol.State
  | Starting
  | SendingCredentials
  | WaitingForData
  | WaitingForOK
  | WaitingForReject
  | WaitingForAgreeUnixFD
  | Finishing
  deriving DecidableEq, Repr

/-- `enum Command` of the authentication protocol. -/
inductive AuthenticationProtocol.Command
  | OK
  | DATA
  | ERROR
  | REJECTED
  | AGREE_UNIX_FD
  | UNKNOWN
  deriving DecidableEq, Repr

/-- `struct Statistics`. The counters are `std::size_t`; they are kept as
natural numbers. -/
structure AuthenticationProtocol.Statistics where
  count_send : Nat
  count_recv : Nat
  bytes_send : Nat
  bytes_recv : Nat
  deriving DecidableEq, Repr

/-- An `error_code` that is set: `errc::protocol_error`, or a code that the
transport reported. -/
inductive AuthenticationProtocol.Errc
  | protocol_error
  | transport (value : Nat)
  deriving DecidableEq, Repr

/-- What one run of the composed operation of `asyncAuthenticate` ends with:
an exchange started on the transport with the bytes of `m_data`, or the
completion of the operation with an `error_code` (`none` when it is not set)
and a guid. -/
inductive AuthenticationProtocol.Step
  | exchange (expectResponse : Bool) (buffer : Str)
  | complete (error : Option AuthenticationProtocol.Errc) (guid : Str)
  deriving DecidableEq, Repr

/-- The data members of `AuthenticationProtocol` that the handshake reads and
writes (`m_buffer` is the dynamic buffer over `m_data`). -/
structure AuthenticationProtocol where
  m_state : AuthenticationProtocol.State
  m_data : Str
  m_server_guid : Str
  m_unixFdNegotiated : Bool
  m_stats : AuthenticationProtocol.Statistics
  deriving DecidableEq, Repr

namespace AuthenticationProtocol

/-- The array `m_commands`. -/
def m_commands : List (Str × Command) :=
  [(lit "OK", Command.OK),
   (lit "DATA", Command.DATA),
   (lit "ERROR", Command.ERROR),
   (lit "REJECTED", Command.REJECTED),
   (lit "AGREE_UNIX_FD", Command.AGREE_UNIX_FD)]

/-- The loop of `extractCommand` over the entries of `m_commands` that are
still to be tried: the command returned and the response afterwards. -/
def extractLoop : List (Str × Command) → Str → Command × Str
  | [], response => (Command.UNKNOWN, response)
  | c :: rest, response =>
    let cmdSize := c.1.length
    if response.take cmdSize != c.1 then
      extractLoop rest response
    else if response.length > cmdSize then
      if response.get? cmdSize != some ' ' then
        extractLoop rest response
      else
        -- erase command from response
        (c.2, response.drop (cmdSize + 1))
    else
      (c.2, response.drop cmdSize)

/-- `extractCommand(response)`: the command returned and the response
afterwards. -/
def extractCommand (response : Str) : Command × Str :=
  extractLoop m_commands response

/-- The two hexadecimal digits that `hexout << std::setw(2) << value` writes
with the fill character `0`; a value above 255 takes the digits it needs. -/
def toHexByte (value : Nat) : Str :=
  let digits := Nat.toDigits 16 value
  if digits.length < 2 then '0' :: digits else digits

/-- `toHex(input)`, for the bytes below 128, which are all that `sendAuth`
passes (the decimal digits of the uid); `static_cast<unsigned>` of a larger
plain `char` depends on the signedness of `char`. -/
def toHex (input : Str) : Str :=
  (input.map (fun ch => toHexByte ch.toNat)).flatten

/-- `sendCommand(expectResponse, command, handler)`: the command is counted,
moved into `m_data`, and the exchange is started on the transport. -/
def sendCommand (self : AuthenticationProtocol) (expectResponse : Bool) (command : Str) :
    AuthenticationProtocol × Step :=
  ({ self with
      m_stats :=
        { self.m_stats with
          count_send := self.m_stats.count_send + 1
          bytes_send := self.m_stats.bytes_send + command.length }
      m_data := command },
    Step.exchange expectResponse command)

/-- `sendCredentials(handler)`. -/
def sendCredentials (self : AuthenticationProtocol) : AuthenticationProtocol × Step :=
  -- No credentials sent here, but we have to send the null byte anyway
  let sent := self.sendCommand false [Char.ofNat 0]
  ({ sent.1 with m_state := State.SendingCredentials }, sent.2)

/-- `sendAuth(handler)`, where `uid` is what `Platform::getUID()` returns. -/
def sendAuth (self : AuthenticationProtocol) (uid : Nat) : AuthenticationProtocol × Step :=
  let cmd := lit "AUTH EXTERNAL " ++ toHex (Nat.repr uid).data ++ lit "\r\n"
  let sent := self.sendCommand true cmd
  ({ sent.1 with m_state := State.WaitingForOK }, sent.2)

/-- `sendNegotiateUnixFD(handler)`. -/
def sendNegotiateUnixFD (self : AuthenticationProtocol) : AuthenticationProtocol × Step :=
  let sent := self.sendCommand true (lit "NEGOTIATE_UNIX_FD\r\n")
  ({ sent.1 with m_state := State.WaitingForAgreeUnixFD }, sent.2)

/-- `sendError(message, handler)`. -/
def sendError (self : AuthenticationProtocol) (message : Str) : AuthenticationProtocol × Step :=
  let cmd := lit "ERROR" ++ (if message.length ≠ 0 then ' ' :: message else []) ++ lit "\r\n"
  let sent := self.sendCommand true cmd
  ({ sent.1 with m_state := State.WaitingForData }, sent.2)

/-- `sendCancel(handler)`. -/
def sendCancel (self : AuthenticationProtocol) : AuthenticationProtocol × Step :=
  let sent := self.sendCommand true (lit "CANCEL\r\n")
  ({ sent.1 with m_state := State.WaitingForReject }, sent.2)

/-- `sendBegin(handler)`. -/
def sendBegin (self : AuthenticationProtocol) : AuthenticationProtocol × Step :=
  let sent := self.sendCommand false (lit "BEGIN\r\n")
  ({ sent.1 with m_state := State.Finishing }, sent.2)

/-- The head of the lambda of `asyncAuthenticate`: a size that is not zero
is counted. -/
def received (self : AuthenticationProtocol) (size : Nat) : AuthenticationProtocol :=
  if size ≠ 0 then
    { self with
      m_stats :=
        { self.m_stats with
          count_recv := self.m_stats.count_recv + 1
          bytes_recv := self.m_stats.bytes_recv + size } }
  else self

/-- The lambda of `asyncAuthenticate` when it is entered with an `error_code`
that is set: the operation completes with the error and the empty guid. -/
def failed (self : AuthenticationProtocol) (error : Errc) (size : Nat) :
    AuthenticationProtocol × Step :=
  (self.received size, Step.complete (some error) [])

/-- `handleOk(guid, handler)`. -/
def handleOk (self : AuthenticationProtocol) (guid : Str) : AuthenticationProtocol × Step :=
  sendNegotiateUnixFD { self with m_server_guid := guid }

/-- `handleError(message, handler)`. -/
def handleError (self : AuthenticationProtocol) (_message : Str) :
    AuthenticationProtocol × Step :=
  self.sendCancel

/-- `handleRejected(message, handler)`: the handler, which is the composed
operation, is called with `errc::protocol_error` and the size 0. -/
def handleRejected (self : AuthenticationProtocol) (_message : Str) :
    AuthenticationProtocol × Step :=
  self.failed Errc.protocol_error 0

/-- `handleAgreeUniXFD(handler)`. -/
def handleAgreeUniXFD (self : AuthenticationProtocol) : AuthenticationProtocol × Step :=
  sendBegin { self with m_unixFdNegotiated := true }

/-- `handleData(data, handler)`. -/
def handleData (self : AuthenticationProtocol) (_data : Str) : AuthenticationProtocol × Step :=
  self.sendCancel

/-- The chain of tests on `m_state` in the lambda of `asyncAuthenticate`,
entered with the command that was parsed; `response` is `m_data`. -/
def dispatch (uid : Nat) (self : AuthenticationProtocol) (command : Command) :
    AuthenticationProtocol × Step :=
  let response := self.m_data
  if self.m_state = State.Starting then
    self.sendCredentials
  else if self.m_state = State.SendingCredentials then
    self.sendAuth uid
  else if self.m_state = State.WaitingForData then
    if command = Command.DATA then
      self.handleData response
    else if command = Command.REJECTED then
      self.handleRejected response
    else if command = Command.ERROR then
      self.handleError response
    else if command = Command.OK then
      self.handleOk response
    else
      self.sendError response
  else if self.m_state = State.WaitingForOK then
    if command = Command.OK then
      self.handleOk response
    else if command = Command.REJECTED then
      self.handleRejected response
    else if command = Command.DATA ∨ command = Command.ERROR then
      self.sendCancel
    else
      self.sendError response
  else if self.m_state = State.WaitingForReject then
    if command = Command.REJECTED then
      self.handleRejected response
    else
      (self, Step.complete (some Errc.protocol_error) [])
  else if self.m_state = State.WaitingForAgreeUnixFD then
    if command = Command.AGREE_UNIX_FD then
      self.handleAgreeUniXFD
    else
      self.sendBegin
  else if self.m_state = State.Finishing then
    (self, Step.complete none self.m_server_guid)
  else
    (self, Step.complete (some Errc.protocol_error) [])

/-- The lambda of `asyncAuthenticate`, entered with `error` and `size`. -/
def resume (uid : Nat) (self : AuthenticationProtocol) (error : Option Errc) (size : Nat) :
    AuthenticationProtocol × Step :=
  match error with
  | some e => self.failed e size
  | none =>
    let self1 := self.received size
    if self1.m_data.length ≠ 0 then
      if self1.m_data.length < 3 then
        (self1, Step.complete (some Errc.protocol_error) [])
      else
        -- remove trailing \r\n
        let parsed := extractCommand (self1.m_data.take (self1.m_data.length - 2))
        dispatch uid { self1 with m_data := parsed.2 } parsed.1
    else
      dispatch uid self1 Command.UNKNOWN

/-- `asyncAuthenticate(transport, token)` up to the first run of the lambda:
the state is reset and the guid cleared. -/
def asyncAuthenticate (uid : Nat) (self : AuthenticationProtocol) :
    AuthenticationProtocol × Step :=
  resume uid { self with m_state := State.Starting, m_server_guid := [] } none 0

/-- A protocol object as its constructor leaves it. -/
def create : AuthenticationProtocol :=
  { m_state := State.Starting, m_data := [], m_server_guid := [],
    m_unixFdNegotiated := false,
    m_stats := { count_send := 0, count_recv := 0, bytes_send := 0, bytes_recv := 0 } }

/-- What the transport leaves in `m_data` when it calls the lambda again
without an error: `async_write` consumes the bytes written, and
`async_read_until` appends the `line` read (nothing is read when no response is
expected). The size passed is the number of bytes of the last operation. -/
def exchanged (uid : Nat) (self : AuthenticationProtocol) (sent : Step) (line : Str) :
    AuthenticationProtocol × Step :=
  match sent with
  | Step.exchange true _ => resume uid { self with m_data := line } none line.length
  | Step.exchange false buffer => resume uid { self with m_data := [] } none buffer.length
  | Step.complete _ _ => (self, sent)

/-- A token qualifies for a response when it is a prefix of the response and
the response is the token itself or has a space right after the token. -/
def qualifies (t : Str) (r : Str) : Bool :=
  t.isPrefixOf r && (r == t || r.get? t.length == some ' ')

/-- A run of the lambda sends `line` on the transport, with or without
expecting a response, and leaves the state `next`. -/
def Sends (result : AuthenticationProtocol × Step) (expectResponse : Bool) (line : Str)
    (next : State) : Prop :=
  result.2 = Step.exchange expectResponse line ∧ result.1.m_data = line ∧
    result.1.m_state = next

/-- A run of the lambda completes the operation with `errc::protocol_error`
and the empty guid. -/
def Fails (result : AuthenticationProtocol × Step) : Prop :=
  result.2 = Step.complete (some Errc.protocol_error) []

/-- The line that `sendError(message)` sends. -/
def errorLine (message : Str) : Str :=
  lit "ERROR" ++ (if message.length ≠ 0 then ' ' :: message else []) ++ lit "\r\n"

end AuthenticationProtocol

/-! ## The key that a dispatch selects (`dbus_messageprotocol.h`) -/

namespace MessageProtocol

variable {H Msg Err : Type}

/-- The key under which `invokeMethodCallHandler(interface, _)` finds its
handler: the first of the full name, the name before its last period and the
empty string that has an entry. -/
def methodCallKey (p : MessageProtocol H Msg Err) (interface : Str) : Option Str :=
  if (p.m_methodCallHandlers.find interface).isSome then some interface
  else if (p.m_methodCallHandlers.find (anyMethod interface)).isSome then
    some (anyMethod interface)
  else if (p.m_methodCallHandlers.find []).isSome then some []
  else none

/-- The key under which `invokeSignalHandler(name, _)` finds its handler. -/
def signalKey (p : MessageProtocol H Msg Err) (name : Str) : Option Str :=
  if (p.m_signalHandlers.find name).isSome then some name
  else if (p.m_signalHandlers.find []).isSome then some []
  else none

/-- No key of the three handler tables has two entries, which is what
`std::map` guarantees. -/
def UniqueKeys (p : MessageProtocol H Msg Err) : Prop :=
  (p.m_methodReturnHandlers.map Prod.fst).Nodup ∧
  (p.m_methodCallHandlers.map Prod.fst).Nodup ∧
  (p.m_signalHandlers.map Prod.fst).Nodup

end MessageProtocol

/-- A multiplexer that holds one handler in each table: a reply handler under
the serial 1, a method-call handler under `a.b` and a signal handler under the
empty name. -/
def fullProtocol : MessageProtocol String Unit String :=
  (((MessageProtocol.initial.sendMethodCall 1 true "reply").1.receiveMethodCall
    (lit "a.b") "call").receiveSignal [] "signal")

/-! ## Runs of the authentication handshake -/

namespace AuthenticationProtocol

/-- What the transport reports when an exchange completes: no error, with
the line that was read if a response was expected, or an error and the number
of bytes transferred. -/
inductive Completion
  | ok (line : Str)
  | error (e : Errc) (size : Nat)
  deriving DecidableEq, Repr

/-- The state chain of the lambda as seen from outside: the state in which
the lambda is entered and the command it parses, when it gets as far as the
tests on the state (no error, and no response of one or two bytes). -/
def observed (self : AuthenticationProtocol) (error : Option Errc) : Option (State × Command) :=
  match error with
  | some _ => none
  | none =>
    if self.m_data.length ≠ 0 then
      if self.m_data.length < 3 then none
      else some (self.m_state, (extractCommand (self.m_data.take (self.m_data.length - 2))).1)
    else some (self.m_state, Command.UNKNOWN)

/-- A handshake under way: the protocol object, what the last run of the
lambda ended with, and the states and commands that the state chain has seen
so far, oldest first. -/
structure Run where
  self : AuthenticationProtocol
  step : Step
  seen : List (State × Command)

/-- How the lambda is entered when the exchange that is under way completes:
the object with what the transport left in `m_data`, the error and the size
(see `exchanged`). -/
def Run.entered (self : AuthenticationProtocol) (expectResponse : Bool) (buffer : Str)
    (c : Completion) : AuthenticationProtocol × Option Errc × Nat :=
  match c with
  | Completion.error e size => (self, some e, size)
  | Completion.ok line =>
    if expectResponse then ({ self with m_data := line }, none, line.length)
    else ({ self with m_data := [] }, none, buffer.length)

/-- The next run of the lambda; a handshake that has completed stays as it
is. -/
def Run.next (uid : Nat) (r : Run) (c : Completion) : Run :=
  match r.step with
  | Step.complete _ _ => r
  | Step.exchange expectResponse buffer =>
    let e := Run.entered r.self expectResponse buffer c
    let out := resume uid e.1 e.2.1 e.2.2
    { self := out.1, step := out.2, seen := r.seen ++ (observed e.1 e.2.1).toList }

/-- The first run of the lambda, from `asyncAuthenticate`. -/
def Run.start (uid : Nat) (self : AuthenticationProtocol) : Run :=
  let out := asyncAuthenticate uid self
  { self := out.1, step := out.2,
    seen := (observed { self with m_state := State.Starting, m_server_guid := [] } none).toList }

/-- The handshake after the completions `cs` of its exchanges. -/
def run (uid : Nat) (self : AuthenticationProtocol) (cs : List Completion) : Run :=
  cs.foldl (Run.next uid) (Run.start uid self)

/-- An `OK` has been seen in the state `WaitingForOK` or `WaitingForData`. -/
def OkSeen (seen : List (State × Command)) : Prop :=
  (State.WaitingForOK, Command.OK) ∈ seen ∨ (State.WaitingForData, Command.OK) ∈ seen

/-- What every run of the lambda keeps: success only from `Finishing`, and
the states `WaitingForAgreeUnixFD` and `Finishing` only after an `OK`. -/
def RunInv (r : Run) : Prop :=
  (∀ g, r.step = Step.complete none g → OkSeen r.seen) ∧
  (∀ b l, r.step = Step.exchange b l →
    (r.self.m_state = State.WaitingForAgreeUnixFD ∨ r.self.m_state = State.Finishing) →
    OkSeen r.seen)

/-- The completions of a handshake that the server accepts. -/
def acceptedRun : List Completion :=
  [Completion.ok [], Completion.ok (lit "OK 1234deadbeef\r\n"),
   Completion.ok (lit "AGREE_UNIX_FD\r\n"), Completion.ok []]

/-- The completions of a handshake that the server rejects. -/
def rejectedRun : List Completion :=
  [Completion.ok [], Completion.ok (lit "REJECTED EXTERNAL\r\n")]

end AuthenticationProtocol

/-! ## The rounds of the escaping loop (`dbus_matchrule.cpp`) -/

namespace MatchRule

/-- The loop of `escapeApostrophes` with its rounds counted: `none` when the
loop has not been left after `fuel` evaluations of its condition, otherwise the
string with which it is left. -/
def escapeRounds : Nat → Str → Nat → Option Str
  | 0, _, _ => none
  | fuel + 1, value, pos =>
    match find value '\'' pos with
    | none => some value
    | some p => escapeRounds fuel (value.take p ++ lit "'\\''" ++ value.drop (p + 1)) (p + 4)

end MatchRule

/-! ## The characters of validated names -/

/-- The letters, the digits and the characters `_`, `.`, `:`, `/` and `-`. -/
def isNameChar (ch : Char) : Bool :=
  Name.isUpper ch || Name.isLower ch || Name.isDigit ch ||
    ch == '_' || ch == '.' || ch == ':' || ch == '/' || ch == '-'

/-- The entries of the keys whose values are validated names or object
paths, in the order in which `str()` lists them. -/
def MatchRule.nameEntries (r : MatchRule) : List (Str × Str) :=
  MatchRule.entry "sender" r.m_sender ++ MatchRule.entry "interface" r.m_interface ++
  MatchRule.entry "member" r.m_member ++ MatchRule.entry "path" r.m_path ++
  MatchRule.entry "path_namespace" r.m_pathNamespace ++
  MatchRule.entry "destination" r.m_destination ++
  MatchRule.entry "arg0namespace" r.m_arg0Namespace

/-! ## Arrays and the signature of their elements (`dbus_type_array.cpp`) -/

/-- Every element of `m_contents` has the signature `m_signature`. -/
def Any.Array.Homogeneous (m_signature : Str) (m_contents : List Any) : Prop :=
  ∀ elem ∈ m_contents, elem.getSignature = Except.ok m_signature

/-- The arrays that the constructors and `add` make: `Array()`, whose
signature is empty, `Array(signature)`, whose signature is `signature.substr(1)`
(here `m_signature`), and the array after an `add` that returns. -/
inductive Any.Array.Added : Str → List Any → Prop
  | ctor (m_signature : Str) : Any.Array.Added m_signature []
  | add (m_signature : Str) (m_contents : List Any) (v : Any) (signature : Str)
      (contents : List Any) :
      Any.Array.Added m_signature m_contents →
      Any.Array.add m_signature m_contents v = Except.ok (signature, contents) →
      Any.Array.Added signature contents

/-- The bytes of a variant whose signature is `aii`, followed by an array of
four bytes of content that hold the 32-bit integer 5. -/
def mixedArrayBytes : List Nat := [3, 97, 105, 105, 0, 0, 0, 0, 4, 0, 0, 0, 5, 0, 0, 0]

/-! ## Marshalling a message (`dbus_message.cpp`) -/

/-- `MessageOStream::write(other)`: the bytes of `other` are appended and its
descriptors taken over; a stream that holds descriptors already throws. -/
def MessageOStream.write (s other : MessageOStream) : Except Thrown MessageOStream :=
  if s.fds.length ≠ 0 then
    Except.error "internal error: overwriting UnixFds"
  else
    Except.ok { data := s.data ++ other.data, fds := other.fds }

namespace Message

/-- `Parameters::getSignature()`: the signatures of the parameters, appended
in their order. -/
def Parameters.getSignature : List Any → Except Thrown Str
  | [] => Except.ok []
  | type :: rest =>
    match type.getSignature with
    | Except.error e => Except.error e
    | Except.ok signature =>
      match Parameters.getSignature rest with
      | Except.error e => Except.error e
      | Except.ok more => Except.ok (signature ++ more)

/-- `Parameters::marshall(stream)`. -/
def Parameters.marshall (m_parameters : List Any) (stream : MessageOStream) :
    Except Thrown MessageOStream :=
  Any.marshallAll m_parameters stream

/-- The local `header` of `Message::marshall` after its four assignments;
`bodySize` and `unixFds` are `uint32_t` members that receive a `std::size_t`.
The assignment of the `std::string` to `header.signature` constructs a
`Signature`, which is the argument `signature` here. -/
def headerFor (m : Members) (serial : Nat) (signature : Signature) (body : MessageOStream) :
    Header :=
  { m.m_Header with
    serial := serial
    signature := signature
    bodySize := body.data.length % 2 ^ 32
    unixFds := body.fds.length % 2 ^ 32 }

/-- `Message::marshall(serial)`: the packet, or the exception thrown. The
trace output is not part of the model. -/
def marshall (m : Members) (serial : Nat) : Except Thrown MessageOStream :=
  match Parameters.marshall m.m_Parameters MessageOStream.empty with
  | Except.error e => Except.error e
  | Except.ok body =>
    match Parameters.getSignature m.m_Parameters with
    | Except.error e => Except.error e
    | Except.ok text =>
      match Signature.ctor text 0 with
      | Except.error e => Except.error e
      | Except.ok signature =>
        match (headerFor m serial signature body).marshall MessageOStream.empty with
        | Except.error e => Except.error e
        | Except.ok headerData =>
          match MessageOStream.empty.write headerData with
          | Except.error e => Except.error e
          | Except.ok packet => packet.write body

/-- The struct `(yv)` that `Fields::add(type, value)` adds to the array of
header fields. -/
def Header.fieldEntry (type : Nat) (value : Any) : Any :=
  Any.Struct { m_typeCodeIndex := 0, m_Value := ['y', 'v'] } [Any.Byte type, Any.Variant value]

/-- The header fields in the order in which the constructor of `Fields` adds
them, each present when its member is set: Destination (6), Path (1),
Interface (2), Member (3), ErrorName (4), ReplySerial (5), Sender (7),
Signature (8), UnixFds (9). -/
def Header.fieldEntries (header : Header) : List Any :=
  (if !header.destination.isEmpty then [Header.fieldEntry 6 (Any.String header.destination)]
    else []) ++
  (if !header.path.isEmpty then [Header.fieldEntry 1 (Any.ObjectPath header.path)] else []) ++
  (if !header.interface.isEmpty then [Header.fieldEntry 2 (Any.String header.interface)]
    else []) ++
  (if !header.member.isEmpty then [Header.fieldEntry 3 (Any.String header.member)] else []) ++
  (if !header.errorName.isEmpty then [Header.fieldEntry 4 (Any.String header.errorName)]
    else []) ++
  (if header.replySerial != 0 then [Header.fieldEntry 5 (Any.Uint32 header.replySerial)]
    else []) ++
  (if !header.sender.isEmpty then [Header.fieldEntry 7 (Any.String header.sender)] else []) ++
  (if !header.signature.m_Value.isEmpty then
    [Header.fieldEntry 8 (Any.Signature header.signature)] else []) ++
  (if header.unixFds > 0 then [Header.fieldEntry 9 (Any.Uint32 header.unixFds)] else [])

/-- The twelve bytes of a marshalled header that come before the array of
header fields: the marker `l`, the type, the flags, the version 1, the body
size and the serial. -/
def Header.fixedPart (header : Header) : List Nat :=
  [108, header.type.toNat % 256, header.flags % 256, 1] ++
    leBytes 4 (header.bodySize % 2 ^ 32) ++ leBytes 4 (header.serial % 2 ^ 32)

/-- The method call `a.b.M` on the object `/o` of the bus name `a.b`, with
the parameters `params` and no flags. -/
def exampleCall (params : List Any) : Members :=
  MethodCall.ctor (lit "a.b") { path := lit "/o", interface := lit "a.b", member := lit "M" }
    params 0

end Message

namespace Message

/-- The packet of the method call `exampleCall` with the string `hi` and a
variant that holds the descriptor 7, marshalled with the serial 9: a header of
96 bytes and a body of 16 bytes. -/
def examplePacket : MessageOStream :=
  { data := [108, 1, 0, 1, 16, 0, 0, 0, 9, 0, 0, 0, 80, 0, 0, 0,
      6, 1, 115, 0, 3, 0, 0, 0, 97, 46, 98, 0, 0, 0, 0, 0,
      1, 1, 111, 0, 2, 0, 0, 0, 47, 111, 0, 0, 0, 0, 0, 0,
      2, 1, 115, 0, 3, 0, 0, 0, 97, 46, 98, 0, 0, 0, 0, 0,
      3, 1, 115, 0, 1, 0, 0, 0, 77, 0, 0, 0, 0, 0, 0, 0,
      8, 1, 103, 0, 2, 115, 118, 0, 9, 1, 117, 0, 1, 0, 0, 0,
      2, 0, 0, 0, 104, 105, 0, 1, 104, 0, 0, 0, 0, 0, 0, 0],
    fds := [7] }

/-- A string of 134217728 characters, each the letter `a`. -/
def bigText : Str := List.replicate 134217728 'a'

/-- The header that `Message::marshall` fills in for the method call
`exampleCall` with the one parameter `bigText` and the serial 1: the body is
134217733 bytes long (the length, the characters and the NUL). -/
def bigHeader : Header :=
  { type := MessageType.MethodCall, flags := 0, bodySize := 134217733, serial := 1,
    path := lit "/o", interface := lit "a.b", member := lit "M", errorName := [],
    replySerial := 0, destination := lit "a.b",
    signature := { m_typeCodeIndex := 0, m_Value := ['s'] }, sender := [], unixFds := 0 }

/-- The 88 bytes of `bigHeader` as marshalled. -/
def bigHeaderData : MessageOStream :=
  { data := [108, 1, 0, 1, 5, 0, 0, 8, 1, 0, 0, 0, 71, 0, 0, 0,
      6, 1, 115, 0, 3, 0, 0, 0, 97, 46, 98, 0, 0, 0, 0, 0,
      1, 1, 111, 0, 2, 0, 0, 0, 47, 111, 0, 0, 0, 0, 0, 0,
      2, 1, 115, 0, 3, 0, 0, 0, 97, 46, 98, 0, 0, 0, 0, 0,
      3, 1, 115, 0, 1, 0, 0, 0, 77, 0, 0, 0, 0, 0, 0, 0,
      8, 1, 103, 0, 1, 115, 0, 0],
    fds := [] }

end Message

namespace Message

/-- A string of 4294967296 characters, each the letter `a`. -/
def hugeText : Str := List.replicate 4294967296 'a'

/-- The header that `Message::marshall` fills in for the method call
`exampleCall` with the one parameter `hugeText` and the serial 1: the body is
4294967301 bytes long, and the 32-bit member `bodySize` receives 5. -/
def hugeHeader : Header :=
  { type := MessageType.MethodCall, flags := 0, bodySize := 5, serial := 1,
    path := lit "/o", interface := lit "a.b", member := lit "M", errorName := [],
    replySerial := 0, destination := lit "a.b",
    signature := { m_typeCodeIndex := 0, m_Value := ['s'] }, sender := [], unixFds := 0 }

/-- The 88 bytes of `hugeHeader` as marshalled. -/
def hugeHeaderData : MessageOStream :=
  { data := [108, 1, 0, 1, 5, 0, 0, 0, 1, 0, 0, 0, 71, 0, 0, 0,
      6, 1, 115, 0, 3, 0, 0, 0, 97, 46, 98, 0, 0, 0, 0, 0,
      1, 1, 111, 0, 2, 0, 0, 0, 47, 111, 0, 0, 0, 0, 0, 0,
      2, 1, 115, 0, 3, 0, 0, 0, 97, 46, 98, 0, 0, 0, 0, 0,
      3, 1, 115, 0, 1, 0, 0, 0, 77, 0, 0, 0, 0, 0, 0, 0,
      8, 1, 103, 0, 1, 115, 0, 0],
    fds := [] }

end Message

/-! ## Outgoing replies and errors (`dbus_message.cpp`) -/

namespace Message

/-- The constructor of an outgoing `MethodReturn`,
`MethodReturn(destination, replySerial)`; `destination` is the string of the
`BusName`. -/
def MethodReturn.ctor (destination : Str) (replySerial : Nat) : Members :=
  { m_Header :=
      { Header.defaultCtor with
        flags := Flag.NoReplyExpected
        type := MessageType.MethodReturn
        destination := destination
        replySerial := replySerial }
    m_Parameters := []
    logged := [] }

/-- The constructor of an outgoing `Error`,
`Error(destination, replySerial, name, message)`; `destination` and `name` are
the strings of the `BusName` and of the `ErrorName`. -/
def Error.ctor (destination : Str) (replySerial : Nat) (name : Str) (message : Str) : Members :=
  { m_Header :=
      { Header.defaultCtor with
        flags := Flag.NoReplyExpected
        type := MessageType.Error
        destination := destination
        replySerial := replySerial
        errorName := name }
    m_Parameters := [Any.String message]
    logged := [] }

end Message

/-! ## Chains of builder calls on a match rule (`dbus_matchrule.cpp`) -/

namespace MatchRule

/-- One call of the builder, with its arguments. -/
inductive Call
  | type (type : RuleType)
  | sender (name : Str)
  | interface (name : Str)
  | member (name : Str)
  | path (name : Str)
  | pathNamespace (name : Str)
  | destination (name : Str)
  | arg0Namespace (name : Str)
  | arg (index : Nat) (string : Str)
  | argPath (index : Nat) (string : Str)
  deriving DecidableEq, Repr

/-- The arguments of a call are values of its parameter types: the string of
a validated name of the class that the function takes, an index of eight
bits. -/
def Call.WellTyped : Call → Prop
  | Call.type _ => True
  | Call.sender name => BusName name = Except.ok name
  | Call.interface name => InterfaceName name = Except.ok name
  | Call.member name => MemberName name = Except.ok name
  | Call.path name => ObjectPath.ctor name = Except.ok name
  | Call.pathNamespace name => ObjectPath.ctor name = Except.ok name
  | Call.destination name => UniqueName name = Except.ok name
  | Call.arg0Namespace name => NamespaceName name = Except.ok name
  | Call.arg index _ => index < 256
  | Call.argPath index _ => index < 256

/-- The call `c` made on the rule `r`: the exception thrown, if any, and the
rule afterwards. -/
def call (r : MatchRule) : Call → Option Thrown × MatchRule
  | Call.type t => (none, r.type t)
  | Call.sender name => (none, r.sender name)
  | Call.interface name => (none, r.interface name)
  | Call.member name => (none, r.member name)
  | Call.path name => r.path name
  | Call.pathNamespace name => r.pathNamespace name
  | Call.destination name => (none, r.destination name)
  | Call.arg0Namespace name => (none, r.arg0Namespace name)
  | Call.arg index string => r.arg index string
  | Call.argPath index string => r.argPath index string

/-- A chain of calls `r.a(...).b(...)`, each made on the rule that the call
before it returned: the rule at the end, or the first exception thrown. -/
def build : List Call → MatchRule → Except Thrown MatchRule
  | [], r => Except.ok r
  | c :: rest, r =>
    match r.call c with
    | (some e, _) => Except.error e
    | (none, r1) => build rest r1

/-- The keys of a match rule. -/
inductive Key
  | type
  | sender
  | interface
  | member
  | path
  | pathNamespace
  | destination
  | arg0Namespace
  | arg (index : Nat)
  | argPath (index : Nat)
  deriving DecidableEq, Repr

/-- The name of a key as it is written in a match rule. -/
def Key.text : Key → Str
  | Key.type => lit "type"
  | Key.sender => lit "sender"
  | Key.interface => lit "interface"
  | Key.member => lit "member"
  | Key.path => lit "path"
  | Key.pathNamespace => lit "path_namespace"
  | Key.destination => lit "destination"
  | Key.arg0Namespace => lit "arg0namespace"
  | Key.arg index => lit "arg" ++ lit (toString index)
  | Key.argPath index => lit "arg" ++ lit (toString index) ++ lit "path"

/-- The fixed order of the keys: type, sender, interface, member, path,
path_namespace, destination, arg0namespace, then `argN` in ascending `N`, then
`argNpath` in ascending `N`. -/
def Key.order : List Key :=
  [Key.type, Key.sender, Key.interface, Key.member, Key.path, Key.pathNamespace,
    Key.destination, Key.arg0Namespace] ++
  (List.range 64).map Key.arg ++ (List.range 64).map Key.argPath

/-- The name of a message type as it is written in a match rule. -/
def typeText : RuleType → Str
  | RuleType.MethodCall => lit "method_call"
  | RuleType.MethodReturn => lit "method_return"
  | RuleType.Signal => lit "signal"
  | RuleType.Error => lit "error"

/-- The key that a call sets and the value it sets it to: the name of the
type, the name or path given, or the string given with its apostrophes
escaped. -/
def Call.sets : Call → Key × Str
  | Call.type t => (Key.type, typeText t)
  | Call.sender name => (Key.sender, name)
  | Call.interface name => (Key.interface, name)
  | Call.member name => (Key.member, name)
  | Call.path name => (Key.path, name)
  | Call.pathNamespace name => (Key.pathNamespace, name)
  | Call.destination name => (Key.destination, name)
  | Call.arg0Namespace name => (Key.arg0Namespace, name)
  | Call.arg index string => (Key.arg index, replaceApostrophes string)
  | Call.argPath index string => (Key.argPath index, replaceApostrophes string)

/-- The value that a chain of calls sets a key to, which is the value of the
last call that sets the key; `none` when no call sets it. -/
def valueSet : List Call → Key → Option Str
  | [], _ => none
  | c :: rest, key =>
    match valueSet rest key with
    | some v => some v
    | none => if c.sets.1 = key then some c.sets.2 else none

/-- The serialisation that the documentation describes for a rule built by a
chain of calls: the entries `key='value'` of the keys that were set, in the
fixed order of the keys, joined by single commas. -/
def serialisation (calls : List Call) : Str :=
  joinComma (Key.order.filterMap
    (fun key => (valueSet calls key).map (fun v => renderEntry (key.text, v))))

/-- The value that a rule holds for a key: the member of a scalar key when it
is not empty, the entry of the index in the map of an indexed key. -/
def value (r : MatchRule) : Key → Option Str
  | Key.type => if r.m_type = [] then none else some r.m_type
  | Key.sender => if r.m_sender = [] then none else some r.m_sender
  | Key.interface => if r.m_interface = [] then none else some r.m_interface
  | Key.member => if r.m_member = [] then none else some r.m_member
  | Key.path => if r.m_path = [] then none else some r.m_path
  | Key.pathNamespace => if r.m_pathNamespace = [] then none else some r.m_pathNamespace
  | Key.destination => if r.m_destination = [] then none else some r.m_destination
  | Key.arg0Namespace => if r.m_arg0Namespace = [] then none else some r.m_arg0Namespace
  | Key.arg index => r.m_arg.find index
  | Key.argPath index => r.m_argPath.find index

/-- A chain of calls in an order other than the order of the keys, in which
the interface is set twice. -/
def exampleCalls : List Call :=
  [Call.arg 42 (lit "bar"), Call.interface (lit "a.b"), Call.argPath 3 (lit "/it's"),
    Call.member (lit "Changed"), Call.arg 0 (lit "foo"), Call.type RuleType.Signal,
    Call.interface (lit "c.d"), Call.sender (lit ":1.234")]

end MatchRule

/-! ## The driver and the stored handlers (`dbus_asio.h`) -/

/-- Modelled from the spec: `StoredToken` and its function `invoke` are
declared in `dbus_asio.h`, which is not among the sources.
`StoredToken::create(m_ioContext, handler)` keeps a completion handler
together with the driver it is to run on, and `invoke(args...)` hands the
handler and its arguments to that driver and returns. The spec: "Scheduling
model: single-threaded cooperative. The library runs on one event-loop driver
[...] A call that registers a handler returns immediately; the handler is
invoked later on the same driver when the corresponding event arrives." The
driver runs one function at a time, so a handler handed to it runs after the
function that called `invoke` has returned.

The state of the driver: the protocol object, and `ran`, the number of calls
of `invoke` whose handler the driver has run. The calls of `invoke` are the
trace `invoked` of the protocol object, oldest first; the handlers that wait
are the calls behind the first `ran`. -/
structure Driver (H Msg Err : Type) where
  protocol : MessageProtocol H Msg Err
  ran : Nat

namespace Driver

variable {H Msg Err : Type}

/-- Modelled from the spec: what the driver runs, one at a time: a function
of the protocol object that the user calls, a completion of a write or of
the read loop, or, as `handler`, the handler that has waited longest. The
calls that a handler makes while it runs are jobs that follow it. -/
inductive Job (H Msg Err : Type)
  | sendMethodCall (serial : Nat) (isReplyExpected : Bool) (handler : H)
  | writeCompleted (completion : WriteCompletion H) (error : Option Err)
  | receiveMethodCall (interface : Str) (handler : H)
  | receiveSignal (signal : Str) (handler : H)
  | cancelReceiveSignal (signal : Str)
  | receiveError (handler : H)
  | dispatchMessage (header : DispatchHeader) (message : Msg) (asError : Err)
  | readFailed (error : Err)
  | releasePendingHandlers
  | handler

/-- Modelled from the spec: the driver of a new protocol object. -/
def start : Driver H Msg Err :=
  { protocol := MessageProtocol.initial, ran := 0 }

/-- Modelled from the spec: the handler that the driver runs next, with the
arguments of its call of `invoke`; `none` when no handler waits. -/
def next (d : Driver H Msg Err) : Option (Invocation H Msg Err) :=
  d.protocol.invoked.get? d.ran

/-- Modelled from the spec: the driver runs one job. A function of the
protocol object changes the protocol object; `handler` runs the handler that
has waited longest. -/
def step (d : Driver H Msg Err) : Job H Msg Err → Driver H Msg Err
  | Job.sendMethodCall serial isReplyExpected handler =>
    { d with protocol := (d.protocol.sendMethodCall serial isReplyExpected handler).1 }
  | Job.writeCompleted completion error =>
    { d with protocol := d.protocol.writeCompleted completion error }
  | Job.receiveMethodCall interface handler =>
    { d with protocol := d.protocol.receiveMethodCall interface handler }
  | Job.receiveSignal signal handler =>
    { d with protocol := d.protocol.receiveSignal signal handler }
  | Job.cancelReceiveSignal signal =>
    { d with protocol := (d.protocol.cancelReceiveSignal signal).2 }
  | Job.receiveError handler =>
    { d with protocol := d.protocol.receiveError handler }
  | Job.dispatchMessage header message asError =>
    { d with protocol := d.protocol.dispatchMessage header message asError }
  | Job.readFailed error =>
    { d with protocol := d.protocol.invokeErrorHandler 0 error }
  | Job.releasePendingHandlers =>
    { d with protocol := d.protocol.releasePendingHandlers }
  | Job.handler =>
    match d.next with
    | some _ => { d with ran := d.ran + 1 }
    | none => d

/-- Modelled from the spec: the driver after a sequence of jobs, from the
start. -/
def run (jobs : List (Job H Msg Err)) : Driver H Msg Err :=
  jobs.foldl step start

end Driver

/-- The calls of `invoke` that `invokeMethodReturnHandler`,
`invokeMethodCallHandler` and `invokeSignalHandler` make: a reply handler
called with no error and a message, a method-call handler or a signal handler
called with a message. -/
def Invocation.withMessage {H Msg Err : Type} : Invocation H Msg Err → Bool
  | Invocation.methodReturn _ none (some _) => true
  | Invocation.methodCall _ (some _) => true
  | Invocation.signal _ (some _) => true
  | _ => false

/-- The dispatch of the message `message` with the header `header`, which
takes the protocol object from `p` to `p1`, selected the handler of the call
`inv` and removed its entry: the handler was the entry of the key in `p` (the
reply serial; for a method call or a signal the key that the lookup selects),
and in `p1` the key has no entry. -/
def MessageProtocol.Selects {H Msg Err : Type} (p p1 : MessageProtocol H Msg Err)
    (header : DispatchHeader) (message : Msg) (inv : Invocation H Msg Err) : Prop :=
  match inv with
  | Invocation.methodReturn h none (some m) =>
    m = message ∧ header.type = MessageType.MethodReturn ∧
    p.m_methodReturnHandlers.find header.replySerial = some h ∧
    p1.m_methodReturnHandlers.find header.replySerial = none
  | Invocation.methodCall h (some m) =>
    m = message ∧ header.type = MessageType.MethodCall ∧
    ∃ k, p.methodCallKey (MessageProtocol.getFullName header.interface header.member) = some k ∧
      p.m_methodCallHandlers.find k = some h ∧ p1.m_methodCallHandlers.find k = none
  | Invocation.signal h (some m) =>
    m = message ∧ header.type = MessageType.Signal ∧
    ∃ k, p.signalKey (MessageProtocol.getFullName header.interface header.member) = some k ∧
      p.m_signalHandlers.find k = some h ∧ p1.m_signalHandlers.find k = none
  | _ => False

/-- A server that answers the method call `a.b` and registers its handler
again from inside the handler, as the examples of the repository do: the
handler is registered, a call is dispatched, the driver runs the handler,
which registers it again, and a second call is dispatched. -/
def servingRun : List (Driver.Job String Unit String) :=
  [Driver.Job.receiveMethodCall (lit "a.b") "serve",
   Driver.Job.dispatchMessage
     { type := MessageType.MethodCall, interface := ['a'], member := ['b'], replySerial := 0 }
     () "",
   Driver.Job.handler,
   Driver.Job.receiveMethodCall (lit "a.b") "serve",
   Driver.Job.dispatchMessage
     { type := MessageType.MethodCall, interface := ['a'], member := ['b'], replySerial := 0 }
     () ""]

/-! ## Decoding a received message (`dbus_message.cpp`, `dbus_type.cpp`) -/

/-- Modelled from the spec: `class OctetBuffer`, declared in
`dbus_octetbuffer.h`; the definitions of its member functions are not among
the sources. The read loop "re-reads the complete frame (plus ancillary fds),
then decodes header then body": the buffer is the octets of the frame that
are still to be decoded, and the descriptors that came with the frame. -/
structure OctetBuffer where
  m_data : List Nat
  m_fds : List Int
  deriving DecidableEq, Repr

namespace OctetBuffer

/-- Modelled from the spec: `size()`, the number of octets still to be
decoded. -/
def size (b : OctetBuffer) : Nat := b.m_data.length

/-- Modelled from the spec: `remove_prefix(count)`; after the header has
been decoded the buffer is the body. -/
def remove_prefix (b : OctetBuffer) (count : Nat) : OctetBuffer :=
  { b with m_data := b.m_data.drop count }

end OctetBuffer

/-- Modelled from the spec: the constructor `MessageIStream(buffer, swap)`
(`dbus_messageistream.h` is not among the sources): a stream over the octets
of the buffer, with its descriptors. -/
def MessageIStream.ofBuffer (buffer : OctetBuffer) (swapByteOrder : Bool) : MessageIStream :=
  MessageIStream.ofBytes buffer.m_data swapByteOrder buffer.m_fds

/-- `Type::asByte(v)`: `static_cast<const Byte&>(v)`, the conversion operator
of `Any`, then the number of the byte; a `BadCast` is thrown with its text.
(The operator returns an object of the class asked for, so the last case of
this and of the next five functions is not taken.) -/
def asByte (v : Any) : Except Thrown Nat :=
  match Any.convert Any.Value.name Any.Value.Byte v with
  | Except.error e => Except.error e.what
  | Except.ok (Any.Byte m_Value) => Except.ok m_Value
  | Except.ok _ => Except.ok 0

/-- `Type::asUint32(v)`. -/
def asUint32 (v : Any) : Except Thrown Nat :=
  match Any.convert Any.Value.name Any.Value.Uint32 v with
  | Except.error e => Except.error e.what
  | Except.ok (Any.Uint32 m_Value) => Except.ok m_Value
  | Except.ok _ => Except.ok 0

/-- `Type::asString(v)`: `static_cast<const String&>(v)`, which an
`ObjectPath` passes as well, then the text of the string. -/
def asString (v : Any) : Except Thrown Str :=
  match Any.convert Any.Value.name Any.Value.String v with
  | Except.error e => Except.error e.what
  | Except.ok (Any.String m_Value) => Except.ok m_Value
  | Except.ok (Any.ObjectPath m_Value) => Except.ok m_Value
  | Except.ok _ => Except.ok []

/-- `Type::refSignature(v)`. -/
def refSignature (v : Any) : Except Thrown Signature :=
  match Any.convert Any.Value.name Any.Value.Signature v with
  | Except.error e => Except.error e.what
  | Except.ok (Any.Signature value) => Except.ok value
  | Except.ok _ => Except.ok Signature.default

/-- `Type::refArray(v)`: the contents of the array. -/
def refArray (v : Any) : Except Thrown (List Any) :=
  match Any.convert Any.Value.name Any.Value.Array v with
  | Except.error e => Except.error e.what
  | Except.ok (Any.Array _ m_contents) => Except.ok m_contents
  | Except.ok _ => Except.ok []

/-- `Type::refStruct(v)`: the elements of the struct. -/
def refStruct (v : Any) : Except Thrown (List Any) :=
  match Any.convert Any.Value.name Any.Value.Struct v with
  | Except.error e => Except.error e.what
  | Except.ok (Any.Struct _ m_elements) => Except.ok m_elements
  | Except.ok _ => Except.ok []

/-- The member `m_elements` of a struct. -/
def Any.Struct.m_elements : Any → List Any
  | Any.Struct _ m_elements => m_elements
  | _ => []

/-- `Struct::operator[](pos)` on the elements of a struct:
`m_elements.at(pos)`, which throws `std::out_of_range` past the end. -/
def Any.Struct.at (m_elements : List Any) (pos : Nat) : Except Thrown Any :=
  match m_elements.get? pos with
  | some v => Except.ok v
  | none => Except.error "vector::at: out of range"

/-- `static_cast<Message::Type>(byte)`: the four message types; every other
number is a value that `dispatchMessage` sends to its `default` label, as it
does `Invalid`. -/
def MessageType.ofByte : Nat → MessageType
  | 1 => MessageType.MethodCall
  | 2 => MessageType.MethodReturn
  | 3 => MessageType.Error
  | 4 => MessageType.Signal
  | _ => MessageType.Invalid

namespace Message

namespace Header

/-- One round of the loop `for (auto& elem : refArray(header[6]))` in
`Header::Header(OctetBuffer&)`: the header after the field `elem` has been
read. The labels of the switch are the numbers of `enum Field`: Path 1,
Interface 2, Member 3, ErrorName 4, ReplySerial 5, Destination 6, Sender 7,
Signature 8, UnixFds 9. -/
def readField (header : Header) (elem : Any) : Except Thrown Header := do
  let field ← refStruct elem
  let name ← asByte (← Any.Struct.at field 0)
  match name with
  | 1 => do
    let v ← asString (← Any.Struct.at field 1)
    Except.ok { header with path := v }
  | 2 => do
    let v ← asString (← Any.Struct.at field 1)
    Except.ok { header with interface := v }
  | 3 => do
    let v ← asString (← Any.Struct.at field 1)
    Except.ok { header with member := v }
  | 4 => do
    let v ← asString (← Any.Struct.at field 1)
    Except.ok { header with errorName := v }
  | 5 => do
    let v ← asUint32 (← Any.Struct.at field 1)
    Except.ok { header with replySerial := v }
  | 6 => do
    let v ← asString (← Any.Struct.at field 1)
    Except.ok { header with destination := v }
  | 7 => do
    let v ← asString (← Any.Struct.at field 1)
    Except.ok { header with sender := v }
  | 8 => do
    let v ← refSignature (← Any.Struct.at field 1)
    Except.ok { header with signature := v }
  | 9 => do
    let v ← asUint32 (← Any.Struct.at field 1)
    Except.ok { header with unixFds := v }
  | _ => Except.ok header

/-- The loop over the header fields. -/
def readFields : Header → List Any → Except Thrown Header
  | header, [] => Except.ok header
  | header, elem :: rest =>
    match readField header elem with
    | Except.error e => Except.error e
    | Except.ok header1 => readFields header1 rest

/-- What `Header::Header(OctetBuffer& message)` leaves: the members of the
header (with `size` and `endianness`, which the structure `Header` does not
carry), and the buffer after `message.remove_prefix(size)`. -/
structure Decoded where
  header : Header
  size : Nat
  endianness : Endian
  body : OctetBuffer

/-- `Header::Header(OctetBuffer& message)`. `fuel` bounds the nesting of
the calls of `unmarshall`. -/
def ofBuffer (fuel : Nat) (message : OctetBuffer) : Except Thrown Decoded := do
  let size ← getSize message.m_data
  let endianness ← Message.endianness message.m_data
  let istream := MessageIStream.ofBuffer message (swapRequired endianness)
  -- DBus::Type::Struct header("(yyyyuua(yv))")
  let signature ← Signature.ctor (lit "yyyyuua(yv)") 0
  let r ← Any.unmarshall fuel (Any.Struct signature []) istream
  let header := Any.Struct.m_elements r.1
  -- Capture the basic parameters
  let type ← asByte (← Any.Struct.at header 1)
  let flags ← asByte (← Any.Struct.at header 2)
  let bodySize ← asUint32 (← Any.Struct.at header 4)
  let serial ← asUint32 (← Any.Struct.at header 5)
  let fields ← refArray (← Any.Struct.at header 6)
  let members ← readFields
    { Header.defaultCtor with
      type := MessageType.ofByte type, flags := flags, bodySize := bodySize, serial := serial }
    fields
  Except.ok { header := members, size := size, endianness := endianness,
              body := message.remove_prefix size }

end Header

/-- `Message::unmarshallBody(endianness, signature, body)`: the parameters
added to `m_Parameters`, which are the elements of the struct
`parameter_fields` after its `unmarshall`. -/
def unmarshallBody (fuel : Nat) (endianness : Endian) (signature : Signature)
    (body : OctetBuffer) : Except Thrown (List Any) := do
  let stream := MessageIStream.ofBuffer body (swapRequired endianness)
  let r ← Any.unmarshall fuel (Any.Struct signature []) stream
  Except.ok (Any.Struct.m_elements r.1)

/-- `Message::Message(header, body)`, the constructor of a received message.
The trace output is not part of the model. -/
def ofBuffer (fuel : Nat) (decoded : Header.Decoded) : Except Thrown Members :=
  -- Empty bodies have no parameters
  if decoded.body.size != 0 then
    match unmarshallBody fuel decoded.endianness decoded.header.signature decoded.body with
    | Except.error e => Except.error e
    | Except.ok parameters =>
      Except.ok { m_Header := decoded.header, m_Parameters := parameters, logged := [] }
  else
    Except.ok { m_Header := decoded.header, m_Parameters := [], logged := [] }

/-- `Message::Error::getName()`. -/
def Error.getName (m : Members) : Str := m.m_Header.errorName

/-- `Message::Error::getMessage()`. -/
def Error.getMessage (m : Members) : Except Thrown Str :=
  match m.m_Parameters with
  | [] => Except.ok []
  | parameter :: _ => asString parameter

/-- `Message::Error::Error(header, body)`, the constructor of a received
error: the message is built, and `getMessage()` is evaluated as an argument
of the call of `Log::write`, which adds a line to the log. -/
def Error.ofBuffer (fuel : Nat) (decoded : Header.Decoded) : Except Thrown Members :=
  match Message.ofBuffer fuel decoded with
  | Except.error e => Except.error e
  | Except.ok m =>
    match Error.getMessage m with
    | Except.error e => Except.error e
    | Except.ok message =>
      Except.ok { m with logged := m.logged ++
        ["DBus :: Error : received as reply to message #" ++ toString m.m_Header.replySerial
          ++ " : " ++ String.mk message ++ "\n"] }

end Message

/-- `struct Error` of `dbus_error.h`. -/
structure Error where
  category : Str
  message : Str
  m_error : Bool
  deriving DecidableEq, Repr

/-- The converting constructor `Error(const Message::Error& error)`. -/
def Error.ofMessage (error : Message.Members) : Except Thrown Error :=
  match Message.Error.getMessage error with
  | Except.error e => Except.error e
  | Except.ok message =>
    Except.ok { category := Message.Error.getName error, message := message,
                m_error := !(Message.Error.getName error).isEmpty }

namespace MessageProtocol

variable {H : Type}

/-- `dispatchMessage(OctetBuffer& message)`, the whole function: the header
is decoded, the message is built as an argument of the call of its
`invoke...Handler` (for an error, converted to an `Error` as well), and the
handler tables are looked at last. The state afterwards, or the exception
that leaves the function. The statistics counters are not part of the
model. -/
def dispatchOctetBuffer (p : MessageProtocol H Message.Members Error) (fuel : Nat)
    (message : OctetBuffer) : Except Thrown (MessageProtocol H Message.Members Error) :=
  match Message.Header.ofBuffer fuel message with
  | Except.error e => Except.error e
  | Except.ok decoded =>
    match decoded.header.type with
    | MessageType.MethodCall =>
      match Message.ofBuffer fuel decoded with
      | Except.error e => Except.error e
      | Except.ok methodCall =>
        Except.ok (p.invokeMethodCallHandler
          (getFullName decoded.header.interface decoded.header.member) methodCall)
    | MessageType.MethodReturn =>
      match Message.ofBuffer fuel decoded with
      | Except.error e => Except.error e
      | Except.ok methodReturn =>
        Except.ok (p.invokeMethodReturnHandler decoded.header.replySerial methodReturn)
    | MessageType.Signal =>
      match Message.ofBuffer fuel decoded with
      | Except.error e => Except.error e
      | Except.ok signal =>
        Except.ok (p.invokeSignalHandler
          (getFullName decoded.header.interface decoded.header.member) signal)
    | MessageType.Error =>
      match Message.Error.ofBuffer fuel decoded with
      | Except.error e => Except.error e
      | Except.ok error =>
        match Error.ofMessage error with
        | Except.error e => Except.error e
        | Except.ok asError => Except.ok (p.invokeErrorHandler decoded.header.replySerial asError)
    | MessageType.Invalid => Except.ok p

end MessageProtocol

/-! ## Received messages that are not delivered -/

/-- A multiplexer with an error sink and one method call in flight, sent with
the serial 1 and a reply expected. -/
def pendingCall : MessageProtocol String Message.Members Error :=
  ((MessageProtocol.initial.receiveError "sink").sendMethodCall 1 true "reply").1

/-- A frame of 76 octets with one descriptor: a little-endian method_return
with the serial 2, the fields Destination `:1.5`, ReplySerial 1, Sender
`:1.9`, Signature `h` and UnixFds 1, and a body of four octets, the index 0 of
the descriptor. -/
def fdReply : OctetBuffer :=
  { m_data := [108, 2, 1, 1, 4, 0, 0, 0, 2, 0, 0, 0, 56, 0, 0, 0,
      6, 1, 115, 0, 4, 0, 0, 0, 58, 49, 46, 53, 0, 0, 0, 0,
      5, 1, 117, 0, 1, 0, 0, 0,
      7, 1, 115, 0, 4, 0, 0, 0, 58, 49, 46, 57, 0, 0, 0, 0,
      8, 1, 103, 0, 1, 104, 0, 0,
      9, 1, 117, 0, 1, 0, 0, 0,
      0, 0, 0, 0],
    m_fds := [7] }

/-- A frame of 71 octets: a little-endian method_return with the serial 2,
the fields Destination `:1.5`, ReplySerial 1, Sender `:1.9` and Signature `s`,
and a body of seven octets, the string `no`. -/
def textReply : OctetBuffer :=
  { m_data := [108, 2, 1, 1, 7, 0, 0, 0, 2, 0, 0, 0, 47, 0, 0, 0,
      6, 1, 115, 0, 4, 0, 0, 0, 58, 49, 46, 53, 0, 0, 0, 0,
      5, 1, 117, 0, 1, 0, 0, 0,
      7, 1, 115, 0, 4, 0, 0, 0, 58, 49, 46, 57, 0, 0, 0, 0,
      8, 1, 103, 0, 1, 115, 0, 0,
      2, 0, 0, 0, 110, 111, 0],
    m_fds := [] }

/-- A frame of 84 octets: a little-endian error with the serial 2, the fields
Destination `:1.5`, ErrorName `a.b.E`, ReplySerial `replySerial` (a number
below 256), Sender `:1.9` and Signature `u`, and a body of four octets, the
32-bit number 7. -/
def errorWithNumber (replySerial : Nat) : OctetBuffer :=
  { m_data := [108, 3, 1, 1, 4, 0, 0, 0, 2, 0, 0, 0, 63, 0, 0, 0,
      6, 1, 115, 0, 4, 0, 0, 0, 58, 49, 46, 53, 0, 0, 0, 0,
      4, 1, 115, 0, 5, 0, 0, 0, 97, 46, 98, 46, 69, 0, 0, 0,
      5, 1, 117, 0, replySerial, 0, 0, 0,
      7, 1, 115, 0, 4, 0, 0, 0, 58, 49, 46, 57, 0, 0, 0, 0,
      8, 1, 103, 0, 1, 117, 0, 0,
      7, 0, 0, 0],
    m_fds := [] }

/-- A frame of 87 octets: the error of `errorWithNumber` with the Signature
`s` and a body of seven octets, the string `no`. -/
def errorWithText (replySerial : Nat) : OctetBuffer :=
  { m_data := [108, 3, 1, 1, 7, 0, 0, 0, 2, 0, 0, 0, 63, 0, 0, 0,
      6, 1, 115, 0, 4, 0, 0, 0, 58, 49, 46, 53, 0, 0, 0, 0,
      4, 1, 115, 0, 5, 0, 0, 0, 97, 46, 98, 46, 69, 0, 0, 0,
      5, 1, 117, 0, replySerial, 0, 0, 0,
      7, 1, 115, 0, 4, 0, 0, 0, 58, 49, 46, 57, 0, 0, 0, 0,
      8, 1, 103, 0, 1, 115, 0, 0,
      2, 0, 0, 0, 110, 111, 0],
    m_fds := [] }

/-! # Theorems -/

/-! ## Handler tables -/

namespace Map

variable {K V : Type} [DecidableEq K]

theorem find_erase (m : Map K V) (key k : K) :
    (m.erase key).find k = if k = key then none else m.find k := by
  induction m with
  | nil => simp [Map.erase, Map.find]
  | cons e rest ih =>
    obtain ⟨a, b⟩ := e
    by_cases hak : a = key
    · have : Map.erase ((a, b) :: rest) key = Map.erase rest key := by
        simp [Map.erase, List.filter, hak]
      rw [this, ih]
      by_cases hk : k = key
      · simp [hk]
      · have : ¬ a = k := fun h => hk (h ▸ hak)
        simp [hk, Map.find, this]
    · have : Map.erase ((a, b) :: rest) key = (a, b) :: Map.erase rest key := by
        simp [Map.erase, List.filter, hak]
      rw [this]
      by_cases hk : k = key
      · subst hk
        simp only [Map.find, hak, if_false, ih, if_true]
      · by_cases hka : a = k
        · simp [Map.find, hka, hk]
        · simp only [Map.find, hka, if_false, ih, hk]

end Map

namespace MessageProtocol

variable {H Msg Err : Type}

theorem rfind_spec (s : Str) (ch : Char) :
    match rfind s ch with
    | some i => ∃ suf, ch ∉ suf ∧ s = s.take i ++ ch :: suf
    | none => ch ∉ s := by
  induction s with
  | nil => simp [rfind]
  | cons c rest ih =>
    unfold rfind
    cases h : rfind rest ch with
    | some i =>
      rw [h] at ih
      obtain ⟨suf, hsuf, hs⟩ := ih
      exact ⟨suf, hsuf, by simp only [List.take_succ_cons, List.cons_append]; rw [← hs]⟩
    | none =>
      rw [h] at ih
      by_cases hc : c = ch
      · subst hc
        simp only [beq_self_eq_true, if_true]
        exact ⟨rest, ih, by simp⟩
      · have : (c == ch) = false := by simpa using hc
        simp only [this]
        simp only [Bool.false_eq_true, if_false, List.mem_cons, not_or]
        exact ⟨fun h => hc h.symm, ih⟩

/-- **C9.** Method-call dispatch order. For the full name
`n = interface + "." + member`, `anyMethod n` is the prefix of `n` before its
last period. `invokeMethodCallHandler` fires the handler stored under `n` if
there is one, otherwise the one stored under that prefix, otherwise the one
stored under the empty string, otherwise nothing (the state is unchanged).
When a handler fires it is invoked once with the message, its key no longer
has an entry, every other key keeps its entry, and the other tables are
unchanged. -/
theorem invokeMethodCallHandler_order (p : MessageProtocol H Msg Err)
    (interface member : Str) (methodCall : Msg) :
    let n := getFullName interface member
    let q := anyMethod n
    let p1 := p.invokeMethodCallHandler n methodCall
    let key : Option Str :=
      if (p.m_methodCallHandlers.find n).isSome then some n
      else if (p.m_methodCallHandlers.find q).isSome then some q
      else if (p.m_methodCallHandlers.find []).isSome then some []
      else none
    (∃ suf, '.' ∉ suf ∧ n = q ++ '.' :: suf) ∧
    (match key with
     | some k =>
       ∃ h, p.m_methodCallHandlers.find k = some h ∧
         p1.invoked = p.invoked ++ [Invocation.methodCall h (some methodCall)] ∧
         (∀ k1, p1.m_methodCallHandlers.find k1 =
           if k1 = k then none else p.m_methodCallHandlers.find k1) ∧
         p1.m_methodReturnHandlers = p.m_methodReturnHandlers ∧
         p1.m_signalHandlers = p.m_signalHandlers ∧
         p1.m_errorHandler = p.m_errorHandler
     | none => p1 = p) := by
  intro n q p1 key
  constructor
  · have h := rfind_spec n '.'
    have hmem : '.' ∈ n := by simp [n, getFullName]
    show ∃ suf, '.' ∉ suf ∧ n = anyMethod n ++ '.' :: suf
    unfold anyMethod
    cases hr : rfind n '.' with
    | some i => rw [hr] at h; exact h
    | none => rw [hr] at h; exact absurd hmem h
  · simp only [p1, key, invokeMethodCallHandler]
    cases h1 : p.m_methodCallHandlers.find n with
    | some h =>
      simp only [Option.isSome_some, if_true]
      exact ⟨h, h1, rfl, fun k1 => Map.find_erase _ _ _, trivial, trivial, trivial⟩
    | none =>
      simp only [Option.isSome_none, Bool.false_eq_true, if_false]
      cases h2 : p.m_methodCallHandlers.find q with
      | some h =>
        simp only [Option.isSome_some, if_true]
        exact ⟨h, h2, rfl, fun k1 => Map.find_erase _ _ _, trivial, trivial, trivial⟩
      | none =>
        simp only [Option.isSome_none, Bool.false_eq_true, if_false]
        cases h3 : p.m_methodCallHandlers.find [] with
        | some h =>
          simp only [Option.isSome_some, if_true]
          exact ⟨h, h3, rfl, fun k1 => Map.find_erase _ _ _, trivial, trivial, trivial⟩
        | none =>
          simp only [Option.isSome_none, Bool.false_eq_true, if_false]

/-- The `MethodReturn` label of the switch. Dispatching a decoded
method_return with reply serial `r`: when a reply handler is registered under
`r`, exactly that
handler is invoked, once, with an empty error and the message; afterwards
`r` has no entry, every other serial keeps its entry, and the other tables
are unchanged. When no handler is registered under `r` the whole state is
unchanged: nothing is invoked (the error sink included) and no table
changes. -/
theorem dispatch_methodReturn_correlation (p : MessageProtocol H Msg Err)
    (interface member : Str) (r : Nat) (message : Msg) (asError : Err) :
    let header : DispatchHeader :=
      { type := MessageType.MethodReturn, interface := interface, member := member,
        replySerial := r }
    let p1 := p.dispatchMessage header message asError
    match p.m_methodReturnHandlers.find r with
    | some h =>
      p1.invoked = p.invoked ++ [Invocation.methodReturn h none (some message)] ∧
      (∀ r1, p1.m_methodReturnHandlers.find r1 =
        if r1 = r then none else p.m_methodReturnHandlers.find r1) ∧
      p1.m_methodCallHandlers = p.m_methodCallHandlers ∧
      p1.m_signalHandlers = p.m_signalHandlers ∧
      p1.m_errorHandler = p.m_errorHandler
    | none => p1 = p := by
  intro header p1
  simp only [p1, header, dispatchMessage, invokeMethodReturnHandler]
  cases h1 : p.m_methodReturnHandlers.find r with
  | some h => exact ⟨rfl, fun r1 => Map.find_erase _ _ _, rfl, rfl, rfl⟩
  | none => rfl

end MessageProtocol

/-! ## Names and object paths -/

/-- **C3.** Bus-name validation at the name `a.`: `BusName` accepts it,
although its second element is empty, so the name does not have the
documented bus-name syntax. -/
theorem BusName_accepts_trailing_period :
    BusName ['a', '.'] = Except.ok ['a', '.'] ∧ BusNameSyntax ['a', '.'] = false := by
  constructor
  · rfl
  · rfl

namespace ObjectPath

theorem isPathChar_of_element {c : Char} (h : isPathElementChar c = true) :
    isPathChar c = true := by
  simp only [isPathElementChar, isPathChar, Bool.or_eq_true] at *
  tauto

theorem ne_slash_of_element {c : Char} (h : isPathElementChar c = true) : c ≠ '/' := by
  intro hc
  subst hc
  revert h
  decide

theorem element_of_isPathChar {c : Char} (h : isPathChar c = true) (hc : c ≠ '/') :
    isPathElementChar c = true := by
  simp only [isPathElementChar, isPathChar, Bool.or_eq_true, beq_iff_eq] at *
  tauto

/-- Running the loop over the characters of one element. -/
theorem checkLoop_element (path : Str) (seg tail : List Char) (prev : Char)
    (hseg : ∀ c ∈ seg, isPathElementChar c = true) :
    checkLoop path (seg ++ tail) prev = checkLoop path tail ((seg.getLast?).getD prev) := by
  induction seg generalizing prev with
  | nil => rfl
  | cons c rest ih =>
    have hc := hseg c (List.mem_cons_self _ _)
    have hne : (c == '/') = false := by simpa using ne_slash_of_element hc
    have hrest : ∀ d ∈ rest, isPathElementChar d = true :=
      fun d hd => hseg d (List.mem_cons_of_mem _ hd)
    rw [List.cons_append, checkLoop]
    simp only [hne, Bool.false_and, Bool.false_eq_true, if_false,
      isPathChar_of_element hc, if_true]
    rw [ih c hrest]
    cases rest with
    | nil => rfl
    | cons d ds =>
      rw [List.getLast?_cons_cons, List.getLast?_eq_getLast _ (List.cons_ne_nil d ds)]
      rfl

theorem getLast_element_ne_slash (seg : List Char) (hne : seg ≠ [])
    (hseg : ∀ c ∈ seg, isPathElementChar c = true) (prev : Char) :
    (seg.getLast?).getD prev ≠ '/' := by
  obtain ⟨c, hc⟩ : ∃ c, seg.getLast? = some c := by
    cases h : seg.getLast? with
    | none => exact absurd (List.getLast?_eq_none_iff.mp h) hne
    | some c => exact ⟨c, rfl⟩
  rw [hc]
  exact ne_slash_of_element (hseg c (List.mem_of_getLast?_eq_some hc))

/-- Running the loop over a sequence of well-formed segments. -/
theorem checkLoop_segments (path : Str) (segs : List Str) (prev : Char)
    (hprev : prev ≠ '/')
    (hsegs : ∀ seg ∈ segs, seg ≠ [] ∧ ∀ c ∈ seg, isPathElementChar c = true) :
    checkLoop path (segs.map (fun seg => '/' :: seg)).flatten prev = Except.ok () := by
  induction segs generalizing prev with
  | nil => rfl
  | cons seg rest ih =>
    obtain ⟨hne, hseg⟩ := hsegs seg (List.mem_cons_self _ _)
    have hp : (prev == '/') = false := by simpa using hprev
    have hsl : isPathChar '/' = true := by decide
    rw [List.map_cons, List.flatten_cons, List.cons_append, checkLoop]
    simp only [hp, Bool.and_false, Bool.false_eq_true, if_false, hsl, if_true]
    rw [checkLoop_element path seg _ '/' hseg]
    exact ih _ (getLast_element_ne_slash seg hne hseg '/')
      (fun s hs => hsegs s (List.mem_cons_of_mem _ hs))

theorem getLast?_segments (segs : List Str) (hne : segs ≠ [])
    (hsegs : ∀ seg ∈ segs, seg ≠ [] ∧ ∀ c ∈ seg, isPathElementChar c = true) :
    ∃ c, (segs.map (fun seg => '/' :: seg)).flatten.getLast? = some c ∧ c ≠ '/' := by
  induction segs with
  | nil => exact absurd rfl hne
  | cons seg rest ih =>
    obtain ⟨hsne, hseg⟩ := hsegs seg (List.mem_cons_self _ _)
    by_cases hr : rest = []
    · subst hr
      obtain ⟨c, hc⟩ : ∃ c, seg.getLast? = some c := by
        cases h : seg.getLast? with
        | none => exact absurd (List.getLast?_eq_none_iff.mp h) hsne
        | some c => exact ⟨c, rfl⟩
      refine ⟨c, ?_, ne_slash_of_element (hseg c (List.mem_of_getLast?_eq_some hc))⟩
      cases seg with
      | nil => exact absurd rfl hsne
      | cons d ds => simpa [List.getLast?_cons_cons] using hc
    · obtain ⟨c, hc, hcne⟩ := ih hr (fun s hs => hsegs s (List.mem_cons_of_mem _ hs))
      refine ⟨c, ?_, hcne⟩
      simp only [List.map_cons, List.flatten_cons]
      rw [List.getLast?_append, hc]
      rfl

/-- What an accepted run of the loop says about the characters it visited:
they are the rest of the current element followed by whole segments. -/
theorem checkLoop_ok_split (path : Str) (l : List Char) (prev : Char)
    (hok : checkLoop path l prev = Except.ok ())
    (hlast : (prev :: l).getLast? ≠ some '/') :
    ∃ (seg0 : Str) (segs : List Str),
      l = seg0 ++ (segs.map (fun seg => '/' :: seg)).flatten ∧
      (∀ c ∈ seg0, isPathElementChar c = true) ∧
      (∀ seg ∈ segs, seg ≠ [] ∧ ∀ c ∈ seg, isPathElementChar c = true) ∧
      (prev = '/' → seg0 ≠ []) := by
  induction l generalizing prev with
  | nil =>
    refine ⟨[], [], rfl, by simp, by simp, ?_⟩
    intro hp
    subst hp
    exact absurd rfl hlast
  | cons ch rest ih =>
    unfold checkLoop at hok
    split at hok
    · exact absurd hok (by simp)
    · rename_i hdouble
      split at hok
      · rename_i hchar
        have hlast1 : (ch :: rest).getLast? ≠ some '/' := by
          simpa [List.getLast?_cons_cons] using hlast
        obtain ⟨seg0, segs, hl, h0, hs, hp⟩ := ih ch hok hlast1
        by_cases hch : ch = '/'
        · subst hch
          have hprev : prev ≠ '/' := by
            intro h
            apply hdouble
            simp [h]
          refine ⟨[], seg0 :: segs, by simp [hl], by simp, ?_, fun h => absurd h hprev⟩
          intro seg hseg
          rcases List.mem_cons.mp hseg with h | h
          · subst h
            exact ⟨hp rfl, h0⟩
          · exact hs seg h
        · refine ⟨ch :: seg0, segs, by simp [hl], ?_, hs, fun _ => by simp⟩
          intro c hc
          rcases List.mem_cons.mp hc with h | h
          · subst h
            exact element_of_isPathChar hchar hch
          · exact h0 c h
      · exact absurd hok (by simp)

/-- The constructor accepts exactly the paths of the documented syntax,
whatever their length. -/
theorem ctor_ok_iff (p : Str) :
    ObjectPath.ctor p = Except.ok p ↔ ObjectPathSyntax p := by
  constructor
  · intro h
    unfold ObjectPath.ctor at h
    cases p with
    | nil => simp at h
    | cons c rest =>
      simp only [List.isEmpty_cons, Bool.false_eq_true, if_false, List.head?_cons] at h
      split at h
      · exact absurd h (by simp)
      · rename_i hhead
        have hc : c = '/' := by simpa using hhead
        subst hc
        split at h
        · rename_i hlen
          split at h
          · exact absurd h (by simp)
          · rename_i hlast
            cases hl : checkLoop ('/' :: rest) ('/' :: rest) ' ' with
            | error e => rw [hl] at h; exact absurd h (by simp)
            | ok u =>
              have hlast1 : ((' ' : Char) :: '/' :: rest).getLast? ≠ some '/' := by
                simpa [List.getLast?_cons_cons] using hlast
              obtain ⟨seg0, segs, hl1, h0, hs, _⟩ :=
                checkLoop_ok_split ('/' :: rest) ('/' :: rest) ' ' hl hlast1
              have hseg0 : seg0 = [] := by
                cases seg0 with
                | nil => rfl
                | cons d ds =>
                  simp only [List.cons_append, List.cons.injEq] at hl1
                  exact absurd hl1.1.symm (ne_slash_of_element (h0 d (List.mem_cons_self _ _)))
              subst hseg0
              right
              refine ⟨segs, ?_, hs, by simpa using hl1⟩
              intro hnil
              subst hnil
              simp at hl1
        · rename_i hlen
          left
          have : rest = [] := by
            cases rest with
            | nil => rfl
            | cons d ds => simp at hlen
          rw [this]
  · intro h
    rcases h with h | ⟨segs, hne, hsegs, hp⟩
    · subst h
      rfl
    · cases segs with
      | nil => exact absurd rfl hne
      | cons seg rest =>
        obtain ⟨hsne, hseg⟩ := hsegs seg (List.mem_cons_self _ _)
        obtain ⟨c, hc, hcne⟩ := getLast?_segments (seg :: rest) hne hsegs
        have hloop := checkLoop_segments p (seg :: rest) ' ' (by decide) hsegs
        rw [← hp] at hc hloop
        have hlen : p.length > 1 := by
          rw [hp]
          cases seg with
          | nil => exact absurd rfl hsne
          | cons d ds =>
            simp only [List.map_cons, List.flatten_cons, List.cons_append, List.length_cons]
            omega
        have hhead : p.head? = some '/' := by rw [hp]; rfl
        have hemp : p.isEmpty = false := by
          cases p with
          | nil => simp at hlen
          | cons _ _ => rfl
        unfold ObjectPath.ctor
        simp only [hemp, Bool.false_eq_true, if_false, hhead, bne_self_eq_false, hlen,
          if_true, hc, hloop]
        have : (some c == some '/') = false := by simpa using hcne
        simp [this]

/-- **C4.** Object-path syntax is exact: the constructor accepts a path,
and then stores that very path, if and only if the path is the root path
or a sequence of one or more segments, each a slash followed by one or more
characters of `[A-Za-z0-9_]`. -/
theorem ctor_ok_iff_syntax (p : Str) :
    ObjectPath.ctor p = Except.ok p ↔ ObjectPathSyntax p :=
  ctor_ok_iff p

end ObjectPath

/-! ## The codec at concrete values -/

/-- **C2.** Array wire layout at an output stream that holds one byte
(`n = 1`): marshalling the array of the single byte 7 leaves the first byte
unchanged, but the length 1 of the marshalled elements is stored in the four
bytes at offset 1, the stream size before the padding of the length field;
the four bytes at offset 4, the first multiple of 4 that is at least `n`,
where the length field lies, keep the value 0. -/
theorem Array_marshall_length_at_unaligned_offset :
    (Any.Array ['y'] [Any.Byte 7]).marshall { data := [9], fds := [] } =
      Except.ok { data := [9, 1, 0, 0, 0, 0, 0, 0, 7], fds := [] } ∧
    (([9, 1, 0, 0, 0, 0, 0, 0, 7] : List Nat).drop 4).take 4 = leBytes 4 0 ∧
    (([9, 1, 0, 0, 0, 0, 0, 0, 7] : List Nat).drop 1).take 4 = leBytes 4 1 := by
  refine ⟨rfl, rfl, rfl⟩

/-- **C1.** Round trip at the struct `(yay)` that holds the byte 1 and the
array of the single byte 7: marshalled into an empty stream it yields nine
bytes whose array length field (offset 4) is 0, and unmarshalling these
bytes with the signature `(yay)` and no byte swap yields, whenever the bound
on the nested calls is at least 6, the struct that holds the byte 1 and an
empty array, which is not the value marshalled. -/
theorem roundTrip_fails_array_after_byte :
    (Any.Struct { m_typeCodeIndex := 0, m_Value := ['y', 'a', 'y'] }
        [Any.Byte 1, Any.Array ['y'] [Any.Byte 7]]).getSignature =
      Except.ok ['(', 'y', 'a', 'y', ')'] ∧
    (Any.Struct { m_typeCodeIndex := 0, m_Value := ['y', 'a', 'y'] }
        [Any.Byte 1, Any.Array ['y'] [Any.Byte 7]]).marshall MessageOStream.empty =
      Except.ok { data := [1, 1, 0, 0, 0, 0, 0, 0, 7], fds := [] } ∧
    (∀ n : Nat, Any.unmarshallAs (n + 6) ['(', 'y', 'a', 'y', ')']
        [1, 1, 0, 0, 0, 0, 0, 0, 7] false [] =
      Except.ok (Any.Struct { m_typeCodeIndex := 0, m_Value := ['y', 'a', 'y'] }
        [Any.Byte 1, Any.Array ['y'] []])) ∧
    Any.Struct { m_typeCodeIndex := 0, m_Value := ['y', 'a', 'y'] }
        [Any.Byte 1, Any.Array ['y'] []] ≠
      Any.Struct { m_typeCodeIndex := 0, m_Value := ['y', 'a', 'y'] }
        [Any.Byte 1, Any.Array ['y'] [Any.Byte 7]] := by
  refine ⟨rfl, rfl, fun n => rfl, ?_⟩
  intro h
  simp at h

/-- The same two fields in the other order, the struct `(ayy)`: the array
begins at offset 0, its length is stored in the length field, and the round
trip returns the value marshalled. -/
theorem roundTrip_array_before_byte :
    (Any.Struct { m_typeCodeIndex := 0, m_Value := ['a', 'y', 'y'] }
        [Any.Array ['y'] [Any.Byte 7], Any.Byte 1]).marshall MessageOStream.empty =
      Except.ok { data := [1, 0, 0, 0, 7, 1], fds := [] } ∧
    (∀ n : Nat, Any.unmarshallAs (n + 6) ['(', 'a', 'y', 'y', ')']
        [1, 0, 0, 0, 7, 1] false [] =
      Except.ok (Any.Struct { m_typeCodeIndex := 0, m_Value := ['a', 'y', 'y'] }
        [Any.Array ['y'] [Any.Byte 7], Any.Byte 1])) := by
  refine ⟨rfl, fun n => rfl⟩

/-- **C6.** Signature validation at the single code `h`: the constructor
rejects the signature `h` as an unknown type code, since `isBasicTypeCode`
does not list the code of `UnixFd`. -/
theorem Signature_rejects_unix_fd_code :
    Signature.ctor ['h'] 0 = Except.error "unknown type code" ∧
    isBasicTypeCode 'h' = false ∧
    Any.getSignature (Any.UnixFd 3) = Except.ok ['h'] := by
  refine ⟨rfl, rfl, rfl⟩

/-- **C7.** Signatures read from the wire at the text `(`, an unmatched
bracket that the constructor rejects: unmarshalling the signature value
`01 28 00` yields a `Signature` holding `(`, and unmarshalling a variant
whose signature is `(` yields a variant holding an empty struct; neither
fails. -/
theorem Signature_unmarshall_not_validated :
    Signature.ctor ['('] 0 = Except.error "Struct incomplete" ∧
    (∀ n : Nat, Any.unmarshallAs (n + 1) ['g'] [1, 40, 0] false [] =
      Except.ok (Any.Signature { m_typeCodeIndex := 0, m_Value := ['('] })) ∧
    (∀ n : Nat, Any.unmarshallAs (n + 3) ['v'] [1, 40, 0] false [] =
      Except.ok (Any.Variant (Any.Struct { m_typeCodeIndex := 0, m_Value := [] } []))) := by
  refine ⟨rfl, fun n => rfl, fun n => rfl⟩

/-! ## What marshalling does to the bytes already in the stream -/

theorem Grows.refl (s : MessageOStream) : Grows s s := ⟨Nat.le_refl _, List.take_length _⟩

theorem Grows.trans {s s1 s2 : MessageOStream} (h1 : Grows s s1) (h2 : Grows s1 s2) :
    Grows s s2 := by
  refine ⟨Nat.le_trans h1.1 h2.1, ?_⟩
  have e : s2.data.take s.data.length =
      (s2.data.take s1.data.length).take s.data.length := by
    rw [List.take_take, Nat.min_eq_left h1.1]
  rw [e, h2.2, h1.2]

theorem Grows.of_append (s : MessageOStream) (extra : List Nat) (fds : List Int) :
    Grows s { data := s.data ++ extra, fds := fds } :=
  ⟨by simp, by simp⟩

theorem grows_pad (s : MessageOStream) (n : Nat) : Grows s (s.pad n) :=
  Grows.of_append s _ _

theorem grows_writeByte (s : MessageOStream) (b : Nat) : Grows s (s.writeByte b) :=
  Grows.of_append s _ _

theorem grows_writeUint32 (s : MessageOStream) (v : Nat) : Grows s (s.writeUint32 v) :=
  (grows_pad s 4).trans (Grows.of_append _ _ _)

theorem grows_writeSignature (s : MessageOStream) (str : Str) :
    Grows s (s.writeSignature str) :=
  ((grows_writeByte s _).trans (Grows.of_append _ _ _)).trans (grows_writeByte _ _)

theorem grows_writeString (s : MessageOStream) (str : Str) : Grows s (s.writeString str) :=
  (((grows_pad s 4).trans (grows_writeUint32 _ _)).trans (Grows.of_append _ _ _)).trans
    (grows_writeByte _ _)

theorem grows_writeUnixFd (s s1 : MessageOStream) (fd : Int)
    (h : s.writeUnixFd fd = Except.ok s1) : Grows s s1 := by
  unfold MessageOStream.writeUnixFd at h
  split at h
  · exact absurd h (by simp)
  · simp only [Except.ok.injEq] at h
    rw [← h]
    exact (Grows.of_append s [] _).trans
      (by simpa using grows_writeUint32 { data := s.data ++ [], fds := s.fds ++ [fd] } _)

theorem length_writeUint32 (s : MessageOStream) (v : Nat) :
    s.data.length + 4 ≤ (s.writeUint32 v).data.length := by
  simp [MessageOStream.writeUint32, MessageOStream.pad4, MessageOStream.pad, leBytes]

theorem grows_replace (s s3 : MessageOStream) (bytes : List Nat) (hb : bytes.length = 4)
    (h : Grows s s3) (hlen : s.data.length + 4 ≤ s3.data.length) :
    Grows s (s3.replace s.data.length 4 bytes) ∧
      (s3.replace s.data.length 4 bytes).data.length = s3.data.length ∧
      ((s3.replace s.data.length 4 bytes).data.drop s.data.length).take 4 = bytes := by
  have h2 := h.2
  refine ⟨⟨?_, ?_⟩, ?_, ?_⟩
  · simp [MessageOStream.replace, hb]; omega
  · simp only [MessageOStream.replace, List.append_assoc]
    rw [List.take_append_of_le_length (by simp; omega), List.take_take, Nat.min_self, h2]
  · simp [MessageOStream.replace, hb]; omega
  · simp only [MessageOStream.replace, List.append_assoc]
    have hl : (List.take s.data.length s3.data).length = s.data.length := by simp; omega
    rw [List.drop_left' hl, List.take_left' hb]

mutual

/-- Marshalling a value only appends to the stream, except that an array
rewrites four bytes at the offset where it began. -/
theorem marshall_grows : ∀ (v : Any) (s s1 : MessageOStream),
    v.marshall s = Except.ok s1 → Grows s s1
  | Any.None, s, s1, h => by simp [Any.marshall] at h
  | Any.Byte v, s, s1, h => by
    simp only [Any.marshall, Except.ok.injEq] at h; rw [← h]; exact grows_writeByte _ _
  | Any.Boolean v, s, s1, h => by
    simp only [Any.marshall, Except.ok.injEq] at h; rw [← h]; exact grows_writeUint32 _ _
  | Any.Double v, s, s1, h => by
    simp only [Any.marshall, Except.ok.injEq] at h; rw [← h]
    exact (grows_pad s 8).trans (Grows.of_append _ _ _)
  | Any.Int16 v, s, s1, h => by
    simp only [Any.marshall, Except.ok.injEq] at h; rw [← h]
    exact (grows_pad s 2).trans (Grows.of_append _ _ _)
  | Any.Int32 v, s, s1, h => by
    simp only [Any.marshall, Except.ok.injEq] at h; rw [← h]
    exact (grows_pad s 4).trans (Grows.of_append _ _ _)
  | Any.Int64 v, s, s1, h => by
    simp only [Any.marshall, Except.ok.injEq] at h; rw [← h]
    exact (grows_pad s 8).trans (Grows.of_append _ _ _)
  | Any.Uint16 v, s, s1, h => by
    simp only [Any.marshall, Except.ok.injEq] at h; rw [← h]
    exact (grows_pad s 2).trans (Grows.of_append _ _ _)
  | Any.Uint32 v, s, s1, h => by
    simp only [Any.marshall, Except.ok.injEq] at h; rw [← h]; exact grows_writeUint32 _ _
  | Any.Uint64 v, s, s1, h => by
    simp only [Any.marshall, Except.ok.injEq] at h; rw [← h]
    exact (grows_pad s 8).trans (Grows.of_append _ _ _)
  | Any.UnixFd fd, s, s1, h => by
    simp only [Any.marshall] at h; exact grows_writeUnixFd s s1 fd h
  | Any.String v, s, s1, h => by
    simp only [Any.marshall, Except.ok.injEq] at h; rw [← h]; exact grows_writeString _ _
  | Any.ObjectPath v, s, s1, h => by
    simp only [Any.marshall] at h
    split at h
    · exact absurd h (by simp)
    · simp only [Except.ok.injEq] at h; rw [← h]; exact grows_writeString _ _
  | Any.Signature v, s, s1, h => by
    simp only [Any.marshall, Except.ok.injEq] at h; rw [← h]; exact grows_writeSignature _ _
  | Any.Array sig contents, s, s1, h => by
    simp only [Any.marshall] at h
    cases ha : getAlignment sig with
    | error e => rw [ha] at h; exact absurd h (by simp)
    | ok al =>
      rw [ha] at h
      simp only at h
      cases hm : Any.marshallAll contents ((s.writeUint32 0).pad al) with
      | error e => rw [hm] at h; exact absurd h (by simp)
      | ok s3 =>
        rw [hm] at h
        simp only at h
        split at h
        · exact absurd h (by simp)
        · simp only [Except.ok.injEq] at h
          rw [← h]
          have g3 : Grows s s3 :=
            ((grows_writeUint32 s 0).trans (grows_pad _ al)).trans
              (marshallAll_grows contents _ s3 hm)
          have hlen : s.data.length + 4 ≤ s3.data.length :=
            Nat.le_trans (length_writeUint32 s 0)
              ((grows_pad _ al).trans (marshallAll_grows contents _ s3 hm)).1
          exact (grows_replace s s3 _ (by simp [leBytes]) g3 hlen).1
  | Any.Struct sig elements, s, s1, h => by
    simp only [Any.marshall] at h
    exact (grows_pad s 8).trans (marshallAll_grows elements _ s1 h)
  | Any.Variant v, s, s1, h => by
    simp only [Any.marshall] at h
    cases hs : v.getSignature with
    | error e => rw [hs] at h; exact absurd h (by simp)
    | ok sig =>
      rw [hs] at h
      exact (grows_writeSignature s sig).trans (marshall_grows v _ s1 h)
  | Any.DictEntry sig key value, s, s1, h => by
    simp only [Any.marshall] at h
    cases hk : key.marshall s.pad8 with
    | error e => rw [hk] at h; exact absurd h (by simp)
    | ok s2 =>
      rw [hk] at h
      exact ((grows_pad s 8).trans (marshall_grows key _ s2 hk)).trans
        (marshall_grows value _ s1 h)

theorem marshallAll_grows : ∀ (l : List Any) (s s1 : MessageOStream),
    Any.marshallAll l s = Except.ok s1 → Grows s s1
  | [], s, s1, h => by
    simp only [Any.marshallAll, Except.ok.injEq] at h; rw [← h]; exact Grows.refl s
  | v :: rest, s, s1, h => by
    simp only [Any.marshallAll] at h
    cases hv : v.marshall s with
    | error e => rw [hv] at h; exact absurd h (by simp)
    | ok s2 =>
      rw [hv] at h
      exact (marshall_grows v s s2 hv).trans (marshallAll_grows rest s2 s1 h)

end

/-- Where `Array::marshall` stores the length, for every array and every
stream: the first `n` bytes of a stream of size `n` are unchanged, and the
number of bytes of the marshalled elements (the padding after the length
field not counted) is stored in the four bytes at offset `n`. When `n` is a
multiple of 4 this is the length field; otherwise the field lies at the next
multiple of 4. -/
theorem Array_marshall_layout (sig : Str) (contents : List Any) (s s1 : MessageOStream)
    (h : (Any.Array sig contents).marshall s = Except.ok s1) :
    ∃ (al : Nat) (s3 : MessageOStream),
      getAlignment sig = Except.ok al ∧
      Any.marshallAll contents ((s.writeUint32 0).pad al) = Except.ok s3 ∧
      s1.data.take s.size = s.data ∧
      s1.size = s3.size ∧
      (s1.data.drop s.size).take 4 =
        leBytes 4 ((s3.size - ((s.writeUint32 0).pad al).size) % 2 ^ 32) ∧
      (s.size % 4 = 0 → s.size + Utils.getPadding 4 s.size = s.size) := by
  simp only [Any.marshall] at h
  cases ha : getAlignment sig with
  | error e => rw [ha] at h; exact absurd h (by simp)
  | ok al =>
    rw [ha] at h
    simp only at h
    cases hm : Any.marshallAll contents ((s.writeUint32 0).pad al) with
    | error e => rw [hm] at h; exact absurd h (by simp)
    | ok s3 =>
      rw [hm] at h
      simp only at h
      split at h
      · exact absurd h (by simp)
      · simp only [Except.ok.injEq] at h
        have g3 : Grows s s3 :=
          ((grows_writeUint32 s 0).trans (grows_pad _ al)).trans
            (marshallAll_grows contents _ s3 hm)
        have hlen : s.data.length + 4 ≤ s3.data.length :=
          Nat.le_trans (length_writeUint32 s 0)
            ((grows_pad _ al).trans (marshallAll_grows contents _ s3 hm)).1
        obtain ⟨hg, hl, hb⟩ := grows_replace s s3
          (leBytes 4 ((s3.size - ((s.writeUint32 0).pad al).size) % 2 ^ 32))
          (by simp [leBytes]) g3 hlen
        refine ⟨al, s3, rfl, hm, ?_, ?_, ?_, ?_⟩
        · rw [← h]; exact hg.2
        · rw [← h]; exact hl
        · rw [← h]; exact hb
        · intro h4
          simp [Utils.getPadding, h4]


/-! ## Soundness of the signature validator -/

theorem complete_spec (done : List Str) (frames : List Frame) (t : Str) (hs hk hv : Bool)
    (hdone : ∀ u ∈ done, SCT 32 32 u)
    (hok : FramesOK frames) (hcov : headCoverable frames)
    (ha : aCount frames ≤ 32) (hsl : sCount frames ≤ 32)
    (ht : SCT (32 - aCount frames) (32 - sCount frames) t)
    (hS : (∃ f ∈ frames, f.isStr = true) → hs = true)
    (hD : (∃ f ∈ frames, f.isDct = true) → hk = true ∧ hv = true) :
    ContainerStack.popArrays (frames.map Frame.kind) (aCount frames) =
      ((complete done frames t).2.map Frame.kind, aCount (complete done frames t).2) ∧
    sCount (complete done frames t).2 = sCount frames ∧
    aCount (complete done frames t).2 ≤ 32 ∧
    (∀ u ∈ (complete done frames t).1, SCT 32 32 u) ∧
    FramesOK (complete done frames t).2 ∧
    (complete done frames t).1.flatten ++ renderFrames (complete done frames t).2 =
      done.flatten ++ renderFrames frames ++ t ∧
    hsRel (complete done frames t).2 hs ∧
    dRel (complete done frames t).2 hk hv := by
  induction frames generalizing t with
  | nil =>
    simp only [complete, wrapArrays, addElement, List.map_nil, aCount, sCount, renderFrames,
      ContainerStack.popArrays, FramesOK, hsRel, dRel, List.append_nil, and_true, true_and,
      Nat.zero_le, List.flatten_append, List.flatten_cons, List.flatten_nil]
    intro u hu
    rcases List.mem_append.mp hu with h | h
    · exact hdone u h
    · simp only [List.mem_singleton] at h
      subst h
      simpa [aCount, sCount] using ht
  | cons f below ih =>
    obtain ⟨hf, hcb, hokb⟩ := hok
    cases f with
    | arr =>
      have hab : aCount below + 1 ≤ 32 := by
        simpa [aCount, Frame.isArr, Nat.add_comm] using ha
      have hsb : sCount below ≤ 32 := by simpa [sCount, Frame.isStr] using hsl
      have ht1 : SCT (32 - aCount below) (32 - sCount below) ('a' :: t) := by
        have h := SCT.array _ _ _ ht
        have e1 : 32 - aCount (Frame.arr :: below) + 1 = 32 - aCount below := by
          simp only [aCount, Frame.isArr, if_true]; omega
        have e2 : sCount (Frame.arr :: below) = sCount below := by
          simp [sCount, Frame.isStr]
        rw [e1, e2] at h
        exact h
      have h := ih ('a' :: t) hokb hcb (by omega) hsb ht1
        (fun ⟨g, hg, hg1⟩ => hS ⟨g, List.mem_cons_of_mem _ hg, hg1⟩)
        (fun ⟨g, hg, hg1⟩ => hD ⟨g, List.mem_cons_of_mem _ hg, hg1⟩)
      have hc : complete done (Frame.arr :: below) t = complete done below ('a' :: t) := rfl
      rw [hc]
      obtain ⟨h1, h2, h3, h4, h5, h6, h7, h8⟩ := h
      refine ⟨?_, ?_, h3, h4, h5, ?_, h7, h8⟩
      · rw [← h1]
        simp [aCount, Frame.isArr, Frame.kind, ContainerStack.popArrays]
      · rw [h2]; simp [sCount, Frame.isStr]
      · rw [h6]; simp [renderFrames, Frame.render]
    | str ts =>
      have hc : complete done (Frame.str ts :: below) t =
          (done, Frame.str (ts ++ [t]) :: below) := rfl
      rw [hc]
      have hs1 : hs = true := hS ⟨Frame.str ts, List.mem_cons_self _ _, rfl⟩
      refine ⟨?_, ?_, ?_, hdone, ⟨?_, hcb, hokb⟩, ?_, ?_, ?_⟩
      · simp [aCount, Frame.isArr, Frame.kind, ContainerStack.popArrays]
      · simp [sCount, Frame.isStr]
      · simpa [aCount, Frame.isArr] using ha
      · intro u hu
        rcases List.mem_append.mp hu with h | h
        · exact hf u h
        · simp only [List.mem_singleton] at h
          subst h
          have e1 : aCount (Frame.str ts :: below) = aCount below := by
            simp [aCount, Frame.isArr]
          have e2 : sCount (Frame.str ts :: below) = sCount below + 1 := by
            simp [sCount, Frame.isStr, Nat.add_comm]
          rw [e1, e2] at ht
          exact ht
      · simp [renderFrames, Frame.render]
      · simp [hsRel, hs1]
      · simp only [dRel]
        exact fun ⟨g, hg, hg1⟩ => hD ⟨g, List.mem_cons_of_mem _ hg, hg1⟩
    | dctEmpty => exact absurd hcov (by simp [headCoverable, Frame.coverable])
    | dctFull k v => exact absurd hcov (by simp [headCoverable, Frame.coverable])
    | dctKey k =>
      have hc : complete done (Frame.dctKey k :: below) t =
          (done, Frame.dctFull k t :: below) := rfl
      rw [hc]
      have hkv := hD ⟨Frame.dctKey k, List.mem_cons_self _ _, rfl⟩
      refine ⟨?_, ?_, ?_, hdone, ⟨⟨hf.1, hf.2, ?_⟩, hcb, hokb⟩, ?_, ?_, ?_⟩
      · simp [aCount, Frame.isArr, Frame.kind, ContainerStack.popArrays]
      · simp [sCount, Frame.isStr]
      · simpa [aCount, Frame.isArr] using ha
      · have e1 : aCount (Frame.dctKey k :: below) = aCount below := by
          simp [aCount, Frame.isArr]
        have e2 : sCount (Frame.dctKey k :: below) = sCount below := by
          simp [sCount, Frame.isStr]
        rw [e1, e2] at ht
        exact ht
      · simp [renderFrames, Frame.render]
      · simp only [hsRel]
        exact fun ⟨g, hg, hg1⟩ => hS ⟨g, List.mem_cons_of_mem _ hg, hg1⟩
      · simp [dRel, hkv.1, hkv.2]

section SignatureSoundness

open Signature

theorem sct_of_code (a s : Nat) (c : Char) (h : (isBasicTypeCode c || c == 'v') = true) :
    SCT a s [c] := by
  rcases Bool.or_eq_true _ _ |>.mp h with h1 | h1
  · exact SCT.basic a s c h1
  · have : c = 'v' := by simpa using h1
    subst this
    exact SCT.variant a s

theorem not_bracket_of_basic {c : Char} (h : (isBasicTypeCode c || c == 'v') = true) :
    c ≠ '(' ∧ c ≠ ')' ∧ c ≠ '{' ∧ c ≠ '}' ∧ c ≠ 'a' := by
  refine ⟨?_, ?_, ?_, ?_, ?_⟩ <;> (intro hc; subst hc; revert h; decide)

/-- What a successful `dispatch` did. -/
theorem dispatch_cases (level : Nat) (st st1 : SigState) (c : Char)
    (h : dispatch level st c = Except.ok st1) :
    (c = 'a' ∧ st.stack.m_arrayLevel + 1 ≤ 32 ∧
      st1 = { st with stack := (st.stack.push Container.Array).2 }) ∨
    (c = '(' ∧ st.stack.m_structLevel + 1 ≤ 32 ∧
      st1 = { st with stack := (st.stack.push Container.Struct).2,
                      haveStructElement := false }) ∨
    (c = ')' ∧ st.stack.topmostIs Container.Struct = true ∧ st.haveStructElement = true ∧
      st1 = { st with stack := st.stack.pop }) ∨
    (c = '{' ∧ st.stack.topmostIs Container.Array = true ∧
      st1 = { st with stack := (st.stack.push Container.DictEntry).2,
                      haveDictEntryKey := false, haveDictEntryVal := false }) ∨
    (c = '}' ∧ st.stack.topmostIs Container.DictEntry = true ∧ st.haveDictEntryVal = true ∧
      st1 = { st with stack := st.stack.pop }) ∨
    ((isBasicTypeCode c || c == 'v') = true ∧
      st1 = { st with stack :=
        if st.stack.topmostIs Container.Array then st.stack.pop else st.stack }) := by
  unfold dispatch at h
  split at h
  · rename_i hc
    left
    dsimp only at h
    split at h
    · exact absurd h (by simp)
    · rename_i hle
      split at h
      · exact absurd h (by simp)
      · simp only [Except.ok.injEq] at h
        refine ⟨by simpa using hc, ?_, h.symm⟩
        simpa [ContainerStack.push, ContainerStack.MaxArrayDepth] using hle
  · split at h
    · rename_i hc
      right; left
      dsimp only at h
      split at h
      · exact absurd h (by simp)
      · rename_i hle
        split at h
        · exact absurd h (by simp)
        · simp only [Except.ok.injEq] at h
          refine ⟨by simpa using hc, ?_, h.symm⟩
          simpa [ContainerStack.push, ContainerStack.MaxStructDepth] using hle
    · split at h
      · rename_i hc
        right; right; left
        split at h
        · exact absurd h (by simp)
        · rename_i hcond
          simp only [Except.ok.injEq] at h
          simp only [Bool.or_eq_true, Bool.not_eq_true', not_or, Bool.not_eq_false] at hcond
          exact ⟨by simpa using hc, hcond.1, hcond.2, h.symm⟩
      · split at h
        · rename_i hc
          right; right; right; left
          split at h
          · exact absurd h (by simp)
          · rename_i hcond
            simp only [Except.ok.injEq] at h
            simp only [Bool.not_eq_true', Bool.not_eq_false] at hcond
            exact ⟨by simpa using hc, hcond, h.symm⟩
        · split at h
          · rename_i hc
            right; right; right; right; left
            split at h
            · exact absurd h (by simp)
            · rename_i hcond
              simp only [Except.ok.injEq] at h
              simp only [Bool.or_eq_true, Bool.not_eq_true', not_or, Bool.not_eq_false] at hcond
              exact ⟨by simpa using hc, hcond.1, hcond.2, h.symm⟩
          · split at h
            · rename_i hc
              right; right; right; right; right
              refine ⟨hc, ?_⟩
              split at h
              · rename_i htop
                simp only [Except.ok.injEq] at h
                simp [← h, htop]
              · rename_i htop
                simp only [Except.ok.injEq] at h
                simp [← h, htop]
            · exact absurd h (by simp)

/-- What a successful `step` did. -/
theorem step_cases (level : Nat) (st st1 : SigState) (c : Char)
    (h : step level st c = Except.ok st1) :
    (st.stack.topmostIs Container.DictEntry = true ∧ st.haveDictEntryKey = false ∧
      isBasicTypeCode c = true ∧ st1 = { st with haveDictEntryKey := true }) ∨
    (st.stack.topmostIs Container.DictEntry = true ∧ st.haveDictEntryKey = true ∧ c ≠ '}' ∧
      st.haveDictEntryVal = false ∧
      dispatch level { st with haveDictEntryVal := true } c = Except.ok st1) ∨
    (st.stack.topmostIs Container.DictEntry = true ∧ st.haveDictEntryKey = true ∧ c = '}' ∧
      dispatch level st c = Except.ok st1) ∨
    (st.stack.topmostIs Container.DictEntry = false ∧
      st.stack.topmostIs Container.Struct = true ∧ c ≠ ')' ∧
      dispatch level { st with haveStructElement := true } c = Except.ok st1) ∨
    (st.stack.topmostIs Container.DictEntry = false ∧
      (st.stack.topmostIs Container.Struct = false ∨ c = ')') ∧
      dispatch level st c = Except.ok st1) := by
  unfold step at h
  split at h
  · rename_i hd
    split at h
    · rename_i hk
      simp only [Bool.not_eq_true', ] at hk
      split at h
      · exact absurd h (by simp)
      · rename_i hb
        simp only [Bool.not_eq_true', Bool.not_eq_false] at hb
        simp only [Except.ok.injEq] at h
        exact Or.inl ⟨hd, hk, hb, h.symm⟩
    · rename_i hk
      simp only [Bool.not_eq_true', Bool.not_eq_false] at hk
      split at h
      · rename_i hc
        split at h
        · exact absurd h (by simp)
        · rename_i hv
          simp only [Bool.not_eq_true] at hv
          exact Or.inr (Or.inl ⟨hd, hk, by simpa using hc, hv, h⟩)
      · rename_i hc
        exact Or.inr (Or.inr (Or.inl ⟨hd, hk, by simpa using hc, h⟩))
  · rename_i hd
    simp only [Bool.not_eq_true] at hd
    split at h
    · rename_i hsc
      simp only [Bool.and_eq_true, bne_iff_ne, ne_eq] at hsc
      exact Or.inr (Or.inr (Or.inr (Or.inl ⟨hd, hsc.1, hsc.2, h⟩)))
    · rename_i hsc
      refine Or.inr (Or.inr (Or.inr (Or.inr ⟨hd, ?_, h⟩)))
      simp only [Bool.and_eq_true, bne_iff_ne, ne_eq, not_and, Decidable.not_not] at hsc
      by_cases hs : st.stack.topmostIs Container.Struct = true
      · exact Or.inr (hsc hs)
      · exact Or.inl (by simpa using hs)

theorem Shape.topmostIs {done : List Str} {frames : List Frame} {consumed : Str}
    {stack : ContainerStack} (h : Shape done frames consumed stack) (k : Container) :
    stack.topmostIs k = (match frames with
      | [] => false
      | f :: _ => f.kind == k) := by
  unfold ContainerStack.topmostIs
  rw [h.stack_eq]
  cases frames <;> rfl

theorem Shape.pushArr {done : List Str} {frames : List Frame} {consumed : Str}
    {stack : ContainerStack} (h : Shape done frames consumed stack)
    (hcov : headCoverable frames) (hle : stack.m_arrayLevel + 1 ≤ 32) :
    Shape done (Frame.arr :: frames) (consumed ++ ['a'])
      (stack.push Container.Array).2 where
  stack_eq := by simp [ContainerStack.push, h.stack_eq, Frame.kind]
  arrayLevel_eq := by
    simp [ContainerStack.push, h.arrayLevel_eq, aCount, Frame.isArr, Nat.add_comm]
  structLevel_eq := by simp [ContainerStack.push, h.structLevel_eq, sCount, Frame.isStr]
  arrayLevel_le := by
    have := h.arrayLevel_eq
    simp only [aCount, Frame.isArr, if_true]; omega
  structLevel_le := by simpa [sCount, Frame.isStr] using h.structLevel_le
  done_ok := h.done_ok
  frames_ok := ⟨trivial, hcov, h.frames_ok⟩
  text_eq := by simp [h.text_eq, renderFrames, Frame.render]

theorem Shape.pushStr {done : List Str} {frames : List Frame} {consumed : Str}
    {stack : ContainerStack} (h : Shape done frames consumed stack)
    (hcov : headCoverable frames) (hle : stack.m_structLevel + 1 ≤ 32) :
    Shape done (Frame.str [] :: frames) (consumed ++ ['('])
      (stack.push Container.Struct).2 where
  stack_eq := by simp [ContainerStack.push, h.stack_eq, Frame.kind]
  arrayLevel_eq := by simp [ContainerStack.push, h.arrayLevel_eq, aCount, Frame.isArr]
  structLevel_eq := by
    simp [ContainerStack.push, h.structLevel_eq, sCount, Frame.isStr, Nat.add_comm]
  arrayLevel_le := by simpa [aCount, Frame.isArr] using h.arrayLevel_le
  structLevel_le := by
    have := h.structLevel_eq
    simp only [sCount, Frame.isStr, if_true]; omega
  done_ok := h.done_ok
  frames_ok := ⟨by simp [FrameOK], hcov, h.frames_ok⟩
  text_eq := by simp [h.text_eq, renderFrames, Frame.render]

theorem Shape.pushDct {done : List Str} {frames : List Frame} {consumed : Str}
    {stack : ContainerStack} (h : Shape done frames consumed stack)
    (htop : stack.topmostIs Container.Array = true) :
    Shape done (Frame.dctEmpty :: frames) (consumed ++ ['{'])
      (stack.push Container.DictEntry).2 ∧ headCoverable frames := by
  rw [h.topmostIs] at htop
  cases frames with
  | nil => simp at htop
  | cons f below =>
    cases f <;> simp [Frame.kind] at htop
    refine ⟨?_, by simp [headCoverable, Frame.coverable]⟩
    exact {
      stack_eq := by simp [ContainerStack.push, h.stack_eq, Frame.kind]
      arrayLevel_eq := by simp [ContainerStack.push, h.arrayLevel_eq, aCount, Frame.isArr]
      structLevel_eq := by simp [ContainerStack.push, h.structLevel_eq, sCount, Frame.isStr]
      arrayLevel_le := by simpa [aCount, Frame.isArr] using h.arrayLevel_le
      structLevel_le := by simpa [sCount, Frame.isStr] using h.structLevel_le
      done_ok := h.done_ok
      frames_ok := ⟨by simp [FrameOK, headIsArr], by simp [headCoverable, Frame.coverable],
        h.frames_ok⟩
      text_eq := by simp [h.text_eq, renderFrames, Frame.render] }

/-- The frames below the topmost one, with the stack they stand for. -/
theorem Shape.tail {done : List Str} {f : Frame} {below : List Frame} {consumed : Str}
    {stack : ContainerStack} (h : Shape done (f :: below) consumed stack) :
    FramesOK below ∧ headCoverable below ∧ aCount below ≤ 32 ∧ sCount below ≤ 32 := by
  obtain ⟨_, hcb, hokb⟩ := h.frames_ok
  refine ⟨hokb, hcb, ?_, ?_⟩
  · have := h.arrayLevel_le
    simp only [aCount] at this; omega
  · have := h.structLevel_le
    simp only [sCount] at this; omega

theorem reading_complete (done : List Str) (frames : List Frame) (t : Str) (hs hk hv : Bool)
    (hdone : ∀ u ∈ done, SCT 32 32 u) (hok : FramesOK frames)
    (ha : aCount frames ≤ 32) (hsl : sCount frames ≤ 32)
    (hready : Ready frames hs hk hv)
    (ht : SCT (32 - aCount frames) (32 - sCount frames) t) :
    Reading (complete done frames t).1 (complete done frames t).2
      (done.flatten ++ renderFrames frames ++ t)
      { stack :=
          { m_arrayLevel :=
              (ContainerStack.popArrays (frames.map Frame.kind) (aCount frames)).2,
            m_structLevel := sCount frames,
            m_stack := (ContainerStack.popArrays (frames.map Frame.kind) (aCount frames)).1 },
        haveStructElement := hs, haveDictEntryKey := hk, haveDictEntryVal := hv } := by
  obtain ⟨h1, h2, h3, h4, h5, h6, h7, h8⟩ :=
    complete_spec done frames t hs hk hv hdone hok hready.1 ha hsl ht hready.2.1 hready.2.2
  exact {
    shape := {
      stack_eq := by simp [h1]
      arrayLevel_eq := by simp [h1]
      structLevel_eq := h2.symm
      arrayLevel_le := h3
      structLevel_le := by rw [h2]; exact hsl
      done_ok := h4
      frames_ok := h5
      text_eq := h6.symm }
    hs_rel := h7
    d_rel := h8 }

theorem Shape.pop_or_same {done : List Str} {frames : List Frame} {consumed : Str}
    {stack : ContainerStack} (h : Shape done frames consumed stack) :
    (if stack.topmostIs Container.Array then stack.pop else stack) =
      { m_arrayLevel := (ContainerStack.popArrays (frames.map Frame.kind) (aCount frames)).2,
        m_structLevel := sCount frames,
        m_stack := (ContainerStack.popArrays (frames.map Frame.kind) (aCount frames)).1 } := by
  obtain ⟨al, sl, stk⟩ := stack
  have h1 := h.stack_eq
  have h2 := h.arrayLevel_eq
  have h3 := h.structLevel_eq
  simp only at h1 h2 h3
  subst h1 h2 h3
  cases frames with
  | nil => rfl
  | cons f below =>
    cases f <;>
      simp [ContainerStack.topmostIs, ContainerStack.pop, ContainerStack.popArrays,
        Frame.kind, aCount, sCount, Frame.isArr, Frame.isStr]

theorem dispatch_ready (level : Nat) (done : List Str) (frames : List Frame)
    (consumed : Str) (st st1 : SigState) (c : Char)
    (hshape : Shape done frames consumed st.stack)
    (hready : Ready frames st.haveStructElement st.haveDictEntryKey st.haveDictEntryVal)
    (hnotS : c = ')' → st.stack.topmostIs Container.Struct = false)
    (hnotD : c = '}' → st.stack.topmostIs Container.DictEntry = false)
    (h : dispatch level st c = Except.ok st1) :
    Reading (nextFrames done frames c).1 (nextFrames done frames c).2 (consumed ++ [c]) st1 := by
  rcases dispatch_cases level st st1 c h with
    ⟨hc, hle, hst⟩ | ⟨hc, hle, hst⟩ | ⟨hc, htop, _, _⟩ | ⟨hc, htop, hst⟩ |
    ⟨hc, htop, _, _⟩ | ⟨hc, hst⟩
  · subst hc hst
    show Reading done (Frame.arr :: frames) _ _
    exact
      { shape := hshape.pushArr hready.1 hle
        hs_rel := hready.2.1
        d_rel := hready.2.2 }
  · subst hc hst
    show Reading done (Frame.str [] :: frames) _ _
    exact
      { shape := hshape.pushStr hready.1 hle
        hs_rel := by simp [hsRel]
        d_rel := hready.2.2 }
  · rw [hnotS hc] at htop
    exact absurd htop (by simp)
  · subst hc hst
    show Reading done (Frame.dctEmpty :: frames) _ _
    exact
      { shape := (hshape.pushDct htop).1
        hs_rel := hready.2.1
        d_rel := by simp [dRel] }
  · rw [hnotD hc] at htop
    exact absurd htop (by simp)
  · subst hst
    obtain ⟨h1, _, h3, _, h5⟩ := not_bracket_of_basic hc
    have hnext : nextFrames done frames c = complete done frames [c] := by
      simp [nextFrames, h1, h3, h5]
    rw [hnext]
    have hr := reading_complete done frames [c] st.haveStructElement st.haveDictEntryKey
      st.haveDictEntryVal hshape.done_ok hshape.frames_ok hshape.arrayLevel_le
      hshape.structLevel_le hready (sct_of_code _ _ c hc)
    rw [hshape.pop_or_same, hshape.text_eq]
    exact hr

theorem dispatch_close_struct (level : Nat) (done : List Str) (ts : List Str)
    (below : List Frame) (consumed : Str) (st st1 : SigState)
    (hread : Reading done (Frame.str ts :: below) consumed st)
    (h : dispatch level st ')' = Except.ok st1) :
    Reading (complete done below ('(' :: (ts.flatten ++ [')']))).1
      (complete done below ('(' :: (ts.flatten ++ [')']))).2 (consumed ++ [')']) st1 := by
  rcases dispatch_cases level st st1 ')' h with
    ⟨hc, _⟩ | ⟨hc, _⟩ | ⟨_, _, hhs, hst⟩ | ⟨hc, _⟩ | ⟨hc, _⟩ | ⟨hc, _⟩
  · exact absurd hc (by decide)
  · exact absurd hc (by decide)
  · obtain ⟨hshape, hsr, hdr⟩ := hread
    obtain ⟨⟨al, sl, stk⟩, hs, hk, hv⟩ := st
    have h1 := hshape.stack_eq
    have h2 := hshape.arrayLevel_eq
    have h3 := hshape.structLevel_eq
    simp only at h1 h2 h3 hhs hsr hdr
    subst h1 h2 h3 hhs hst
    obtain ⟨hokb, hcb, hab, hsb⟩ := hshape.tail
    have hsle := hshape.structLevel_le
    have hts : ts ≠ [] := by simpa [hsRel] using hsr
    have hf : ∀ t ∈ ts, SCT (32 - aCount below) (32 - (sCount below + 1)) t :=
      hshape.frames_ok.1
    have ht : SCT (32 - aCount below) (32 - sCount below) ('(' :: (ts.flatten ++ [')'])) := by
      have h := SCT.struct _ _ ts hts hf
      have e : 32 - (sCount below + 1) + 1 = 32 - sCount below := by
        simp only [sCount, Frame.isStr, if_true] at hsle; omega
      rw [e] at h
      exact h
    have hr := reading_complete done below ('(' :: (ts.flatten ++ [')'])) true hk hv
      hshape.done_ok hokb hab hsb ⟨hcb, fun _ => rfl, hdr⟩ ht
    have e1 : consumed ++ [')'] =
        done.flatten ++ renderFrames below ++ '(' :: (ts.flatten ++ [')']) := by
      rw [hshape.text_eq]; simp [renderFrames, Frame.render]
    rw [e1]
    simpa [ContainerStack.pop, Frame.kind, aCount, sCount, Frame.isArr, Frame.isStr] using hr
  · exact absurd hc (by decide)
  · exact absurd hc (by decide)
  · exact absurd hc (by decide)

theorem dispatch_close_dict (level : Nat) (done : List Str) (frames : List Frame)
    (consumed : Str) (st st1 : SigState)
    (hread : Reading done frames consumed st)
    (h : dispatch level st '}' = Except.ok st1) :
    ∃ k v B, frames = Frame.dctFull k v :: Frame.arr :: B ∧
      Reading (complete done B ('a' :: '{' :: k :: (v ++ ['}']))).1
        (complete done B ('a' :: '{' :: k :: (v ++ ['}']))).2 (consumed ++ ['}']) st1 := by
  rcases dispatch_cases level st st1 '}' h with
    ⟨hc, _⟩ | ⟨hc, _⟩ | ⟨hc, _⟩ | ⟨hc, _⟩ | ⟨_, htop, hhv, hst⟩ | ⟨hc, _⟩
  · exact absurd hc (by decide)
  · exact absurd hc (by decide)
  · exact absurd hc (by decide)
  · exact absurd hc (by decide)
  · obtain ⟨hshape, hsr, hdr⟩ := hread
    rw [hshape.topmostIs] at htop
    obtain ⟨⟨al, sl, stk⟩, hs, hk, hv⟩ := st
    have h1 := hshape.stack_eq
    have h2 := hshape.arrayLevel_eq
    have h3 := hshape.structLevel_eq
    simp only at h1 h2 h3 hhv hsr hdr
    subst h1 h2 h3 hhv hst
    cases frames with
    | nil => simp at htop
    | cons f below =>
      cases f with
      | arr => simp [Frame.kind] at htop
      | str ts => simp [Frame.kind] at htop
      | dctEmpty => simp [dRel] at hdr
      | dctKey k => simp [dRel] at hdr
      | dctFull k v =>
        obtain ⟨hkb, harr, hv1⟩ := hshape.frames_ok.1
        obtain ⟨hokb, hcb, hab, hsb⟩ := hshape.tail
        cases below with
        | nil => exact absurd harr (by simp [headIsArr])
        | cons g B =>
          cases g with
          | arr =>
            have hk1 : hk = true := by simpa [dRel] using hdr
            subst hk1
            have hB : FramesOK B ∧ headCoverable B := ⟨hokb.2.2, hokb.2.1⟩
            have haB : aCount B + 1 ≤ 32 := by
              simpa [aCount, Frame.isArr, Nat.add_comm] using hab
            have hsB : sCount B ≤ 32 := by simpa [sCount, Frame.isStr] using hsb
            have ht : SCT (32 - aCount B) (32 - sCount B)
                ('a' :: '{' :: k :: (v ++ ['}'])) := by
              have h := SCT.dict _ _ k v hkb hv1
              have e1 : 32 - aCount (Frame.arr :: B) + 1 = 32 - aCount B := by
                simp only [aCount, Frame.isArr, if_true]; omega
              have e2 : sCount (Frame.arr :: B) = sCount B := by simp [sCount, Frame.isStr]
              rw [e1, e2] at h
              exact h
            have hr := reading_complete done B ('a' :: '{' :: k :: (v ++ ['}'])) hs true true
              hshape.done_ok hB.1 (by omega) hsB
              ⟨hB.2, fun ⟨f, hf, hf1⟩ => hsr ⟨f, List.mem_cons_of_mem _ hf, hf1⟩,
                fun _ => ⟨rfl, rfl⟩⟩ ht
            refine ⟨k, v, B, rfl, ?_⟩
            have e1 : consumed ++ ['}'] =
                done.flatten ++ renderFrames B ++ 'a' :: '{' :: k :: (v ++ ['}']) := by
              rw [hshape.text_eq]; simp [renderFrames, Frame.render]
            rw [e1]
            simpa [ContainerStack.pop, ContainerStack.popArrays, Frame.kind, aCount, sCount,
              Frame.isArr, Frame.isStr] using hr
          | str ts => exact absurd harr (by simp [headIsArr])
          | dctEmpty => exact absurd harr (by simp [headIsArr])
          | dctKey k1 => exact absurd harr (by simp [headIsArr])
          | dctFull k1 v1 => exact absurd harr (by simp [headIsArr])
  · exact absurd hc (by decide)

/-- One successful iteration of the validator's loop keeps the reading. -/
theorem step_reading (level : Nat) (done : List Str) (frames : List Frame)
    (consumed : Str) (st st1 : SigState) (c : Char)
    (hread : Reading done frames consumed st)
    (h : step level st c = Except.ok st1) :
    Reading (stepFrames done frames c).1 (stepFrames done frames c).2 (consumed ++ [c]) st1 := by
  obtain ⟨hshape, hsr, hdr⟩ := hread
  have htopD := hshape.topmostIs Container.DictEntry
  have htopS := hshape.topmostIs Container.Struct
  rcases step_cases level st st1 c h with
    ⟨hd, hk, hb, hst⟩ | ⟨hd, hk, hc, hv, hdis⟩ | ⟨hd, hk, hc, hdis⟩ |
    ⟨hd, hs, hc, hdis⟩ | ⟨hd, hs, hdis⟩
  · -- the key of a dict entry
    rw [htopD] at hd
    cases frames with
    | nil => simp at hd
    | cons f below =>
      cases f with
      | arr => simp [Frame.kind] at hd
      | str ts => simp [Frame.kind] at hd
      | dctKey k => simp [dRel, hk] at hdr
      | dctFull k v => simp [dRel, hk] at hdr
      | dctEmpty =>
        subst hst
        show Reading done (Frame.dctKey c :: below) _ _
        exact {
          shape := {
            stack_eq := by simpa [Frame.kind] using hshape.stack_eq
            arrayLevel_eq := by simpa [aCount, Frame.isArr] using hshape.arrayLevel_eq
            structLevel_eq := by simpa [sCount, Frame.isStr] using hshape.structLevel_eq
            arrayLevel_le := by simpa [aCount, Frame.isArr] using hshape.arrayLevel_le
            structLevel_le := by simpa [sCount, Frame.isStr] using hshape.structLevel_le
            done_ok := hshape.done_ok
            frames_ok := ⟨⟨hb, hshape.frames_ok.1⟩, hshape.frames_ok.2⟩
            text_eq := by simp [hshape.text_eq, renderFrames, Frame.render] }
          hs_rel := hsr
          d_rel := by
            have : st.haveDictEntryVal = false := by simpa [dRel] using hdr.2
            simp [dRel, this] }
  · -- the value of a dict entry begins
    rw [htopD] at hd
    cases frames with
    | nil => simp at hd
    | cons f below =>
      cases f with
      | arr => simp [Frame.kind] at hd
      | str ts => simp [Frame.kind] at hd
      | dctEmpty => simp [dRel, hk] at hdr
      | dctFull k v => simp [dRel, hv] at hdr
      | dctKey k =>
        show Reading (nextFrames done _ c).1 (nextFrames done _ c).2 _ _
        refine dispatch_ready level done _ consumed { st with haveDictEntryVal := true }
          st1 c hshape ?_ ?_ ?_ hdis
        · exact ⟨by simp [headCoverable, Frame.coverable],
            fun ⟨f, hf, hf1⟩ => by
              rcases List.mem_cons.mp hf with h1 | h1
              · subst h1; simp [Frame.isStr] at hf1
              · exact hsr ⟨f, h1, hf1⟩,
            fun _ => ⟨hk, rfl⟩⟩
        · intro _
          show st.stack.topmostIs Container.Struct = false
          rw [htopS]; rfl
        · intro hc1
          exact absurd hc1 hc
  · -- the end of a dict entry
    subst hc
    obtain ⟨k, v, B, hfr, hr⟩ :=
      dispatch_close_dict level done frames consumed st st1 ⟨hshape, hsr, hdr⟩ hdis
    subst hfr
    exact hr
  · -- inside a struct
    rw [htopS] at hs
    cases frames with
    | nil => simp at hs
    | cons f below =>
      cases f with
      | arr => simp [Frame.kind] at hs
      | dctEmpty => simp [Frame.kind] at hs
      | dctKey k => simp [Frame.kind] at hs
      | dctFull k v => simp [Frame.kind] at hs
      | str ts =>
        have hsf : stepFrames done (Frame.str ts :: below) c =
            nextFrames done (Frame.str ts :: below) c := by
          simp [stepFrames, hc]
        rw [hsf]
        refine dispatch_ready level done _ consumed { st with haveStructElement := true }
          st1 c hshape ?_ ?_ ?_ hdis
        · exact ⟨by simp [headCoverable, Frame.coverable], fun _ => rfl,
            fun ⟨f, hf, hf1⟩ => by
              rcases List.mem_cons.mp hf with h1 | h1
              · subst h1; simp [Frame.isDct] at hf1
              · exact hdr ⟨f, h1, hf1⟩⟩
        · intro hc1
          exact absurd hc1 hc
        · intro _
          exact hd
  · -- the other cases
    cases frames with
    | nil =>
      show Reading (nextFrames done _ c).1 (nextFrames done _ c).2 _ _
      refine dispatch_ready level done _ consumed _ st1 c hshape ?_ ?_ ?_ hdis
      · exact ⟨trivial, fun ⟨f, hf, _⟩ => by simp at hf, fun ⟨f, hf, _⟩ => by simp at hf⟩
      · intro _; rw [htopS]
      · intro _; rw [htopD]
    | cons f below =>
      cases f with
      | arr =>
        show Reading (nextFrames done _ c).1 (nextFrames done _ c).2 _ _
        refine dispatch_ready level done _ consumed _ st1 c hshape ?_ ?_ ?_ hdis
        · exact ⟨by simp [headCoverable, Frame.coverable],
            fun ⟨f, hf, hf1⟩ => by
              rcases List.mem_cons.mp hf with h1 | h1
              · subst h1; simp [Frame.isStr] at hf1
              · exact hsr ⟨f, h1, hf1⟩,
            fun ⟨f, hf, hf1⟩ => by
              rcases List.mem_cons.mp hf with h1 | h1
              · subst h1; simp [Frame.isDct] at hf1
              · exact hdr ⟨f, h1, hf1⟩⟩
        · intro _; rw [htopS]; rfl
        · intro _; rw [htopD]; rfl
      | str ts =>
        rcases hs with hs | hs
        · rw [htopS] at hs
          simp [Frame.kind] at hs
        · subst hs
          have hsf : stepFrames done (Frame.str ts :: below) ')' =
              complete done below ('(' :: (ts.flatten ++ [')'])) := by
            simp [stepFrames]
          rw [hsf]
          exact dispatch_close_struct level done ts below consumed st st1 ⟨hshape, hsr, hdr⟩ hdis
      | dctEmpty => rw [htopD] at hd; simp [Frame.kind] at hd
      | dctKey k => rw [htopD] at hd; simp [Frame.kind] at hd
      | dctFull k v => rw [htopD] at hd; simp [Frame.kind] at hd

/-- A successful run of the validator's loop keeps the reading. -/
theorem loop_reading (level : Nat) (rest : List Char) (done : List Str)
    (frames : List Frame) (consumed : Str) (st st1 : SigState)
    (hread : Reading done frames consumed st)
    (h : loop level st rest = Except.ok st1) :
    ∃ done1 frames1, Reading done1 frames1 (consumed ++ rest) st1 := by
  induction rest generalizing done frames consumed st with
  | nil =>
    simp only [loop, Except.ok.injEq] at h
    subst h
    exact ⟨done, frames, by simpa using hread⟩
  | cons c rest ih =>
    unfold loop at h
    cases hstep : step level st c with
    | error e => rw [hstep] at h; exact absurd h (by simp)
    | ok st2 =>
      rw [hstep] at h
      have hread2 := step_reading level done frames consumed st st2 c hread hstep
      obtain ⟨done1, frames1, hread1⟩ := ih _ _ (consumed ++ [c]) st2 hread2 h
      exact ⟨done1, frames1, by simpa using hread1⟩

theorem reading_initial : Reading [] [] [] Signature.initial where
  shape := {
    stack_eq := rfl
    arrayLevel_eq := rfl
    structLevel_eq := rfl
    arrayLevel_le := by simp [aCount]
    structLevel_le := by simp [sCount]
    done_ok := by simp
    frames_ok := trivial
    text_eq := rfl }
  hs_rel := trivial
  d_rel := trivial

/-- What an accepted signature is, for any nesting level of the caller. -/
theorem validate_sound (v : Str) (level : Nat) (h : validate v level = Except.ok ()) :
    v.length ≤ 255 ∧ IsSignatureText v := by
  unfold validate at h
  split at h
  · exact absurd h (by simp)
  · rename_i hlen
    refine ⟨by simpa [MaxLength] using hlen, ?_⟩
    cases hl : loop level initial v with
    | error e => rw [hl] at h; exact absurd h (by simp)
    | ok st =>
      rw [hl] at h
      obtain ⟨done, frames, hread⟩ := loop_reading level v [] [] [] initial st reading_initial hl
      have htopD := hread.shape.topmostIs Container.DictEntry
      have htopA := hread.shape.topmostIs Container.Array
      have htopS := hread.shape.topmostIs Container.Struct
      have hsize : st.stack.size = frames.length := by
        simp [ContainerStack.size, hread.shape.stack_eq]
      cases frames with
      | nil =>
        refine ⟨done, hread.shape.done_ok, ?_⟩
        simpa [renderFrames] using hread.shape.text_eq
      | cons f below =>
        exfalso
        simp only [hsize, List.length_cons, htopD, htopA, htopS] at h
        cases f <;> simp [Frame.kind] at h

/-- What the constructor returns when it accepts a text: a signature that
holds the text, with a fresh cursor, and the text is a signature in the
documented sense. -/
theorem ctor_ok_spec (s : Str) (sig : Signature) (h : Signature.ctor s 0 = Except.ok sig) :
    sig = { m_typeCodeIndex := 0, m_Value := s } ∧ s.length ≤ 255 ∧ IsSignatureText s := by
  unfold Signature.ctor at h
  cases hv : validate s 0 with
  | error e => rw [hv] at h; exact absurd h (by simp)
  | ok u =>
    rw [hv] at h
    simp only [Except.ok.injEq] at h
    obtain ⟨hlen, hsig⟩ := validate_sound s 0 hv
    exact ⟨h.symm, hlen, hsig⟩

/-- **C5.** Signature validation is sound: when `Signature(s)` at nesting
level 0 succeeds, `s` has at most 255 characters and is a concatenation of
zero or more single complete types (a basic code; `v`; `a` and a single
complete type; `a` and a dict entry with a basic key and exactly one single
complete type as value; `(`, one or more single complete types, `)`), in
which arrays are nested at most 32 deep and structs at most 32 deep; the
constructed signature holds the text `s`. -/
theorem Signature_ctor_sound (s : Str) (sig : Signature)
    (h : Signature.ctor s 0 = Except.ok sig) :
    s.length ≤ 255 ∧ sig.m_Value = s ∧
    ∃ ts : List Str, (∀ t ∈ ts, SCT 32 32 t) ∧ s = ts.flatten := by
  obtain ⟨hsig, hlen, htext⟩ := ctor_ok_spec s sig h
  exact ⟨hlen, by rw [hsig], htext⟩

theorem Signature_ctor_sound_witness :
    Signature.ctor exampleSignature 0 =
      Except.ok { m_typeCodeIndex := 0, m_Value := exampleSignature } ∧
    (exampleSignature.length ≤ 255 ∧
      ({ m_typeCodeIndex := 0, m_Value := exampleSignature } : Signature).m_Value =
        exampleSignature ∧
      ∃ ts : List Str, (∀ t ∈ ts, SCT 32 32 t) ∧ exampleSignature = ts.flatten) :=
  ⟨rfl, Signature_ctor_sound exampleSignature _ rfl⟩

/-! ## The signature cursor -/

theorem sct_ne_nil {a s : Nat} {t : Str} (h : SCT a s t) : t ≠ [] := by
  cases h <;> simp

theorem findClose_plain (o cl : Char) (c : Char) (rest : List Char) (n : Nat)
    (h1 : c ≠ o) (h2 : c ≠ cl) :
    findClose o cl (c :: rest) n = (findClose o cl rest n).map (· + 1) := by
  have e1 : (c == o) = false := by simpa using h1
  have e2 : (c == cl) = false := by simpa using h2
  simp [findClose, e1, e2]

theorem findClose_open (o cl : Char) (rest : List Char) (n : Nat) :
    findClose o cl (o :: rest) n = (findClose o cl rest (n + 1)).map (· + 1) := by
  simp [findClose]

theorem findClose_close (o cl : Char) (rest : List Char) (n : Nat) (h : cl ≠ o) :
    findClose o cl (cl :: rest) (n + 2) = (findClose o cl rest (n + 1)).map (· + 1) := by
  have e1 : (cl == o) = false := by simpa using h
  simp [findClose, e1]

theorem findClose_close_last (o cl : Char) (rest : List Char) (h : cl ≠ o) :
    findClose o cl (cl :: rest) 1 = some 1 := by
  have e1 : (cl == o) = false := by simpa using h
  simp [findClose, e1]

theorem map_add_map_add (x : Option Nat) (i j : Nat) :
    (x.map (· + i)).map (· + j) = x.map (· + (i + j)) := by
  cases x <;> simp [Nat.add_assoc]

/-- The bracket search passes over a concatenation of types that it passes
over one by one. -/
theorem findClose_flatten (o cl : Char) (ts : List Str)
    (h : ∀ t ∈ ts, ∀ (rest : List Char) (n : Nat),
      findClose o cl (t ++ rest) (n + 1) =
        (findClose o cl rest (n + 1)).map (· + t.length))
    (rest : List Char) (n : Nat) :
    findClose o cl (ts.flatten ++ rest) (n + 1) =
      (findClose o cl rest (n + 1)).map (· + ts.flatten.length) := by
  induction ts with
  | nil => simp
  | cons t ts ih =>
    rw [List.flatten_cons, List.append_assoc, h t (List.mem_cons_self _ _),
      ih (fun u hu => h u (List.mem_cons_of_mem _ hu)), map_add_map_add]
    simp [Nat.add_comm]

/-- The bracket search passes over a single complete type: inside it every
bracket of either kind is closed again. -/
theorem findClose_sct (o cl : Char)
    (hp : (o = '(' ∧ cl = ')') ∨ (o = '{' ∧ cl = '}'))
    {a s : Nat} {t : Str} (h : SCT a s t) :
    ∀ (rest : List Char) (n : Nat),
      findClose o cl (t ++ rest) (n + 1) =
        (findClose o cl rest (n + 1)).map (· + t.length) := by
  induction h with
  | basic a s c hc =>
    intro rest n
    obtain ⟨h1, h2, h3, h4, _⟩ := not_bracket_of_basic (by simp [hc] : (isBasicTypeCode c || c == 'v') = true)
    rcases hp with ⟨ho, hcl⟩ | ⟨ho, hcl⟩ <;> subst ho hcl
    · simpa using findClose_plain '(' ')' c rest (n + 1) h1 h2
    · simpa using findClose_plain '{' '}' c rest (n + 1) h3 h4
  | variant a s =>
    intro rest n
    rcases hp with ⟨ho, hcl⟩ | ⟨ho, hcl⟩ <;> subst ho hcl
    · simpa using findClose_plain '(' ')' 'v' rest (n + 1) (by decide) (by decide)
    · simpa using findClose_plain '{' '}' 'v' rest (n + 1) (by decide) (by decide)
  | array a s t _ ih =>
    intro rest n
    have hpl : findClose o cl ('a' :: (t ++ rest)) (n + 1) =
        (findClose o cl (t ++ rest) (n + 1)).map (· + 1) := by
      rcases hp with ⟨ho, hcl⟩ | ⟨ho, hcl⟩ <;> subst ho hcl <;>
        exact findClose_plain _ _ 'a' _ _ (by decide) (by decide)
    rw [List.cons_append, hpl, ih, map_add_map_add]
    simp [Nat.add_comm]
  | dict a s k t hk _ ih =>
    intro rest n
    obtain ⟨h1, h2, h3, h4, _⟩ := not_bracket_of_basic (by simp [hk] : (isBasicTypeCode k || k == 'v') = true)
    have e : ('a' :: '{' :: k :: (t ++ ['}'])) ++ rest = 'a' :: '{' :: k :: (t ++ '}' :: rest) := by
      simp
    rw [e]
    rcases hp with ⟨ho, hcl⟩ | ⟨ho, hcl⟩ <;> subst ho hcl
    · rw [findClose_plain '(' ')' 'a' _ _ (by decide) (by decide),
        findClose_plain '(' ')' '{' _ _ (by decide) (by decide),
        findClose_plain '(' ')' k _ _ h1 h2, ih,
        findClose_plain '(' ')' '}' _ _ (by decide) (by decide)]
      simp only [map_add_map_add]
      congr 1
      funext x
      simp only [List.length_cons, List.length_append, List.length_nil]
      omega
    · rw [findClose_plain '{' '}' 'a' _ _ (by decide) (by decide),
        findClose_open '{' '}', findClose_plain '{' '}' k _ _ h3 h4, ih,
        findClose_close '{' '}' _ _ (by decide)]
      simp only [map_add_map_add]
      congr 1
      funext x
      simp only [List.length_cons, List.length_append, List.length_nil]
      omega
  | struct a s ts _ _ ih =>
    intro rest n
    have e : ('(' :: (ts.flatten ++ [')'])) ++ rest = '(' :: (ts.flatten ++ ')' :: rest) := by
      simp
    rw [e]
    rcases hp with ⟨ho, hcl⟩ | ⟨ho, hcl⟩ <;> subst ho hcl
    · rw [findClose_open '(' ')', findClose_flatten '(' ')' ts ih,
        findClose_close '(' ')' _ _ (by decide)]
      simp only [map_add_map_add]
      congr 1
      funext x
      simp only [List.length_cons, List.length_append, List.length_nil]
      omega
    · rw [findClose_plain '{' '}' '(' _ _ (by decide) (by decide),
        findClose_flatten '{' '}' ts ih,
        findClose_plain '{' '}' ')' _ _ (by decide) (by decide)]
      simp only [map_add_map_add]
      congr 1
      funext x
      simp only [List.length_cons, List.length_append, List.length_nil]
      omega
/-- On a text that starts with a single complete type, `getNextTypeCode`
returns that type and moves the cursor past it. -/
theorem getNextFrom_sct {a s : Nat} {t : Str} (h : SCT a s t) :
    ∀ (rest : List Char) (idx : Nat),
      getNextFrom (t ++ rest) idx = (t, idx + t.length) := by
  induction h with
  | basic a s c hc =>
    intro rest idx
    obtain ⟨h1, _, h3, _, h5⟩ :=
      not_bracket_of_basic (by simp [hc] : (isBasicTypeCode c || c == 'v') = true)
    have e1 : (c == '(') = false := by simpa using h1
    have e3 : (c == '{') = false := by simpa using h3
    have e5 : (c == 'a') = false := by simpa using h5
    simp [getNextFrom, e1, e3, e5]
  | variant a s =>
    intro rest idx
    rfl
  | array a s t _ ih =>
    intro rest idx
    have e : ('a' :: t) ++ rest = 'a' :: (t ++ rest) := rfl
    rw [e, getNextFrom]
    simp only [show ('a' == '(') = false by decide, show ('a' == '{') = false by decide,
      Bool.false_eq_true, if_false, beq_self_eq_true, if_true, ih]
    simp only [List.length_cons, Prod.mk.injEq, true_and]
    omega
  | dict a s k t hk ht _ =>
    intro rest idx
    obtain ⟨_, _, h3, h4, _⟩ :=
      not_bracket_of_basic (by simp [hk] : (isBasicTypeCode k || k == 'v') = true)
    have e : ('a' :: '{' :: k :: (t ++ ['}'])) ++ rest = 'a' :: '{' :: k :: (t ++ '}' :: rest) := by
      simp
    have hf : findClose '{' '}' (k :: (t ++ '}' :: rest)) 1 = some (t.length + 2) := by
      rw [findClose_plain '{' '}' k _ _ h3 h4,
        findClose_sct '{' '}' (Or.inr ⟨rfl, rfl⟩) ht ('}' :: rest) 0,
        findClose_close_last '{' '}' _ (by decide)]
      simp
      omega
    rw [e, getNextFrom]
    simp only [show ('a' == '(') = false by decide, show ('a' == '{') = false by decide,
      Bool.false_eq_true, if_false, beq_self_eq_true, if_true]
    rw [getNextFrom]
    simp only [show ('{' == '(') = false by decide, Bool.false_eq_true, if_false,
      beq_self_eq_true, if_true, hf]
    have htake : List.take (t.length + 2) (k :: (t ++ '}' :: rest)) = k :: (t ++ ['}']) := by
      have : k :: (t ++ '}' :: rest) = (k :: (t ++ ['}'])) ++ rest := by simp
      rw [this, List.take_left' (by simp)]
    rw [htake]
    simp only [List.length_cons, List.length_append, List.length_nil, Prod.mk.injEq, true_and]
    omega
  | struct a s ts _ hts _ =>
    intro rest idx
    have e : ('(' :: (ts.flatten ++ [')'])) ++ rest = '(' :: (ts.flatten ++ ')' :: rest) := by
      simp
    have hf : findClose '(' ')' (ts.flatten ++ ')' :: rest) 1 = some (ts.flatten.length + 1) := by
      rw [findClose_flatten '(' ')' ts
          (fun t ht => findClose_sct '(' ')' (Or.inl ⟨rfl, rfl⟩) (hts t ht)) (')' :: rest) 0,
        findClose_close_last '(' ')' _ (by decide)]
      simp
      omega
    rw [e, getNextFrom]
    simp only [beq_self_eq_true, if_true, hf]
    have htake : List.take (ts.flatten.length + 1) (ts.flatten ++ ')' :: rest) =
        ts.flatten ++ [')'] := by
      have : ts.flatten ++ ')' :: rest = (ts.flatten ++ [')']) ++ rest := by simp
      rw [this, List.take_left' (by simp)]
    rw [htake]
    simp only [List.length_cons, List.length_append, List.length_nil, Prod.mk.injEq, true_and]
    omega

/-- Enumerating a concatenation of single complete types from the cursor
at its start returns the types, however many calls are allowed beyond their
number. -/
theorem enumerate_flatten (ts : List Str) (hts : ∀ t ∈ ts, ∃ a s, SCT a s t) :
    ∀ (pre : Str) (fuel : Nat), ts.length < fuel →
      enumerate fuel { m_typeCodeIndex := pre.length, m_Value := pre ++ ts.flatten } =
        some ts := by
  induction ts with
  | nil =>
    intro pre fuel hfuel
    cases fuel with
    | zero => exact absurd hfuel (by simp)
    | succ fuel =>
      simp [enumerate, getNextTypeCode, getNextFrom]
  | cons t ts ih =>
    intro pre fuel hfuel
    cases fuel with
    | zero => exact absurd hfuel (by simp)
    | succ fuel =>
      obtain ⟨a, s, ht⟩ := hts t (List.mem_cons_self _ _)
      have hne : t.isEmpty = false := by
        cases t with
        | nil => exact absurd rfl (sct_ne_nil ht)
        | cons _ _ => rfl
      have hnext : getNextTypeCode
          { m_typeCodeIndex := pre.length, m_Value := pre ++ (t :: ts).flatten } =
          (t, { m_typeCodeIndex := (pre ++ t).length,
                m_Value := (pre ++ t) ++ ts.flatten }) := by
        simp only [getNextTypeCode, List.flatten_cons, List.drop_left',
          List.drop_append_of_le_length (Nat.le_refl _), List.drop_length, List.nil_append,
          getNextFrom_sct ht, List.length_append, List.append_assoc]
      rw [enumerate, hnext]
      simp only [hne, Bool.false_eq_true, if_false]
      rw [ih (fun u hu => hts u (List.mem_cons_of_mem _ hu)) (pre ++ t) fuel
        (by simp only [List.length_cons] at hfuel; omega)]
      rfl

theorem length_le_flatten_length (ts : List Str) (h : ∀ t ∈ ts, t ≠ []) :
    ts.length ≤ ts.flatten.length := by
  induction ts with
  | nil => simp
  | cons t ts ih =>
    have h1 : 1 ≤ t.length := by
      cases t with
      | nil => exact absurd rfl (h [] (List.mem_cons_self _ _))
      | cons _ _ => simp
    have h2 := ih (fun u hu => h u (List.mem_cons_of_mem _ hu))
    simp only [List.length_cons, List.flatten_cons, List.length_append]
    omega

/-- **C8.** Signature enumeration: for a signature `s` that the constructor
accepts, calling `getNextTypeCode` from the fresh cursor until it returns
the empty string ends after finitely many calls (`|s| + 1` calls are always
enough, and allowing more changes nothing) and returns non-empty strings,
each a single complete type, whose concatenation in order is `s`. -/
theorem Signature_enumerate (s : Str) (sig : Signature)
    (h : Signature.ctor s 0 = Except.ok sig) :
    ∃ ts : List Str,
      (∀ fuel, s.length < fuel → enumerate fuel sig = some ts) ∧
      (∀ t ∈ ts, t ≠ [] ∧ SCT 32 32 t) ∧
      ts.flatten = s := by
  obtain ⟨hsig, _, ts, hts, hs⟩ := ctor_ok_spec s sig h
  refine ⟨ts, ?_, fun t ht => ⟨sct_ne_nil (hts t ht), hts t ht⟩, hs.symm⟩
  intro fuel hfuel
  have hlen := length_le_flatten_length ts (fun t ht => sct_ne_nil (hts t ht))
  have henum := enumerate_flatten ts (fun t ht => ⟨32, 32, hts t ht⟩) [] fuel
    (by rw [hs] at hfuel; omega)
  rw [hsig, hs]
  simpa using henum

theorem Signature_enumerate_witness :
    Signature.ctor exampleSignature 0 =
      Except.ok { m_typeCodeIndex := 0, m_Value := exampleSignature } ∧
    ∃ ts : List Str,
      (∀ fuel, exampleSignature.length < fuel →
        enumerate fuel { m_typeCodeIndex := 0, m_Value := exampleSignature } = some ts) ∧
      (∀ t ∈ ts, t ≠ [] ∧ SCT 32 32 t) ∧
      ts.flatten = exampleSignature :=
  ⟨rfl, Signature_enumerate exampleSignature _ rfl⟩

/-! ## Completeness of the signature validator -/

theorem dispatch_ok_array (st : SigState) (ha : st.stack.m_arrayLevel + 1 ≤ 32)
    (hs : st.stack.m_structLevel ≤ 32) :
    ∃ st1, dispatch 0 st 'a' = Except.ok st1 := by
  have e1 : ¬ 31 < st.stack.m_arrayLevel := by omega
  have e2 : ¬ 64 < st.stack.m_arrayLevel + 1 + st.stack.m_structLevel := by omega
  simp [dispatch, ContainerStack.push, ContainerStack.level, ContainerStack.MaxDepth,
    ContainerStack.MaxArrayDepth, ContainerStack.MaxStructDepth, e1, e2]

theorem dispatch_ok_struct (st : SigState) (ha : st.stack.m_arrayLevel ≤ 32)
    (hs : st.stack.m_structLevel + 1 ≤ 32) :
    ∃ st1, dispatch 0 st '(' = Except.ok st1 := by
  have e1 : ¬ 31 < st.stack.m_structLevel := by omega
  have e2 : ¬ 64 < st.stack.m_arrayLevel + (st.stack.m_structLevel + 1) := by omega
  simp [dispatch, ContainerStack.push, ContainerStack.level, ContainerStack.MaxDepth,
    ContainerStack.MaxArrayDepth, ContainerStack.MaxStructDepth, e1, e2]

theorem dispatch_ok_code (st : SigState) (c : Char)
    (hc : (isBasicTypeCode c || c == 'v') = true) :
    ∃ st1, dispatch 0 st c = Except.ok st1 := by
  obtain ⟨h1, h2, h3, h4, h5⟩ := not_bracket_of_basic hc
  unfold dispatch
  simp only [beq_iff_eq, h5, h1, h2, h3, h4, if_false, hc, if_true]
  split <;> exact ⟨_, rfl⟩

/-- The validator accepts a character that begins an element, wherever an
element may begin, when `dispatch` accepts it on the same stack. -/
theorem step_ok_of_dispatch (done : List Str) (frames : List Frame) (consumed : Str)
    (st : SigState) (c : Char)
    (hread : Reading done frames consumed st) (hcov : headCoverable frames)
    (hc1 : c ≠ ')') (hc2 : c ≠ '}')
    (hd : ∀ st0 : SigState, st0.stack = st.stack → ∃ st1, dispatch 0 st0 c = Except.ok st1) :
    ∃ st1, step 0 st c = Except.ok st1 := by
  obtain ⟨hshape, hsr, hdr⟩ := hread
  have htopD := hshape.topmostIs Container.DictEntry
  have htopS := hshape.topmostIs Container.Struct
  have e1 : (c != ')') = true := by simpa using hc1
  have e2 : (c != '}') = true := by simpa using hc2
  cases frames with
  | nil =>
    simp only at htopD htopS
    simp only [step, htopD, htopS, Bool.false_eq_true, if_false, Bool.false_and]
    exact hd st rfl
  | cons f below =>
    cases f with
    | arr =>
      have hD : st.stack.topmostIs Container.DictEntry = false := by rw [htopD]; rfl
      have hS : st.stack.topmostIs Container.Struct = false := by rw [htopS]; rfl
      simp only [step, hD, hS, Bool.false_eq_true, if_false, Bool.false_and]
      exact hd st rfl
    | str ts =>
      have hD : st.stack.topmostIs Container.DictEntry = false := by rw [htopD]; rfl
      have hS : st.stack.topmostIs Container.Struct = true := by rw [htopS]; rfl
      simp only [step, hD, hS, e1, Bool.false_eq_true, if_false, Bool.and_self, if_true]
      exact hd _ rfl
    | dctEmpty => exact absurd hcov (by simp [headCoverable, Frame.coverable])
    | dctFull k v => exact absurd hcov (by simp [headCoverable, Frame.coverable])
    | dctKey k =>
      have hD : st.stack.topmostIs Container.DictEntry = true := by rw [htopD]; rfl
      have hk : st.haveDictEntryKey = true := hdr.1
      have hv : st.haveDictEntryVal = false := hdr.2
      simp only [step, hD, hk, hv, e2, if_true, Bool.not_true, Bool.false_eq_true, if_false]
      exact hd _ rfl

theorem step_ok_open_dict (done : List Str) (below : List Frame) (consumed : Str)
    (st : SigState) (hread : Reading done (Frame.arr :: below) consumed st) :
    ∃ st1, step 0 st '{' = Except.ok st1 := by
  obtain ⟨hshape, hsr, hdr⟩ := hread
  have hD : st.stack.topmostIs Container.DictEntry = false := by rw [hshape.topmostIs]; rfl
  have hS : st.stack.topmostIs Container.Struct = false := by rw [hshape.topmostIs]; rfl
  have hA : st.stack.topmostIs Container.Array = true := by rw [hshape.topmostIs]; rfl
  simp [step, dispatch, hD, hS, hA]

theorem step_ok_key (done : List Str) (below : List Frame) (consumed : Str)
    (st : SigState) (k : Char) (hk : isBasicTypeCode k = true)
    (hread : Reading done (Frame.dctEmpty :: below) consumed st) :
    ∃ st1, step 0 st k = Except.ok st1 := by
  obtain ⟨hshape, hsr, hdr⟩ := hread
  have hD : st.stack.topmostIs Container.DictEntry = true := by rw [hshape.topmostIs]; rfl
  have hk0 : st.haveDictEntryKey = false := hdr.1
  simp [step, hD, hk0, hk]

theorem step_ok_close_struct (done : List Str) (ts : List Str) (below : List Frame)
    (consumed : Str) (st : SigState) (hts : ts ≠ [])
    (hread : Reading done (Frame.str ts :: below) consumed st) :
    ∃ st1, step 0 st ')' = Except.ok st1 := by
  obtain ⟨hshape, hsr, hdr⟩ := hread
  have hD : st.stack.topmostIs Container.DictEntry = false := by rw [hshape.topmostIs]; rfl
  have hS : st.stack.topmostIs Container.Struct = true := by rw [hshape.topmostIs]; rfl
  have hs : st.haveStructElement = true := by
    have := hsr
    simp only [hsRel] at this
    exact this.mpr hts
  simp [step, dispatch, hD, hS, hs]

theorem step_ok_close_dict (done : List Str) (k : Char) (v : Str) (below : List Frame)
    (consumed : Str) (st : SigState)
    (hread : Reading done (Frame.dctFull k v :: below) consumed st) :
    ∃ st1, step 0 st '}' = Except.ok st1 := by
  obtain ⟨hshape, hsr, hdr⟩ := hread
  have hD : st.stack.topmostIs Container.DictEntry = true := by rw [hshape.topmostIs]; rfl
  have hk : st.haveDictEntryKey = true := hdr.1
  have hv : st.haveDictEntryVal = true := hdr.2
  simp [step, dispatch, hD, hk, hv]

theorem stepFrames_of_coverable (done : List Str) (frames : List Frame) (c : Char)
    (hcov : headCoverable frames) (hc : c ≠ ')') :
    stepFrames done frames c = nextFrames done frames c := by
  cases frames with
  | nil => rfl
  | cons f below =>
    cases f with
    | arr => rfl
    | str ts => simp [stepFrames, hc]
    | dctEmpty => exact absurd hcov (by simp [headCoverable, Frame.coverable])
    | dctKey k => rfl
    | dctFull k v => exact absurd hcov (by simp [headCoverable, Frame.coverable])

theorem loop_cons_ok (level : Nat) (st st1 : SigState) (c : Char) (rest : List Char)
    (h : step level st c = Except.ok st1) :
    loop level st (c :: rest) = loop level st1 rest := by
  simp [loop, h]

/-- The validator reads a single code as a complete type. -/
theorem accepts_code (a s : Nat) (c : Char) (hc : (isBasicTypeCode c || c == 'v') = true) :
    Accepts a s [c] := by
  intro done frames consumed st hread hcov _ _
  obtain ⟨h1, h2, h3, h4, h5⟩ := not_bracket_of_basic hc
  obtain ⟨st1, hst⟩ := step_ok_of_dispatch done frames consumed st c hread hcov h2 h4
    (fun st0 _ => dispatch_ok_code st0 c hc)
  have hr := step_reading 0 done frames consumed st st1 c hread hst
  rw [stepFrames_of_coverable done frames c hcov h2] at hr
  have hn : nextFrames done frames c = complete done frames [c] := by
    simp [nextFrames, h1, h3, h5]
  rw [hn] at hr
  exact ⟨st1, fun rest => loop_cons_ok 0 st st1 c rest hst, hr⟩

/-- The validator opens an array wherever an element may begin. -/
theorem open_array (done : List Str) (frames : List Frame) (consumed : Str) (st : SigState)
    (hread : Reading done frames consumed st) (hcov : headCoverable frames)
    (ha : aCount frames + 1 ≤ 32) :
    ∃ st1, step 0 st 'a' = Except.ok st1 ∧
      Reading done (Frame.arr :: frames) (consumed ++ ['a']) st1 := by
  obtain ⟨st1, hst⟩ := step_ok_of_dispatch done frames consumed st 'a' hread hcov
    (by decide) (by decide)
    (fun st0 h0 => dispatch_ok_array st0
      (by rw [h0, hread.shape.arrayLevel_eq]; exact ha)
      (by rw [h0, hread.shape.structLevel_eq]; exact hread.shape.structLevel_le))
  have hr := step_reading 0 done frames consumed st st1 'a' hread hst
  rw [stepFrames_of_coverable done frames 'a' hcov (by decide)] at hr
  exact ⟨st1, hst, hr⟩

/-- The validator opens a struct wherever an element may begin. -/
theorem open_struct (done : List Str) (frames : List Frame) (consumed : Str) (st : SigState)
    (hread : Reading done frames consumed st) (hcov : headCoverable frames)
    (hs : sCount frames + 1 ≤ 32) :
    ∃ st1, step 0 st '(' = Except.ok st1 ∧
      Reading done (Frame.str [] :: frames) (consumed ++ ['(']) st1 := by
  obtain ⟨st1, hst⟩ := step_ok_of_dispatch done frames consumed st '(' hread hcov
    (by decide) (by decide)
    (fun st0 h0 => dispatch_ok_struct st0
      (by rw [h0, hread.shape.arrayLevel_eq]; exact hread.shape.arrayLevel_le)
      (by rw [h0, hread.shape.structLevel_eq]; exact hs))
  have hr := step_reading 0 done frames consumed st st1 '(' hread hst
  rw [stepFrames_of_coverable done frames '(' hcov (by decide)] at hr
  exact ⟨st1, hst, hr⟩

theorem accepts_array (a s : Nat) (t : Str) (ih : Accepts a s t) :
    Accepts (a + 1) s ('a' :: t) := by
  intro done frames consumed st hread hcov ha hs
  obtain ⟨st1, hst, hr1⟩ := open_array done frames consumed st hread hcov (by omega)
  obtain ⟨st2, hl2, hr2⟩ := ih done (Frame.arr :: frames) (consumed ++ ['a']) st1 hr1
    (by simp [headCoverable, Frame.coverable])
    (by simp only [aCount, Frame.isArr, if_true]; omega)
    (by simpa [sCount, Frame.isStr] using hs)
  refine ⟨st2, fun rest => ?_, ?_⟩
  · rw [List.cons_append, loop_cons_ok 0 st st1 'a' _ hst, hl2]
  · have e : consumed ++ 'a' :: t = consumed ++ ['a'] ++ t := by simp
    rw [e]
    exact hr2

theorem accepts_dict (a s : Nat) (k : Char) (t : Str) (hk : isBasicTypeCode k = true)
    (ih : Accepts a s t) :
    Accepts (a + 1) s ('a' :: '{' :: k :: (t ++ ['}'])) := by
  intro done frames consumed st hread hcov ha hs
  obtain ⟨st1, hst1, hr1⟩ := open_array done frames consumed st hread hcov (by omega)
  obtain ⟨st2, hst2⟩ := step_ok_open_dict done frames (consumed ++ ['a']) st1 hr1
  have hr2 := step_reading 0 _ _ _ st1 st2 '{' hr1 hst2
  have e2 : stepFrames done (Frame.arr :: frames) '{' =
      (done, Frame.dctEmpty :: Frame.arr :: frames) := rfl
  rw [e2] at hr2
  obtain ⟨st3, hst3⟩ := step_ok_key done _ _ st2 k hk hr2
  have hr3 := step_reading 0 _ _ _ st2 st3 k hr2 hst3
  have e3 : stepFrames done (Frame.dctEmpty :: Frame.arr :: frames) k =
      (done, Frame.dctKey k :: Frame.arr :: frames) := rfl
  rw [e3] at hr3
  obtain ⟨st4, hl4, hr4⟩ := ih done (Frame.dctKey k :: Frame.arr :: frames) _ st3 hr3
    (by simp [headCoverable, Frame.coverable])
    (by simp only [aCount, Frame.isArr, if_true]; simp; omega)
    (by simpa [sCount, Frame.isStr] using hs)
  have e4 : complete done (Frame.dctKey k :: Frame.arr :: frames) t =
      (done, Frame.dctFull k t :: Frame.arr :: frames) := rfl
  rw [e4] at hr4
  obtain ⟨st5, hst5⟩ := step_ok_close_dict done k t _ _ st4 hr4
  have hr5 := step_reading 0 _ _ _ st4 st5 '}' hr4 hst5
  have e5 : stepFrames done (Frame.dctFull k t :: Frame.arr :: frames) '}' =
      complete done frames ('a' :: '{' :: k :: (t ++ ['}'])) := rfl
  rw [e5] at hr5
  refine ⟨st5, fun rest => ?_, ?_⟩
  · have e : ('a' :: '{' :: k :: (t ++ ['}'])) ++ rest = 'a' :: '{' :: k :: (t ++ '}' :: rest) := by
      simp
    rw [e, loop_cons_ok 0 st st1 'a' _ hst1, loop_cons_ok 0 st1 st2 '{' _ hst2,
      loop_cons_ok 0 st2 st3 k _ hst3, hl4, loop_cons_ok 0 st4 st5 '}' _ hst5]
  · have e : consumed ++ 'a' :: '{' :: k :: (t ++ ['}']) =
        consumed ++ ['a'] ++ ['{'] ++ [k] ++ t ++ ['}'] := by simp
    rw [e]
    exact hr5

/-- The validator reads the elements of a struct one by one. -/
theorem accepts_elements (a s : Nat) (ts : List Str) (ih : ∀ t ∈ ts, Accepts a s t) :
    ∀ (acc : List Str) (done : List Str) (frames : List Frame) (consumed : Str)
      (st : SigState),
      Reading done (Frame.str acc :: frames) consumed st →
      a + aCount frames ≤ 32 → s + (sCount frames + 1) ≤ 32 →
      ∃ st1, (∀ rest, loop 0 st (ts.flatten ++ rest) = loop 0 st1 rest) ∧
        Reading done (Frame.str (acc ++ ts) :: frames) (consumed ++ ts.flatten) st1 := by
  induction ts with
  | nil =>
    intro acc done frames consumed st hread _ _
    exact ⟨st, fun rest => by simp, by simpa using hread⟩
  | cons t ts iht =>
    intro acc done frames consumed st hread ha hs
    obtain ⟨st1, hl1, hr1⟩ := ih t (List.mem_cons_self _ _) done (Frame.str acc :: frames)
      consumed st hread (by simp [headCoverable, Frame.coverable])
      (by simpa [aCount, Frame.isArr] using ha)
      (by simp only [sCount, Frame.isStr, if_true]; omega)
    have e1 : complete done (Frame.str acc :: frames) t =
        (done, Frame.str (acc ++ [t]) :: frames) := rfl
    rw [e1] at hr1
    obtain ⟨st2, hl2, hr2⟩ := iht (fun u hu => ih u (List.mem_cons_of_mem _ hu))
      (acc ++ [t]) done frames (consumed ++ t) st1 hr1 ha hs
    refine ⟨st2, fun rest => ?_, ?_⟩
    · rw [List.flatten_cons, List.append_assoc, hl1, hl2]
    · have e : consumed ++ (t :: ts).flatten = consumed ++ t ++ ts.flatten := by simp
      have e' : acc ++ t :: ts = acc ++ [t] ++ ts := by simp
      rw [e, e']
      exact hr2

theorem accepts_struct (a s : Nat) (ts : List Str) (hne : ts ≠ [])
    (ih : ∀ t ∈ ts, Accepts a s t) :
    Accepts a (s + 1) ('(' :: (ts.flatten ++ [')'])) := by
  intro done frames consumed st hread hcov ha hs
  obtain ⟨st1, hst1, hr1⟩ := open_struct done frames consumed st hread hcov (by omega)
  obtain ⟨st2, hl2, hr2⟩ := accepts_elements a s ts ih [] done frames _ st1 hr1 ha (by omega)
  rw [List.nil_append] at hr2
  obtain ⟨st3, hst3⟩ := step_ok_close_struct done ts frames _ st2 hne hr2
  have hr3 := step_reading 0 _ _ _ st2 st3 ')' hr2 hst3
  have e3 : stepFrames done (Frame.str ts :: frames) ')' =
      complete done frames ('(' :: (ts.flatten ++ [')'])) := by
    simp [stepFrames]
  rw [e3] at hr3
  refine ⟨st3, fun rest => ?_, ?_⟩
  · have e : ('(' :: (ts.flatten ++ [')'])) ++ rest = '(' :: (ts.flatten ++ ')' :: rest) := by
      simp
    rw [e, loop_cons_ok 0 st st1 '(' _ hst1, hl2, loop_cons_ok 0 st2 st3 ')' _ hst3]
  · have e : consumed ++ '(' :: (ts.flatten ++ [')']) =
        consumed ++ ['('] ++ ts.flatten ++ [')'] := by simp
    rw [e]
    exact hr3

/-- The validator reads every single complete type whose nesting fits into
what the open containers leave of the two bounds. -/
theorem accepts_sct {a s : Nat} {t : Str} (h : SCT a s t) : Accepts a s t := by
  induction h with
  | basic a s c hc => exact accepts_code a s c (by simp [hc])
  | variant a s => exact accepts_code a s 'v' (by decide)
  | array a s t _ ih => exact accepts_array a s t ih
  | dict a s k t hk _ ih => exact accepts_dict a s k t hk ih
  | struct a s ts hne _ ih => exact accepts_struct a s ts hne ih

/-- The validator reads a concatenation of single complete types at the top
level. -/
theorem loop_complete (ts : List Str) (hts : ∀ t ∈ ts, SCT 32 32 t) :
    ∀ (done : List Str) (consumed : Str) (st : SigState),
      Reading done [] consumed st →
      ∃ st1, loop 0 st ts.flatten = Except.ok st1 ∧ st1.stack.m_stack = [] := by
  induction ts with
  | nil =>
    intro done consumed st hread
    exact ⟨st, rfl, by simpa using hread.shape.stack_eq⟩
  | cons t ts ih =>
    intro done consumed st hread
    obtain ⟨st1, hl1, hr1⟩ := accepts_sct (hts t (List.mem_cons_self _ _)) done [] consumed st
      hread trivial (by simp [aCount]) (by simp [sCount])
    have e1 : complete done [] t = (done ++ [t], []) := rfl
    rw [e1] at hr1
    obtain ⟨st2, hl2, hs2⟩ := ih (fun u hu => hts u (List.mem_cons_of_mem _ hu)) _ _ st1 hr1
    exact ⟨st2, by rw [List.flatten_cons, hl1, hl2], hs2⟩

/-- Signature validation is complete over the type codes of
`isBasicTypeCode`: a concatenation of single complete types with at most
255 characters is accepted at nesting level 0. -/
theorem Signature_ctor_complete (ts : List Str) (hts : ∀ t ∈ ts, SCT 32 32 t)
    (hlen : ts.flatten.length ≤ 255) :
    Signature.ctor ts.flatten 0 =
      Except.ok { m_typeCodeIndex := 0, m_Value := ts.flatten } := by
  obtain ⟨st1, hl, hs⟩ := loop_complete ts hts [] [] initial reading_initial
  have hlen1 : ¬ ts.flatten.length > MaxLength := by simpa [MaxLength] using hlen
  have hv : validate ts.flatten 0 = Except.ok () := by
    unfold validate
    rw [if_neg hlen1, hl]
    simp [ContainerStack.size, hs]
  unfold Signature.ctor
  rw [hv]


end SignatureSoundness

/-! ## Relations between the name classes -/

section NameRelations

open Name

theorem map_validate_ok (s : Str) (t : NameType) :
    ((Name.validate s t).map (fun _ => s) = Except.ok s) ↔ Name.validate s t = Except.ok () := by
  cases h : Name.validate s t with
  | error e => simp [Except.map]
  | ok u => cases u; simp [Except.map]

theorem validate_bus_of_colon (s : Str) (h : s.head? = some ':') :
    Name.validate s NameType.BusName = Name.validate s NameType.UniqueName := by
  have h1 : (NameType.BusName != NameType.MemberName) = true := rfl
  have h2 : (NameType.UniqueName != NameType.MemberName) = true := rfl
  simp [Name.validate, h, h1, h2]

theorem validate_bus_of_not_colon (s : Str) (h : s.head? ≠ some ':') :
    Name.validate s NameType.BusName = Name.validate s NameType.WellKnownName := by
  have h1 : (NameType.BusName != NameType.MemberName) = true := rfl
  have h2 : (NameType.WellKnownName != NameType.MemberName) = true := rfl
  simp [Name.validate, h, h1, h2]

theorem validate_unique_colon (s : Str) (h : Name.validate s NameType.UniqueName = Except.ok ()) :
    s.head? = some ':' := by
  by_contra hc
  simp [Name.validate, hc] at h
  split at h
  · simp at h
  · split at h <;> simp at h

theorem validate_wellKnown_not_colon (s : Str)
    (h : Name.validate s NameType.WellKnownName = Except.ok ()) :
    s.head? ≠ some ':' := by
  intro hc
  simp [Name.validate, hc] at h
  split at h
  · simp at h
  · split at h <;> simp at h

/-- **C19.** Bus names split into unique and well-known names. For every
string `s`, `BusName(s)` succeeds exactly when one, and only one, of
`UniqueName(s)` and `WellKnownName(s)` succeeds; `UniqueName(s)` succeeds only
when `s` starts with a colon and `WellKnownName(s)` only when it does not. -/
theorem BusName_unique_or_wellKnown (s : Str) :
    (BusName s = Except.ok s ↔
      ((UniqueName s = Except.ok s ∧ WellKnownName s ≠ Except.ok s) ∨
       (UniqueName s ≠ Except.ok s ∧ WellKnownName s = Except.ok s))) ∧
    (UniqueName s = Except.ok s → s.head? = some ':') ∧
    (WellKnownName s = Except.ok s → s.head? ≠ some ':') := by
  unfold BusName UniqueName WellKnownName
  simp only [map_validate_ok, ne_eq]
  refine ⟨?_, validate_unique_colon s, validate_wellKnown_not_colon s⟩
  by_cases hc : s.head? = some ':'
  · rw [validate_bus_of_colon s hc]
    constructor
    · intro h
      exact Or.inl ⟨h, fun hw => validate_wellKnown_not_colon s hw hc⟩
    · rintro (⟨h, _⟩ | ⟨_, hw⟩)
      · exact h
      · exact absurd hc (validate_wellKnown_not_colon s hw)
  · rw [validate_bus_of_not_colon s hc]
    constructor
    · intro h
      exact Or.inr ⟨fun hu => hc (validate_unique_colon s hu), h⟩
    · rintro (⟨hu, _⟩ | ⟨_, hw⟩)
      · exact absurd (validate_unique_colon s hu) hc
      · exact hw

theorem validateLoop_hyphen (name : Str) (rest : List Char) (prev : Char) (hp b : Bool) :
    validateLoop name false false true rest prev hp = Except.ok b ↔
      (validateLoop name false true true rest prev hp = Except.ok b ∧ '-' ∉ rest) := by
  induction rest generalizing prev hp with
  | nil => simp [validateLoop]
  | cons ch rest ih =>
    by_cases hh : ch = '-'
    · subst hh
      have h1 : Name.isDigit '-' = false := by decide
      have h2 : Name.isUpper '-' = false := by decide
      have h3 : Name.isLower '-' = false := by decide
      simp [validateLoop, h1, h2, h3]
    · have hne : ('-' : Char) ≠ ch := fun h => hh h.symm
      have hb : (ch == '-') = false := by simpa using hh
      simp only [validateLoop, hb, Bool.and_false, Bool.false_or, Bool.true_and, List.mem_cons,
        not_or]
      split
      · simp
      · split
        · simp
        · split
          · rw [ih]
            constructor
            · rintro ⟨h, hn⟩; exact ⟨h, hne, hn⟩
            · rintro ⟨h, _, hn⟩; exact ⟨h, hn⟩
          · simp

theorem validate_noHyphen (s : Str) (t : NameType)
    (ht : t = NameType.InterfaceName ∨ t = NameType.ErrorName) :
    Name.validate s t = Except.ok () ↔
      (Name.validate s NameType.WellKnownName = Except.ok () ∧ '-' ∉ s) := by
  have h2 : (NameType.WellKnownName != NameType.MemberName) = true := rfl
  by_cases he : s = []
  · subst he
    simp [Name.validate]
  by_cases hlen : Name.MaximumSize < s.length
  · simp [Name.validate, he, hlen]
  by_cases hc : s.head? = some ':'
  · rcases ht with rfl | rfl <;> simp [Name.validate, he, hlen, hc]
  · have key : ∀ b, validateLoop s false false true s '.' false = Except.ok b ↔
        (validateLoop s false true true s '.' false = Except.ok b ∧ '-' ∉ s) :=
      fun b => validateLoop_hyphen s s '.' false b
    have hgoal : (match validateLoop s false false true s '.' false with
        | Except.error e => (Except.error e : Except String Unit)
        | Except.ok havePeriod =>
          if havePeriod = false then Except.error (String.mk s ++ " doesn't have two elements")
          else Except.ok ()) = Except.ok () ↔
        ((match validateLoop s false true true s '.' false with
        | Except.error e => (Except.error e : Except String Unit)
        | Except.ok havePeriod =>
          if havePeriod = false then Except.error (String.mk s ++ " doesn't have two elements")
          else Except.ok ()) = Except.ok () ∧ '-' ∉ s) := by
      cases h1 : validateLoop s false false true s '.' false with
      | error e =>
        cases h3 : validateLoop s false true true s '.' false with
        | error e2 => simp
        | ok b2 =>
          cases b2 with
          | false => simp
          | true =>
            simp only [Bool.true_eq_false, if_false, true_and]
            constructor
            · intro h; cases h
            · intro hn
              have := (key true).mpr ⟨h3, hn⟩
              rw [h1] at this
              cases this
      | ok b =>
        have := (key b).mp h1
        rw [this.1]
        simp [this.2]
    have hcb : (s.head? == some ':') = false := by simpa using hc
    rcases ht with rfl | rfl
    · have h1 : (NameType.InterfaceName != NameType.MemberName) = true := rfl
      have h3 : (NameType.InterfaceName == NameType.BusName ||
        NameType.InterfaceName == NameType.UniqueName ||
        NameType.InterfaceName == NameType.WellKnownName) = false := rfl
      simpa [Name.validate, he, hlen, hc, h1, h2, h3, hcb] using hgoal
    · have h1 : (NameType.ErrorName != NameType.MemberName) = true := rfl
      have h3 : (NameType.ErrorName == NameType.BusName ||
        NameType.ErrorName == NameType.UniqueName ||
        NameType.ErrorName == NameType.WellKnownName) = false := rfl
      simpa [Name.validate, he, hlen, hc, h1, h2, h3, hcb] using hgoal

/-- **C20.** Interface and error names. For every string `s`,
`InterfaceName(s)` succeeds exactly when `ErrorName(s)` succeeds, and that is
exactly when `WellKnownName(s)` succeeds and `s` contains no hyphen. -/
theorem InterfaceName_ErrorName_wellKnown_without_hyphen (s : Str) :
    (InterfaceName s = Except.ok s ↔ ErrorName s = Except.ok s) ∧
    (ErrorName s = Except.ok s ↔ (WellKnownName s = Except.ok s ∧ '-' ∉ s)) := by
  unfold InterfaceName ErrorName WellKnownName
  simp only [map_validate_ok]
  rw [validate_noHyphen s NameType.InterfaceName (Or.inl rfl),
    validate_noHyphen s NameType.ErrorName (Or.inr rfl)]
  exact ⟨Iff.rfl, Iff.rfl⟩

end NameRelations

/-! ## The descriptor list of the output stream -/

theorem writeUnixFd_ok (s : MessageOStream) (fd : Int) (h : s.fds.length ≤ 253) :
    ∃ s1, s.writeUnixFd fd = Except.ok s1 ∧ s1.fds = s.fds ++ [fd] := by
  have : ¬ s.fds.length > 253 := by omega
  exact ⟨_, by simp only [MessageOStream.writeUnixFd, this, if_false]; rfl, rfl⟩

theorem writeUnixFd_full (s : MessageOStream) (fd : Int) (h : 254 ≤ s.fds.length) :
    s.writeUnixFd fd = Except.error "more than 253 UnixFds" := by
  have : s.fds.length > 253 := by omega
  simp only [MessageOStream.writeUnixFd, this, if_true]

theorem writeUnixFds_ok (l : List Int) (s : MessageOStream)
    (h : s.fds.length + l.length ≤ 254) :
    ∃ s1, s.writeUnixFds l = Except.ok s1 ∧ s1.fds = s.fds ++ l := by
  induction l generalizing s with
  | nil => exact ⟨s, rfl, by simp⟩
  | cons fd rest ih =>
    simp only [List.length_cons] at h
    obtain ⟨s1, h1, hf⟩ := writeUnixFd_ok s fd (by omega)
    have hlen : s1.fds.length + rest.length ≤ 254 := by
      rw [hf, List.length_append, List.length_singleton]; omega
    obtain ⟨s2, h2, hf2⟩ := ih s1 hlen
    refine ⟨s2, ?_, ?_⟩
    · simp only [MessageOStream.writeUnixFds, h1, h2]
    · rw [hf2, hf]; simp

/-- **C16.** The descriptor ceiling at 253 descriptors: 253 calls of
`writeUnixFd` on an empty stream succeed and leave 253 descriptors in it, and
the next call, made while the stream holds 253 descriptors, succeeds too and
leaves 254; only the call made with 254 descriptors in the stream throws. -/
theorem writeUnixFd_accepts_254th_descriptor :
    ∃ s s1 : MessageOStream,
      MessageOStream.empty.writeUnixFds (List.replicate 253 5) = Except.ok s ∧
      s.fds.length = 253 ∧
      s.writeUnixFd 5 = Except.ok s1 ∧ s1.fds.length = 254 ∧
      s1.writeUnixFd 5 = Except.error "more than 253 UnixFds" := by
  obtain ⟨s, hs, hf⟩ := writeUnixFds_ok (List.replicate 253 5) MessageOStream.empty
    (by simp only [MessageOStream.empty, List.length_nil, List.length_replicate]; omega)
  have hlen : s.fds.length = 253 := by
    rw [hf]; simp only [MessageOStream.empty, List.nil_append, List.length_replicate]
  obtain ⟨s1, h1, hf1⟩ := writeUnixFd_ok s 5 (by omega)
  have hlen1 : s1.fds.length = 254 := by
    rw [hf1, List.length_append, List.length_singleton, hlen]
  exact ⟨s, s1, hs, hlen, h1, hlen1, writeUnixFd_full s1 5 (by omega)⟩

/-! ## The alignment table -/

/-- The alignment `Type::getAlignment` returns for the sixteen type codes its
`switch` lists, whatever follows the code in the signature. -/
theorem getAlignment_table (rest : Str) :
    getAlignment ('y' :: rest) = Except.ok 1 ∧ getAlignment ('b' :: rest) = Except.ok 4 ∧
    getAlignment ('n' :: rest) = Except.ok 2 ∧ getAlignment ('q' :: rest) = Except.ok 2 ∧
    getAlignment ('i' :: rest) = Except.ok 4 ∧ getAlignment ('u' :: rest) = Except.ok 4 ∧
    getAlignment ('x' :: rest) = Except.ok 8 ∧ getAlignment ('t' :: rest) = Except.ok 8 ∧
    getAlignment ('d' :: rest) = Except.ok 8 ∧ getAlignment ('s' :: rest) = Except.ok 4 ∧
    getAlignment ('o' :: rest) = Except.ok 4 ∧ getAlignment ('g' :: rest) = Except.ok 1 ∧
    getAlignment ('a' :: rest) = Except.ok 4 ∧ getAlignment ('(' :: rest) = Except.ok 8 ∧
    getAlignment ('{' :: rest) = Except.ok 8 ∧ getAlignment ('v' :: rest) = Except.ok 1 :=
  ⟨rfl, rfl, rfl, rfl, rfl, rfl, rfl, rfl, rfl, rfl, rfl, rfl, rfl, rfl, rfl, rfl⟩

/-- **C17.** The alignment table at the type code `h`: `Type::getAlignment`
has no case for the code of `UnixFd` and throws, for the signature `h` and for
every signature that begins with `h`, where the table gives the alignment 4. -/
theorem getAlignment_rejects_unix_fd_code :
    getAlignment ['h'] =
      Except.error "Type::getAlignment() called with invalid type code h" ∧
    ∀ rest : Str, getAlignment ('h' :: rest) ≠ Except.ok 4 := by
  refine ⟨rfl, fun rest h => ?_⟩
  simp [getAlignment] at h

/-! ## The serial counter -/

namespace Connection

theorem send_fst (c : Connection) (kind : Outgoing) : (c.send kind).1 = c.m_nextSerial := by
  cases kind <;> rfl

theorem send_snd (c : Connection) (kind : Outgoing) :
    (c.send kind).2.m_nextSerial = (c.m_nextSerial + 1) % 2 ^ 32 := by
  cases kind <;> rfl

/-- After the messages of `kinds` the counter stands at its old value plus
their number, reduced modulo `2 ^ 32`. -/
theorem sendAll_nextSerial (kinds : List Outgoing) (c : Connection)
    (hc : c.m_nextSerial < 2 ^ 32) :
    (c.sendAll kinds).m_nextSerial = (c.m_nextSerial + kinds.length) % 2 ^ 32 := by
  induction kinds generalizing c with
  | nil =>
    show c.m_nextSerial = _
    rw [List.length_nil, Nat.add_zero, Nat.mod_eq_of_lt hc]
  | cons kind rest ih =>
    show ((c.send kind).2.sendAll rest).m_nextSerial = _
    rw [ih (c.send kind).2 (by rw [send_snd]; exact Nat.mod_lt _ (by norm_num)), send_snd,
      List.length_cons]
    omega

/-- The first message after creation or after a disconnect gets the serial
1, and as long as fewer than `2 ^ 32 - 1` messages have been sent since then
the next serial is their number plus one, which is not zero. -/
theorem serial_before_wrap (c : Connection) (kinds : List Outgoing) (kind : Outgoing)
    (h : kinds.length < 2 ^ 32 - 1) :
    (create.send kind).1 = 1 ∧ (c.disconnect.send kind).1 = 1 ∧
    ((create.sendAll kinds).send kind).1 = kinds.length + 1 ∧
    ((c.disconnect.sendAll kinds).send kind).1 = kinds.length + 1 := by
  refine ⟨by cases kind <;> rfl, by cases kind <;> rfl, ?_, ?_⟩
  · rw [send_fst, sendAll_nextSerial kinds create (by norm_num [create])]
    simp only [create]; omega
  · rw [send_fst, sendAll_nextSerial kinds c.disconnect (by norm_num [disconnect])]
    simp only [disconnect]; omega

end Connection

/-- **C13.** The serial after 4294967295 messages: a connection that has sent
`2 ^ 32 - 1` messages since its creation (or since a disconnect) hands the
serial 0 to its next message; here the next message is a method call. -/
theorem serial_zero_after_wrap :
    ((Connection.create.sendAll (List.replicate 4294967295 Outgoing.Signal)).send
      Outgoing.MethodCall).1 = 0 ∧
    (((Connection.disconnect { m_nextSerial := 7 }).sendAll
      (List.replicate 4294967295 Outgoing.Signal)).send Outgoing.MethodCall).1 = 0 := by
  constructor
  · rw [Connection.send_fst, Connection.sendAll_nextSerial _ _ (by norm_num [Connection.create]),
      List.length_replicate]
    rfl
  · rw [Connection.send_fst,
      Connection.sendAll_nextSerial _ _ (by norm_num [Connection.disconnect]),
      List.length_replicate]
    rfl

/-! ## The size ceilings of a message -/

namespace Message

theorem exists_sixteen (message : List Nat) (h : 16 ≤ message.length) :
    ∃ a0 a1 a2 a3 a4 a5 a6 a7 a8 a9 a10 a11 a12 a13 a14 a15 rest,
      message = a0 :: a1 :: a2 :: a3 :: a4 :: a5 :: a6 :: a7 :: a8 :: a9 :: a10 :: a11 ::
        a12 :: a13 :: a14 :: a15 :: rest := by
  match message, h with
  | a0 :: a1 :: a2 :: a3 :: a4 :: a5 :: a6 :: a7 :: a8 :: a9 :: a10 :: a11 ::
      a12 :: a13 :: a14 :: a15 :: rest, _ =>
    exact ⟨a0, a1, a2, a3, a4, a5, a6, a7, a8, a9, a10, a11, a12, a13, a14, a15, rest, rfl⟩

theorem bswap_32_bytes (a b c d : Nat) (ha : a < 256) (hb : b < 256) (hc : c < 256)
    (hd : d < 256) :
    bswap_32 (fromLeBytes [a, b, c, d]) = fromLeBytes [d, c, b, a] := by
  simp only [bswap_32, fromLeBytes, leBytes, List.reverse_cons, List.reverse_nil,
    List.nil_append, List.cons_append]
  omega

theorem padding_eq (n : Nat) :
    n + (if n % 8 = 0 then 0 else 8 - n % 8) = (n + 7) / 8 * 8 := by
  split <;> omega

end Message
namespace Message

theorem correctEndianess_bytes (endian : Endian) (a b c d : Nat) (ha : a < 256) (hb : b < 256)
    (hc : c < 256) (hd : d < 256) :
    correctEndianess endian (fromLeBytes [a, b, c, d]) =
      match endian with
      | Endian.Little => a + 256 * b + 65536 * c + 16777216 * d
      | Endian.Big => d + 256 * c + 65536 * b + 16777216 * a := by
  cases endian with
  | Little =>
    have : (Endian.Little == Endian.Big) = false := rfl
    simp only [correctEndianess, swapRequired, this, Bool.false_eq_true, if_false, fromLeBytes]
    omega
  | Big =>
    have : (Endian.Big == Endian.Big) = true := rfl
    simp only [correctEndianess, swapRequired, this, if_true]
    rw [bswap_32_bytes a b c d ha hb hc hd]
    simp only [fromLeBytes]
    omega

theorem endianness_of_marker (message : List Nat) (endian : Endian)
    (hmark : message.head? = some endian.marker) : endianness message = Except.ok endian := by
  cases endian <;> simp only [Endian.marker] at hmark <;> simp only [endianness, hmark]

/-- What the two loads of the size functions give on a buffer of at least 16
octets: the numbers spelt at the offsets 4 and 12 in the byte order of the
message. -/
theorem loads_eq (message : List Nat) (endian : Endian)
    (hlen : 16 ≤ message.length) (hbytes : ∀ b ∈ message, b < 256) :
    correctEndianess endian (loadUint32 message 4) = uint32At endian message 4 ∧
    correctEndianess endian (loadUint32 message 12) = uint32At endian message 12 := by
  obtain ⟨a0, a1, a2, a3, a4, a5, a6, a7, a8, a9, a10, a11, a12, a13, a14, a15, rest, rfl⟩ :=
    exists_sixteen message hlen
  have h4 : a4 < 256 := hbytes a4 (by simp)
  have h5 : a5 < 256 := hbytes a5 (by simp)
  have h6 : a6 < 256 := hbytes a6 (by simp)
  have h7 : a7 < 256 := hbytes a7 (by simp)
  have h12 : a12 < 256 := hbytes a12 (by simp)
  have h13 : a13 < 256 := hbytes a13 (by simp)
  have h14 : a14 < 256 := hbytes a14 (by simp)
  have h15 : a15 < 256 := hbytes a15 (by simp)
  have hload4 : loadUint32 (a0 :: a1 :: a2 :: a3 :: a4 :: a5 :: a6 :: a7 :: a8 :: a9 :: a10 ::
      a11 :: a12 :: a13 :: a14 :: a15 :: rest) 4 = fromLeBytes [a4, a5, a6, a7] := by
    simp [loadUint32]
  have hload12 : loadUint32 (a0 :: a1 :: a2 :: a3 :: a4 :: a5 :: a6 :: a7 :: a8 :: a9 :: a10 ::
      a11 :: a12 :: a13 :: a14 :: a15 :: rest) 12 = fromLeBytes [a12, a13, a14, a15] := by
    simp [loadUint32]
  rw [hload4, hload12, correctEndianess_bytes endian a4 a5 a6 a7 h4 h5 h6 h7,
    correctEndianess_bytes endian a12 a13 a14 a15 h12 h13 h14 h15]
  cases endian <;> exact ⟨rfl, rfl⟩

theorem getSize_eq (message : List Nat) (endian : Endian)
    (hlen : 16 ≤ message.length) (hbytes : ∀ b ∈ message, b < 256)
    (hmark : message.head? = some endian.marker) :
    Header.getSize message =
      if paddedHeaderSize (uint32At endian message 12) > 16 + 67108864 then
        Except.error "DBus message error: maximum header size exceeded"
      else Except.ok (paddedHeaderSize (uint32At endian message 12)) := by
  have hnot : ¬ message.length < 16 := by omega
  unfold Header.getSize
  simp only [Header.MinimumSize]
  simp only [hnot, if_false, endianness_of_marker message endian hmark,
    (loads_eq message endian hlen hbytes).2, padding_eq, Header.MaximumSize,
    Header.MinimumSize, Any.Array.MaximumSize, paddedHeaderSize]

theorem getMessageSize_eq (message : List Nat) (endian : Endian)
    (hlen : 16 ≤ message.length) (hbytes : ∀ b ∈ message, b < 256)
    (hmark : message.head? = some endian.marker) :
    Header.getMessageSize message =
      if paddedHeaderSize (uint32At endian message 12) > 16 + 67108864 then
        Except.error "DBus message error: maximum header size exceeded"
      else if paddedHeaderSize (uint32At endian message 12) + uint32At endian message 4
          > 134217728 then
        Except.error "DBus message error: maximum message size exceeded"
      else
        Except.ok (paddedHeaderSize (uint32At endian message 12) + uint32At endian message 4) := by
  have hnot : ¬ message.length < 16 := by omega
  unfold Header.getMessageSize
  simp only [Header.MinimumSize]
  simp only [hnot, if_false, endianness_of_marker message endian hmark,
    (loads_eq message endian hlen hbytes).1, getSize_eq message endian hlen hbytes hmark,
    Message.MaximumSize]
  by_cases h : paddedHeaderSize (uint32At endian message 12) > 16 + 67108864
  · simp only [h, if_true]
  · simp only [h, if_false]

end Message

/-- **C15.** Size ceilings. For every buffer of at least 16 octets whose first
octet is the marker of a byte order, with `fields` and `body` the numbers
spelt at the offsets 12 and 4 in that byte order and the header size
`16 + fields` rounded up to a multiple of 8: `Header::getSize` throws exactly
when the header size exceeds `16 + 67108864` and returns the header size
otherwise; `Header::getMessageSize` throws exactly when the header size
exceeds that ceiling or header size plus `body` exceeds `134217728`, and
returns their sum otherwise. A header or a message exactly at its ceiling is
accepted. -/
theorem size_ceilings (message : List Nat) (endian : Message.Endian)
    (hlen : 16 ≤ message.length) (hbytes : ∀ b ∈ message, b < 256)
    (hmark : message.head? = some endian.marker) :
    let headerSize := Message.paddedHeaderSize (Message.uint32At endian message 12)
    let body := Message.uint32At endian message 4
    ((∃ e, Message.Header.getSize message = Except.error e) ↔ headerSize > 16 + 67108864) ∧
    (headerSize ≤ 16 + 67108864 → Message.Header.getSize message = Except.ok headerSize) ∧
    ((∃ e, Message.Header.getMessageSize message = Except.error e) ↔
      (headerSize > 16 + 67108864 ∨ headerSize + body > 134217728)) ∧
    (headerSize ≤ 16 + 67108864 → headerSize + body ≤ 134217728 →
      Message.Header.getMessageSize message = Except.ok (headerSize + body)) := by
  intro headerSize body
  have h1 := Message.getSize_eq message endian hlen hbytes hmark
  have h2 := Message.getMessageSize_eq message endian hlen hbytes hmark
  rw [h1, h2]
  show (_ ↔ headerSize > 16 + 67108864) ∧ (headerSize ≤ 16 + 67108864 → _) ∧
    (_ ↔ (headerSize > 16 + 67108864 ∨ headerSize + body > 134217728)) ∧
    (headerSize ≤ 16 + 67108864 → headerSize + body ≤ 134217728 → _)
  refine ⟨?_, ?_, ?_, ?_⟩
  · by_cases h : headerSize > 16 + 67108864
    · simp only [headerSize] at h
      simp [h]
    · simp only [headerSize] at h
      simp [h]
  · intro h
    have : ¬ headerSize > 16 + 67108864 := by omega
    simp only [headerSize] at this
    simp only [this, if_false]
  · by_cases h : headerSize > 16 + 67108864
    · simp only [headerSize] at h
      simp [h]
    · by_cases hb : headerSize + body > 134217728
      · simp only [headerSize, body] at h hb
        simp [h, hb]
      · simp only [headerSize, body] at h hb
        simp [h, hb]
  · intro h hb
    have h1 : ¬ headerSize > 16 + 67108864 := by omega
    have h2 : ¬ headerSize + body > 134217728 := by omega
    simp only [headerSize, body] at h1 h2
    simp only [h1, h2, if_false]

/-- The size ceilings at two buffers: a header of exactly `16 + 67108864`
octets and a message of exactly `134217728` octets are accepted. -/
theorem size_ceilings_witness :
    (16 ≤ Message.headerAtCeiling.length ∧ (∀ b ∈ Message.headerAtCeiling, b < 256) ∧
      Message.headerAtCeiling.head? = some Message.Endian.Little.marker) ∧
    Message.Header.getSize Message.headerAtCeiling = Except.ok (16 + 67108864) ∧
    Message.Header.getMessageSize Message.messageAtCeiling = Except.ok 134217728 :=
  ⟨⟨by decide, by decide, rfl⟩,
    (size_ceilings Message.headerAtCeiling Message.Endian.Little (by decide) (by decide) rfl).2.1
      (by decide),
    (size_ceilings Message.messageAtCeiling Message.Endian.Big (by decide) (by decide) rfl).2.2.2
      (by decide) (by decide)⟩

/-! ## The conversion operators -/

section Conversion

open Any (Value)

theorem Any.convert_of_not_variant (name : Value → Text) (T : Value) (v : Any)
    (hv : v.m_valueType ≠ Value.Variant) :
    v.unwrapped = v ∧
    Any.convert name T v =
      if v.m_valueType = T then Except.ok v
      else if T = Value.String ∧ v.m_valueType = Value.ObjectPath then Except.ok v
      else if T = Value.Variant then
        Except.error { what := Any.what name v ++ ": can't cast to Variant" }
      else Except.error { what := Any.what name v ++ ": cannot cast to " ++ name T } := by
  cases v <;> first
    | exact absurd rfl hv
    | exact ⟨rfl, rfl⟩

theorem Any.convert_ok_of_not_variant (name : Value → Text) (T : Value) (v r : Any)
    (hv : v.m_valueType ≠ Value.Variant) :
    Any.convert name T v = Except.ok r ↔
      (Any.Convertible T v ∧ r = if T = Value.Variant then v else v.unwrapped) := by
  obtain ⟨hu, hc⟩ := Any.convert_of_not_variant name T v hv
  rw [hc]
  unfold Any.Convertible
  rw [hu]
  by_cases hT : T = Value.Variant
  · subst hT
    simp [hv]
  · simp only [hT, if_false]
    by_cases h1 : v.m_valueType = T
    · simp only [h1, if_true, true_or, true_and, Except.ok.injEq]
      exact eq_comm
    · by_cases h2 : T = Value.String ∧ v.m_valueType = Value.ObjectPath
      · obtain ⟨hTs, hvo⟩ := h2
        subst hTs
        simp [hvo, eq_comm]
      · simp only [h1, if_false, h2, false_or, false_and]
        simp

theorem Any.convert_ok_iff_aux (name : Value → Text) (T : Value) :
    ∀ (v r : Any), Any.convert name T v = Except.ok r ↔
      (Any.Convertible T v ∧ r = if T = Value.Variant then v else v.unwrapped)
  | Any.Variant inner, r => by
    have ih := Any.convert_ok_iff_aux name T inner
    by_cases hT : T = Value.Variant
    · subst hT
      simp only [Any.convert, if_true, Except.ok.injEq, Any.Convertible, Any.m_valueType,
        true_and]
      exact eq_comm
    · have hu : (Any.Variant inner).unwrapped = inner.unwrapped := rfl
      have hc : Any.Convertible T (Any.Variant inner) ↔ Any.Convertible T inner := by
        simp only [Any.Convertible, hT, if_false, hu]
      rw [hc]
      simp only [hT, if_false, hu]
      have ih1 := ih r
      simp only [hT, if_false] at ih1
      rw [← ih1]
      simp only [Any.convert, hT, if_false]
      cases h : Any.convert name T inner with
      | ok r1 => simp
      | error e => simp
  | Any.None, r => Any.convert_ok_of_not_variant name T _ r (by simp [Any.m_valueType])
  | Any.Byte _, r => Any.convert_ok_of_not_variant name T _ r (by simp [Any.m_valueType])
  | Any.Boolean _, r => Any.convert_ok_of_not_variant name T _ r (by simp [Any.m_valueType])
  | Any.Double _, r => Any.convert_ok_of_not_variant name T _ r (by simp [Any.m_valueType])
  | Any.Int16 _, r => Any.convert_ok_of_not_variant name T _ r (by simp [Any.m_valueType])
  | Any.Int32 _, r => Any.convert_ok_of_not_variant name T _ r (by simp [Any.m_valueType])
  | Any.Int64 _, r => Any.convert_ok_of_not_variant name T _ r (by simp [Any.m_valueType])
  | Any.Uint16 _, r => Any.convert_ok_of_not_variant name T _ r (by simp [Any.m_valueType])
  | Any.Uint32 _, r => Any.convert_ok_of_not_variant name T _ r (by simp [Any.m_valueType])
  | Any.Uint64 _, r => Any.convert_ok_of_not_variant name T _ r (by simp [Any.m_valueType])
  | Any.UnixFd _, r => Any.convert_ok_of_not_variant name T _ r (by simp [Any.m_valueType])
  | Any.String _, r => Any.convert_ok_of_not_variant name T _ r (by simp [Any.m_valueType])
  | Any.ObjectPath _, r => Any.convert_ok_of_not_variant name T _ r (by simp [Any.m_valueType])
  | Any.Signature _, r => Any.convert_ok_of_not_variant name T _ r (by simp [Any.m_valueType])
  | Any.Array _ _, r => Any.convert_ok_of_not_variant name T _ r (by simp [Any.m_valueType])
  | Any.Struct _ _, r => Any.convert_ok_of_not_variant name T _ r (by simp [Any.m_valueType])
  | Any.DictEntry _ _ _, r => Any.convert_ok_of_not_variant name T _ r (by simp [Any.m_valueType])

/-- Every value the claim lets convert to `T` does convert. -/
theorem Any.convertible_of_oneLevel (T : Value) (v : Any) (h : Any.OneLevel T v) :
    Any.Convertible T v := by
  rcases h with h | ⟨inner, rfl, h⟩
  · by_cases hT : T = Value.Variant
    · subst hT
      simp only [Any.Convertible, if_true, h]
    · have hv : v.m_valueType ≠ Value.Variant := fun hv => hT (h ▸ hv)
      have hu := (Any.convert_of_not_variant Value.name T v hv).1
      simp only [Any.Convertible, hT, if_false, hu, h, true_or]
  · by_cases hT : T = Value.Variant
    · subst hT
      simp only [Any.Convertible, if_true, Any.m_valueType]
    · have hv : inner.m_valueType ≠ Value.Variant := fun hv => hT (h ▸ hv)
      have hu := (Any.convert_of_not_variant Value.name T inner hv).1
      have hu2 : (Any.Variant inner).unwrapped = inner := hu
      simp only [Any.Convertible, hT, if_false, hu2, h, true_or]

/-- **C18.** Downcast at a variant inside a variant and at an object path:
the conversion to `Byte` of a variant that holds a variant that holds a byte
succeeds, and so does the conversion to `String` of an object path, although
in neither case the runtime type is the target or the value a variant whose
directly contained value has the target as its runtime type. -/
theorem Any_convert_beyond_one_level :
    Any.convert Value.name Value.Byte (Any.Variant (Any.Variant (Any.Byte 1))) =
      Except.ok (Any.Byte 1) ∧
    ¬ Any.OneLevel Value.Byte (Any.Variant (Any.Variant (Any.Byte 1))) ∧
    Any.convert Value.name Value.String (Any.ObjectPath ['/']) =
      Except.ok (Any.ObjectPath ['/']) ∧
    ¬ Any.OneLevel Value.String (Any.ObjectPath ['/']) := by
  refine ⟨rfl, ?_, rfl, ?_⟩
  · rintro (h | ⟨inner, h1, h2⟩)
    · cases h
    · cases h1
      cases h2
  · rintro (h | ⟨inner, h1, h2⟩)
    · cases h
    · cases h1

/-- **C18**, as the operators behave. Converting a codec value `v` to the
class `T` succeeds exactly when `v` is convertible to `T`: for `T = Variant`,
when `v` is a variant; for every other class, when `v` with every enclosing
variant removed (through any number of levels) has the runtime type `T`, or
the runtime type `ObjectPath` when `T` is `String`. The result is `v` itself
for `Variant` and the unwrapped value otherwise. In every other case, an
empty value included, the conversion throws `BadCast`. -/
theorem Any_convert_ok_iff (name : Value → Text) (T : Value) (v r : Any) :
    (Any.convert name T v = Except.ok r ↔
      (Any.Convertible T v ∧ r = if T = Value.Variant then v else v.unwrapped)) ∧
    ((∃ e : Any.BadCast, Any.convert name T v = Except.error e) ↔ ¬ Any.Convertible T v) := by
  refine ⟨Any.convert_ok_iff_aux name T v r, ?_⟩
  cases h : Any.convert name T v with
  | error e =>
    simp only [Except.error.injEq, exists_eq', true_iff]
    intro hc
    have := (Any.convert_ok_iff_aux name T v (if T = Value.Variant then v else v.unwrapped)).mpr
      ⟨hc, rfl⟩
    rw [h] at this
    cases this
  | ok r1 =>
    have := ((Any.convert_ok_iff_aux name T v r1).mp h).1
    simp [this]

end Conversion

/-! ## The required header fields -/

section RequiredFields

open Message

theorem Message.Header.Fields.ctor_guard (header : Header)
    (h : (header.type ≠ MessageType.Signal ∧ header.destination = []) ∨
      (header.type = MessageType.Signal ∧ header.path = []) ∨
      (header.type = MessageType.Signal ∧ header.interface = []) ∨
      (header.type = MessageType.MethodCall ∧ header.path = [])) :
    Header.Fields.ctor header = Except.error "Message without destination" ∨
    Header.Fields.ctor header = Except.error "Signal without ObjectPath" ∨
    Header.Fields.ctor header = Except.error "Signal without Interface" ∨
    Header.Fields.ctor header = Except.error "MethodCall without ObjectPath" := by
  unfold Header.Fields.ctor
  by_cases h1 : (header.type != MessageType.Signal && header.destination.isEmpty) = true
  · left; rw [if_pos h1]
  rw [if_neg h1]
  by_cases h2 : (header.type == MessageType.Signal && header.path.isEmpty) = true
  · right; left; rw [if_pos h2]
  rw [if_neg h2]
  by_cases h3 : (header.type == MessageType.Signal && header.interface.isEmpty) = true
  · right; right; left; rw [if_pos h3]
  rw [if_neg h3]
  by_cases h4 : (header.type != MessageType.Signal && header.type == MessageType.MethodCall
      && header.path.isEmpty) = true
  · right; right; right; rw [if_pos h4]
  exfalso
  rcases h with ⟨ht, hd⟩ | ⟨ht, hp⟩ | ⟨ht, hi⟩ | ⟨ht, hp⟩
  · exact h1 (by simp [ht, hd])
  · exact h2 (by simp [ht, hp])
  · exact h3 (by simp [ht, hi])
  · exact h4 (by simp [ht, hp])

/-- The checks of the constructor of `Fields`. Marshalling a header throws
whenever the header is a non-signal without Destination, a signal without Path
or without Interface, or a method_call without Path. -/
theorem Header_marshall_requires (header : Header) (stream : MessageOStream)
    (h : (header.type ≠ MessageType.Signal ∧ header.destination = []) ∨
      (header.type = MessageType.Signal ∧ header.path = []) ∨
      (header.type = MessageType.Signal ∧ header.interface = []) ∨
      (header.type = MessageType.MethodCall ∧ header.path = [])) :
    ∃ e, header.marshall stream = Except.error e := by
  unfold Header.marshall
  rcases Header.Fields.ctor_guard header h with h1 | h1 | h1 | h1
  all_goals
    simp only [h1]
    exact ⟨_, rfl⟩

/-- The required header fields at four headers that lack one each: a signal
without Path, a signal without Interface, a method_call without Path and a
method_return without Destination are not marshalled. -/
theorem Header_marshall_requires_witness :
    (∃ e, Header.marshall { Header.blank MessageType.Signal with interface := ['a', '.', 'b'] }
      MessageOStream.empty = Except.error e) ∧
    (∃ e, Header.marshall { Header.blank MessageType.Signal with path := ['/'] }
      MessageOStream.empty = Except.error e) ∧
    (∃ e, Header.marshall { Header.blank MessageType.MethodCall with
      destination := ['a', '.', 'b'], member := ['m'] } MessageOStream.empty = Except.error e) ∧
    (∃ e, Header.marshall { Header.blank MessageType.MethodReturn with replySerial := 7 }
      MessageOStream.empty = Except.error e) :=
  ⟨Header_marshall_requires _ _ (Or.inr (Or.inl ⟨rfl, rfl⟩)),
   Header_marshall_requires _ _ (Or.inr (Or.inr (Or.inl ⟨rfl, rfl⟩))),
   Header_marshall_requires _ _ (Or.inr (Or.inr (Or.inr ⟨rfl, rfl⟩))),
   Header_marshall_requires _ _ (Or.inl ⟨by decide, rfl⟩)⟩

/-- Five headers that lack a required field and are marshalled all the same:
a method_return without ReplySerial, a method_call without Member, a signal
without Member, an error without ReplySerial, and an error without
ErrorName. -/
theorem Header_marshall_without_required_field :
    Header.marshall { Header.blank MessageType.MethodReturn with
        destination := ['a', '.', 'b'] } MessageOStream.empty =
      Except.ok { data := [108, 2, 0, 1, 0, 0, 0, 0, 1, 0, 0, 0, 12, 0, 0, 0,
        6, 1, 115, 0, 3, 0, 0, 0, 97, 46, 98, 0, 0, 0, 0, 0], fds := [] } ∧
    (Header.marshall { Header.blank MessageType.MethodCall with
        destination := ['a', '.', 'b'], path := ['/'], interface := ['a', '.', 'b'] }
      MessageOStream.empty).toBool = true ∧
    (Header.marshall { Header.blank MessageType.Signal with
        path := ['/'], interface := ['a', '.', 'b'] } MessageOStream.empty).toBool = true ∧
    (Header.marshall { Header.blank MessageType.Error with
        destination := ['a', '.', 'b'], errorName := ['a', '.', 'b'] }
      MessageOStream.empty).toBool = true ∧
    (Header.marshall { Header.blank MessageType.Error with
        destination := ['a', '.', 'b'], replySerial := 7 } MessageOStream.empty).toBool = true :=
  ⟨rfl, rfl, rfl, rfl, rfl⟩

end RequiredFields

/-! ## Error routing -/

namespace Map

section Erase

variable {K V : Type} [DecidableEq K]

theorem find_erase_none (m : Map K V) (key k : K) (h : m.find k = none) :
    (m.erase key).find k = none := by
  rw [Map.find_erase]
  split
  · rfl
  · exact h

end Erase

section Emplace

variable {K V : Type} [DecidableEq K] [LT K] [DecidableRel (fun a b : K => a < b)]

theorem find_insertOrdered_ne (m : Map K V) (key k : K) (value : V) (h : k ≠ key) :
    (m.insertOrdered key value).find k = m.find k := by
  have hne : ¬ key = k := fun e => h e.symm
  induction m with
  | nil => simp [insertOrdered, find, hne]
  | cons e rest ih =>
    obtain ⟨a, b⟩ := e
    unfold insertOrdered
    split
    · simp only [find, hne, if_false]
    · simp only [find, ih]

theorem find_emplace_ne (m : Map K V) (key k : K) (value : V) (h : k ≠ key) :
    (m.emplace key value).1.find k = m.find k := by
  unfold emplace
  cases m.find key with
  | some _ => rfl
  | none => exact find_insertOrdered_ne m key k value h

end Emplace

end Map

namespace MessageProtocol

variable {H Msg Err : Type}

theorem invokeErrorHandler_zero (p : MessageProtocol H Msg Err) (r : Nat) (e : Err)
    (h : p.m_methodReturnHandlers.find 0 = none) :
    (p.invokeErrorHandler r e).m_methodReturnHandlers.find 0 = none := by
  unfold invokeErrorHandler
  split
  · exact Map.find_erase_none _ _ _ h
  · split <;> exact h

/-- No reply handler is ever stored under the serial 0: `sendMethodCall`
stores a handler only under a `replySerial` that is not 0, and the other
operations store none. -/
theorem Reachable.zero_free {p : MessageProtocol H Msg Err} (hp : Reachable p) :
    p.m_methodReturnHandlers.find 0 = none := by
  induction hp with
  | start => rfl
  | sendMethodCall p serial isReplyExpected handler _ ih =>
    unfold MessageProtocol.sendMethodCall
    cases isReplyExpected with
    | false => exact ih
    | true =>
      by_cases hs : serial = 0
      · subst hs
        exact ih
      · have hb : (serial != 0) = true := by simpa using hs
        simp only [if_true, hb]
        show (p.m_methodReturnHandlers.emplace serial handler).1.find 0 = none
        rw [Map.find_emplace_ne _ _ _ _ (fun h => hs h.symm)]
        exact ih
  | writeCompleted p completion error _ ih =>
    cases completion with
    | reply replySerial =>
      cases error with
      | some e => exact invokeErrorHandler_zero p replySerial e ih
      | none => exact ih
    | direct handler => exact ih
  | receiveMethodCall p interface handler _ ih => exact ih
  | receiveSignal p signal handler _ ih => exact ih
  | cancelReceiveSignal p signal _ ih =>
    unfold MessageProtocol.cancelReceiveSignal
    split <;> exact ih
  | receiveError p handler _ ih => exact ih
  | dispatchMessage p header message asError _ ih =>
    unfold MessageProtocol.dispatchMessage
    split
    · unfold invokeMethodCallHandler
      split
      · exact ih
      · split
        · exact ih
        · split <;> exact ih
    · unfold invokeMethodReturnHandler
      split
      · exact Map.find_erase_none _ _ _ ih
      · exact ih
    · unfold invokeSignalHandler
      split
      · exact ih
      · split <;> exact ih
    · exact invokeErrorHandler_zero p _ asError ih
    · exact ih
  | readFailed p error _ ih => exact invokeErrorHandler_zero p 0 error ih
  | releasePendingHandlers p _ ih => exact ih

/-- The `Error` label of the switch. In every state the multiplexer can be
in, dispatching a decoded error with reply serial `r`: when a reply handler is
registered under `r`, exactly that handler is invoked, once, with the error
and an empty message, and nothing else; afterwards `r` has no entry, every
other serial keeps its entry, and the other tables and the error sink are
unchanged. When no handler is registered under `r` and an error sink is
registered, exactly the sink is invoked, once, with the error (the sink is
then released, the tables are unchanged); when there is no sink either, the
whole state is unchanged and nothing is invoked. -/
theorem dispatch_error_routing (p : MessageProtocol H Msg Err) (hp : Reachable p)
    (interface member : Str) (r : Nat) (message : Msg) (asError : Err) :
    let header : DispatchHeader :=
      { type := MessageType.Error, interface := interface, member := member,
        replySerial := r }
    let p1 := p.dispatchMessage header message asError
    match p.m_methodReturnHandlers.find r with
    | some h =>
      p1.invoked = p.invoked ++ [Invocation.methodReturn h (some asError) none] ∧
      (∀ r1, p1.m_methodReturnHandlers.find r1 =
        if r1 = r then none else p.m_methodReturnHandlers.find r1) ∧
      p1.m_methodCallHandlers = p.m_methodCallHandlers ∧
      p1.m_signalHandlers = p.m_signalHandlers ∧
      p1.m_errorHandler = p.m_errorHandler
    | none =>
      match p.m_errorHandler with
      | some h =>
        p1.invoked = p.invoked ++ [Invocation.error h (some asError)] ∧
        p1.m_errorHandler = none ∧
        p1.m_methodReturnHandlers = p.m_methodReturnHandlers ∧
        p1.m_methodCallHandlers = p.m_methodCallHandlers ∧
        p1.m_signalHandlers = p.m_signalHandlers
      | none => p1 = p := by
  intro header p1
  have h0 := hp.zero_free
  have hfind : (if r != 0 then p.m_methodReturnHandlers.find r else none) =
      p.m_methodReturnHandlers.find r := by
    by_cases hr : r = 0
    · subst hr
      simp [h0]
    · have : (r != 0) = true := by simpa using hr
      simp only [this, if_true]
  simp only [p1, header, dispatchMessage, invokeErrorHandler, hfind]
  cases h1 : p.m_methodReturnHandlers.find r with
  | some h => exact ⟨rfl, fun r1 => Map.find_erase _ _ _, rfl, rfl, rfl⟩
  | none =>
    cases h2 : p.m_errorHandler with
    | some h => exact ⟨rfl, rfl, rfl, rfl, rfl⟩
    | none => simp only [h2]

end MessageProtocol

namespace MessageProtocol

variable {H Msg Err : Type}

/-- Error routing at a multiplexer with a sink and a call in flight under
the serial 5: an error for the serial 5 goes to the reply handler only, an
error for the serial 6 to the sink. -/
theorem dispatch_error_routing_witness :
    Reachable exampleProtocol ∧
    (exampleProtocol.dispatchMessage
      { type := MessageType.Error, interface := [], member := [], replySerial := 5 }
      () "failed").invoked = [Invocation.methodReturn "reply" (some "failed") none] ∧
    (exampleProtocol.dispatchMessage
      { type := MessageType.Error, interface := [], member := [], replySerial := 6 }
      () "failed").invoked = [Invocation.error "sink" (some "failed")] :=
  have hr : Reachable exampleProtocol :=
    Reachable.sendMethodCall _ 5 true "reply" (Reachable.receiveError _ "sink" Reachable.start)
  ⟨hr, (dispatch_error_routing exampleProtocol hr [] [] 5 () "failed").1,
    (dispatch_error_routing exampleProtocol hr [] [] 6 () "failed").1⟩

/-- What `releasePendingHandlers` invokes: every entry of the three tables,
in the order of the tables, and the error sink, each with empty arguments.
The tables and the sink are left as they were. -/
theorem releasePendingHandlers_spec (p : MessageProtocol H Msg Err) :
    p.releasePendingHandlers.invoked = p.invoked
      ++ p.m_methodReturnHandlers.map (fun elem => Invocation.methodReturn elem.2 none none)
      ++ p.m_methodCallHandlers.map (fun elem => Invocation.methodCall elem.2 none)
      ++ p.m_signalHandlers.map (fun elem => Invocation.signal elem.2 none)
      ++ (p.m_errorHandler.map (fun h => Invocation.error h none)).toList ∧
    p.releasePendingHandlers.m_methodReturnHandlers = p.m_methodReturnHandlers ∧
    p.releasePendingHandlers.m_methodCallHandlers = p.m_methodCallHandlers ∧
    p.releasePendingHandlers.m_signalHandlers = p.m_signalHandlers ∧
    p.releasePendingHandlers.m_errorHandler = p.m_errorHandler := by
  refine ⟨?_, rfl, rfl, rfl, rfl⟩
  unfold releasePendingHandlers
  cases p.m_errorHandler <;> rfl

/-- A reply handler that `releasePendingHandlers` has invoked is still in its
table: a write that fails afterwards for its serial invokes it again. -/
theorem release_then_write_failure (p : MessageProtocol H Msg Err) (r : Nat) (h : H)
    (e : Err) (hr : r ≠ 0) (hf : p.m_methodReturnHandlers.find r = some h) :
    (p.releasePendingHandlers.writeCompleted (WriteCompletion.reply r) (some e)).invoked =
      p.releasePendingHandlers.invoked ++ [Invocation.methodReturn h (some e) none] := by
  have hb : (r != 0) = true := by simpa using hr
  have hf1 : p.releasePendingHandlers.m_methodReturnHandlers.find r = some h := hf
  simp only [writeCompleted, invokeErrorHandler, hb, if_true, hf1]

end MessageProtocol

/-- **C12.** Drain on close at a multiplexer with one method call in flight
(serial 1, reply expected): when the connection closes,
`releasePendingHandlers` invokes the reply handler once with an empty
outcome; when the write of the call then completes with an error, the same
handler is invoked a second time, for `releasePendingHandlers` has left it in
its table. -/
theorem released_handler_fires_again :
    callInFlight.1.releasePendingHandlers.invoked =
      [Invocation.methodReturn "reply handler" none none] ∧
    callInFlight.1.releasePendingHandlers.m_methodReturnHandlers = [(1, "reply handler")] ∧
    (callInFlight.1.releasePendingHandlers.writeCompleted callInFlight.2
      (some "write failed")).invoked =
      [Invocation.methodReturn "reply handler" none none,
        Invocation.methodReturn "reply handler" (some "write failed") none] := by
  decide

/-! ## Member names and the length cap -/

section MemberNames

open Name

theorem validateLoop_member (name : Str) (rest : List Char) (prev : Char) (hp : Bool) :
    (∃ b, validateLoop name false false false rest prev hp = Except.ok b) ↔
      ((∀ c ∈ rest, isPathElementChar c = true) ∧
        (prev = '.' → ∀ c, rest.head? = some c → Name.isDigit c = false)) := by
  induction rest generalizing prev hp with
  | nil => simp [validateLoop]
  | cons ch rest ih =>
    by_cases hd : prev = '.' ∧ Name.isDigit ch = true
    · obtain ⟨h1, h2⟩ := hd
      subst h1
      simp [validateLoop, h2]
    · by_cases hcl : isPathElementChar ch = true
      · have hne : ch ≠ '.' := by
          intro h
          subst h
          revert hcl
          decide
        have hcl2 : (ch == '_' || Name.isUpper ch || Name.isLower ch || Name.isDigit ch) = true :=
          hcl
        have hdig : ¬ (prev == '.' && Name.isDigit ch) = true := by
          simpa using hd
        have hstep : validateLoop name false false false (ch :: rest) prev hp =
            validateLoop name false false false rest ch hp := by
          simp only [validateLoop, Bool.false_and, Bool.false_eq_true, if_false, Bool.not_false,
            Bool.true_and, hdig, Bool.or_false, Bool.false_or, hcl2, if_true]
        rw [hstep, ih]
        simp only [List.mem_cons, forall_eq_or_imp, hcl, true_and, List.head?_cons,
          Option.some.injEq, forall_eq']
        constructor
        · rintro ⟨h1, _⟩
          refine ⟨h1, fun hprev => ?_⟩
          by_contra hc
          exact hd ⟨hprev, by simpa using hc⟩
        · rintro ⟨h1, _⟩
          exact ⟨h1, fun h => absurd h hne⟩
      · have hcl2 : (ch == '_' || Name.isUpper ch || Name.isLower ch || Name.isDigit ch) = false := by
          simpa [isPathElementChar] using hcl
        have hdig : ¬ (prev == '.' && Name.isDigit ch) = true := by
          simpa using hd
        have hstep : validateLoop name false false false (ch :: rest) prev hp =
            Except.error (String.mk name ++ " has invalid character") := by
          simp only [validateLoop, Bool.false_and, Bool.false_eq_true, if_false, Bool.not_false,
            Bool.true_and, hdig, Bool.or_false, Bool.false_or, hcl2]
        rw [hstep]
        simp only [List.mem_cons, forall_eq_or_imp]
        constructor
        · rintro ⟨b, hb⟩
          cases hb
        · rintro ⟨⟨h1, _⟩, _⟩
          exact absurd h1 hcl

/-- **C21.** Member names. For every string `s`, `MemberName(s)` succeeds
exactly when `s` has between 1 and 255 characters, every character of `s` is
in `[A-Za-z0-9_]`, and the first character is not a digit; a period, a hyphen
and a colon are not among these characters. -/
theorem MemberName_ok_iff (s : Str) :
    (MemberName s = Except.ok s ↔
      (1 ≤ s.length ∧ s.length ≤ 255 ∧ (∀ c ∈ s, isPathElementChar c = true) ∧
        ∀ c, s.head? = some c → Name.isDigit c = false)) ∧
    isPathElementChar '.' = false ∧ isPathElementChar '-' = false ∧
    isPathElementChar ':' = false := by
  refine ⟨?_, by decide, by decide, by decide⟩
  unfold MemberName
  rw [map_validate_ok]
  by_cases he : s = []
  · subst he
    simp [Name.validate]
  have hpos : 1 ≤ s.length := by
    cases s with
    | nil => exact absurd rfl he
    | cons _ _ => simp
  by_cases hlen : Name.MaximumSize < s.length
  · have : ¬ s.length ≤ 255 := by simp only [Name.MaximumSize] at hlen; omega
    simp [Name.validate, he, hlen, this]
  have hlen2 : s.length ≤ 255 := by simp only [Name.MaximumSize] at hlen; omega
  by_cases hc : s.head? = some ':'
  · have hmem : ':' ∈ s := List.mem_of_mem_head? hc
    have hnot : ¬ ∀ c ∈ s, isPathElementChar c = true := by
      intro h
      have := h ':' hmem
      revert this
      decide
    simp [Name.validate, he, hlen, hc, hnot]
  · have hcb : (s.head? == some ':') = false := by simpa using hc
    have h1 : (NameType.MemberName != NameType.MemberName) = false := rfl
    have h3 : (NameType.MemberName == NameType.BusName ||
        NameType.MemberName == NameType.UniqueName ||
        NameType.MemberName == NameType.WellKnownName) = false := rfl
    have h4 : (NameType.MemberName != NameType.NamespaceName) = true := rfl
    have key := validateLoop_member s s '.' false
    simp only [hpos, hlen2, true_and]
    rw [← (show ((∀ c ∈ s, isPathElementChar c = true) ∧
        (('.' : Char) = '.' → ∀ c, s.head? = some c → Name.isDigit c = false)) ↔
        ((∀ c ∈ s, isPathElementChar c = true) ∧
        ∀ c, s.head? = some c → Name.isDigit c = false) from by simp), ← key]
    simp only [Name.validate, he, hlen, hcb, h1, h3, h4, List.isEmpty_eq_true, if_false,
      Bool.false_and, Bool.and_false, Bool.false_eq_true, List.drop_zero, Bool.not_true]
    cases hl : validateLoop s false false false s '.' false with
    | error e => simp
    | ok b => simp

end MemberNames

section LengthCap

theorem Name.validate_too_long (s : Str) (t : NameType) (h : 255 < s.length) :
    Name.validate s t =
      Except.error (String.mk (s.take 16) ++ "... exceeds 255 characters") := by
  have he : s.isEmpty = false := by
    cases s with
    | nil => simp at h
    | cons _ _ => rfl
  have hlen : s.length > Name.MaximumSize := h
  have hs : (toString Name.MaximumSize : String) = "255" := by decide
  simp only [Name.validate, he, Bool.false_eq_true, if_false, hlen, if_true, hs,
    String.append_assoc]
  rfl

/-- **C22.** Name length cap. Each of the seven name constructors rejects
every string longer than 255 bytes, whatever its content, with the message
formed by the first 16 bytes of the string followed by
`... exceeds 255 characters`. -/
theorem name_length_cap (s : Str) (h : 255 < s.length) :
    BusName s = Except.error (String.mk (s.take 16) ++ "... exceeds 255 characters") ∧
    UniqueName s = Except.error (String.mk (s.take 16) ++ "... exceeds 255 characters") ∧
    WellKnownName s = Except.error (String.mk (s.take 16) ++ "... exceeds 255 characters") ∧
    ErrorName s = Except.error (String.mk (s.take 16) ++ "... exceeds 255 characters") ∧
    InterfaceName s = Except.error (String.mk (s.take 16) ++ "... exceeds 255 characters") ∧
    NamespaceName s = Except.error (String.mk (s.take 16) ++ "... exceeds 255 characters") ∧
    MemberName s = Except.error (String.mk (s.take 16) ++ "... exceeds 255 characters") := by
  simp only [BusName, UniqueName, WellKnownName, ErrorName, InterfaceName, NamespaceName,
    MemberName, Name.validate_too_long s _ h, Except.map, and_self]

end LengthCap

theorem longName_length : longName.length = 256 := List.length_replicate _ _

/-- The name length cap at a name of 256 letters `a`: the seven constructors
throw, with the first sixteen letters in the message. -/
theorem name_length_cap_witness :
    255 < longName.length ∧
    BusName longName = Except.error "aaaaaaaaaaaaaaaa... exceeds 255 characters" ∧
    MemberName longName = Except.error "aaaaaaaaaaaaaaaa... exceeds 255 characters" :=
  ⟨by simp [longName_length],
    (name_length_cap longName (by simp [longName_length])).1,
    (name_length_cap longName (by simp [longName_length])).2.2.2.2.2.2⟩

section PathLength

theorem longPath_length : longPath.length = 256 := by
  rw [longPath, List.length_cons, List.length_replicate]

theorem longPath_syntax : ObjectPathSyntax longPath := by
  right
  refine ⟨[List.replicate 255 'a'], List.cons_ne_nil _ _, ?_, ?_⟩
  · intro seg hseg
    rw [List.mem_singleton] at hseg
    subst hseg
    refine ⟨fun h => ?_, fun c hc => ?_⟩
    · have := congrArg List.length h
      rw [List.length_replicate, List.length_nil] at this
      exact absurd this (by decide)
    · rw [List.eq_of_mem_replicate hc]
      decide
  · rw [longPath, List.map_cons, List.map_nil, List.flatten_cons, List.flatten_nil,
      List.append_nil]

/-- **C23.** The object-path cap at a path of 256 bytes: the path made of a
slash and 255 letters `a` is longer than 255 bytes and the constructor
accepts it. -/
theorem ObjectPath_accepts_256_bytes :
    255 < longPath.length ∧ ObjectPath.ctor longPath = Except.ok longPath :=
  ⟨by simp [longPath_length], (ObjectPath.ctor_ok_iff longPath).mpr longPath_syntax⟩

/-- **C23**, as the constructor behaves ("The path may be of any length"):
for every string `p` longer than 255 bytes, `ObjectPath(p)` succeeds if and
only if `p` is a well-formed object path; the length plays no part. -/
theorem ObjectPath_long_ok_iff (p : Str) (_h : 255 < p.length) :
    ObjectPath.ctor p = Except.ok p ↔ ObjectPathSyntax p :=
  ObjectPath.ctor_ok_iff p

/-- The object path of 256 bytes is well formed, and accepted. -/
theorem ObjectPath_long_ok_iff_witness :
    255 < longPath.length ∧ ObjectPathSyntax longPath ∧
    ObjectPath.ctor longPath = Except.ok longPath :=
  ⟨by simp [longPath_length], longPath_syntax,
    (ObjectPath_long_ok_iff longPath (by simp [longPath_length])).mpr longPath_syntax⟩

end PathLength

/-! ## Match rules: escaping -/

namespace MatchRule

theorem firstIndex_none (what : Char) (s : Str) (h : firstIndex what s = none) :
    what ∉ s := by
  induction s with
  | nil => simp
  | cons c rest ih =>
    unfold firstIndex at h
    split at h
    · cases h
    · rename_i hc
      simp only [Option.map_eq_none'] at h
      simp only [List.mem_cons, not_or]
      exact ⟨fun e => hc e.symm, ih h⟩

theorem firstIndex_some (what : Char) (s : Str) (i : Nat) (h : firstIndex what s = some i) :
    ∃ pre post, s = pre ++ what :: post ∧ pre.length = i ∧ what ∉ pre := by
  induction s generalizing i with
  | nil => simp [firstIndex] at h
  | cons c rest ih =>
    unfold firstIndex at h
    split at h
    · rename_i hc
      subst hc
      cases h
      exact ⟨[], rest, rfl, rfl, by simp⟩
    · rename_i hc
      simp only [Option.map_eq_some'] at h
      obtain ⟨j, hj, rfl⟩ := h
      obtain ⟨pre, post, hs, hl, hn⟩ := ih j hj
      refine ⟨c :: pre, post, by rw [hs]; rfl, by simp [hl], ?_⟩
      simp only [List.mem_cons, not_or]
      exact ⟨fun e => hc e.symm, hn⟩

theorem replaceApostrophes_of_not_mem (s : Str) (h : '\'' ∉ s) : replaceApostrophes s = s := by
  induction s with
  | nil => rfl
  | cons c rest ih =>
    simp only [List.mem_cons, not_or] at h
    have hc : ¬ c = '\'' := fun e => h.1 e.symm
    simp only [replaceApostrophes, hc, if_false, ih h.2]

theorem replaceApostrophes_append (pre post : Str) (h : '\'' ∉ pre) :
    replaceApostrophes (pre ++ '\'' :: post) =
      pre ++ lit "'\\''" ++ replaceApostrophes post := by
  induction pre with
  | nil => simp [replaceApostrophes, lit]
  | cons c rest ih =>
    simp only [List.mem_cons, not_or] at h
    have hc : ¬ c = '\'' := fun e => h.1 e.symm
    rw [List.cons_append, replaceApostrophes, if_neg hc, ih h.2]
    simp only [List.cons_append, List.append_assoc]

theorem escapeLoop_eq (fuel : Nat) (done rem : Str) (h : rem.length < fuel) :
    escapeLoop fuel (done ++ rem) done.length = done ++ replaceApostrophes rem := by
  induction fuel generalizing done rem with
  | zero => exact absurd h (Nat.not_lt_zero _)
  | succ fuel ih =>
    have hfind : find (done ++ rem) '\'' done.length =
        (firstIndex '\'' rem).map (fun i => i + done.length) := by
      unfold find
      rw [List.drop_left]
    unfold escapeLoop
    rw [hfind]
    cases hi : firstIndex '\'' rem with
    | none =>
      simp only [Option.map_none']
      rw [replaceApostrophes_of_not_mem rem (firstIndex_none _ _ hi)]
    | some i =>
      obtain ⟨pre, post, hs, hl, hn⟩ := firstIndex_some _ _ _ hi
      subst hs
      simp only [Option.map_some']
      have hp : i + done.length = (done ++ pre).length := by
        rw [List.length_append, hl, Nat.add_comm]
      have htake : (done ++ (pre ++ '\'' :: post)).take (i + done.length) = done ++ pre := by
        rw [hp, ← List.append_assoc, List.take_left]
      have hdrop : (done ++ (pre ++ '\'' :: post)).drop (i + done.length + 1) = post := by
        rw [hp, ← List.append_assoc]
        have : done ++ pre ++ '\'' :: post = (done ++ pre ++ ['\'']) ++ post := by simp
        rw [this]
        have hl2 : (done ++ pre ++ ['\'']).length = (done ++ pre).length + 1 := by
          rw [List.length_append, List.length_singleton]
        rw [← hl2, List.drop_left]
      rw [htake, hdrop]
      have hpos : i + done.length + 4 = (done ++ pre ++ lit "'\\''").length := by
        rw [hp, List.length_append _ (lit "'\\''")]
        rfl
      rw [hpos, ih (done ++ pre ++ lit "'\\''") post (by
        simp only [List.length_append, List.length_cons] at h; omega),
        replaceApostrophes_append pre post hn]
      simp only [List.append_assoc]

/-- The loop of `escapeApostrophes` replaces every apostrophe by the four
characters and leaves every other character as it is. -/
theorem escapeApostrophes_eq (value : Str) :
    escapeApostrophes value = replaceApostrophes value := by
  have := escapeLoop_eq (value.length + 1) [] value (Nat.lt_succ_self _)
  simpa [escapeApostrophes] using this

end MatchRule

/-! ## Match rules: the maps of indexed arguments -/

namespace Map

section Assign

variable {V : Type}

theorem find_assign_self (m : Map Nat V) (key : Nat) (value : V) :
    (m.assign key value).find key = some value := by
  induction m with
  | nil => simp [assign, find]
  | cons e rest ih =>
    obtain ⟨k, v⟩ := e
    unfold assign
    split
    · simp [find]
    · split
      · rename_i h
        simp [find, h]
      · rename_i h
        simp only [find, h, if_false, ih]

theorem key_of_mem_assign (m : Map Nat V) (key : Nat) (value : V) (e : Nat × V)
    (h : e ∈ m.assign key value) : e.1 = key ∨ ∃ e1 ∈ m, e1.1 = e.1 := by
  induction m with
  | nil =>
    simp only [assign, List.mem_singleton] at h
    exact Or.inl (by rw [h])
  | cons a rest ih =>
    obtain ⟨k, v⟩ := a
    unfold assign at h
    split at h
    · rcases List.mem_cons.mp h with h | h
      · exact Or.inl (by rw [h])
      · exact Or.inr ⟨e, h, rfl⟩
    · split at h
      · rcases List.mem_cons.mp h with h | h
        · exact Or.inr ⟨(k, v), List.mem_cons_self _ _, by rw [h]⟩
        · exact Or.inr ⟨e, List.mem_cons_of_mem _ h, rfl⟩
      · rcases List.mem_cons.mp h with h | h
        · exact Or.inr ⟨(k, v), List.mem_cons_self _ _, by rw [h]⟩
        · rcases ih h with h1 | ⟨e1, he1, h1⟩
          · exact Or.inl h1
          · exact Or.inr ⟨e1, List.mem_cons_of_mem _ he1, h1⟩

theorem ascending_assign (m : Map Nat V) (key : Nat) (value : V) (h : Ascending m) :
    Ascending (m.assign key value) := by
  induction m with
  | nil => simp [assign, Ascending]
  | cons a rest ih =>
    obtain ⟨k, v⟩ := a
    unfold Ascending at h
    rw [List.pairwise_cons] at h
    obtain ⟨hk, hrest⟩ := h
    unfold assign
    split
    · rename_i hlt
      unfold Ascending
      rw [List.pairwise_cons, List.pairwise_cons]
      refine ⟨?_, hk, hrest⟩
      intro e he
      rcases List.mem_cons.mp he with he | he
      · rw [he]; exact hlt
      · exact Nat.lt_trans hlt (hk e he)
    · rename_i hnlt
      split
      · unfold Ascending
        rw [List.pairwise_cons]
        exact ⟨hk, hrest⟩
      · rename_i hne
        unfold Ascending
        rw [List.pairwise_cons]
        refine ⟨?_, ih hrest⟩
        intro e he
        have hkey : k < key := by
          show (k, v).1 < key
          simp only
          omega
        rcases key_of_mem_assign rest key value e he with h1 | ⟨e1, he1, h1⟩
        · show k < e.1
          rw [h1]; exact hkey
        · show k < e.1
          rw [← h1]; exact hk e1 he1

theorem find_of_lt (m : Map Nat V) (i : Nat) (h : ∀ e ∈ m, i < e.1) : m.find i = none := by
  induction m with
  | nil => rfl
  | cons a rest ih =>
    obtain ⟨k, v⟩ := a
    have hk : i < k := h (k, v) (List.mem_cons_self _ _)
    have hne : ¬ k = i := by omega
    simp only [find, hne, if_false]
    exact ih (fun e he => h e (List.mem_cons_of_mem _ he))

/-- Visiting an ascending map entry by entry is visiting the keys of a range
in ascending order and taking those that have an entry. -/
theorem map_eq_filterMap_range {β : Type} (g : Nat × V → β) (n : Nat) :
    ∀ (s : Nat) (m : Map Nat V), Ascending m → (∀ e ∈ m, s ≤ e.1 ∧ e.1 < s + n) →
      m.map g = (List.range' s n).filterMap (fun i => (m.find i).map (fun v => g (i, v))) := by
  induction n with
  | zero =>
    intro s m _ hb
    cases m with
    | nil => rfl
    | cons a rest =>
      have := hb a (List.mem_cons_self _ _)
      omega
  | succ n ih =>
    intro s m ha hb
    rw [List.range'_succ, List.filterMap_cons]
    cases m with
    | nil =>
      have h0 := ih (s + 1) ([] : Map Nat V) List.Pairwise.nil (fun e he => by cases he)
      simp only [find, Option.map_none'] at h0 ⊢
      exact h0
    | cons a rest =>
      obtain ⟨k, v⟩ := a
      unfold Ascending at ha
      rw [List.pairwise_cons] at ha
      obtain ⟨hk, hrest⟩ := ha
      have hkb := hb (k, v) (List.mem_cons_self _ _)
      by_cases hks : k = s
      · subst hks
        have hb1 : ∀ e ∈ rest, k + 1 ≤ e.1 ∧ e.1 < k + 1 + n := by
          intro e he
          have h1 := hk e he
          have h2 := hb e (List.mem_cons_of_mem _ he)
          simp only at h1
          omega
        have h0 := ih (k + 1) rest hrest hb1
        have hfind : ∀ i ∈ List.range' (k + 1) n,
            (Map.find ((k, v) :: rest) i) = Map.find rest i := by
          intro i hi
          have : k + 1 ≤ i := (List.mem_range'_1.mp hi).1
          have hne : ¬ k = i := by omega
          simp only [find, hne, if_false]
        have hhead : Map.find ((k, v) :: rest) k = some v := by simp [find]
        rw [hhead, Option.map_some', List.map_cons, h0]
        congr 1
        apply List.filterMap_congr
        intro i hi
        rw [hfind i hi]
      · have hlt : s < k := by
          simp only at hkb
          omega
        have hb1 : ∀ e ∈ (k, v) :: rest, s + 1 ≤ e.1 ∧ e.1 < s + 1 + n := by
          intro e he
          have h2 := hb e he
          rcases List.mem_cons.mp he with he | he
          · rw [he]; simp only; omega
          · have h1 := hk e he
            simp only at h1
            omega
        have h0 := ih (s + 1) ((k, v) :: rest) (List.pairwise_cons.mpr ⟨hk, hrest⟩) hb1
        have hnone : Map.find ((k, v) :: rest) s = none := by
          apply find_of_lt
          intro e he
          rcases List.mem_cons.mp he with he | he
          · rw [he]; exact hlt
          · exact Nat.lt_trans hlt (hk e he)
        rw [hnone, Option.map_none', h0]

end Assign

end Map

/-! ## Match rules: serialisation -/

namespace MatchRule

theorem put_eq (s : Str) (key : String) (member : Str) :
    put s key member = s ++ ((entry key member).map (fun e => ',' :: renderEntry e)).flatten := by
  cases member with
  | nil => simp [put, entry]
  | cons c rest =>
    simp [put, entry, renderEntry, lit]

theorem foldl_append_eq {α : Type} (f : Str → α → Str) (g : α → Str)
    (hfg : ∀ out it, f out it = out ++ g it) (l : List α) (s : Str) :
    l.foldl f s = s ++ (l.map g).flatten := by
  induction l generalizing s with
  | nil => simp
  | cons a rest ih =>
    simp only [List.foldl_cons, ih, hfg, List.map_cons, List.flatten_cons, List.append_assoc]

theorem joinComma_cons (part : Str) (rest : List Str) :
    joinComma (part :: rest) = part ++ (rest.map (fun p => ',' :: p)).flatten := by
  induction rest generalizing part with
  | nil => simp [joinComma]
  | cons a rest ih =>
    have h : joinComma (part :: a :: rest) = part ++ ',' :: joinComma (a :: rest) := rfl
    rw [h, ih a]
    simp

theorem drop_flatten_eq_join (l : List Str) :
    (if ((l.map (fun p => ',' :: p)).flatten).length = 0 then []
      else ((l.map (fun p => ',' :: p)).flatten).drop 1) = joinComma l := by
  cases l with
  | nil => rfl
  | cons a rest =>
    rw [joinComma_cons]
    simp

theorem Built.maps_ok {r : MatchRule} (h : Built r) :
    (Map.Ascending r.m_arg ∧ ∀ e ∈ r.m_arg, e.1 < 64) ∧
    (Map.Ascending r.m_argPath ∧ ∀ e ∈ r.m_argPath, e.1 < 64) := by
  induction h with
  | new => exact ⟨⟨List.Pairwise.nil, fun e he => by cases he⟩,
      ⟨List.Pairwise.nil, fun e he => by cases he⟩⟩
  | type r t _ ih => cases t <;> exact ih
  | sender r name _ _ ih => exact ih
  | interface r name _ _ ih => exact ih
  | member r name _ _ ih => exact ih
  | path r name _ _ ih =>
    unfold MatchRule.path
    split <;> exact ih
  | pathNamespace r name _ _ ih =>
    unfold MatchRule.pathNamespace
    split <;> exact ih
  | destination r name _ _ ih => exact ih
  | arg0Namespace r name _ _ ih => exact ih
  | arg r index string _ _ ih =>
    unfold MatchRule.arg
    split
    · exact ih
    · rename_i hidx
      refine ⟨⟨Map.ascending_assign _ _ _ ih.1.1, ?_⟩, ih.2⟩
      intro e he
      rcases Map.key_of_mem_assign _ _ _ e he with h1 | ⟨e1, he1, h1⟩
      · rw [h1]
        simp only [MaximumIndex] at hidx
        omega
      · rw [← h1]
        exact ih.1.2 e1 he1
  | argPath r index string _ _ ih =>
    unfold MatchRule.argPath
    split
    · exact ih
    · rename_i hidx
      refine ⟨ih.1, ⟨Map.ascending_assign _ _ _ ih.2.1, ?_⟩⟩
      intro e he
      rcases Map.key_of_mem_assign _ _ _ e he with h1 | ⟨e1, he1, h1⟩
      · rw [h1]
        simp only [MaximumIndex] at hidx
        omega
      · rw [← h1]
        exact ih.2.2 e1 he1

/-- The serialisation of a built rule: its entries, each rendered as
`key='value'`, joined by commas. -/
theorem str_eq_join (r : MatchRule) (h : Built r) :
    r.str = joinComma (r.entries.map renderEntry) := by
  obtain ⟨⟨ha, hab⟩, ⟨hp, hpb⟩⟩ := h.maps_ok
  have harg := Map.map_eq_filterMap_range
    (fun it : Nat × Str => lit ",arg" ++ lit (toString it.1) ++ lit "='" ++ it.2 ++ lit "'")
    64 0 r.m_arg ha (fun e he => ⟨Nat.zero_le _, by have := hab e he; omega⟩)
  have hpath := Map.map_eq_filterMap_range
    (fun it : Nat × Str => lit ",arg" ++ lit (toString it.1) ++ lit "path='" ++ it.2 ++ lit "'")
    64 0 r.m_argPath hp (fun e he => ⟨Nat.zero_le _, by have := hpb e he; omega⟩)
  rw [← drop_flatten_eq_join]
  have hflat : (put (put (put (put (put (put (put (put [] "type" r.m_type) "sender" r.m_sender)
      "interface" r.m_interface) "member" r.m_member) "path" r.m_path)
      "path_namespace" r.m_pathNamespace) "destination" r.m_destination)
      "arg0namespace" r.m_arg0Namespace
      ++ (r.m_arg.map (fun it : Nat × Str =>
        lit ",arg" ++ lit (toString it.1) ++ lit "='" ++ it.2 ++ lit "'")).flatten
      ++ (r.m_argPath.map (fun it : Nat × Str =>
        lit ",arg" ++ lit (toString it.1) ++ lit "path='" ++ it.2 ++ lit "'")).flatten) =
      (((r.entries.map renderEntry).map (fun p => ',' :: p)).flatten) := by
    rw [harg, hpath]
    simp only [put_eq, entries, List.nil_append, List.map_append, List.flatten_append,
      List.append_assoc, List.map_map, List.map_filterMap, List.range_eq_range']
    congr 9
    · congr 1
      apply List.filterMap_congr
      intro i _
      cases r.m_arg.find i with
      | none => rfl
      | some v => simp [renderEntry, lit]
    · congr 1
      apply List.filterMap_congr
      intro i _
      cases r.m_argPath.find i with
      | none => rfl
      | some v => simp [renderEntry, lit]
  unfold str
  simp only
  rw [foldl_append_eq _ (fun it : Nat × Str =>
      lit ",arg" ++ lit (toString it.1) ++ lit "path='" ++ it.2 ++ lit "'")
      (fun out it => by simp only [List.append_assoc]),
    foldl_append_eq _ (fun it : Nat × Str =>
      lit ",arg" ++ lit (toString it.1) ++ lit "='" ++ it.2 ++ lit "'")
      (fun out it => by simp only [List.append_assoc]), hflat]

end MatchRule

section MatchRuleClaims

open MatchRule

theorem MatchRule.built_exampleRule : Built exampleRule :=
  Built.sender _ _ (Built.type _ _ (Built.arg _ 0 _ (Built.member _ _
    (Built.argPath _ 3 _ (Built.arg _ 42 _ Built.new (by decide)) (by decide)) rfl)
    (by decide))) rfl

end MatchRuleClaims

section MatchRuleEntries

open MatchRule

theorem MatchRule.mem_entries_arg (r : MatchRule) (i : Nat) (v : Str) (hi : i < 64)
    (hf : r.m_arg.find i = some v) : (lit "arg" ++ lit (toString i), v) ∈ r.entries := by
  unfold entries
  apply List.mem_append_left
  apply List.mem_append_right
  rw [List.mem_filterMap]
  exact ⟨i, List.mem_range.mpr hi, by rw [hf]; rfl⟩

theorem MatchRule.mem_entries_argPath (r : MatchRule) (i : Nat) (v : Str) (hi : i < 64)
    (hf : r.m_argPath.find i = some v) :
    (lit "arg" ++ lit (toString i) ++ lit "path", v) ∈ r.entries := by
  unfold entries
  apply List.mem_append_right
  rw [List.mem_filterMap]
  exact ⟨i, List.mem_range.mpr hi, by rw [hf]; rfl⟩

theorem MatchRule.Built.path_or_namespace {r : MatchRule} (h : Built r) :
    r.m_path = [] ∨ r.m_pathNamespace = [] := by
  induction h with
  | new => exact Or.inl rfl
  | type r t _ ih => cases t <;> exact ih
  | sender r name _ _ ih => exact ih
  | interface r name _ _ ih => exact ih
  | member r name _ _ ih => exact ih
  | path r name _ _ ih =>
    unfold MatchRule.path
    split
    · exact ih
    · rename_i hn
      right
      show r.m_pathNamespace = []
      simpa using hn
  | pathNamespace r name _ _ ih =>
    unfold MatchRule.pathNamespace
    split
    · exact ih
    · rename_i hn
      left
      show r.m_path = []
      simpa using hn
  | destination r name _ _ ih => exact ih
  | arg0Namespace r name _ _ ih => exact ih
  | arg r index string _ _ ih =>
    unfold MatchRule.arg
    split <;> exact ih
  | argPath r index string _ _ ih =>
    unfold MatchRule.argPath
    split <;> exact ih

theorem MatchRule.mem_entry (key : String) (value : Str) (e : Str × Str)
    (h : e ∈ entry key value) : e = (lit key, value) ∧ value ≠ [] := by
  unfold entry at h
  split at h
  · cases h
  · rename_i hv
    rw [List.mem_singleton] at h
    exact ⟨h, hv⟩

/-- The keys of the indexed arguments begin with the letter `a`. -/
theorem MatchRule.key_of_mem_entries (r : MatchRule) (e : Str × Str) (h : e ∈ r.entries) :
    (e = (lit "type", r.m_type)) ∨ (e = (lit "sender", r.m_sender)) ∨
    (e = (lit "interface", r.m_interface)) ∨ (e = (lit "member", r.m_member)) ∨
    (e = (lit "path", r.m_path) ∧ r.m_path ≠ []) ∨
    (e = (lit "path_namespace", r.m_pathNamespace) ∧ r.m_pathNamespace ≠ []) ∨
    (e = (lit "destination", r.m_destination)) ∨
    (e = (lit "arg0namespace", r.m_arg0Namespace)) ∨
    (∃ (n : Nat) (rest : Str), e.1 = lit "arg" ++ lit (toString n) ++ rest) := by
  unfold entries at h
  simp only [List.mem_append, List.mem_filterMap, Option.map_eq_some'] at h
  rcases h with ((((((((h | h) | h) | h) | h) | h) | h) | h) | h) | h
  · exact Or.inl (mem_entry _ _ _ h).1
  · exact Or.inr (Or.inl (mem_entry _ _ _ h).1)
  · exact Or.inr (Or.inr (Or.inl (mem_entry _ _ _ h).1))
  · exact Or.inr (Or.inr (Or.inr (Or.inl (mem_entry _ _ _ h).1)))
  · exact Or.inr (Or.inr (Or.inr (Or.inr (Or.inl (mem_entry _ _ _ h)))))
  · exact Or.inr (Or.inr (Or.inr (Or.inr (Or.inr (Or.inl (mem_entry _ _ _ h))))))
  · exact Or.inr (Or.inr (Or.inr (Or.inr (Or.inr (Or.inr (Or.inl (mem_entry _ _ _ h).1))))))
  · exact Or.inr (Or.inr (Or.inr (Or.inr (Or.inr (Or.inr (Or.inr
      (Or.inl (mem_entry _ _ _ h).1)))))))
  · obtain ⟨n, _, v, _, hv⟩ := h
    exact Or.inr (Or.inr (Or.inr (Or.inr (Or.inr (Or.inr (Or.inr (Or.inr
      ⟨n, [], by rw [← hv]; simp⟩)))))))
  · obtain ⟨n, _, v, _, hv⟩ := h
    exact Or.inr (Or.inr (Or.inr (Or.inr (Or.inr (Or.inr (Or.inr (Or.inr
      ⟨n, lit "path", by rw [← hv]⟩)))))))

theorem MatchRule.path_of_mem_entries (r : MatchRule) (v : Str)
    (h : (lit "path", v) ∈ r.entries) : r.m_path ≠ [] := by
  rcases key_of_mem_entries r _ h with h | h | h | h | h | h | h | h | ⟨n, rest, h⟩
  · have h1 : lit "path" = lit "type" := congrArg Prod.fst h
    exact absurd h1 (by decide)
  · have h1 : lit "path" = lit "sender" := congrArg Prod.fst h
    exact absurd h1 (by decide)
  · have h1 : lit "path" = lit "interface" := congrArg Prod.fst h
    exact absurd h1 (by decide)
  · have h1 : lit "path" = lit "member" := congrArg Prod.fst h
    exact absurd h1 (by decide)
  · exact h.2
  · have h1 : lit "path" = lit "path_namespace" := congrArg Prod.fst h.1
    exact absurd h1 (by decide)
  · have h1 : lit "path" = lit "destination" := congrArg Prod.fst h
    exact absurd h1 (by decide)
  · have h1 : lit "path" = lit "arg0namespace" := congrArg Prod.fst h
    exact absurd h1 (by decide)
  · have h1 : lit "path" = lit "arg" ++ lit (toString n) ++ rest := h
    exact absurd (congrArg List.head? h1) (by simp [lit])

theorem MatchRule.namespace_of_mem_entries (r : MatchRule) (v : Str)
    (h : (lit "path_namespace", v) ∈ r.entries) : r.m_pathNamespace ≠ [] := by
  rcases key_of_mem_entries r _ h with h | h | h | h | h | h | h | h | ⟨n, rest, h⟩
  · have h1 : lit "path_namespace" = lit "type" := congrArg Prod.fst h
    exact absurd h1 (by decide)
  · have h1 : lit "path_namespace" = lit "sender" := congrArg Prod.fst h
    exact absurd h1 (by decide)
  · have h1 : lit "path_namespace" = lit "interface" := congrArg Prod.fst h
    exact absurd h1 (by decide)
  · have h1 : lit "path_namespace" = lit "member" := congrArg Prod.fst h
    exact absurd h1 (by decide)
  · have h1 : lit "path_namespace" = lit "path" := congrArg Prod.fst h.1
    exact absurd h1 (by decide)
  · exact h.2
  · have h1 : lit "path_namespace" = lit "destination" := congrArg Prod.fst h
    exact absurd h1 (by decide)
  · have h1 : lit "path_namespace" = lit "arg0namespace" := congrArg Prod.fst h
    exact absurd h1 (by decide)
  · have h1 : lit "path_namespace" = lit "arg" ++ lit (toString n) ++ rest := h
    exact absurd (congrArg List.head? h1) (by simp [lit])

end MatchRuleEntries

section MatchRuleClaims2

open MatchRule

theorem MatchRule.arg_eq (r : MatchRule) (i : Nat) (s : Str) :
    r.arg i s =
      if 63 < i then (some "arg index exceeds 63", r)
      else (none, { r with m_arg := r.m_arg.assign i (replaceApostrophes s) }) := by
  unfold MatchRule.arg
  rw [escapeApostrophes_eq]
  rfl

theorem MatchRule.argPath_eq (r : MatchRule) (i : Nat) (s : Str) :
    r.argPath i s =
      if 63 < i then (some "arg path index exceeds 63", r)
      else (none, { r with m_argPath := r.m_argPath.assign i (replaceApostrophes s) }) := by
  unfold MatchRule.argPath
  rw [escapeApostrophes_eq]
  rfl

/-- **C25.** Apostrophe escaping. For every built rule, every index
`i <= 63` and every string `s`: after `arg(i, s)` the map of arguments holds,
under `i`, the string `s` with every apostrophe replaced by the four
characters `'\''` and every other character (a backslash too) left as it is,
and `str()` emits that value in the entry of the key `arg<i>`; likewise for
`argPath(i, s)` and the key `arg<i>path`. -/
theorem MatchRule_arg_escapes (r : MatchRule) (h : Built r) (i : Nat) (hi : i ≤ 63)
    (s : Str) :
    ((r.arg i s).2.m_arg.find i = some (replaceApostrophes s) ∧
      (lit "arg" ++ lit (toString i), replaceApostrophes s) ∈ (r.arg i s).2.entries ∧
      (r.arg i s).2.str = joinComma ((r.arg i s).2.entries.map renderEntry)) ∧
    ((r.argPath i s).2.m_argPath.find i = some (replaceApostrophes s) ∧
      (lit "arg" ++ lit (toString i) ++ lit "path", replaceApostrophes s) ∈
        (r.argPath i s).2.entries ∧
      (r.argPath i s).2.str = joinComma ((r.argPath i s).2.entries.map renderEntry)) := by
  have hn : ¬ 63 < i := by omega
  have h1 : (r.arg i s).2.m_arg.find i = some (replaceApostrophes s) := by
    rw [arg_eq, if_neg hn]
    exact Map.find_assign_self _ _ _
  have h2 : (r.argPath i s).2.m_argPath.find i = some (replaceApostrophes s) := by
    rw [argPath_eq, if_neg hn]
    exact Map.find_assign_self _ _ _
  exact ⟨⟨h1, mem_entries_arg _ i _ (by omega) h1,
      str_eq_join _ (Built.arg r i s h (by omega))⟩,
    ⟨h2, mem_entries_argPath _ i _ (by omega) h2,
      str_eq_join _ (Built.argPath r i s h (by omega))⟩⟩

/-- Apostrophe escaping at the new rule, the index 0 and the strings `'`
and `\`. -/
theorem MatchRule_arg_escapes_witness :
    Built MatchRule.new ∧
    (MatchRule.new.arg 0 (lit "'")).2.str = lit "arg0=''\\'''" ∧
    (MatchRule.new.argPath 0 (lit "\\")).2.str = lit "arg0path='\\'" :=
  ⟨Built.new,
    (MatchRule_arg_escapes MatchRule.new Built.new 0 (by decide) (lit "'")).1.2.2.trans rfl,
    (MatchRule_arg_escapes MatchRule.new Built.new 0 (by decide) (lit "\\")).2.2.2.trans rfl⟩

/-- **C26.** `path` and `path_namespace` are mutually exclusive. On every
built rule, `path()` throws when a path_namespace is set and `pathNamespace()`
throws when a path is set, the call that throws leaves the rule as it was
(and the call that does not throw sets its member), and the entries that
`str()` lists never hold both a `path` and a `path_namespace` entry. -/
theorem MatchRule_path_exclusive (r : MatchRule) (h : Built r) (name : Str) :
    r.path name =
      (if r.m_pathNamespace = [] then (none, { r with m_path := name })
       else (some "path and path_namespace are not allowed together.", r)) ∧
    r.pathNamespace name =
      (if r.m_path = [] then (none, { r with m_pathNamespace := name })
       else (some "path and path_namespace are not allowed together.", r)) ∧
    r.str = joinComma (r.entries.map renderEntry) ∧
    ¬ ∃ v w, (lit "path", v) ∈ r.entries ∧ (lit "path_namespace", w) ∈ r.entries := by
  refine ⟨?_, ?_, str_eq_join r h, ?_⟩
  · unfold MatchRule.path
    cases r.m_pathNamespace <;> rfl
  · unfold MatchRule.pathNamespace
    cases r.m_path <;> rfl
  · rintro ⟨v, w, hv, hw⟩
    rcases h.path_or_namespace with hp | hp
    · exact path_of_mem_entries r v hv hp
    · exact namespace_of_mem_entries r w hw hp

/-- Mutual exclusion at the rule with the path `/Org/Foo`: `pathNamespace`
throws and leaves the rule as it was. -/
theorem MatchRule_path_exclusive_witness :
    Built (MatchRule.new.path (lit "/Org/Foo")).2 ∧
    (MatchRule.new.path (lit "/Org/Foo")).2.pathNamespace (lit "/Org/Bar") =
      (some "path and path_namespace are not allowed together.",
        (MatchRule.new.path (lit "/Org/Foo")).2) :=
  ⟨Built.path _ _ Built.new rfl,
    (MatchRule_path_exclusive (MatchRule.new.path (lit "/Org/Foo")).2
      (Built.path _ _ Built.new rfl) (lit "/Org/Bar")).2.1⟩

/-- **C27.** Argument index range. For every index `i` (every 8-bit index
among them), every string `s` and every rule, `arg(i, s)` and `argPath(i, s)`
throw if and only if `i > 63`; the call that throws leaves the rule as it
was, and the call that does not throw stores the escaped string under `i`. -/
theorem MatchRule_arg_index_range (r : MatchRule) (i : Nat) (s : Str) :
    ((r.arg i s).1.isSome = true ↔ 63 < i) ∧
    ((r.argPath i s).1.isSome = true ↔ 63 < i) ∧
    r.arg i s =
      (if 63 < i then (some "arg index exceeds 63", r)
       else (none, { r with m_arg := r.m_arg.assign i (replaceApostrophes s) })) ∧
    r.argPath i s =
      (if 63 < i then (some "arg path index exceeds 63", r)
       else (none, { r with m_argPath := r.m_argPath.assign i (replaceApostrophes s) })) := by
  refine ⟨?_, ?_, arg_eq r i s, argPath_eq r i s⟩
  · rw [arg_eq]
    split <;> simp [*]
  · rw [argPath_eq]
    split <;> simp [*]

end MatchRuleClaims2

/-! ## The flags of an outgoing method call -/

section OutgoingFlags

theorem Message.land_seven_of_land_four (f : Nat) (h : f &&& 4 = 0) : f &&& 7 = f &&& 3 := by
  have h7 : (7 : Nat) = 3 ||| 4 := by decide
  rw [h7, Nat.and_or_distrib_left, h, Nat.or_zero]

theorem Message.land_clear_four (f : Nat) : f &&& (2 ^ 32 - 1 - 4) &&& 7 = f &&& 3 := by
  rw [Nat.land_assoc]
  rfl

theorem Message.MethodCall.ctor_flags (destination : Str) (name : Message.Identifier)
    (params : List Any) (f : Nat) :
    (Message.MethodCall.ctor destination name params f).m_Header.flags = f &&& 3 := by
  have hlt : f &&& 3 < 2 ^ 8 := lt_of_le_of_lt Nat.and_le_right (by decide)
  simp only [Message.MethodCall.ctor, Message.Flag.AllowInteractiveAuthorization,
    Message.Flag._Mask]
  by_cases h : f &&& 4 = 0
  · simp only [h, bne_self_eq_false, Bool.false_eq_true, if_false]
    rw [Message.land_seven_of_land_four f h]
    exact Nat.mod_eq_of_lt hlt
  · have hb : (f &&& 4 != 0) = true := by simpa using h
    simp only [hb, if_true]
    rw [Message.land_clear_four]
    exact Nat.mod_eq_of_lt hlt

/-- **C28.** Outgoing flags. For every flags argument `f` (every 32-bit one
among them), the method call constructed with `f` carries the header flags
`f AND 0x03`: the bits `no_reply_expected` (0x01) and `no_auto_start` (0x02)
are those of `f`, and the bit `allow_interactive_auth` (0x04) and every higher
bit are clear. -/
theorem MethodCall_flags_masked (destination : Str) (name : Message.Identifier)
    (params : List Any) (f : Nat) :
    (Message.MethodCall.ctor destination name params f).m_Header.flags = f &&& 0x03 ∧
    ((Message.MethodCall.ctor destination name params f).m_Header.flags.testBit 0 =
      f.testBit 0) ∧
    ((Message.MethodCall.ctor destination name params f).m_Header.flags.testBit 1 =
      f.testBit 1) ∧
    ∀ k, 2 ≤ k →
      (Message.MethodCall.ctor destination name params f).m_Header.flags.testBit k = false := by
  rw [Message.MethodCall.ctor_flags]
  refine ⟨rfl, ?_, ?_, ?_⟩
  · have h3 : Nat.testBit 3 0 = true := by decide
    rw [Nat.testBit_and, h3, Bool.and_true]
  · have h3 : Nat.testBit 3 1 = true := by decide
    rw [Nat.testBit_and, h3, Bool.and_true]
  · intro k hk
    have hlt : f &&& 3 < 2 ^ k :=
      lt_of_lt_of_le (lt_of_le_of_lt Nat.and_le_right (by decide : 3 < 2 ^ 2))
        (Nat.pow_le_pow_right (by decide) hk)
    exact Nat.testBit_lt_two_pow hlt

end OutgoingFlags

/-! ## The authentication handshake: parsing a command -/

namespace AuthenticationProtocol

theorem qualifies_iff (t r : Str) :
    qualifies t r = true ↔ t <+: r ∧ (r = t ∨ r.get? t.length = some ' ') := by
  simp [qualifies, List.isPrefixOf_iff_prefix]

theorem extractLoop_cons (t : Str) (c : Command) (rest : List (Str × Command)) (r : Str) :
    extractLoop ((t, c) :: rest) r =
      if qualifies t r = true then (c, r.drop (t.length + 1)) else extractLoop rest r := by
  rw [extractLoop]
  by_cases hp : r.take t.length = t
  · have hpre : t <+: r := List.prefix_iff_eq_take.mpr hp.symm
    have hne : (List.take t.length r != t) = false := by simp [hp]
    simp only [hne, Bool.false_eq_true, if_false]
    by_cases hlen : r.length > t.length
    · rw [if_pos hlen]
      have hrt : r ≠ t := fun h => by rw [h] at hlen; exact absurd hlen (lt_irrefl _)
      by_cases hsp : r.get? t.length = some ' '
      · have hq : qualifies t r = true := (qualifies_iff t r).mpr ⟨hpre, Or.inr hsp⟩
        have hb : (r.get? t.length != some ' ') = false := by rw [hsp]; decide
        simp only [hb, Bool.false_eq_true, if_false, hq, if_true]
      · have hq : qualifies t r = false := Bool.eq_false_iff.mpr fun h =>
          ((qualifies_iff t r).mp h).2.elim hrt hsp
        have hb : (r.get? t.length != some ' ') = true := bne_iff_ne.mpr hsp
        simp only [hb, if_true, hq, Bool.false_eq_true, if_false]
    · rw [if_neg hlen]
      have hrt : r = t := by
        rw [← hp]
        exact (List.take_of_length_le (by omega)).symm
      have hq : qualifies t r = true := (qualifies_iff t r).mpr ⟨hpre, Or.inl hrt⟩
      rw [if_pos hq]
      have h1 : r.drop t.length = [] := List.drop_of_length_le (by omega)
      have h2 : r.drop (t.length + 1) = [] := List.drop_of_length_le (by omega)
      rw [h1, h2]
  · have hne : (List.take t.length r != t) = true := by simpa using hp
    have hq : qualifies t r = false := Bool.eq_false_iff.mpr fun h =>
      hp (List.prefix_iff_eq_take.mp ((qualifies_iff t r).mp h).1).symm
    simp only [hne, if_true, hq, Bool.false_eq_true, if_false]

theorem extractLoop_of_qualifies (l : List (Str × Command)) (r : Str) (tc : Str × Command)
    (h : l.find? (fun x => qualifies x.1 r) = some tc) :
    extractLoop l r = (tc.2, r.drop (tc.1.length + 1)) := by
  induction l with
  | nil => simp at h
  | cons a rest ih =>
    obtain ⟨t, c⟩ := a
    rw [extractLoop_cons]
    rw [List.find?_cons] at h
    by_cases hq : qualifies t r = true
    · simp only [hq] at h
      rw [if_pos hq]
      cases h
      rfl
    · have hf : qualifies t r = false := by simpa using hq
      simp only [hf] at h
      rw [if_neg hq]
      exact ih h

theorem extractLoop_of_none (l : List (Str × Command)) (r : Str)
    (h : ∀ tc ∈ l, qualifies tc.1 r = false) :
    extractLoop l r = (Command.UNKNOWN, r) := by
  induction l with
  | nil => rfl
  | cons a rest ih =>
    obtain ⟨t, c⟩ := a
    rw [extractLoop_cons]
    have hf : qualifies t r = false := h (t, c) (List.mem_cons_self _ _)
    rw [hf]
    simp only [Bool.false_eq_true, if_false]
    exact ih (fun tc htc => h tc (List.mem_cons_of_mem _ htc))

theorem head_of_qualifies (t r : Str) (ht : t ≠ []) (h : qualifies t r = true) :
    r.head? = t.head? := by
  obtain ⟨s, hs⟩ := ((qualifies_iff t r).mp h).1
  cases t with
  | nil => exact absurd rfl ht
  | cons a t =>
    rw [← hs]
    rfl

theorem filter_qualifies_length (l : List (Str × Command)) (r : Str)
    (hne : ∀ tc ∈ l, tc.1 ≠ [])
    (hl : l.Pairwise (fun a b => a.1.head? ≠ b.1.head?)) :
    (l.filter (fun tc => qualifies tc.1 r)).length ≤ 1 := by
  induction l with
  | nil => simp
  | cons a rest ih =>
    rw [List.pairwise_cons] at hl
    have ihr := ih (fun tc htc => hne tc (List.mem_cons_of_mem _ htc)) hl.2
    rw [List.filter_cons]
    by_cases hq : qualifies a.1 r = true
    · rw [if_pos hq]
      have hnil : rest.filter (fun tc => qualifies tc.1 r) = [] := by
        rw [List.filter_eq_nil_iff]
        intro b hb hqb
        have h1 := head_of_qualifies a.1 r (hne a (List.mem_cons_self _ _)) hq
        have h2 := head_of_qualifies b.1 r (hne b (List.mem_cons_of_mem _ hb)) hqb
        exact hl.1 b hb (h1.symm.trans h2)
      rw [hnil]
      rfl
    · rw [if_neg hq]
      exact ihr

theorem m_commands_filter_length (r : Str) :
    (m_commands.filter (fun tc => qualifies tc.1 r)).length ≤ 1 :=
  filter_qualifies_length m_commands r (by decide) (by decide)

theorem unique_of_filter_length {α : Type} (p : α → Bool) (l : List α) (a b : α)
    (hlen : (l.filter p).length ≤ 1) (ha : a ∈ l) (hb : b ∈ l) (hpa : p a = true)
    (hpb : p b = true) : a = b := by
  have h1 : a ∈ l.filter p := List.mem_filter.mpr ⟨ha, hpa⟩
  have h2 : b ∈ l.filter p := List.mem_filter.mpr ⟨hb, hpb⟩
  match hf : l.filter p, hlen, h1, h2 with
  | [], _, h1, _ => simp at h1
  | [x], _, h1, h2 =>
    rw [List.mem_singleton] at h1 h2
    rw [h1, h2]
  | _ :: _ :: _, hlen, _, _ => simp at hlen

theorem extractCommand_of_qualifies (r : Str) (tc : Str × Command) (htc : tc ∈ m_commands)
    (hq : qualifies tc.1 r = true) :
    extractCommand r = (tc.2, r.drop (tc.1.length + 1)) := by
  match hf : m_commands.find? (fun x => qualifies x.1 r) with
  | none =>
    rw [List.find?_eq_none] at hf
    exact absurd hq (hf tc htc)
  | some tc2 =>
    have hq2 := List.find?_some hf
    have hm2 : tc2 ∈ m_commands := List.mem_of_find?_eq_some hf
    have heq : tc = tc2 :=
      unique_of_filter_length (fun x => qualifies x.1 r) m_commands tc tc2
        (m_commands_filter_length r) htc hm2 hq hq2
    rw [heq]
    exact extractLoop_of_qualifies m_commands r tc2 hf

end AuthenticationProtocol

section AuthParsing

open AuthenticationProtocol

/-- **C30.** Auth command parsing. The tokens are `OK`, `DATA`, `ERROR`,
`REJECTED` and `AGREE_UNIX_FD`, each with its own command. A token qualifies
for a response `r` when it is a prefix of `r` and `r` is the token or has a
space right after it. For every `r`: when a token qualifies, `extractCommand`
returns its command and removes the token and that one space; when none
qualifies, it returns `UNKNOWN` and leaves `r` as it was; at most one token
qualifies. -/
theorem extractCommand_spec (r : Str) :
    (m_commands =
      [(lit "OK", Command.OK), (lit "DATA", Command.DATA), (lit "ERROR", Command.ERROR),
       (lit "REJECTED", Command.REJECTED), (lit "AGREE_UNIX_FD", Command.AGREE_UNIX_FD)]) ∧
    (∀ t, qualifies t r = true ↔ t <+: r ∧ (r = t ∨ r.get? t.length = some ' ')) ∧
    (∀ tc ∈ m_commands, qualifies tc.1 r = true →
      extractCommand r = (tc.2, r.drop (tc.1.length + 1))) ∧
    ((∀ tc ∈ m_commands, qualifies tc.1 r = false) →
      extractCommand r = (Command.UNKNOWN, r)) ∧
    (m_commands.filter (fun tc => qualifies tc.1 r)).length ≤ 1 :=
  ⟨rfl, fun t => qualifies_iff t r, extractCommand_of_qualifies r,
    extractLoop_of_none m_commands r, m_commands_filter_length r⟩

end AuthParsing

/-! ## The authentication handshake: the transition table -/

namespace AuthenticationProtocol

theorem received_m_data (self : AuthenticationProtocol) (size : Nat) :
    (self.received size).m_data = self.m_data := by
  unfold received
  split <;> rfl

theorem received_with_m_data (self : AuthenticationProtocol) (size : Nat) (data : Str) :
    received { self with m_data := data } size = { self.received size with m_data := data } := by
  unfold received
  split <;> rfl

theorem resume_error (uid : Nat) (self : AuthenticationProtocol) (e : Errc) (size : Nat) :
    resume uid self (some e) size = (self.received size, Step.complete (some e) []) :=
  rfl

theorem resume_empty (uid : Nat) (self : AuthenticationProtocol) (size : Nat) :
    resume uid { self with m_data := [] } none size =
      dispatch uid { self.received size with m_data := [] } Command.UNKNOWN := by
  simp only [resume, received_with_m_data, List.length_nil, ne_eq, not_true_eq_false,
    if_false]

theorem resume_short (uid : Nat) (self : AuthenticationProtocol) (size : Nat) (c : Char)
    (rest : Str) (h : rest.length ≤ 1) :
    (resume uid { self with m_data := c :: rest } none size).2 =
      Step.complete (some Errc.protocol_error) [] := by
  have h1 : (c :: rest).length ≠ 0 := by simp
  have h2 : (c :: rest).length < 3 := by
    rw [List.length_cons]
    omega
  simp only [resume, received_with_m_data]
  rw [if_pos h1, if_pos h2]

theorem resume_line (uid : Nat) (self : AuthenticationProtocol) (size : Nat) (c : Char)
    (r : Str) :
    resume uid { self with m_data := c :: r ++ lit "\r\n" } none size =
      dispatch uid { self.received size with m_data := (extractCommand (c :: r)).2 }
        (extractCommand (c :: r)).1 := by
  have hlen : (c :: r ++ lit "\r\n").length = (c :: r).length + 2 := by
    rw [List.length_append]
    rfl
  have h1 : (c :: r ++ lit "\r\n").length ≠ 0 := by
    rw [hlen]
    omega
  have h2 : ¬ (c :: r ++ lit "\r\n").length < 3 := by
    rw [hlen, List.length_cons]
    omega
  have h3 : (c :: r ++ lit "\r\n").take ((c :: r ++ lit "\r\n").length - 2) = c :: r := by
    rw [hlen, Nat.add_sub_cancel]
    exact List.take_left' rfl
  simp only [resume, received_with_m_data]
  rw [if_pos h1, if_neg h2, h3]

end AuthenticationProtocol

section AuthTable

open AuthenticationProtocol

/-- **C29.** Auth transition table. On well-formed input the lambda of
`asyncAuthenticate` parses the response without its trailing CR LF and runs
the chain of tests on the state with the parsed command; and for every state
and parsed command that chain sends the listed line and moves to the listed
state. Starting: NUL byte / SendingCredentials. SendingCredentials:
`AUTH EXTERNAL <hex(uid)>` / WaitingForOK. WaitingForOK: OK records the guid
and sends `NEGOTIATE_UNIX_FD` / WaitingForAgreeUnixFD, REJECTED fails, DATA or
ERROR sends `CANCEL` / WaitingForReject, anything else sends `ERROR ...` /
WaitingForData. WaitingForData: DATA or ERROR sends `CANCEL` /
WaitingForReject, OK as above, REJECTED fails (and anything else, which the
table does not list, sends `ERROR ...` / WaitingForData). WaitingForReject:
any input fails. WaitingForAgreeUnixFD: any input sends `BEGIN` / Finishing and
the fds are marked negotiated only on AGREE_UNIX_FD. Finishing: success with
the recorded guid. -/
theorem auth_transition_table (uid : Nat) (self : AuthenticationProtocol) (command : Command)
    (size : Nat) (c : Char) (r : Str) :
    (resume uid { self with m_data := c :: r ++ lit "\r\n" } none size =
      dispatch uid { self.received size with m_data := (extractCommand (c :: r)).2 }
        (extractCommand (c :: r)).1) ∧
    Sends (dispatch uid { self with m_state := State.Starting } command)
      false [Char.ofNat 0] State.SendingCredentials ∧
    Sends (dispatch uid { self with m_state := State.SendingCredentials } command)
      true (lit "AUTH EXTERNAL " ++ toHex (Nat.repr uid).data ++ lit "\r\n")
      State.WaitingForOK ∧
    (Sends (dispatch uid { self with m_state := State.WaitingForOK } Command.OK)
        true (lit "NEGOTIATE_UNIX_FD\r\n") State.WaitingForAgreeUnixFD ∧
      (dispatch uid { self with m_state := State.WaitingForOK } Command.OK).1.m_server_guid =
        self.m_data) ∧
    Fails (dispatch uid { self with m_state := State.WaitingForOK } Command.REJECTED) ∧
    Sends (dispatch uid { self with m_state := State.WaitingForOK } Command.DATA)
      true (lit "CANCEL\r\n") State.WaitingForReject ∧
    Sends (dispatch uid { self with m_state := State.WaitingForOK } Command.ERROR)
      true (lit "CANCEL\r\n") State.WaitingForReject ∧
    Sends (dispatch uid { self with m_state := State.WaitingForOK } Command.AGREE_UNIX_FD)
      true (errorLine self.m_data) State.WaitingForData ∧
    Sends (dispatch uid { self with m_state := State.WaitingForOK } Command.UNKNOWN)
      true (errorLine self.m_data) State.WaitingForData ∧
    Sends (dispatch uid { self with m_state := State.WaitingForData } Command.DATA)
      true (lit "CANCEL\r\n") State.WaitingForReject ∧
    Sends (dispatch uid { self with m_state := State.WaitingForData } Command.ERROR)
      true (lit "CANCEL\r\n") State.WaitingForReject ∧
    (Sends (dispatch uid { self with m_state := State.WaitingForData } Command.OK)
        true (lit "NEGOTIATE_UNIX_FD\r\n") State.WaitingForAgreeUnixFD ∧
      (dispatch uid { self with m_state := State.WaitingForData } Command.OK).1.m_server_guid =
        self.m_data) ∧
    Fails (dispatch uid { self with m_state := State.WaitingForData } Command.REJECTED) ∧
    Sends (dispatch uid { self with m_state := State.WaitingForData } Command.AGREE_UNIX_FD)
      true (errorLine self.m_data) State.WaitingForData ∧
    Sends (dispatch uid { self with m_state := State.WaitingForData } Command.UNKNOWN)
      true (errorLine self.m_data) State.WaitingForData ∧
    Fails (dispatch uid { self with m_state := State.WaitingForReject } command) ∧
    (Sends (dispatch uid { self with m_state := State.WaitingForAgreeUnixFD } command)
        false (lit "BEGIN\r\n") State.Finishing ∧
      (dispatch uid { self with m_state := State.WaitingForAgreeUnixFD } command).1.m_unixFdNegotiated
        = (if command = Command.AGREE_UNIX_FD then true else self.m_unixFdNegotiated)) ∧
    (dispatch uid { self with m_state := State.Finishing } command =
      ({ self with m_state := State.Finishing }, Step.complete none self.m_server_guid)) := by
  refine ⟨resume_line uid self size c r, ⟨rfl, rfl, rfl⟩, ⟨rfl, rfl, rfl⟩, ⟨⟨rfl, rfl, rfl⟩, rfl⟩,
    rfl, ⟨rfl, rfl, rfl⟩, ⟨rfl, rfl, rfl⟩, ⟨rfl, rfl, rfl⟩, ⟨rfl, rfl, rfl⟩, ⟨rfl, rfl, rfl⟩,
    ⟨rfl, rfl, rfl⟩, ⟨⟨rfl, rfl, rfl⟩, rfl⟩, rfl, ⟨rfl, rfl, rfl⟩, ⟨rfl, rfl, rfl⟩, ?_, ?_, rfl⟩
  · cases command <;> rfl
  · cases command <;> exact ⟨⟨rfl, rfl, rfl⟩, rfl⟩

/-- A whole handshake of the uid 1000 against a server that answers `OK`
with a guid and then `AGREE_UNIX_FD`: the operation completes without an error
and with that guid, and the fds are marked negotiated. -/
theorem AuthenticationProtocol.handshake_example :
    (exchanged 1000
      (exchanged 1000
        (exchanged 1000
          (exchanged 1000 (asyncAuthenticate 1000 create).1 (asyncAuthenticate 1000 create).2
            []).1
          (Step.exchange true (lit "AUTH EXTERNAL 31303030\r\n"))
          (lit "OK 1234deadbeef\r\n")).1
        (Step.exchange true (lit "NEGOTIATE_UNIX_FD\r\n")) (lit "AGREE_UNIX_FD\r\n")).1
      (Step.exchange false (lit "BEGIN\r\n")) []).2 =
      Step.complete none (lit "1234deadbeef") ∧
    (exchanged 1000 (asyncAuthenticate 1000 create).1 (asyncAuthenticate 1000 create).2 []).2 =
      Step.exchange true (lit "AUTH EXTERNAL 31303030\r\n") := by
  decide

end AuthTable

/-! ## Registration and the frame of a dispatch -/

namespace Map

section Unique

variable {K V : Type} [DecidableEq K]

theorem find_eq_none_iff (m : Map K V) (key : K) :
    m.find key = none ↔ key ∉ m.map Prod.fst := by
  induction m with
  | nil => simp [Map.find]
  | cons e rest ih =>
    obtain ⟨k, v⟩ := e
    by_cases hk : k = key
    · simp [Map.find, hk]
    · have hk2 : ¬ key = k := fun h => hk h.symm
      simp [Map.find, hk, hk2, ih]

theorem erase_sublist (m : Map K V) (key : K) : List.Sublist (m.erase key) m :=
  List.filter_sublist m

theorem nodup_erase (m : Map K V) (key : K) (h : (m.map Prod.fst).Nodup) :
    ((m.erase key).map Prod.fst).Nodup :=
  List.Nodup.sublist (List.Sublist.map _ (erase_sublist m key)) h

theorem erase_of_not_mem (m : Map K V) (key : K) (h : key ∉ m.map Prod.fst) :
    m.erase key = m := by
  unfold Map.erase
  rw [List.filter_eq_self]
  intro e he
  have : e.1 ≠ key := fun heq => h (heq ▸ List.mem_map_of_mem Prod.fst he)
  simp [this]

theorem length_erase (m : Map K V) (key : K) (hm : (m.map Prod.fst).Nodup) (v : V)
    (h : m.find key = some v) : (m.erase key).length + 1 = m.length := by
  induction m with
  | nil => simp [Map.find] at h
  | cons e rest ih =>
    obtain ⟨k, w⟩ := e
    rw [List.map_cons, List.nodup_cons] at hm
    by_cases hk : k = key
    · subst hk
      have h1 : Map.erase ((k, w) :: rest) k = Map.erase rest k := by
        simp [Map.erase, List.filter]
      rw [h1, erase_of_not_mem rest k hm.1]
      rfl
    · have h1 : Map.erase ((k, w) :: rest) key = (k, w) :: Map.erase rest key := by
        simp [Map.erase, List.filter, hk]
      have h2 : Map.find rest key = some v := by
        simpa [Map.find, hk] using h
      rw [h1, List.length_cons, ih hm.2 h2, List.length_cons]

theorem mem_erase (m : Map K V) (key : K) (e : K × V) :
    e ∈ m.erase key ↔ e ∈ m ∧ e.1 ≠ key := by
  simp [Map.erase]

end Unique

section InsertOrdered

variable {K V : Type} [LT K] [DecidableRel (fun a b : K => a < b)]

theorem keys_insertOrdered (m : Map K V) (key : K) (value : V) :
    List.Perm ((m.insertOrdered key value).map Prod.fst) (key :: m.map Prod.fst) := by
  induction m with
  | nil => exact List.Perm.refl _
  | cons e rest ih =>
    obtain ⟨k, v⟩ := e
    unfold Map.insertOrdered
    split
    · exact List.Perm.refl _
    · rw [List.map_cons, List.map_cons]
      exact (List.Perm.cons k ih).trans (List.Perm.swap key k _)

end InsertOrdered

section UniqueOrdered

variable {K V : Type} [DecidableEq K] [LT K] [DecidableRel (fun a b : K => a < b)]

theorem nodup_emplace (m : Map K V) (key : K) (value : V) (h : (m.map Prod.fst).Nodup) :
    (((m.emplace key value).1).map Prod.fst).Nodup := by
  unfold Map.emplace
  cases hf : m.find key with
  | some v => exact h
  | none =>
    have hn := (find_eq_none_iff m key).mp hf
    exact (List.Perm.nodup_iff (keys_insertOrdered m key value)).mpr
      (List.nodup_cons.mpr ⟨hn, h⟩)

end UniqueOrdered

end Map

namespace MessageProtocol

variable {H Msg Err : Type}

theorem storeMethodReturnHandler_eq (p : MessageProtocol H Msg Err) (serial : Nat)
    (handler : H) :
    p.storeMethodReturnHandler serial handler =
      if (p.m_methodReturnHandlers.find serial).isSome then (false, p)
      else (true, { p with
        m_methodReturnHandlers := p.m_methodReturnHandlers.insertOrdered serial handler }) := by
  unfold storeMethodReturnHandler Map.emplace
  cases p.m_methodReturnHandlers.find serial <;> rfl

theorem storeMethodCallHandler_eq (p : MessageProtocol H Msg Err) (interface : Str)
    (handler : H) :
    p.storeMethodCallHandler interface handler =
      if (p.m_methodCallHandlers.find interface).isSome then (false, p)
      else (true, { p with
        m_methodCallHandlers := p.m_methodCallHandlers.insertOrdered interface handler }) := by
  unfold storeMethodCallHandler Map.emplace
  cases p.m_methodCallHandlers.find interface <;> rfl

theorem storeSignalHandler_eq (p : MessageProtocol H Msg Err) (signal : Str)
    (handler : H) :
    p.storeSignalHandler signal handler =
      if (p.m_signalHandlers.find signal).isSome then (false, p)
      else (true, { p with
        m_signalHandlers := p.m_signalHandlers.insertOrdered signal handler }) := by
  unfold storeSignalHandler Map.emplace
  cases p.m_signalHandlers.find signal <;> rfl

end MessageProtocol

section Registration

open MessageProtocol

variable {H Msg Err : Type}

/-- **C36.** Duplicate registration keeps the first handler. For each of
the three handler tables (reply by serial, method call by name, signal by
name) and every key: when the key has an entry, storing another handler under
it returns `false` and leaves the whole state, hence the table and the handler
under that key, as it was; when the key has no entry, the store returns `true`
and inserts the handler. -/
theorem store_duplicate_keeps_first (p : MessageProtocol H Msg Err) (serial : Nat)
    (name : Str) (handler : H) :
    (p.storeMethodReturnHandler serial handler =
      if (p.m_methodReturnHandlers.find serial).isSome then (false, p)
      else (true, { p with
        m_methodReturnHandlers := p.m_methodReturnHandlers.insertOrdered serial handler })) ∧
    (p.storeMethodCallHandler name handler =
      if (p.m_methodCallHandlers.find name).isSome then (false, p)
      else (true, { p with
        m_methodCallHandlers := p.m_methodCallHandlers.insertOrdered name handler })) ∧
    (p.storeSignalHandler name handler =
      if (p.m_signalHandlers.find name).isSome then (false, p)
      else (true, { p with
        m_signalHandlers := p.m_signalHandlers.insertOrdered name handler })) ∧
    (∀ h0, p.m_methodReturnHandlers.find serial = some h0 →
      p.storeMethodReturnHandler serial handler = (false, p) ∧
      (p.storeMethodReturnHandler serial handler).2.m_methodReturnHandlers.find serial =
        some h0) ∧
    (∀ h0, p.m_methodCallHandlers.find name = some h0 →
      p.storeMethodCallHandler name handler = (false, p) ∧
      (p.storeMethodCallHandler name handler).2.m_methodCallHandlers.find name = some h0) ∧
    (∀ h0, p.m_signalHandlers.find name = some h0 →
      p.storeSignalHandler name handler = (false, p) ∧
      (p.storeSignalHandler name handler).2.m_signalHandlers.find name = some h0) := by
  refine ⟨storeMethodReturnHandler_eq p serial handler, storeMethodCallHandler_eq p name handler,
    storeSignalHandler_eq p name handler, ?_, ?_, ?_⟩
  · intro h0 h
    have he : p.storeMethodReturnHandler serial handler = (false, p) := by
      rw [storeMethodReturnHandler_eq, h]
      rfl
    rw [he]
    exact ⟨rfl, h⟩
  · intro h0 h
    have he : p.storeMethodCallHandler name handler = (false, p) := by
      rw [storeMethodCallHandler_eq, h]
      rfl
    rw [he]
    exact ⟨rfl, h⟩
  · intro h0 h
    have he : p.storeSignalHandler name handler = (false, p) := by
      rw [storeSignalHandler_eq, h]
      rfl
    rw [he]
    exact ⟨rfl, h⟩

/-- A second registration under each of the three keys of `fullProtocol`
returns `false` and changes nothing. -/
theorem MessageProtocol.store_duplicate_example :
    fullProtocol.storeMethodReturnHandler 1 "other" = (false, fullProtocol) ∧
    fullProtocol.storeMethodCallHandler (lit "a.b") "other" = (false, fullProtocol) ∧
    fullProtocol.storeSignalHandler [] "other" = (false, fullProtocol) ∧
    fullProtocol.m_methodReturnHandlers = [(1, "reply")] := by
  refine ⟨rfl, rfl, rfl, rfl⟩

end Registration

/-! ## The frame of a dispatch -/

namespace MessageProtocol

variable {H Msg Err : Type}

theorem invokeMethodCallHandler_tables (p : MessageProtocol H Msg Err) (n : Str) (m : Msg) :
    (p.invokeMethodCallHandler n m).m_methodCallHandlers =
      (match p.methodCallKey n with
       | some k => p.m_methodCallHandlers.erase k
       | none => p.m_methodCallHandlers) ∧
    (p.invokeMethodCallHandler n m).m_methodReturnHandlers = p.m_methodReturnHandlers ∧
    (p.invokeMethodCallHandler n m).m_signalHandlers = p.m_signalHandlers ∧
    (p.invokeMethodCallHandler n m).m_errorHandler = p.m_errorHandler := by
  unfold invokeMethodCallHandler methodCallKey
  cases h1 : p.m_methodCallHandlers.find n with
  | some h => exact ⟨rfl, rfl, rfl, rfl⟩
  | none =>
    cases h2 : p.m_methodCallHandlers.find (anyMethod n) with
    | some h => exact ⟨rfl, rfl, rfl, rfl⟩
    | none =>
      cases h3 : p.m_methodCallHandlers.find [] with
      | some h => exact ⟨rfl, rfl, rfl, rfl⟩
      | none => exact ⟨rfl, rfl, rfl, rfl⟩

theorem invokeSignalHandler_tables (p : MessageProtocol H Msg Err) (n : Str) (m : Msg) :
    (p.invokeSignalHandler n m).m_signalHandlers =
      (match p.signalKey n with
       | some k => p.m_signalHandlers.erase k
       | none => p.m_signalHandlers) ∧
    (p.invokeSignalHandler n m).m_methodReturnHandlers = p.m_methodReturnHandlers ∧
    (p.invokeSignalHandler n m).m_methodCallHandlers = p.m_methodCallHandlers ∧
    (p.invokeSignalHandler n m).m_errorHandler = p.m_errorHandler := by
  unfold invokeSignalHandler signalKey
  cases h1 : p.m_signalHandlers.find n with
  | some h => exact ⟨rfl, rfl, rfl, rfl⟩
  | none =>
    cases h3 : p.m_signalHandlers.find [] with
    | some h => exact ⟨rfl, rfl, rfl, rfl⟩
    | none => exact ⟨rfl, rfl, rfl, rfl⟩

theorem invokeMethodReturnHandler_tables (p : MessageProtocol H Msg Err) (s : Nat) (m : Msg) :
    ((p.invokeMethodReturnHandler s m).m_methodReturnHandlers = p.m_methodReturnHandlers.erase s ∨
      (p.invokeMethodReturnHandler s m).m_methodReturnHandlers = p.m_methodReturnHandlers) ∧
    (p.invokeMethodReturnHandler s m).m_methodCallHandlers = p.m_methodCallHandlers ∧
    (p.invokeMethodReturnHandler s m).m_signalHandlers = p.m_signalHandlers := by
  unfold invokeMethodReturnHandler
  cases h1 : p.m_methodReturnHandlers.find s with
  | some h => exact ⟨Or.inl rfl, rfl, rfl⟩
  | none => exact ⟨Or.inr rfl, rfl, rfl⟩

theorem invokeErrorHandler_tables (p : MessageProtocol H Msg Err) (s : Nat) (e : Err) :
    ((p.invokeErrorHandler s e).m_methodReturnHandlers = p.m_methodReturnHandlers.erase s ∨
      (p.invokeErrorHandler s e).m_methodReturnHandlers = p.m_methodReturnHandlers) ∧
    (p.invokeErrorHandler s e).m_methodCallHandlers = p.m_methodCallHandlers ∧
    (p.invokeErrorHandler s e).m_signalHandlers = p.m_signalHandlers := by
  unfold invokeErrorHandler
  cases h1 : (if s != 0 then p.m_methodReturnHandlers.find s else none) with
  | some h => exact ⟨Or.inl rfl, rfl, rfl⟩
  | none =>
    cases h2 : p.m_errorHandler with
    | some h => exact ⟨Or.inr rfl, rfl, rfl⟩
    | none => exact ⟨Or.inr rfl, rfl, rfl⟩

theorem UniqueKeys.of_tables (p q : MessageProtocol H Msg Err) (h : UniqueKeys p)
    (h1 : (∃ s, q.m_methodReturnHandlers = p.m_methodReturnHandlers.erase s) ∨
      q.m_methodReturnHandlers = p.m_methodReturnHandlers)
    (h2 : (∃ s, q.m_methodCallHandlers = p.m_methodCallHandlers.erase s) ∨
      q.m_methodCallHandlers = p.m_methodCallHandlers)
    (h3 : (∃ s, q.m_signalHandlers = p.m_signalHandlers.erase s) ∨
      q.m_signalHandlers = p.m_signalHandlers) : UniqueKeys q := by
  refine ⟨?_, ?_, ?_⟩
  · rcases h1 with ⟨s, hs⟩ | hs
    · rw [hs]; exact Map.nodup_erase _ _ h.1
    · rw [hs]; exact h.1
  · rcases h2 with ⟨s, hs⟩ | hs
    · rw [hs]; exact Map.nodup_erase _ _ h.2.1
    · rw [hs]; exact h.2.1
  · rcases h3 with ⟨s, hs⟩ | hs
    · rw [hs]; exact Map.nodup_erase _ _ h.2.2
    · rw [hs]; exact h.2.2

theorem UniqueKeys.invokeErrorHandler (p : MessageProtocol H Msg Err) (h : UniqueKeys p)
    (s : Nat) (e : Err) : UniqueKeys (p.invokeErrorHandler s e) := by
  have ht := invokeErrorHandler_tables p s e
  refine UniqueKeys.of_tables p _ h ?_ (Or.inr ht.2.1) (Or.inr ht.2.2)
  rcases ht.1 with h1 | h1
  · exact Or.inl ⟨s, h1⟩
  · exact Or.inr h1

theorem UniqueKeys.dispatchMessage (p : MessageProtocol H Msg Err) (h : UniqueKeys p)
    (header : DispatchHeader) (message : Msg) (asError : Err) :
    UniqueKeys (p.dispatchMessage header message asError) := by
  unfold MessageProtocol.dispatchMessage
  cases header.type with
  | Invalid => exact h
  | MethodCall =>
    have ht := invokeMethodCallHandler_tables p
      (getFullName header.interface header.member) message
    refine UniqueKeys.of_tables p _ h (Or.inr ht.2.1) ?_ (Or.inr ht.2.2.1)
    cases hk : p.methodCallKey (getFullName header.interface header.member) with
    | some k => rw [hk] at ht; exact Or.inl ⟨k, ht.1⟩
    | none => rw [hk] at ht; exact Or.inr ht.1
  | MethodReturn =>
    have ht := invokeMethodReturnHandler_tables p header.replySerial message
    refine UniqueKeys.of_tables p _ h ?_ (Or.inr ht.2.1) (Or.inr ht.2.2)
    rcases ht.1 with h1 | h1
    · exact Or.inl ⟨_, h1⟩
    · exact Or.inr h1
  | Signal =>
    have ht := invokeSignalHandler_tables p
      (getFullName header.interface header.member) message
    refine UniqueKeys.of_tables p _ h (Or.inr ht.2.1) (Or.inr ht.2.2.1) ?_
    cases hk : p.signalKey (getFullName header.interface header.member) with
    | some k => rw [hk] at ht; exact Or.inl ⟨k, ht.1⟩
    | none => rw [hk] at ht; exact Or.inr ht.1
  | Error => exact UniqueKeys.invokeErrorHandler p h _ _

theorem Reachable.uniqueKeys (p : MessageProtocol H Msg Err) (h : Reachable p) :
    UniqueKeys p := by
  induction h with
  | start => exact ⟨List.nodup_nil, List.nodup_nil, List.nodup_nil⟩
  | sendMethodCall p serial isReplyExpected handler _ ih =>
    by_cases hs : ((if isReplyExpected then serial else 0) != 0) = true
    · have he : (p.sendMethodCall serial isReplyExpected handler).1 =
          (p.storeMethodReturnHandler (if isReplyExpected then serial else 0) handler).2 := by
        simp only [MessageProtocol.sendMethodCall, hs, if_true]
      rw [he]
      exact ⟨Map.nodup_emplace _ _ _ ih.1, ih.2.1, ih.2.2⟩
    · have he : (p.sendMethodCall serial isReplyExpected handler).1 = p := by
        simp only [MessageProtocol.sendMethodCall, hs, Bool.false_eq_true, if_false]
      rw [he]
      exact ih
  | writeCompleted p completion error _ ih =>
    unfold MessageProtocol.writeCompleted
    cases completion with
    | reply replySerial =>
      cases error with
      | some e => exact UniqueKeys.invokeErrorHandler p ih _ _
      | none => exact ih
    | direct handler => exact ih
  | receiveMethodCall p interface handler _ ih =>
    exact ⟨ih.1, Map.nodup_emplace _ _ _ ih.2.1, ih.2.2⟩
  | receiveSignal p signal handler _ ih =>
    exact ⟨ih.1, ih.2.1, Map.nodup_emplace _ _ _ ih.2.2⟩
  | cancelReceiveSignal p signal _ ih =>
    unfold MessageProtocol.cancelReceiveSignal
    cases p.m_signalHandlers.find signal with
    | some v => exact ⟨ih.1, ih.2.1, Map.nodup_erase _ _ ih.2.2⟩
    | none => exact ih
  | receiveError p handler _ ih => exact ih
  | dispatchMessage p header message asError _ ih =>
    exact UniqueKeys.dispatchMessage p ih header message asError
  | readFailed p error _ ih => exact UniqueKeys.invokeErrorHandler p ih _ _
  | releasePendingHandlers p _ ih => exact ih

theorem methodCallKey_find (p : MessageProtocol H Msg Err) (n k : Str)
    (h : p.methodCallKey n = some k) : ∃ v, p.m_methodCallHandlers.find k = some v := by
  unfold methodCallKey at h
  split at h
  · cases h; exact Option.isSome_iff_exists.mp (by assumption)
  · split at h
    · cases h; exact Option.isSome_iff_exists.mp (by assumption)
    · split at h
      · cases h; exact Option.isSome_iff_exists.mp (by assumption)
      · cases h

theorem signalKey_find (p : MessageProtocol H Msg Err) (n k : Str)
    (h : p.signalKey n = some k) : ∃ v, p.m_signalHandlers.find k = some v := by
  unfold signalKey at h
  split at h
  · cases h; exact Option.isSome_iff_exists.mp (by assumption)
  · split at h
    · cases h; exact Option.isSome_iff_exists.mp (by assumption)
    · cases h

/-- What the removal of the entry of `key`, if any key fired, leaves of a
table with unique keys: at most one entry is gone, it is the entry of the key,
and every other entry is kept. -/
theorem frame_of_erase (m : Map Str H) (hm : (m.map Prod.fst).Nodup) (key : Option Str)
    (m1 : Map Str H)
    (h1 : m1 = match key with
      | some k => m.erase k
      | none => m)
    (hkey : ∀ k, key = some k → ∃ v, m.find k = some v) :
    m.length ≤ m1.length + 1 ∧ (∀ e ∈ m1, e ∈ m) ∧
    (∀ e ∈ m, some e.1 ≠ key → e ∈ m1) ∧
    (∀ k1, some k1 ≠ key → m1.find k1 = m.find k1) ∧
    (∀ k, key = some k → m1.find k = none ∧ m1.length + 1 = m.length) ∧
    (key = none → m1 = m) := by
  cases key with
  | none =>
    subst h1
    exact ⟨Nat.le_succ _, fun e he => he, fun e he _ => he, fun _ _ => rfl,
      fun k hk => (by cases hk), fun _ => rfl⟩
  | some k =>
    subst h1
    obtain ⟨v, hv⟩ := hkey k rfl
    have hlen := Map.length_erase m k hm v hv
    refine ⟨le_of_eq hlen.symm, fun e he => ((Map.mem_erase m k e).mp he).1, ?_, ?_, ?_, ?_⟩
    · intro e he hne
      exact (Map.mem_erase m k e).mpr ⟨he, fun h => hne (by rw [h])⟩
    · intro k1 hne
      show (m.erase k).find k1 = m.find k1
      rw [Map.find_erase, if_neg (fun h => hne (by rw [h]))]
    · intro k2 hk2
      cases hk2
      refine ⟨?_, hlen⟩
      show (m.erase k).find k = none
      rw [Map.find_erase, if_pos rfl]
    · intro h
      cases h

end MessageProtocol

section DispatchFrame

open MessageProtocol

variable {H Msg Err : Type}

/-- **C38.** Dispatch frame. In every reachable state of the multiplexer,
dispatching one inbound method call changes the table of method-call handlers
only by removing the entry of the key that fired (the first of the full name,
the name before its last period and the empty string that has an entry):
at most one entry is gone, every entry of another key is kept, nothing is
added, and the tables of replies and signals and the error sink are as they
were. Dispatching one inbound signal does the same to the table of signal
handlers (keys: the full name, then the empty string) and leaves the other
tables as they were. -/
theorem dispatch_frame (p : MessageProtocol H Msg Err) (hp : Reachable p)
    (header : DispatchHeader) (message : Msg) (asError : Err) :
    ((p.dispatchMessage { header with type := MessageType.MethodCall } message
          asError).m_methodCallHandlers =
        (match p.methodCallKey (getFullName header.interface header.member) with
         | some k => p.m_methodCallHandlers.erase k
         | none => p.m_methodCallHandlers) ∧
      p.m_methodCallHandlers.length ≤
        (p.dispatchMessage { header with type := MessageType.MethodCall } message
          asError).m_methodCallHandlers.length + 1 ∧
      (∀ e ∈ (p.dispatchMessage { header with type := MessageType.MethodCall } message
          asError).m_methodCallHandlers, e ∈ p.m_methodCallHandlers) ∧
      (∀ e ∈ p.m_methodCallHandlers,
        some e.1 ≠ p.methodCallKey (getFullName header.interface header.member) →
        e ∈ (p.dispatchMessage { header with type := MessageType.MethodCall } message
          asError).m_methodCallHandlers) ∧
      (p.dispatchMessage { header with type := MessageType.MethodCall } message
          asError).m_methodReturnHandlers = p.m_methodReturnHandlers ∧
      (p.dispatchMessage { header with type := MessageType.MethodCall } message
          asError).m_signalHandlers = p.m_signalHandlers ∧
      (p.dispatchMessage { header with type := MessageType.MethodCall } message
          asError).m_errorHandler = p.m_errorHandler) ∧
    ((p.dispatchMessage { header with type := MessageType.Signal } message
          asError).m_signalHandlers =
        (match p.signalKey (getFullName header.interface header.member) with
         | some k => p.m_signalHandlers.erase k
         | none => p.m_signalHandlers) ∧
      p.m_signalHandlers.length ≤
        (p.dispatchMessage { header with type := MessageType.Signal } message
          asError).m_signalHandlers.length + 1 ∧
      (∀ e ∈ (p.dispatchMessage { header with type := MessageType.Signal } message
          asError).m_signalHandlers, e ∈ p.m_signalHandlers) ∧
      (∀ e ∈ p.m_signalHandlers,
        some e.1 ≠ p.signalKey (getFullName header.interface header.member) →
        e ∈ (p.dispatchMessage { header with type := MessageType.Signal } message
          asError).m_signalHandlers) ∧
      (p.dispatchMessage { header with type := MessageType.Signal } message
          asError).m_methodReturnHandlers = p.m_methodReturnHandlers ∧
      (p.dispatchMessage { header with type := MessageType.Signal } message
          asError).m_methodCallHandlers = p.m_methodCallHandlers ∧
      (p.dispatchMessage { header with type := MessageType.Signal } message
          asError).m_errorHandler = p.m_errorHandler) := by
  have hu := Reachable.uniqueKeys p hp
  constructor
  · have ht := invokeMethodCallHandler_tables p
      (getFullName header.interface header.member) message
    have hf := frame_of_erase p.m_methodCallHandlers hu.2.1
      (p.methodCallKey (getFullName header.interface header.member)) _ ht.1
      (fun k hk => methodCallKey_find p _ k hk)
    exact ⟨ht.1, hf.1, hf.2.1, hf.2.2.1, ht.2.1, ht.2.2.1, ht.2.2.2⟩
  · have ht := invokeSignalHandler_tables p
      (getFullName header.interface header.member) message
    have hf := frame_of_erase p.m_signalHandlers hu.2.2
      (p.signalKey (getFullName header.interface header.member)) _ ht.1
      (fun k hk => signalKey_find p _ k hk)
    exact ⟨ht.1, hf.1, hf.2.1, hf.2.2.1, ht.2.1, ht.2.2.1, ht.2.2.2⟩

theorem MessageProtocol.reachable_fullProtocol : Reachable fullProtocol :=
  Reachable.receiveSignal _ _ _
    (Reachable.receiveMethodCall _ _ _ (Reachable.sendMethodCall _ _ _ _ Reachable.start))

/-- The frame of a dispatch on `fullProtocol`: the method call `a.b` removes
the one method-call handler and nothing else. -/
theorem dispatch_frame_witness :
    Reachable fullProtocol ∧
    (fullProtocol.dispatchMessage
      { type := MessageType.MethodCall, interface := ['a'], member := ['b'], replySerial := 0 }
      () "").m_methodCallHandlers = [] ∧
    (fullProtocol.dispatchMessage
      { type := MessageType.MethodCall, interface := ['a'], member := ['b'], replySerial := 0 }
      () "").m_signalHandlers = fullProtocol.m_signalHandlers :=
  ⟨MessageProtocol.reachable_fullProtocol,
    (dispatch_frame fullProtocol MessageProtocol.reachable_fullProtocol
      { type := MessageType.MethodCall, interface := ['a'], member := ['b'], replySerial := 0 }
      () "").1.1.trans rfl,
    (dispatch_frame fullProtocol MessageProtocol.reachable_fullProtocol
      { type := MessageType.MethodCall, interface := ['a'], member := ['b'], replySerial := 0 }
      () "").1.2.2.2.2.2.1⟩

end DispatchFrame

/-! ## The authentication handshake: short responses and runs -/

namespace AuthenticationProtocol

theorem received_fields (self : AuthenticationProtocol) (size : Nat) :
    (self.received size).m_state = self.m_state ∧
    (self.received size).m_data = self.m_data ∧
    (self.received size).m_server_guid = self.m_server_guid ∧
    (self.received size).m_unixFdNegotiated = self.m_unixFdNegotiated := by
  unfold received
  split <;> exact ⟨rfl, rfl, rfl, rfl⟩

theorem resume_of_short (uid : Nat) (self : AuthenticationProtocol) (size : Nat)
    (h1 : self.m_data ≠ []) (h3 : self.m_data.length < 3) :
    resume uid self none size =
      (self.received size, Step.complete (some Errc.protocol_error) []) := by
  have hd := (received_fields self size).2.1
  have hlen : self.m_data.length ≠ 0 := fun h => h1 (List.length_eq_zero.mp h)
  simp only [resume, hd]
  rw [if_pos hlen, if_pos h3]

end AuthenticationProtocol

section ShortResponse

open AuthenticationProtocol

/-- **C31.** Short auth response. In every state of the handshake, when
the lambda is entered without an error and the buffer holds a response of one
or two bytes, the handshake completes with `errc::protocol_error` and the empty
guid: no line is sent, and the state, the buffer, the recorded guid and the fd
flag are as they were (only the receive statistics count the bytes). A
response that was read is never empty, since it ends with the line feed that
`async_read_until` waited for. -/
theorem short_response_protocol_error (uid : Nat) (self : AuthenticationProtocol) (size : Nat)
    (h1 : self.m_data ≠ []) (h3 : self.m_data.length < 3) :
    resume uid self none size =
      (self.received size, Step.complete (some Errc.protocol_error) []) ∧
    (∀ expectResponse line, (resume uid self none size).2 ≠ Step.exchange expectResponse line) ∧
    (resume uid self none size).1.m_state = self.m_state ∧
    (resume uid self none size).1.m_data = self.m_data ∧
    (resume uid self none size).1.m_server_guid = self.m_server_guid ∧
    (resume uid self none size).1.m_unixFdNegotiated = self.m_unixFdNegotiated ∧
    ∀ buffer, exchanged uid self (Step.exchange true buffer) self.m_data =
      (received self self.m_data.length, Step.complete (some Errc.protocol_error) []) := by
  have h := resume_of_short uid self size h1 h3
  have hf := received_fields self size
  rw [h]
  refine ⟨rfl, fun _ _ hne => (by cases hne), hf.1, hf.2.1, hf.2.2.1, hf.2.2.2, ?_⟩
  intro buffer
  exact resume_of_short uid self self.m_data.length h1 h3

/-- A response of two bytes in the state `WaitingForOK`: the handshake
completes with the protocol error and stays in `WaitingForOK`. -/
theorem short_response_protocol_error_witness :
    (resume 1000 { AuthenticationProtocol.create with m_state := State.WaitingForOK, m_data := lit "\r\n" } none 2).2 =
      Step.complete (some Errc.protocol_error) [] ∧
    (resume 1000 { AuthenticationProtocol.create with m_state := State.WaitingForOK, m_data := lit "\r\n" } none
      2).1.m_state = State.WaitingForOK :=
  ⟨congrArg Prod.snd
      (short_response_protocol_error 1000
        { AuthenticationProtocol.create with m_state := State.WaitingForOK, m_data := lit "\r\n" } 2
        (by decide) (by decide)).1,
    (short_response_protocol_error 1000
        { AuthenticationProtocol.create with m_state := State.WaitingForOK, m_data := lit "\r\n" } 2
        (by decide) (by decide)).2.2.1⟩

end ShortResponse

namespace AuthenticationProtocol

theorem dispatch_facts (uid : Nat) (self : AuthenticationProtocol) (cmd : Command) :
    (∀ g, (dispatch uid self cmd).2 = Step.complete none g → self.m_state = State.Finishing) ∧
    (∀ b l, (dispatch uid self cmd).2 = Step.exchange b l →
      ((dispatch uid self cmd).1.m_state = State.WaitingForAgreeUnixFD ∨
        (dispatch uid self cmd).1.m_state = State.Finishing) →
      (self.m_state = State.WaitingForOK ∧ cmd = Command.OK) ∨
      (self.m_state = State.WaitingForData ∧ cmd = Command.OK) ∨
      self.m_state = State.WaitingForAgreeUnixFD) ∧
    (cmd = Command.REJECTED →
      (self.m_state = State.WaitingForOK ∨ self.m_state = State.WaitingForData ∨
        self.m_state = State.WaitingForReject) →
      (dispatch uid self cmd).2 = Step.complete (some Errc.protocol_error) []) := by
  obtain ⟨st, data, guid, fd, stats⟩ := self
  cases st <;> cases cmd <;>
    simp [dispatch, sendCredentials, sendAuth, sendNegotiateUnixFD, sendError, sendCancel,
      sendBegin, sendCommand, handleOk, handleData, handleError, handleRejected,
      handleAgreeUniXFD, failed, received]

theorem resume_observed_none (uid : Nat) (self : AuthenticationProtocol) (error : Option Errc)
    (size : Nat) (h : observed self error = none) :
    ∃ e, (resume uid self error size).2 = Step.complete (some e) [] := by
  cases error with
  | some e => exact ⟨e, rfl⟩
  | none =>
    have hd := (received_fields self size).2.1
    simp only [observed] at h
    simp only [resume, hd]
    by_cases h0 : self.m_data.length ≠ 0
    · rw [if_pos h0] at h
      rw [if_pos h0]
      by_cases h3 : self.m_data.length < 3
      · rw [if_pos h3]
        exact ⟨Errc.protocol_error, rfl⟩
      · rw [if_neg h3] at h
        cases h
    · rw [if_neg h0] at h
      cases h

theorem resume_observed_some (uid : Nat) (self : AuthenticationProtocol) (size : Nat)
    (st : State) (cmd : Command) (h : observed self none = some (st, cmd)) :
    ∃ self1 : AuthenticationProtocol, self1.m_state = st ∧ st = self.m_state ∧
      resume uid self none size = dispatch uid self1 cmd := by
  have hf := received_fields self size
  simp only [observed] at h
  simp only [resume, hf.2.1]
  by_cases h0 : self.m_data.length ≠ 0
  · rw [if_pos h0] at h
    rw [if_pos h0]
    by_cases h3 : self.m_data.length < 3
    · rw [if_pos h3] at h
      cases h
    · rw [if_neg h3] at h
      rw [if_neg h3]
      cases h
      refine ⟨_, ?_, rfl, rfl⟩
      exact hf.1
  · rw [if_neg h0] at h
    rw [if_neg h0]
    cases h
    refine ⟨_, ?_, rfl, rfl⟩
    exact hf.1

theorem OkSeen.append (seen more : List (State × Command)) (h : OkSeen seen) :
    OkSeen (seen ++ more) := by
  rcases h with h | h
  · exact Or.inl (List.mem_append_left _ h)
  · exact Or.inr (List.mem_append_left _ h)

theorem runInv_of_resume (uid : Nat) (self : AuthenticationProtocol) (error : Option Errc)
    (size : Nat) (seen : List (State × Command))
    (hprev : (self.m_state = State.WaitingForAgreeUnixFD ∨ self.m_state = State.Finishing) →
      OkSeen seen) :
    RunInv { self := (resume uid self error size).1, step := (resume uid self error size).2,
             seen := seen ++ (observed self error).toList } := by
  cases hobs : observed self error with
  | none =>
    obtain ⟨e, he⟩ := resume_observed_none uid self error size hobs
    constructor
    · intro g hg
      rw [he] at hg
      cases hg
    · intro b l hl
      rw [he] at hl
      cases hl
  | some sc =>
    obtain ⟨st, cmd⟩ := sc
    cases error with
    | some e => simp [observed] at hobs
    | none =>
      obtain ⟨self1, hs1, hst, hres⟩ := resume_observed_some uid self size st cmd hobs
      have hd := dispatch_facts uid self1 cmd
      rw [hres]
      have hmem : (st, cmd) ∈ seen ++ (some (st, cmd)).toList :=
        List.mem_append_right _ (by simp)
      constructor
      · intro g hg
        have hfin := hd.1 g hg
        rw [hs1, hst] at hfin
        exact OkSeen.append _ _ (hprev (Or.inr hfin))
      · intro b l hl hstate
        rcases hd.2.1 b l hl hstate with h | h | h
        · rw [hs1] at h
          left
          rw [← h.1, ← h.2]
          exact hmem
        · rw [hs1] at h
          right
          rw [← h.1, ← h.2]
          exact hmem
        · rw [hs1, hst] at h
          exact OkSeen.append _ _ (hprev (Or.inl h))

theorem runInv_start (uid : Nat) (self : AuthenticationProtocol) :
    RunInv (Run.start uid self) := by
  have h := runInv_of_resume uid { self with m_state := State.Starting, m_server_guid := [] }
    none 0 [] (fun h => by rcases h with h | h <;> cases h)
  exact h

theorem runInv_next (uid : Nat) (r : Run) (c : Completion) (h : RunInv r) :
    RunInv (r.next uid c) := by
  unfold Run.next
  cases hstep : r.step with
  | complete e g => exact h
  | exchange b l =>
    have hprev := h.2 b l hstep
    cases c with
    | error e size => exact runInv_of_resume uid r.self (some e) size r.seen hprev
    | ok line =>
      cases b with
      | true => exact runInv_of_resume uid { r.self with m_data := line } none _ r.seen hprev
      | false => exact runInv_of_resume uid { r.self with m_data := [] } none _ r.seen hprev

theorem runInv_foldl (uid : Nat) (cs : List Completion) (r : Run) (h : RunInv r) :
    RunInv (cs.foldl (Run.next uid) r) := by
  induction cs generalizing r with
  | nil => exact h
  | cons c rest ih => exact ih _ (runInv_next uid r c h)

theorem next_of_complete (uid : Nat) (r : Run) (e : Option Errc) (g : Str)
    (h : r.step = Step.complete e g) (cs : List Completion) :
    (cs.foldl (Run.next uid) r).step = Step.complete e g := by
  induction cs generalizing r with
  | nil => exact h
  | cons c rest ih =>
    have hn : r.next uid c = r := by
      unfold Run.next
      rw [h]
    rw [List.foldl_cons, hn]
    exact ih r h

theorem rejected_fails (uid : Nat) (r : Run) (b : Bool) (l : Str) (c : Completion)
    (st : State) (hstep : r.step = Step.exchange b l)
    (hobs : observed (Run.entered r.self b l c).1 (Run.entered r.self b l c).2.1 =
      some (st, Command.REJECTED))
    (hst : st = State.WaitingForOK ∨ st = State.WaitingForData ∨ st = State.WaitingForReject) :
    (r.next uid c).step = Step.complete (some Errc.protocol_error) [] := by
  have hn : (r.next uid c).step =
      (resume uid (Run.entered r.self b l c).1 (Run.entered r.self b l c).2.1
        (Run.entered r.self b l c).2.2).2 := by
    unfold Run.next
    rw [hstep]
  rw [hn]
  cases herr : (Run.entered r.self b l c).2.1 with
  | some e =>
    rw [herr] at hobs
    simp [observed] at hobs
  | none =>
    rw [herr] at hobs
    obtain ⟨self1, hs1, _, hres⟩ :=
      resume_observed_some uid _ (Run.entered r.self b l c).2.2 st Command.REJECTED hobs
    rw [hres]
    exact (dispatch_facts uid self1 Command.REJECTED).2.2 rfl (by rw [hs1]; exact hst)

end AuthenticationProtocol

section AuthRuns

open AuthenticationProtocol

/-- **C35.** No success without OK. For every protocol object, every uid
and every sequence of completions of the exchanges (responses of the server,
or errors of the transport), a handshake run from `asyncAuthenticate` that
completes without an error has seen the command `OK` in the state
`WaitingForOK` or `WaitingForData`; and when the lambda is entered in
`WaitingForOK`, `WaitingForData` or `WaitingForReject` with a response that
parses as `REJECTED`, the handshake completes with `errc::protocol_error`, and
it stays so whatever completes afterwards. -/
theorem no_success_without_ok (uid : Nat) (self : AuthenticationProtocol)
    (cs : List Completion) :
    (∀ guid, (run uid self cs).step = Step.complete none guid →
      OkSeen (run uid self cs).seen) ∧
    (∀ b l c st more, (run uid self cs).step = Step.exchange b l →
      observed (Run.entered (run uid self cs).self b l c).1
        (Run.entered (run uid self cs).self b l c).2.1 = some (st, Command.REJECTED) →
      (st = State.WaitingForOK ∨ st = State.WaitingForData ∨ st = State.WaitingForReject) →
      (run uid self (cs ++ c :: more)).step = Step.complete (some Errc.protocol_error) []) := by
  constructor
  · exact (runInv_foldl uid cs _ (runInv_start uid self)).1
  · intro b l c st more hstep hobs hst
    have h := rejected_fails uid (run uid self cs) b l c st hstep hobs hst
    have hr : run uid self (cs ++ c :: more) =
        more.foldl (Run.next uid) ((run uid self cs).next uid c) := by
      unfold run
      rw [List.foldl_append, List.foldl_cons]
    rw [hr]
    exact next_of_complete uid _ _ _ h more

/-- The accepted handshake has seen `OK` in `WaitingForOK`, and the handshake
that is answered `REJECTED` in `WaitingForOK` ends with the protocol error. -/
theorem no_success_without_ok_witness :
    (run 1000 AuthenticationProtocol.create acceptedRun).step =
      Step.complete none (lit "1234deadbeef") ∧
    OkSeen (run 1000 AuthenticationProtocol.create acceptedRun).seen ∧
    (run 1000 AuthenticationProtocol.create rejectedRun).step =
      Step.complete (some Errc.protocol_error) [] :=
  ⟨by decide,
    (no_success_without_ok 1000 AuthenticationProtocol.create acceptedRun).1
      (lit "1234deadbeef") (by decide),
    (no_success_without_ok 1000 AuthenticationProtocol.create [Completion.ok []]).2
      true (lit "AUTH EXTERNAL 31303030\r\n") (Completion.ok (lit "REJECTED EXTERNAL\r\n"))
      State.WaitingForOK [] (by decide) (by decide) (Or.inl rfl)⟩

end AuthRuns

/-! ## Match rules: the escaping loop terminates -/

namespace MatchRule

theorem count_of_not_mem (s : Str) (h : '\'' ∉ s) : s.count '\'' = 0 :=
  List.count_eq_zero.mpr h

theorem escapeRounds_eq (extra : Nat) (done rem : Str) :
    escapeRounds (rem.count '\'' + 1 + extra) (done ++ rem) done.length =
      some (done ++ replaceApostrophes rem) := by
  generalize hn : rem.count '\'' = n
  induction n generalizing done rem with
  | zero =>
    have hmem : '\'' ∉ rem := List.count_eq_zero.mp hn
    have hfind : find (done ++ rem) '\'' done.length = none := by
      unfold find
      rw [List.drop_left]
      cases hi : firstIndex '\'' rem with
      | none => rfl
      | some i =>
        obtain ⟨pre, post, hs, _, _⟩ := firstIndex_some _ _ _ hi
        exact absurd (by rw [hs]; simp) hmem
    rw [Nat.zero_add, Nat.add_comm 1 extra, escapeRounds, hfind,
      replaceApostrophes_of_not_mem rem hmem]
  | succ n ih =>
    have hfind : find (done ++ rem) '\'' done.length =
        (firstIndex '\'' rem).map (fun i => i + done.length) := by
      unfold find
      rw [List.drop_left]
    have hfuel : n + 1 + 1 + extra = (n + 1 + extra) + 1 := by omega
    rw [hfuel, escapeRounds, hfind]
    cases hi : firstIndex '\'' rem with
    | none =>
      have hz := count_of_not_mem rem (firstIndex_none _ _ hi)
      rw [hz] at hn
      cases hn
    | some i =>
      obtain ⟨pre, post, hs, hl, hnp⟩ := firstIndex_some _ _ _ hi
      subst hs
      simp only [Option.map_some']
      have hp : i + done.length = (done ++ pre).length := by
        rw [List.length_append, hl, Nat.add_comm]
      have htake : (done ++ (pre ++ '\'' :: post)).take (i + done.length) = done ++ pre := by
        rw [hp, ← List.append_assoc, List.take_left]
      have hdrop : (done ++ (pre ++ '\'' :: post)).drop (i + done.length + 1) = post := by
        rw [hp, ← List.append_assoc]
        have : done ++ pre ++ '\'' :: post = (done ++ pre ++ ['\'']) ++ post := by simp
        rw [this]
        have hl2 : (done ++ pre ++ ['\'']).length = (done ++ pre).length + 1 := by
          rw [List.length_append, List.length_singleton]
        rw [← hl2, List.drop_left]
      rw [htake, hdrop]
      have hpos : i + done.length + 4 = (done ++ pre ++ lit "'\\''").length := by
        rw [hp, List.length_append _ (lit "'\\''")]
        rfl
      have hcount : post.count '\'' = n := by
        rw [List.count_append, count_of_not_mem pre hnp, List.count_cons_self] at hn
        omega
      rw [hpos, ih (done ++ pre ++ lit "'\\''") post hcount,
        replaceApostrophes_append pre post hnp]
      simp only [List.append_assoc]

theorem escapeRounds_short (done rem : Str) :
    escapeRounds (rem.count '\'') (done ++ rem) done.length = none := by
  generalize hn : rem.count '\'' = n
  induction n generalizing done rem with
  | zero => rfl
  | succ n ih =>
    have hfind : find (done ++ rem) '\'' done.length =
        (firstIndex '\'' rem).map (fun i => i + done.length) := by
      unfold find
      rw [List.drop_left]
    rw [escapeRounds, hfind]
    cases hi : firstIndex '\'' rem with
    | none =>
      have hz := count_of_not_mem rem (firstIndex_none _ _ hi)
      rw [hz] at hn
      cases hn
    | some i =>
      obtain ⟨pre, post, hs, hl, hnp⟩ := firstIndex_some _ _ _ hi
      subst hs
      simp only [Option.map_some']
      have hp : i + done.length = (done ++ pre).length := by
        rw [List.length_append, hl, Nat.add_comm]
      have htake : (done ++ (pre ++ '\'' :: post)).take (i + done.length) = done ++ pre := by
        rw [hp, ← List.append_assoc, List.take_left]
      have hdrop : (done ++ (pre ++ '\'' :: post)).drop (i + done.length + 1) = post := by
        rw [hp, ← List.append_assoc]
        have : done ++ pre ++ '\'' :: post = (done ++ pre ++ ['\'']) ++ post := by simp
        rw [this]
        have hl2 : (done ++ pre ++ ['\'']).length = (done ++ pre).length + 1 := by
          rw [List.length_append, List.length_singleton]
        rw [← hl2, List.drop_left]
      rw [htake, hdrop]
      have hpos : i + done.length + 4 = (done ++ pre ++ lit "'\\''").length := by
        rw [hp, List.length_append _ (lit "'\\''")]
        rfl
      have hcount : post.count '\'' = n := by
        rw [List.count_append, count_of_not_mem pre hnp, List.count_cons_self] at hn
        omega
      rw [hpos]
      exact ih (done ++ pre ++ lit "'\\''") post hcount

theorem length_replaceApostrophes (s : Str) :
    (replaceApostrophes s).length = s.length + 3 * s.count '\'' := by
  induction s with
  | nil => rfl
  | cons c rest ih =>
    by_cases hc : c = '\''
    · subst hc
      rw [replaceApostrophes, if_pos rfl, List.count_cons_self]
      simp only [List.length_cons, ih]
      omega
    · rw [replaceApostrophes, if_neg hc, List.count_cons_of_ne (fun e => hc e.symm)]
      simp only [List.length_cons, ih]
      omega

end MatchRule

section EscapingTerminates

open MatchRule

/-- **C40.** Escaping terminates. For every string `s`, the loop of
`escapeApostrophes` is left at the evaluation of its condition that follows
the last of as many rounds as `s` has apostrophes (one round for each, no
fewer and no more, although the replacement text holds apostrophes itself);
the string it leaves is `escapeApostrophes s`, which is `s` with every
apostrophe replaced by the four characters, and its length is
`|s| + 3 * (number of apostrophes in s)`. -/
theorem escapeApostrophes_terminates (s : Str) (extra : Nat) :
    escapeRounds (s.count '\'' + 1 + extra) s 0 = some (escapeApostrophes s) ∧
    escapeRounds (s.count '\'') s 0 = none ∧
    escapeApostrophes s = replaceApostrophes s ∧
    (escapeApostrophes s).length = s.length + 3 * s.count '\'' := by
  have h1 := escapeRounds_eq extra [] s
  have h2 := escapeRounds_short [] s
  rw [List.nil_append, List.length_nil] at h1 h2
  rw [escapeApostrophes_eq]
  exact ⟨h1, h2, rfl, length_replaceApostrophes s⟩

/-- The loop on a string of three apostrophes: left after three rounds, with
twelve characters. -/
theorem MatchRule.escapeRounds_example :
    escapeRounds 4 (lit "'''") 0 = some (lit "'\\'''\\'''\\''") ∧
    escapeRounds 3 (lit "'''") 0 = none ∧
    (escapeApostrophes (lit "'''")).length = 12 := by
  decide

end EscapingTerminates

/-! ## Validated names in match rules -/

section NameChars

open Name

theorem Name.validateLoop_chars (name : Str) (isUnique allowHyphen allowPeriod : Bool)
    (rest : List Char) (prev : Char) (havePeriod b : Bool)
    (h : validateLoop name isUnique allowHyphen allowPeriod rest prev havePeriod = Except.ok b) :
    ∀ c ∈ rest, isNameChar c = true := by
  induction rest generalizing prev havePeriod with
  | nil => intro c hc; cases hc
  | cons ch rest ih =>
    unfold validateLoop at h
    split at h
    · cases h
    · dsimp only at h
      split at h
      · cases h
      · split at h
        · rename_i hch
          intro c hc
          rcases List.mem_cons.mp hc with hc | hc
          · subst hc
            simp only [Bool.or_eq_true, Bool.and_eq_true] at hch
            simp only [isNameChar, Bool.or_eq_true]
            tauto
          · exact ih _ _ h c hc
        · cases h

theorem Name.validate_chars (name : Str) (type : NameType)
    (h : Name.validate name type = Except.ok ()) : ∀ c ∈ name, isNameChar c = true := by
  unfold Name.validate at h
  split at h
  · cases h
  · split at h
    · cases h
    · dsimp only at h
      split at h
      · cases h
      · split at h
        · cases h
        · split at h
          · cases h
          · rename_i hp heq
            have hrest := Name.validateLoop_chars _ _ _ _ _ _ _ _ heq
            cases name with
            | nil => intro c hc; cases hc
            | cons a rest =>
              by_cases ha : a = ':'
              · subst ha
                have hd : List.drop (if ((':' :: rest).head? == some ':') = true then 1 else 0)
                    (':' :: rest) = rest := rfl
                rw [hd] at hrest
                intro c hc
                rcases List.mem_cons.mp hc with hc | hc
                · subst hc; rfl
                · exact hrest c hc
              · have hne : ((a :: rest).head? == some ':') = false := by
                  simpa using ha
                rw [hne] at hrest
                exact hrest

theorem Name.chars_of_ok (name : Str) (type : NameType)
    (h : (Name.validate name type).map (fun _ => name) = Except.ok name) :
    ∀ c ∈ name, isNameChar c = true :=
  Name.validate_chars name type ((map_validate_ok name type).mp h)

theorem ObjectPath.checkLoop_chars (path : Str) (rest : List Char) (prev : Char)
    (h : ObjectPath.checkLoop path rest prev = Except.ok ()) :
    ∀ c ∈ rest, ObjectPath.isPathChar c = true := by
  induction rest generalizing prev with
  | nil => intro c hc; cases hc
  | cons ch rest ih =>
    unfold ObjectPath.checkLoop at h
    split at h
    · cases h
    · split at h
      · rename_i hch
        intro c hc
        rcases List.mem_cons.mp hc with hc | hc
        · subst hc; exact hch
        · exact ih _ h c hc
      · cases h

theorem ObjectPath.isNameChar_of_isPathChar (c : Char) (h : ObjectPath.isPathChar c = true) :
    isNameChar c = true := by
  simp only [ObjectPath.isPathChar, Bool.or_eq_true] at h
  simp only [isNameChar, Bool.or_eq_true]
  tauto

theorem ObjectPath.path_chars_of_ok (p : Str) (h : ObjectPath.ctor p = Except.ok p) :
    ∀ c ∈ p, isNameChar c = true := by
  unfold ObjectPath.ctor at h
  split at h
  · cases h
  · split at h
    · cases h
    · rename_i hhead
      split at h
      · split at h
        · cases h
        · split at h
          · cases h
          · rename_i u hcheck
            cases u
            exact fun c hc =>
              ObjectPath.isNameChar_of_isPathChar c
                (ObjectPath.checkLoop_chars p p ' ' hcheck c hc)
      · rename_i hlen
        cases p with
        | nil => intro c hc; cases hc
        | cons a rest =>
          have hrest : rest = [] := by
            cases rest with
            | nil => rfl
            | cons b t => simp at hlen
          subst hrest
          have ha : a = '/' := by simpa using hhead
          subst ha
          intro c hc
          rw [List.mem_singleton] at hc
          subst hc
          rfl

theorem isNameChar_excludes :
    isNameChar '\'' = false ∧ isNameChar ',' = false ∧ isNameChar '\\' = false := by
  decide

/-- The members of a built rule that hold names or paths hold only the
characters of names. -/
theorem MatchRule.Built.name_chars {r : MatchRule} (h : MatchRule.Built r) :
    (∀ c ∈ r.m_sender, isNameChar c = true) ∧ (∀ c ∈ r.m_interface, isNameChar c = true) ∧
    (∀ c ∈ r.m_member, isNameChar c = true) ∧ (∀ c ∈ r.m_path, isNameChar c = true) ∧
    (∀ c ∈ r.m_pathNamespace, isNameChar c = true) ∧
    (∀ c ∈ r.m_destination, isNameChar c = true) ∧
    (∀ c ∈ r.m_arg0Namespace, isNameChar c = true) := by
  induction h with
  | new =>
    refine ⟨?_, ?_, ?_, ?_, ?_, ?_, ?_⟩ <;> (intro c hc; cases hc)
  | type r t _ ih => cases t <;> exact ih
  | sender r name _ hn ih =>
    exact ⟨Name.chars_of_ok name _ hn, ih.2⟩
  | interface r name _ hn ih =>
    exact ⟨ih.1, Name.chars_of_ok name _ hn, ih.2.2⟩
  | member r name _ hn ih =>
    exact ⟨ih.1, ih.2.1, Name.chars_of_ok name _ hn, ih.2.2.2⟩
  | path r name _ hn ih =>
    unfold MatchRule.path
    split
    · exact ih
    · exact ⟨ih.1, ih.2.1, ih.2.2.1, ObjectPath.path_chars_of_ok name hn, ih.2.2.2.2⟩
  | pathNamespace r name _ hn ih =>
    unfold MatchRule.pathNamespace
    split
    · exact ih
    · exact ⟨ih.1, ih.2.1, ih.2.2.1, ih.2.2.2.1, ObjectPath.path_chars_of_ok name hn,
        ih.2.2.2.2.2⟩
  | destination r name _ hn ih =>
    exact ⟨ih.1, ih.2.1, ih.2.2.1, ih.2.2.2.1, ih.2.2.2.2.1, Name.chars_of_ok name _ hn,
      ih.2.2.2.2.2.2⟩
  | arg0Namespace r name _ hn ih =>
    exact ⟨ih.1, ih.2.1, ih.2.2.1, ih.2.2.2.1, ih.2.2.2.2.1, ih.2.2.2.2.2.1,
      Name.chars_of_ok name _ hn⟩
  | arg r index string _ _ ih =>
    unfold MatchRule.arg
    split <;> exact ih
  | argPath r index string _ _ ih =>
    unfold MatchRule.argPath
    split <;> exact ih

theorem MatchRule.mem_nameEntries (r : MatchRule) (e : Str × Str)
    (h : e ∈ r.nameEntries) :
    e.2 = r.m_sender ∨ e.2 = r.m_interface ∨ e.2 = r.m_member ∨ e.2 = r.m_path ∨
    e.2 = r.m_pathNamespace ∨ e.2 = r.m_destination ∨ e.2 = r.m_arg0Namespace := by
  unfold MatchRule.nameEntries at h
  simp only [List.mem_append] at h
  rcases h with (((((h | h) | h) | h) | h) | h) | h
  · exact Or.inl (congrArg Prod.snd (MatchRule.mem_entry _ _ _ h).1)
  · exact Or.inr (Or.inl (congrArg Prod.snd (MatchRule.mem_entry _ _ _ h).1))
  · exact Or.inr (Or.inr (Or.inl (congrArg Prod.snd (MatchRule.mem_entry _ _ _ h).1)))
  · exact Or.inr (Or.inr (Or.inr (Or.inl (congrArg Prod.snd (MatchRule.mem_entry _ _ _ h).1))))
  · exact Or.inr (Or.inr (Or.inr (Or.inr
      (Or.inl (congrArg Prod.snd (MatchRule.mem_entry _ _ _ h).1)))))
  · exact Or.inr (Or.inr (Or.inr (Or.inr (Or.inr
      (Or.inl (congrArg Prod.snd (MatchRule.mem_entry _ _ _ h).1))))))
  · exact Or.inr (Or.inr (Or.inr (Or.inr (Or.inr
      (Or.inr (congrArg Prod.snd (MatchRule.mem_entry _ _ _ h).1))))))

theorem MatchRule.entries_split (r : MatchRule) :
    r.entries = MatchRule.entry "type" r.m_type ++ r.nameEntries ++
      ((List.range 64).filterMap
        (fun n => (r.m_arg.find n).map (fun v => (lit "arg" ++ lit (toString n), v))) ++
      (List.range 64).filterMap
        (fun n => (r.m_argPath.find n).map
          (fun v => (lit "arg" ++ lit (toString n) ++ lit "path", v)))) := by
  unfold MatchRule.entries MatchRule.nameEntries
  simp only [List.append_assoc]

/-- **C39.** Validated names cannot break match-rule quoting. Every string
accepted by one of the seven name constructors or by `ObjectPath` consists
only of letters, digits and the characters `_ . : / -`, which excludes the apostrophe, the
comma and the backslash. Hence in every built rule the entries that `str()`
lists for sender, interface, member, path, path_namespace, destination and
arg0namespace (the entries between the one of `type` and those of the indexed
arguments) have values of such characters only, without an apostrophe, a comma
or a backslash. -/
theorem names_cannot_break_quoting (r : MatchRule) (h : MatchRule.Built r) (s : Str) :
    ((BusName s = Except.ok s ∨ UniqueName s = Except.ok s ∨ WellKnownName s = Except.ok s ∨
        InterfaceName s = Except.ok s ∨ ErrorName s = Except.ok s ∨
        NamespaceName s = Except.ok s ∨ MemberName s = Except.ok s ∨
        ObjectPath.ctor s = Except.ok s) →
      ∀ c ∈ s, isNameChar c = true) ∧
    (isNameChar '\'' = false ∧ isNameChar ',' = false ∧ isNameChar '\\' = false) ∧
    (∀ e ∈ r.nameEntries, ∀ c ∈ e.2,
      isNameChar c = true ∧ c ≠ '\'' ∧ c ≠ ',' ∧ c ≠ '\\') ∧
    (r.entries = MatchRule.entry "type" r.m_type ++ r.nameEntries ++
      ((List.range 64).filterMap
        (fun n => (r.m_arg.find n).map (fun v => (lit "arg" ++ lit (toString n), v))) ++
      (List.range 64).filterMap
        (fun n => (r.m_argPath.find n).map
          (fun v => (lit "arg" ++ lit (toString n) ++ lit "path", v))))) ∧
    r.str = MatchRule.joinComma (r.entries.map MatchRule.renderEntry) := by
  refine ⟨?_, isNameChar_excludes, ?_, MatchRule.entries_split r, MatchRule.str_eq_join r h⟩
  · rintro (h1 | h1 | h1 | h1 | h1 | h1 | h1 | h1)
    · exact Name.chars_of_ok s _ h1
    · exact Name.chars_of_ok s _ h1
    · exact Name.chars_of_ok s _ h1
    · exact Name.chars_of_ok s _ h1
    · exact Name.chars_of_ok s _ h1
    · exact Name.chars_of_ok s _ h1
    · exact Name.chars_of_ok s _ h1
    · exact ObjectPath.path_chars_of_ok s h1
  · intro e he c hc
    have hb := MatchRule.Built.name_chars h
    have hchar : isNameChar c = true := by
      rcases MatchRule.mem_nameEntries r e he with h1 | h1 | h1 | h1 | h1 | h1 | h1
      · rw [h1] at hc; exact hb.1 c hc
      · rw [h1] at hc; exact hb.2.1 c hc
      · rw [h1] at hc; exact hb.2.2.1 c hc
      · rw [h1] at hc; exact hb.2.2.2.1 c hc
      · rw [h1] at hc; exact hb.2.2.2.2.1 c hc
      · rw [h1] at hc; exact hb.2.2.2.2.2.1 c hc
      · rw [h1] at hc; exact hb.2.2.2.2.2.2 c hc
    refine ⟨hchar, ?_, ?_, ?_⟩
    · intro hq; rw [hq, isNameChar_excludes.1] at hchar; cases hchar
    · intro hq; rw [hq, isNameChar_excludes.2.1] at hchar; cases hchar
    · intro hq; rw [hq, isNameChar_excludes.2.2] at hchar; cases hchar

/-- The rule `exampleRule`: its sender `:1.234` and its member `Changed` are
listed without an apostrophe. -/
theorem names_cannot_break_quoting_witness :
    MatchRule.Built MatchRule.exampleRule ∧
    MatchRule.exampleRule.nameEntries =
      [(lit "sender", lit ":1.234"), (lit "member", lit "Changed")] ∧
    ∀ e ∈ MatchRule.exampleRule.nameEntries, ∀ c ∈ e.2,
      isNameChar c = true ∧ c ≠ '\'' ∧ c ≠ ',' ∧ c ≠ '\\' :=
  ⟨MatchRule.built_exampleRule, rfl,
    (names_cannot_break_quoting MatchRule.exampleRule MatchRule.built_exampleRule []).2.2.1⟩

end NameChars

/-! ## Arrays and the signature of their elements -/

section ArrayHomogeneity

theorem Any.getSignature_ne_nil (v : Any) (s : Str) (h : v.getSignature = Except.ok s) :
    s ≠ [] := by
  cases v <;> simp only [Any.getSignature] at h
  all_goals first
    | (cases h; exact List.cons_ne_nil _ _)
    | (split at h
       · cases h
       · cases h; exact List.cons_ne_nil _ _)
    | (split at h
       · cases h
       · split at h
         · cases h
         · cases h; exact List.cons_ne_nil _ _)
    | cases h

/-- What `Array::add` does, for every array and value: it returns only when
the value has a signature, which is the signature of the array afterwards; an
array that has a signature keeps it and takes only a value of that signature;
the value is appended and the elements before it stay; when `add` throws, the
array is not touched. -/
theorem Any.Array.add_spec (m_signature : Str) (m_contents : List Any) (v : Any) :
    (∀ signature contents,
      Any.Array.add m_signature m_contents v = Except.ok (signature, contents) →
      v.getSignature = Except.ok signature ∧ contents = m_contents ++ [v] ∧
      (m_signature ≠ [] → signature = m_signature)) ∧
    (∀ s, v.getSignature = Except.ok s → m_signature = [] →
      Any.Array.add m_signature m_contents v = Except.ok (s, m_contents ++ [v])) ∧
    (∀ s, v.getSignature = Except.ok s → m_signature ≠ [] → s ≠ m_signature →
      Any.Array.add m_signature m_contents v =
        Except.error ("adding value to Array with wrong signature: " ++ String.mk s)) := by
  refine ⟨?_, ?_, ?_⟩
  · intro signature contents h
    unfold Any.Array.add at h
    cases hs : v.getSignature with
    | error e => rw [hs] at h; cases h
    | ok s =>
      rw [hs] at h
      dsimp only at h
      split at h
      · cases h
        rename_i he
        exact ⟨rfl, rfl, fun hne => absurd (List.isEmpty_iff.mp he) hne⟩
      · split at h
        · cases h
        · rename_i hne
          cases h
          have heq : m_signature = s := by simpa using hne
          exact ⟨by rw [heq], rfl, fun _ => rfl⟩
  · intro s hs he
    unfold Any.Array.add
    rw [hs, he]
    rfl
  · intro s hs hne hdiff
    unfold Any.Array.add
    rw [hs]
    have h1 : m_signature.isEmpty = false := by
      cases m_signature with
      | nil => exact absurd rfl hne
      | cons a t => rfl
    have h2 : (m_signature != s) = true := by
      simpa using fun h => hdiff h.symm
    simp only [h1, Bool.false_eq_true, if_false, h2, if_true]

/-- Arrays made by the constructors and `add` are homogeneous. -/
theorem Any.Array.Added.homogeneous (m_signature : Str) (m_contents : List Any)
    (h : Any.Array.Added m_signature m_contents) :
    Any.Array.Homogeneous m_signature m_contents := by
  induction h with
  | ctor s => intro e he; cases he
  | add s0 c0 v s c _ hadd ih =>
    obtain ⟨hv, hc, hkeep⟩ := (Any.Array.add_spec s0 c0 v).1 s c hadd
    subst hc
    intro e he
    rcases List.mem_append.mp he with he | he
    · by_cases hs0 : s0 = []
      · subst hs0
        have := ih e he
        exact absurd rfl (Any.getSignature_ne_nil e [] this)
      · rw [hkeep hs0]
        exact ih e he
    · rw [List.mem_singleton] at he
      rw [he]
      exact hv

/-- **C37.** Array homogeneity fails for arrays read from the wire. The
bytes `mixedArrayBytes` are a variant whose signature is `aii`; unmarshalling
them yields, without an error, a variant that holds an array whose element
signature is `ii` and whose one element is a 32-bit integer, of signature `i`.
`Array::add` refuses that element for that array. The text `aii` is two
complete types, so the constructor of `Signature` accepts it; nothing checks
that the signature of a variant is a single complete type. -/
theorem Array_unmarshall_mixed_signature :
    (∀ n : Nat, Any.unmarshallAs (n + 4) ['v'] mixedArrayBytes false [] =
      Except.ok (Any.Variant (Any.Array ['i', 'i'] [Any.Int32 5]))) ∧
    (Any.Int32 5).getSignature = Except.ok ['i'] ∧
    ¬ Any.Array.Homogeneous ['i', 'i'] [Any.Int32 5] ∧
    Any.Array.add ['i', 'i'] [] (Any.Int32 5) =
      Except.error "adding value to Array with wrong signature: i" ∧
    Signature.ctor ['a', 'i', 'i'] 0 = Except.ok { m_typeCodeIndex := 0, m_Value := ['a', 'i', 'i'] } := by
  refine ⟨fun n => rfl, rfl, ?_, rfl, rfl⟩
  intro h
  have := h (Any.Int32 5) (List.mem_singleton.mpr rfl)
  cases this

end ArrayHomogeneity

/-! ## The header fields of a marshalled header -/

namespace Message

namespace Header

theorem Fields.add_eq (contents : List Any) (type : Nat) (v : Any) :
    Fields.add (['(', 'y', 'v', ')'], contents) type v =
      Except.ok (['(', 'y', 'v', ')'], contents ++ [fieldEntry type v]) := by
  rfl

theorem Fields.addIf_eq (contents : List Any) (cond : Bool) (type : Nat) (v : Any) :
    Fields.addIf (['(', 'y', 'v', ')'], contents) cond type (Except.ok v) =
      Except.ok (['(', 'y', 'v', ')'],
        contents ++ (if cond then [fieldEntry type v] else [])) := by
  cases cond
  · simp [Fields.addIf]
  · simp only [Fields.addIf, if_true]
    exact Fields.add_eq contents type v

theorem ObjectPath_ctor_eq (path p : Str) (h : ObjectPath.ctor path = Except.ok p) :
    p = path := by
  unfold ObjectPath.ctor at h
  split at h
  · cases h
  · split at h
    · cases h
    · split at h
      · split at h
        · cases h
        · split at h
          · cases h
          · cases h; rfl
      · cases h; rfl

theorem Fields.addIf_path (contents : List Any) (path : Str) (v : Str × List Any)
    (h : Fields.addIf (['(', 'y', 'v', ')'], contents) (!path.isEmpty) 1
      ((ObjectPath.ctor path).map Any.ObjectPath) = Except.ok v) :
    v = (['(', 'y', 'v', ')'],
      contents ++ (if !path.isEmpty then [fieldEntry 1 (Any.ObjectPath path)] else [])) := by
  cases hc : ObjectPath.ctor path with
  | error e =>
    rw [hc] at h
    cases he : path.isEmpty with
    | true =>
      rw [he] at h
      have h2 : v = (['(', 'y', 'v', ')'], contents) := by
        simpa [Fields.addIf] using h.symm
      rw [h2]
      simp
    | false =>
      rw [he] at h
      simp [Fields.addIf, Except.map] at h
  | ok p =>
    have hp := ObjectPath_ctor_eq path p hc
    subst hp
    rw [hc] at h
    have h2 : Except.map Any.ObjectPath (Except.ok p : Except Thrown Str) =
        Except.ok (Any.ObjectPath p) := rfl
    rw [h2, Fields.addIf_eq] at h
    cases h
    rfl

theorem Fields.ctor_ok (header : Header) (fields : Str × List Any)
    (h : Fields.ctor header = Except.ok fields) :
    fields = (['(', 'y', 'v', ')'], fieldEntries header) := by
  unfold Fields.ctor at h
  split at h
  · cases h
  split at h
  · cases h
  split at h
  · cases h
  split at h
  · cases h
  simp only [Fields.addIf_eq, bind, Except.bind, List.nil_append] at h
  cases hp : Fields.addIf
      (['(', 'y', 'v', ')'],
        if (!List.isEmpty header.destination) = true then
          [fieldEntry 6 (Any.String header.destination)]
        else [])
      (!List.isEmpty header.path) 1 (Except.map Any.ObjectPath (ObjectPath.ctor header.path)) with
  | error e =>
    rw [hp] at h
    cases h
  | ok v =>
    rw [hp] at h
    have hv := Fields.addIf_path _ _ _ hp
    subst hv
    simp only [Fields.addIf_eq] at h
    cases h
    simp [fieldEntries]

end Header

end Message

namespace Message

namespace Header

theorem length_leBytes (n v : Nat) : (leBytes n v).length = n := by
  induction n generalizing v with
  | zero => rfl
  | succ n ih => simp [leBytes, ih]

theorem fromLeBytes_leBytes (n v : Nat) : fromLeBytes (leBytes n v) = v % 256 ^ n := by
  induction n generalizing v with
  | zero => simp [leBytes, fromLeBytes, Nat.mod_one]
  | succ n ih =>
    simp only [leBytes, fromLeBytes, ih]
    rw [Nat.pow_succ, Nat.mul_comm (256 ^ n) 256, Nat.mod_mul]

theorem length_fixedPart (header : Header) : (fixedPart header).length = 12 := by
  simp [fixedPart, length_leBytes]

theorem fixed_stream (header : Header) :
    (((((MessageOStream.empty.writeByte 108).writeByte header.type.toNat).writeByte
      header.flags).writeByte 1).writeUint32 header.bodySize).writeUint32 header.serial =
      { data := fixedPart header, fds := [] } := by
  simp [MessageOStream.writeByte, MessageOStream.writeUint32, MessageOStream.pad4,
    MessageOStream.pad, Utils.getPadding, fixedPart, MessageOStream.empty, length_leBytes]

theorem fields_stream (header : Header) :
    ((({ data := fixedPart header, fds := [] } : MessageOStream).writeUint32 0).pad 8) =
      { data := fixedPart header ++ [0, 0, 0, 0], fds := [] } := by
  simp [MessageOStream.writeUint32, MessageOStream.pad4, MessageOStream.pad, Utils.getPadding,
    length_fixedPart, leBytes]

theorem marshall_layout (header : Header) (hd : MessageOStream)
    (h : header.marshall MessageOStream.empty = Except.ok hd) :
    ∃ s3 : MessageOStream,
      Fields.ctor header = Except.ok (['(', 'y', 'v', ')'], fieldEntries header) ∧
      Any.marshallAll (fieldEntries header)
        { data := fixedPart header ++ [0, 0, 0, 0], fds := [] } = Except.ok s3 ∧
      16 ≤ s3.data.length ∧
      (s3.data.length - 16) % 2 ^ 32 ≤ Any.Array.MaximumSize ∧
      hd.data = fixedPart header ++ leBytes 4 ((s3.data.length - 16) % 2 ^ 32) ++
        s3.data.drop 16 ++ List.replicate (Utils.getPadding 8 s3.data.length) 0 ∧
      hd.fds = s3.fds := by
  unfold Header.marshall at h
  simp only [fixed_stream] at h
  cases hf : Fields.ctor header with
  | error e => rw [hf] at h; cases h
  | ok fields =>
    have hfe := Fields.ctor_ok header fields hf
    subst hfe
    rw [hf] at h
    simp only [Any.marshall] at h
    have hal : getAlignment ['(', 'y', 'v', ')'] = Except.ok 8 := rfl
    simp only [hal, fields_stream] at h
    cases hm : Any.marshallAll (fieldEntries header)
        { data := fixedPart header ++ [0, 0, 0, 0], fds := [] } with
    | error e => rw [hm] at h; cases h
    | ok s3 =>
      rw [hm] at h
      simp only at h
      have hg := marshallAll_grows _ _ _ hm
      have hlenS : (fixedPart header ++ [0, 0, 0, 0]).length = 16 := by
        simp [length_fixedPart]
      have hlen16 : 16 ≤ s3.data.length := by
        have h1 : (fixedPart header ++ [0, 0, 0, 0]).length ≤ s3.data.length := hg.1
        rw [hlenS] at h1
        exact h1
      simp only [MessageOStream.size, hlenS, length_fixedPart] at h
      by_cases hle : (s3.data.length - 16) % 2 ^ 32 > Any.Array.MaximumSize
      · rw [if_pos hle] at h
        cases h
      · rw [if_neg hle] at h
        simp only at h
        cases h
        refine ⟨s3, rfl, rfl, hlen16, Nat.le_of_not_lt hle, ?_, rfl⟩
        have htake : s3.data.take 12 = fixedPart header := by
          have h2 : s3.data.take (fixedPart header ++ [0, 0, 0, 0]).length =
              fixedPart header ++ [0, 0, 0, 0] := hg.2
          rw [hlenS] at h2
          have h3 : s3.data.take 12 = (s3.data.take 16).take 12 := by
            rw [List.take_take]
            rfl
          rw [h3, h2, List.take_left' (length_fixedPart header)]
        have hlen : (s3.replace 12 4 (leBytes 4 ((s3.data.length - 16) % 2 ^ 32))).data.length =
            s3.data.length := by
          simp only [MessageOStream.replace, List.length_append, List.length_take,
            length_leBytes, List.length_drop]
          omega
        simp only [MessageOStream.pad8, MessageOStream.pad, hlen]
        simp only [MessageOStream.replace, htake]

end Header

end Message

namespace Message

namespace Header

theorem pow_256_4 : 256 ^ 4 = 2 ^ 32 := by norm_num

theorem load_12 (header : Header) (c : Nat) (rest : List Nat) :
    loadUint32 (fixedPart header ++ leBytes 4 c ++ rest) 12 = c % 2 ^ 32 := by
  unfold loadUint32
  rw [List.append_assoc, List.drop_left' (length_fixedPart header),
    List.take_left' (length_leBytes 4 c), fromLeBytes_leBytes, pow_256_4]

theorem load_4 (header : Header) (rest : List Nat) :
    loadUint32 (fixedPart header ++ rest) 4 = header.bodySize % 2 ^ 32 := by
  unfold loadUint32 fixedPart
  have h4 : ([108, header.type.toNat % 256, header.flags % 256, 1] : List Nat).length = 4 := rfl
  simp only [List.append_assoc]
  rw [List.drop_left' h4, List.take_left' (length_leBytes 4 _), fromLeBytes_leBytes,
    pow_256_4, Nat.mod_mod]

theorem endianness_fixedPart (header : Header) (rest : List Nat) :
    endianness (fixedPart header ++ rest) = Except.ok Endian.Little := by
  simp [fixedPart, endianness]

theorem getPadding_8 (n : Nat) :
    (if n % 8 = 0 then 0 else 8 - n % 8) = Utils.getPadding 8 n := by
  unfold Utils.getPadding
  split <;> omega

theorem getPadding_8_mod (n : Nat) : (n + Utils.getPadding 8 n) % 8 = 0 := by
  unfold Utils.getPadding
  omega

theorem getPadding_8_padded (n : Nat) : n + Utils.getPadding 8 n = (n + 7) / 8 * 8 := by
  unfold Utils.getPadding
  omega

/-- The two size functions on a buffer that starts with the fixed part of a
header and a field length `c` within the array bound. -/
theorem sizes_of_layout (header : Header) (c : Nat) (rest : List Nat)
    (hc : c ≤ Any.Array.MaximumSize) :
    getSize (fixedPart header ++ leBytes 4 c ++ rest) =
      Except.ok (16 + c + Utils.getPadding 8 (16 + c)) ∧
    getMessageSize (fixedPart header ++ leBytes 4 c ++ rest) =
      (if 16 + c + Utils.getPadding 8 (16 + c) + header.bodySize % 2 ^ 32 >
          Message.MaximumSize then
        Except.error "DBus message error: maximum message size exceeded"
      else Except.ok (16 + c + Utils.getPadding 8 (16 + c) + header.bodySize % 2 ^ 32)) := by
  have hc32 : c % 2 ^ 32 = c := by
    apply Nat.mod_eq_of_lt
    unfold Any.Array.MaximumSize at hc
    omega
  have hlen : ¬ (fixedPart header ++ leBytes 4 c ++ rest).length < 16 := by
    simp only [List.length_append, length_fixedPart, length_leBytes]
    omega
  have hend : endianness (fixedPart header ++ leBytes 4 c ++ rest) =
      Except.ok Endian.Little := by
    rw [List.append_assoc]
    exact endianness_fixedPart header _
  have hsw : ∀ v, correctEndianess Endian.Little v = v := fun v => rfl
  have hget : getSize (fixedPart header ++ leBytes 4 c ++ rest) =
      Except.ok (16 + c + Utils.getPadding 8 (16 + c)) := by
    unfold getSize
    simp only [MinimumSize, hlen, if_false, hend, hsw, load_12, hc32, getPadding_8]
    have hmax : ¬ 16 + c + Utils.getPadding 8 (16 + c) > MaximumSize := by
      unfold MaximumSize MinimumSize
      unfold Any.Array.MaximumSize at hc ⊢
      unfold Utils.getPadding
      omega
    rw [if_neg hmax]
  refine ⟨hget, ?_⟩
  unfold getMessageSize
  have h4 : loadUint32 (fixedPart header ++ leBytes 4 c ++ rest) 4 =
      header.bodySize % 2 ^ 32 := by
    rw [List.append_assoc]
    exact load_4 header _
  simp only [MinimumSize, hlen, if_false, hend, hsw, h4, hget]

end Header

theorem write_empty (hd : MessageOStream) :
    MessageOStream.empty.write hd = Except.ok { data := hd.data, fds := hd.fds } := by
  simp [MessageOStream.write, MessageOStream.empty]

/-- What a call of `Message::marshall` that returns has computed. -/
theorem marshall_ok (m : Members) (serial : Nat) (p : MessageOStream)
    (h : Message.marshall m serial = Except.ok p) :
    ∃ (body : MessageOStream) (text : Str) (signature : Signature) (hd : MessageOStream),
      Parameters.marshall m.m_Parameters MessageOStream.empty = Except.ok body ∧
      Parameters.getSignature m.m_Parameters = Except.ok text ∧
      Signature.ctor text 0 = Except.ok signature ∧
      (headerFor m serial signature body).marshall MessageOStream.empty = Except.ok hd ∧
      hd.fds = [] ∧
      p = { data := hd.data ++ body.data, fds := body.fds } := by
  unfold Message.marshall at h
  cases hb : Parameters.marshall m.m_Parameters MessageOStream.empty with
  | error e => rw [hb] at h; cases h
  | ok body =>
    rw [hb] at h
    simp only at h
    cases ht : Parameters.getSignature m.m_Parameters with
    | error e => rw [ht] at h; cases h
    | ok text =>
      rw [ht] at h
      simp only at h
      cases hs : Signature.ctor text 0 with
      | error e => rw [hs] at h; cases h
      | ok signature =>
        rw [hs] at h
        simp only at h
        cases hh : (headerFor m serial signature body).marshall MessageOStream.empty with
        | error e => rw [hh] at h; cases h
        | ok hd =>
          rw [hh] at h
          simp only [write_empty] at h
          unfold MessageOStream.write at h
          dsimp only at h
          by_cases hfds : hd.fds.length ≠ 0
          · rw [if_pos hfds] at h
            cases h
          · have hnil : hd.fds = [] := List.length_eq_zero.mp (not_not.mp hfds)
            rw [if_neg hfds] at h
            cases h
            exact ⟨body, text, signature, hd, rfl, rfl, hs, hh, hnil, rfl⟩

/-- The sizes of a marshalled packet: the header part, a multiple of 8, and
what the two size functions compute from the packet. -/
theorem packet_sizes (header : Header) (hd : MessageOStream) (bodyData : List Nat)
    (h : header.marshall MessageOStream.empty = Except.ok hd) :
    ∃ fieldsLength : Nat,
      hd.data.length = 16 + fieldsLength + Utils.getPadding 8 (16 + fieldsLength) ∧
      hd.data.length % 8 = 0 ∧
      fieldsLength % 2 ^ 32 ≤ Any.Array.MaximumSize ∧
      loadUint32 (hd.data ++ bodyData) 12 = fieldsLength % 2 ^ 32 ∧
      Header.getSize (hd.data ++ bodyData) =
        Except.ok (16 + fieldsLength % 2 ^ 32 +
          Utils.getPadding 8 (16 + fieldsLength % 2 ^ 32)) ∧
      Header.getMessageSize (hd.data ++ bodyData) =
        (if 16 + fieldsLength % 2 ^ 32 + Utils.getPadding 8 (16 + fieldsLength % 2 ^ 32) +
            header.bodySize % 2 ^ 32 > Message.MaximumSize then
          Except.error "DBus message error: maximum message size exceeded"
        else
          Except.ok (16 + fieldsLength % 2 ^ 32 +
            Utils.getPadding 8 (16 + fieldsLength % 2 ^ 32) + header.bodySize % 2 ^ 32)) := by
  obtain ⟨s3, _, _, h16, hle, hdata, _⟩ := Header.marshall_layout header hd h
  have hsz := Header.sizes_of_layout header ((s3.data.length - 16) % 2 ^ 32)
    (s3.data.drop 16 ++ List.replicate (Utils.getPadding 8 s3.data.length) 0 ++ bodyData) hle
  have hform : hd.data ++ bodyData =
      Header.fixedPart header ++ leBytes 4 ((s3.data.length - 16) % 2 ^ 32) ++
        (s3.data.drop 16 ++ List.replicate (Utils.getPadding 8 s3.data.length) 0 ++
          bodyData) := by
    rw [hdata]
    simp only [List.append_assoc]
  have hlen : hd.data.length =
      16 + (s3.data.length - 16) + Utils.getPadding 8 (16 + (s3.data.length - 16)) := by
    rw [hdata]
    simp only [List.length_append, Header.length_fixedPart, Header.length_leBytes,
      List.length_drop, List.length_replicate]
    have : 16 + (s3.data.length - 16) = s3.data.length := by omega
    rw [this]
  refine ⟨s3.data.length - 16, hlen, ?_, hle, ?_, ?_, ?_⟩
  · rw [hlen]
    exact Header.getPadding_8_mod _
  · rw [hform, Header.load_12, Nat.mod_mod]
  · rw [hform]
    exact hsz.1
  · rw [hform]
    exact hsz.2

end Message

/-! ## The descriptors of a marshalled value -/

mutual

/-- Marshalling a value leaves at most 254 descriptors in a stream that held
at most 254. -/
theorem marshall_fds : ∀ (v : Any) (s s1 : MessageOStream),
    v.marshall s = Except.ok s1 → s.fds.length ≤ 254 → s1.fds.length ≤ 254
  | Any.None, s, s1, h, _ => by simp [Any.marshall] at h
  | Any.Byte v, s, s1, h, hs => by
    simp only [Any.marshall, Except.ok.injEq] at h; rw [← h]; exact hs
  | Any.Boolean v, s, s1, h, hs => by
    simp only [Any.marshall, Except.ok.injEq] at h; rw [← h]; exact hs
  | Any.Double v, s, s1, h, hs => by
    simp only [Any.marshall, Except.ok.injEq] at h; rw [← h]; exact hs
  | Any.Int16 v, s, s1, h, hs => by
    simp only [Any.marshall, Except.ok.injEq] at h; rw [← h]; exact hs
  | Any.Int32 v, s, s1, h, hs => by
    simp only [Any.marshall, Except.ok.injEq] at h; rw [← h]; exact hs
  | Any.Int64 v, s, s1, h, hs => by
    simp only [Any.marshall, Except.ok.injEq] at h; rw [← h]; exact hs
  | Any.Uint16 v, s, s1, h, hs => by
    simp only [Any.marshall, Except.ok.injEq] at h; rw [← h]; exact hs
  | Any.Uint32 v, s, s1, h, hs => by
    simp only [Any.marshall, Except.ok.injEq] at h; rw [← h]; exact hs
  | Any.Uint64 v, s, s1, h, hs => by
    simp only [Any.marshall, Except.ok.injEq] at h; rw [← h]; exact hs
  | Any.UnixFd fd, s, s1, h, _ => by
    simp only [Any.marshall, MessageOStream.writeUnixFd] at h
    split at h
    · cases h
    · rename_i hle
      simp only [Except.ok.injEq] at h
      rw [← h]
      show (s.fds ++ [fd]).length ≤ 254
      rw [List.length_append, List.length_singleton]
      omega
  | Any.String v, s, s1, h, hs => by
    simp only [Any.marshall, Except.ok.injEq] at h; rw [← h]; exact hs
  | Any.ObjectPath v, s, s1, h, hs => by
    simp only [Any.marshall] at h
    split at h
    · exact absurd h (by simp)
    · simp only [Except.ok.injEq] at h; rw [← h]; exact hs
  | Any.Signature v, s, s1, h, hs => by
    simp only [Any.marshall, Except.ok.injEq] at h; rw [← h]; exact hs
  | Any.Array sig contents, s, s1, h, hs => by
    simp only [Any.marshall] at h
    cases ha : getAlignment sig with
    | error e => rw [ha] at h; exact absurd h (by simp)
    | ok al =>
      rw [ha] at h
      simp only at h
      cases hm : Any.marshallAll contents ((s.writeUint32 0).pad al) with
      | error e => rw [hm] at h; exact absurd h (by simp)
      | ok s3 =>
        rw [hm] at h
        simp only at h
        split at h
        · exact absurd h (by simp)
        · simp only [Except.ok.injEq] at h
          rw [← h]
          exact marshallAll_fds contents _ s3 hm hs
  | Any.Struct sig elements, s, s1, h, hs => by
    simp only [Any.marshall] at h
    exact marshallAll_fds elements _ s1 h hs
  | Any.Variant v, s, s1, h, hs => by
    simp only [Any.marshall] at h
    cases hsig : v.getSignature with
    | error e => rw [hsig] at h; exact absurd h (by simp)
    | ok sig =>
      rw [hsig] at h
      exact marshall_fds v _ s1 h hs
  | Any.DictEntry sig key value, s, s1, h, hs => by
    simp only [Any.marshall] at h
    cases hk : key.marshall s.pad8 with
    | error e => rw [hk] at h; exact absurd h (by simp)
    | ok s2 =>
      rw [hk] at h
      exact marshall_fds value _ s1 h (marshall_fds key _ s2 hk hs)

theorem marshallAll_fds : ∀ (l : List Any) (s s1 : MessageOStream),
    Any.marshallAll l s = Except.ok s1 → s.fds.length ≤ 254 → s1.fds.length ≤ 254
  | [], s, s1, h, hs => by
    simp only [Any.marshallAll, Except.ok.injEq] at h; rw [← h]; exact hs
  | v :: rest, s, s1, h, hs => by
    simp only [Any.marshallAll] at h
    cases hv : v.marshall s with
    | error e => rw [hv] at h; exact absurd h (by simp)
    | ok s2 =>
      rw [hv] at h
      exact marshallAll_fds rest s2 s1 h (marshall_fds v s s2 hv hs)

end

namespace Message

theorem Parameters.getSignature_spec (params : List Any) (text : Str)
    (h : Parameters.getSignature params = Except.ok text) :
    ∃ sigs : List Str,
      List.Forall₂ (fun param s => param.getSignature = Except.ok s) params sigs ∧
      text = sigs.flatten ∧ (text = [] ↔ params = []) := by
  induction params generalizing text with
  | nil =>
    simp only [Parameters.getSignature, Except.ok.injEq] at h
    exact ⟨[], List.Forall₂.nil, by rw [← h]; rfl, ⟨fun _ => rfl, fun _ => h.symm⟩⟩
  | cons v rest ih =>
    simp only [Parameters.getSignature] at h
    cases hv : v.getSignature with
    | error e => rw [hv] at h; cases h
    | ok s =>
      rw [hv] at h
      simp only at h
      cases hr : Parameters.getSignature rest with
      | error e => rw [hr] at h; cases h
      | ok more =>
        rw [hr] at h
        simp only [Except.ok.injEq] at h
        obtain ⟨sigs, hall, hflat, _⟩ := ih more hr
        refine ⟨s :: sigs, List.Forall₂.cons hv hall, ?_, ?_⟩
        · rw [← h, hflat]
          rfl
        · constructor
          · intro ht
            rw [← h] at ht
            have hs : s = [] := (List.append_eq_nil.mp ht).1
            exact absurd hs (Any.getSignature_ne_nil v s hv)
          · intro hc
            cases hc

theorem Header.mem_fieldEntries_signature (header : Header) (v : Any) :
    Header.fieldEntry 8 v ∈ Header.fieldEntries header ↔
      header.signature.m_Value ≠ [] ∧ v = Any.Signature header.signature := by
  simp [Header.fieldEntries, Header.fieldEntry]

theorem Header.mem_fieldEntries_unixFds (header : Header) (v : Any) :
    Header.fieldEntry 9 v ∈ Header.fieldEntries header ↔
      0 < header.unixFds ∧ v = Any.Uint32 header.unixFds := by
  simp [Header.fieldEntries, Header.fieldEntry]

end Message

/-! ## The header of a marshalled message -/

section HeaderDescribesBody

open Message

/-- The header of a packet of fewer than `2 ^ 32` bytes describes the body.
For every message and every 32-bit serial, when `Message::marshall` returns
such a packet, the header it marshalled has the given serial, a body length
equal to the number of bytes of the marshalled parameters, a count of
descriptors equal to the number of descriptors attached to them, and a
signature equal to the signatures of the parameters appended in their order;
the packet is the marshalled header followed by the marshalled parameters and
carries their descriptors, with the body length at offset 4 and the serial at
offset 8; and among the header fields the Signature field is present exactly
when there are parameters and the UnixFds field exactly when there are
descriptors. -/
theorem marshalled_header_describes_body (m : Members) (serial : Nat) (p : MessageOStream)
    (h : Message.marshall m serial = Except.ok p) (hs : serial < 2 ^ 32)
    (hlen : p.data.length < 2 ^ 32) :
    ∃ (body : MessageOStream) (sigs : List Str) (signature : Signature) (hd : MessageOStream),
      Parameters.marshall m.m_Parameters MessageOStream.empty = Except.ok body ∧
      List.Forall₂ (fun param s => param.getSignature = Except.ok s) m.m_Parameters sigs ∧
      (headerFor m serial signature body).marshall MessageOStream.empty = Except.ok hd ∧
      p = { data := hd.data ++ body.data, fds := body.fds } ∧
      (headerFor m serial signature body).serial = serial ∧
      (headerFor m serial signature body).bodySize = body.data.length ∧
      (headerFor m serial signature body).unixFds = body.fds.length ∧
      (headerFor m serial signature body).signature.m_Value = sigs.flatten ∧
      (p.data.drop 4).take 4 = leBytes 4 body.data.length ∧
      (p.data.drop 8).take 4 = leBytes 4 serial ∧
      Header.Fields.ctor (headerFor m serial signature body) =
        Except.ok (['(', 'y', 'v', ')'], Header.fieldEntries (headerFor m serial signature body)) ∧
      (Header.fieldEntry 8 (Any.Signature signature) ∈
          Header.fieldEntries (headerFor m serial signature body) ↔ m.m_Parameters ≠ []) ∧
      (Header.fieldEntry 9 (Any.Uint32 body.fds.length) ∈
          Header.fieldEntries (headerFor m serial signature body) ↔ body.fds ≠ []) := by
  obtain ⟨body, text, signature, hd, hb, ht, hsig, hh, _, hp⟩ := marshall_ok m serial p h
  obtain ⟨sigs, hall, hflat, hempty⟩ := Parameters.getSignature_spec _ _ ht
  have hsv : signature = { m_typeCodeIndex := 0, m_Value := text } := (ctor_ok_spec text signature hsig).1
  have hbl : body.data.length < 2 ^ 32 := by
    rw [hp] at hlen
    simp only [List.length_append] at hlen
    omega
  have hfl : body.fds.length ≤ 254 := marshallAll_fds _ _ _ hb (Nat.zero_le _)
  have hbs : (headerFor m serial signature body).bodySize = body.data.length :=
    Nat.mod_eq_of_lt hbl
  have hfs : (headerFor m serial signature body).unixFds = body.fds.length :=
    Nat.mod_eq_of_lt (by omega)
  obtain ⟨s3, hctor, _, _, _, hdata, _⟩ := Header.marshall_layout _ hd hh
  have hfix : Header.fixedPart (headerFor m serial signature body) =
      [108, (headerFor m serial signature body).type.toNat % 256,
        (headerFor m serial signature body).flags % 256, 1] ++
      leBytes 4 body.data.length ++ leBytes 4 serial := by
    unfold Header.fixedPart
    rw [hbs, Nat.mod_eq_of_lt hbl]
    show _ ++ leBytes 4 (serial % 2 ^ 32) = _
    rw [Nat.mod_eq_of_lt hs]
  have h4 : ([108, (headerFor m serial signature body).type.toNat % 256,
      (headerFor m serial signature body).flags % 256, 1] : List Nat).length = 4 := rfl
  have h8 : ([108, (headerFor m serial signature body).type.toNat % 256,
      (headerFor m serial signature body).flags % 256, 1] ++
      leBytes 4 body.data.length).length = 8 := by
    rw [List.length_append, Header.length_leBytes]
    rfl
  refine ⟨body, sigs, signature, hd, hb, hall, hh, hp, rfl, hbs, hfs, ?_, ?_, ?_, hctor, ?_, ?_⟩
  · show signature.m_Value = sigs.flatten
    rw [hsv, ← hflat]
  · rw [hp]
    show ((hd.data ++ body.data).drop 4).take 4 = _
    rw [hdata, hfix]
    simp only [List.append_assoc]
    rw [List.drop_left' h4, List.take_left' (Header.length_leBytes 4 _)]
  · rw [hp]
    show ((hd.data ++ body.data).drop 8).take 4 = _
    rw [hdata, hfix]
    simp only [List.append_assoc]
    rw [← List.append_assoc, List.drop_left' h8, List.take_left' (Header.length_leBytes 4 _)]
  · rw [Header.mem_fieldEntries_signature]
    have hval : (headerFor m serial signature body).signature = signature := rfl
    have hmv : signature.m_Value = text := by rw [hsv]
    rw [hval, hmv]
    constructor
    · intro hmem hnil
      exact hmem.1 (hempty.mpr hnil)
    · intro hne
      exact ⟨fun ht => hne (hempty.mp ht), rfl⟩
  · rw [Header.mem_fieldEntries_unixFds, hfs]
    constructor
    · intro hmem hnil
      rw [hnil] at hmem
      exact absurd hmem.1 (Nat.lt_irrefl 0)
    · intro hfd
      exact ⟨List.length_pos.mpr hfd, rfl⟩

end HeaderDescribesBody

/-! ## The framing of a marshalled message -/

namespace Message

section BigMessage

set_option maxRecDepth 100000

theorem length_writeString_empty (text : Str) :
    (MessageOStream.empty.writeString text).data.length = text.length + 5 := by
  simp [MessageOStream.writeString, MessageOStream.pad4, MessageOStream.pad,
    MessageOStream.writeUint32, MessageOStream.writeByte, MessageOStream.empty,
    Utils.getPadding, strBytes, Header.length_leBytes]
  omega

theorem length_bigText : bigText.length = 134217728 :=
  List.length_replicate _ _

theorem headerFor_big :
    headerFor (exampleCall [Any.String bigText]) 1 { m_typeCodeIndex := 0, m_Value := ['s'] }
      (MessageOStream.empty.writeString bigText) = bigHeader := by
  have hl : (MessageOStream.empty.writeString bigText).data.length = 134217733 := by
    rw [length_writeString_empty, length_bigText]
  have hf : (MessageOStream.empty.writeString bigText).fds = [] := rfl
  unfold headerFor
  rw [hl, hf]
  rfl

theorem marshall_bigHeader :
    bigHeader.marshall MessageOStream.empty = Except.ok bigHeaderData := by
  rfl

theorem marshall_big :
    Message.marshall (exampleCall [Any.String bigText]) 1 =
      Except.ok { data := bigHeaderData.data ++ (MessageOStream.empty.writeString bigText).data,
                  fds := [] } := by
  have hb : Parameters.marshall (exampleCall [Any.String bigText]).m_Parameters
      MessageOStream.empty = Except.ok (MessageOStream.empty.writeString bigText) := rfl
  have ht : Parameters.getSignature (exampleCall [Any.String bigText]).m_Parameters =
      Except.ok ['s'] := rfl
  have hs : Signature.ctor ['s'] 0 = Except.ok { m_typeCodeIndex := 0, m_Value := ['s'] } := rfl
  unfold Message.marshall
  rw [hb]
  simp only
  rw [ht]
  simp only
  rw [hs]
  simp only
  rw [headerFor_big, marshall_bigHeader]
  simp only [write_empty]
  rfl

end BigMessage

end Message

section Framing

open Message

set_option maxRecDepth 100000

/-- **C32**, the claim as stated fails. The method call `exampleCall` with
the one parameter `bigText`, a string of 134217728 characters, marshals
successfully with the serial 1, into a packet of 88 + 134217733 bytes; on that
packet `Header::getSize` returns 88, the length of the header part, and
`Header::getMessageSize` throws instead of returning the total length. -/
theorem getMessageSize_throws_on_marshalled_packet :
    ∃ p, Message.marshall (exampleCall [Any.String bigText]) 1 = Except.ok p ∧
      p.data.length = 88 + 134217733 ∧
      Header.getSize p.data = Except.ok 88 ∧
      Header.getMessageSize p.data =
        Except.error "DBus message error: maximum message size exceeded" := by
  refine ⟨_, marshall_big, ?_, ?_, ?_⟩
  · show (bigHeaderData.data ++ (MessageOStream.empty.writeString bigText).data).length = _
    rw [List.length_append, length_writeString_empty, length_bigText]
    rfl
  · obtain ⟨n, hlen, _, hle, _, hsize, _⟩ :=
      packet_sizes bigHeader bigHeaderData (MessageOStream.empty.writeString bigText).data
        marshall_bigHeader
    have h88 : bigHeaderData.data.length = 88 := rfl
    rw [h88] at hlen
    have hn : n % 2 ^ 32 = n := by
      apply Nat.mod_eq_of_lt
      omega
    rw [hn] at hsize
    show Header.getSize (bigHeaderData.data ++ _) = _
    rw [hsize, ← hlen]
  · obtain ⟨n, _, _, _, _, _, hmsg⟩ :=
      packet_sizes bigHeader bigHeaderData (MessageOStream.empty.writeString bigText).data
        marshall_bigHeader
    show Header.getMessageSize (bigHeaderData.data ++ _) = _
    rw [hmsg]
    have hbody : bigHeader.bodySize % 2 ^ 32 = 134217733 := by
      show 134217733 % 2 ^ 32 = 134217733
      norm_num
    rw [hbody]
    have hgt : 16 + n % 2 ^ 32 + Utils.getPadding 8 (16 + n % 2 ^ 32) + 134217733 >
        Message.MaximumSize := by
      unfold Message.MaximumSize
      omega
    rw [if_pos hgt]

/-- **C32**, amended. Framing consistency within the maximum message
size. For every message that marshals successfully into a packet `p` of at
most 134217728 bytes, and every serial: `p` is the marshalled header followed
by the marshalled parameters; the length of the header part is a multiple of
8 and equals `16 + (the array length stored at offset 12)` rounded up to a
multiple of 8, which is what `Header::getSize(p)` returns; and
`Header::getMessageSize(p)` returns the total length of `p`. -/
theorem marshall_framing (m : Members) (serial : Nat) (p : MessageOStream)
    (h : Message.marshall m serial = Except.ok p)
    (hmax : p.data.length ≤ Message.MaximumSize) :
    ∃ (hd body : MessageOStream) (signature : Signature),
      Parameters.marshall m.m_Parameters MessageOStream.empty = Except.ok body ∧
      (headerFor m serial signature body).marshall MessageOStream.empty = Except.ok hd ∧
      p.data = hd.data ++ body.data ∧
      hd.data.length % 8 = 0 ∧
      hd.data.length = paddedHeaderSize (loadUint32 p.data 12) ∧
      Header.getSize p.data = Except.ok hd.data.length ∧
      Header.getMessageSize p.data = Except.ok p.data.length := by
  obtain ⟨body, text, signature, hd, hb, _, _, hh, _, hp⟩ := marshall_ok m serial p h
  obtain ⟨n, hlen, hmod, hle, hload, hsize, hmsg⟩ :=
    packet_sizes (headerFor m serial signature body) hd body.data hh
  have hpd : p.data = hd.data ++ body.data := by rw [hp]
  have hplen : p.data.length = hd.data.length + body.data.length := by
    rw [hpd, List.length_append]
  unfold Message.MaximumSize at hmax
  have hn : n % 2 ^ 32 = n := by
    apply Nat.mod_eq_of_lt
    omega
  have hbs : (headerFor m serial signature body).bodySize % 2 ^ 32 = body.data.length := by
    show body.data.length % 2 ^ 32 % 2 ^ 32 = body.data.length
    rw [Nat.mod_mod]
    apply Nat.mod_eq_of_lt
    omega
  rw [hn] at hload hsize hmsg
  rw [hbs, ← hlen] at hmsg
  rw [← hlen] at hsize
  refine ⟨hd, body, signature, hb, hh, hpd, hmod, ?_, ?_, ?_⟩
  · rw [hpd, hload, hlen]
    unfold paddedHeaderSize
    exact Header.getPadding_8_padded _
  · rw [hpd]
    exact hsize
  · rw [hpd, hmsg, List.length_append]
    have hnot : ¬ hd.data.length + body.data.length > Message.MaximumSize := by
      unfold Message.MaximumSize
      omega
    rw [if_neg hnot]

/-- The packet `examplePacket`: a header part of 96 bytes and 112 bytes in
all, which is what the two size functions return. -/
theorem marshall_framing_witness :
    Message.marshall
      (exampleCall [Any.String (lit "hi"), Any.Variant (Any.UnixFd 7)]) 9 =
        Except.ok examplePacket ∧
    examplePacket.data.length = 112 ∧
    Header.getSize examplePacket.data = Except.ok 96 ∧
    Header.getMessageSize examplePacket.data = Except.ok examplePacket.data.length :=
  ⟨rfl, rfl, rfl,
    match marshall_framing
      (exampleCall [Any.String (lit "hi"), Any.Variant (Any.UnixFd 7)]) 9 examplePacket rfl
      (by decide) with
    | ⟨_, _, _, _, _, _, _, _, _, hm⟩ => hm⟩

/-- The packet `examplePacket`: its header was marshalled with the serial 9,
the body length 16 and one descriptor. -/
theorem marshalled_header_describes_body_example :
    Message.marshall
      (exampleCall [Any.String (lit "hi"), Any.Variant (Any.UnixFd 7)]) 9 =
        Except.ok examplePacket ∧
    (examplePacket.data.drop 4).take 4 = [16, 0, 0, 0] ∧
    (examplePacket.data.drop 8).take 4 = [9, 0, 0, 0] ∧
    ∃ (body : MessageOStream) (signature : Signature),
      Parameters.marshall
        (exampleCall [Any.String (lit "hi"), Any.Variant (Any.UnixFd 7)]).m_Parameters
        MessageOStream.empty = Except.ok body ∧
      (headerFor (exampleCall [Any.String (lit "hi"), Any.Variant (Any.UnixFd 7)]) 9
        signature body).bodySize = body.data.length ∧
      (headerFor (exampleCall [Any.String (lit "hi"), Any.Variant (Any.UnixFd 7)]) 9
        signature body).unixFds = body.fds.length :=
  ⟨rfl, rfl, rfl,
    match marshalled_header_describes_body
      (exampleCall [Any.String (lit "hi"), Any.Variant (Any.UnixFd 7)]) 9 examplePacket rfl
      (by decide) (by decide) with
    | ⟨body, _, signature, _, hb, _, _, _, _, hbs, hfs, _⟩ => ⟨body, signature, hb, hbs, hfs⟩⟩

end Framing

/-! ## A body of 4 GiB -/

namespace Message

section HugeMessage

set_option maxRecDepth 100000

theorem length_hugeText : hugeText.length = 4294967296 :=
  List.length_replicate _ _

theorem headerFor_huge :
    headerFor (exampleCall [Any.String hugeText]) 1 { m_typeCodeIndex := 0, m_Value := ['s'] }
      (MessageOStream.empty.writeString hugeText) = hugeHeader := by
  have hl : (MessageOStream.empty.writeString hugeText).data.length = 4294967301 := by
    rw [length_writeString_empty, length_hugeText]
  have hf : (MessageOStream.empty.writeString hugeText).fds = [] := rfl
  unfold headerFor
  rw [hl, hf]
  rfl

theorem marshall_hugeHeader :
    hugeHeader.marshall MessageOStream.empty = Except.ok hugeHeaderData := by
  rfl

theorem marshall_huge :
    Message.marshall (exampleCall [Any.String hugeText]) 1 =
      Except.ok { data := hugeHeaderData.data ++ (MessageOStream.empty.writeString hugeText).data,
                  fds := [] } := by
  have hb : Parameters.marshall (exampleCall [Any.String hugeText]).m_Parameters
      MessageOStream.empty = Except.ok (MessageOStream.empty.writeString hugeText) := rfl
  have ht : Parameters.getSignature (exampleCall [Any.String hugeText]).m_Parameters =
      Except.ok ['s'] := rfl
  have hs : Signature.ctor ['s'] 0 = Except.ok { m_typeCodeIndex := 0, m_Value := ['s'] } := rfl
  unfold Message.marshall
  rw [hb]
  simp only
  rw [ht]
  simp only
  rw [hs]
  simp only
  rw [headerFor_huge, marshall_hugeHeader]
  simp only [write_empty]
  rfl

end HugeMessage

end Message

section BodyLengthWraps

open Message

/-- **C33.** The header of a body of 4 GiB. The method call `exampleCall`
with the one parameter `hugeText`, a string of 4294967296 characters, marshals
successfully with the serial 1; its marshalled parameters are 4294967301 bytes
long, the packet is the 88 bytes of the header followed by them, and the body
length that the header carries at offset 4 is 5. -/
theorem body_length_wraps :
    ∃ p body, Message.marshall (exampleCall [Any.String hugeText]) 1 = Except.ok p ∧
      Parameters.marshall (exampleCall [Any.String hugeText]).m_Parameters
        MessageOStream.empty = Except.ok body ∧
      body.data.length = 4294967301 ∧
      p.data.length = 88 + 4294967301 ∧
      (p.data.drop 4).take 4 = [5, 0, 0, 0] ∧
      (headerFor (exampleCall [Any.String hugeText]) 1
        { m_typeCodeIndex := 0, m_Value := ['s'] } body).bodySize = 5 := by
  have hl : (MessageOStream.empty.writeString hugeText).data.length = 4294967301 := by
    rw [length_writeString_empty, length_hugeText]
  refine ⟨_, MessageOStream.empty.writeString hugeText, marshall_huge, rfl, hl, ?_, ?_, ?_⟩
  · show (hugeHeaderData.data ++ (MessageOStream.empty.writeString hugeText).data).length = _
    rw [List.length_append, hl]
    rfl
  · show ((hugeHeaderData.data ++ (MessageOStream.empty.writeString hugeText).data).drop 4).take
      4 = _
    have h1 : hugeHeaderData.data =
        [108, 1, 0, 1] ++ ([5, 0, 0, 0] ++ hugeHeaderData.data.drop 8) := rfl
    have h4 : ([108, 1, 0, 1] : List Nat).length = 4 := rfl
    have h5 : ([5, 0, 0, 0] : List Nat).length = 4 := rfl
    rw [h1]
    simp only [List.append_assoc]
    rw [List.drop_left' h4, List.take_left' h5]
  · rw [headerFor_huge]
    rfl

end BodyLengthWraps

/-! ## A reply without its reply serial -/

section ReplyWithoutSerial

open Message

/-- **C14.** Required header fields, at a reply without ReplySerial. The
public constructor `MethodReturn(destination, replySerial)` with the bus name
`a.b` and the reply serial 0 gives a message that `marshall` turns into a
packet: marshalling does not fail, and the header of the packet has the type
method_return and the one field Destination, so that ReplySerial, which a
method_return requires, is absent. The same holds for the error built by
`Error(destination, 0, name, message)`, whose header has the fields
Destination, ErrorName and Signature and no ReplySerial. -/
theorem reply_without_reply_serial_is_marshalled :
    BusName (lit "a.b") = Except.ok (lit "a.b") ∧
    Message.marshall (MethodReturn.ctor (lit "a.b") 0) 1 =
      Except.ok { data := [108, 2, 1, 1, 0, 0, 0, 0, 1, 0, 0, 0, 12, 0, 0, 0,
        6, 1, 115, 0, 3, 0, 0, 0, 97, 46, 98, 0, 0, 0, 0, 0], fds := [] } ∧
    Header.fieldEntries
        (headerFor (MethodReturn.ctor (lit "a.b") 0) 1 Signature.default MessageOStream.empty) =
      [Header.fieldEntry 6 (Any.String (lit "a.b"))] ∧
    ErrorName (lit "a.b.E") = Except.ok (lit "a.b.E") ∧
    (Message.marshall (Error.ctor (lit "a.b") 0 (lit "a.b.E") (lit "m")) 1).toBool = true ∧
    Header.fieldEntries
        (headerFor (Error.ctor (lit "a.b") 0 (lit "a.b.E") (lit "m")) 1
          { m_typeCodeIndex := 0, m_Value := ['s'] }
          (MessageOStream.empty.writeString (lit "m"))) =
      [Header.fieldEntry 6 (Any.String (lit "a.b")),
       Header.fieldEntry 4 (Any.String (lit "a.b.E")),
       Header.fieldEntry 8 (Any.Signature { m_typeCodeIndex := 0, m_Value := ['s'] })] :=
  ⟨rfl, rfl, rfl, rfl, rfl, rfl⟩

end ReplyWithoutSerial

/-! ## Match rules: what a chain of builder calls serialises to -/

namespace Map

theorem find_assign_ne {V : Type} (m : Map Nat V) (key k : Nat) (value : V) (h : k ≠ key) :
    (m.assign key value).find k = m.find k := by
  have hne : ¬ key = k := fun e => h e.symm
  induction m with
  | nil => simp [assign, find, hne]
  | cons e rest ih =>
    obtain ⟨a, b⟩ := e
    unfold assign
    split
    · simp [find, hne]
    · split
      · rename_i hak
        have hak2 : ¬ a = k := fun e => h (by rw [← e, hak])
        simp [find, hak2]
      · simp only [find, ih]

end Map

namespace MatchRule

theorem Name.validate_ne_nil (name : Str) (type : NameType)
    (h : Name.validate name type = Except.ok ()) : name ≠ [] := by
  intro hn
  subst hn
  simp [Name.validate] at h

theorem ne_nil_of_name (name : Str) (type : NameType)
    (h : (Name.validate name type).map (fun _ => name) = Except.ok name) : name ≠ [] := by
  cases hv : Name.validate name type with
  | error e => rw [hv] at h; cases h
  | ok u => exact Name.validate_ne_nil name type hv

theorem ne_nil_of_path (name : Str) (h : ObjectPath.ctor name = Except.ok name) : name ≠ [] := by
  intro hn
  subst hn
  simp [ObjectPath.ctor] at h

theorem typeText_ne_nil (t : RuleType) : typeText t ≠ [] := by
  cases t <;> simp [typeText, lit]

theorem value_new (key : Key) : MatchRule.new.value key = none := by
  cases key <;> rfl

end MatchRule
namespace MatchRule

theorem type_value (r : MatchRule) (t : RuleType) (key : Key) :
    (r.type t).value key = if Key.type = key then some (typeText t) else r.value key := by
  have h := typeText_ne_nil t
  cases t <;> cases key <;> simp [MatchRule.type, value, typeText] at h ⊢ <;> exact h

/-- What a call that throws nothing does to the values that the rule holds:
the key of the call gets the value of the call, every other key keeps its
value. -/
theorem call_value (r r1 : MatchRule) (c : Call) (hw : c.WellTyped)
    (hc : r.call c = (none, r1)) (key : Key) :
    r1.value key = if c.sets.1 = key then some c.sets.2 else r.value key := by
  cases c with
  | type t =>
    simp only [call, Prod.mk.injEq, true_and] at hc
    subst hc
    exact type_value r t key
  | sender name =>
    have hn := ne_nil_of_name name _ hw
    simp only [call, Prod.mk.injEq, true_and] at hc
    subst hc
    cases key <;> simp [MatchRule.sender, value, Call.sets, hn]
  | interface name =>
    have hn := ne_nil_of_name name _ hw
    simp only [call, Prod.mk.injEq, true_and] at hc
    subst hc
    cases key <;> simp [MatchRule.interface, value, Call.sets, hn]
  | member name =>
    have hn := ne_nil_of_name name _ hw
    simp only [call, Prod.mk.injEq, true_and] at hc
    subst hc
    cases key <;> simp [MatchRule.member, value, Call.sets, hn]
  | path name =>
    have hn := ne_nil_of_path name hw
    simp only [call, MatchRule.path] at hc
    split at hc
    · cases hc
    · simp only [Prod.mk.injEq, true_and] at hc
      subst hc
      cases key <;> simp [value, Call.sets, hn]
  | pathNamespace name =>
    have hn := ne_nil_of_path name hw
    simp only [call, MatchRule.pathNamespace] at hc
    split at hc
    · cases hc
    · simp only [Prod.mk.injEq, true_and] at hc
      subst hc
      cases key <;> simp [value, Call.sets, hn]
  | destination name =>
    have hn := ne_nil_of_name name _ hw
    simp only [call, Prod.mk.injEq, true_and] at hc
    subst hc
    cases key <;> simp [MatchRule.destination, value, Call.sets, hn]
  | arg0Namespace name =>
    have hn := ne_nil_of_name name _ hw
    simp only [call, Prod.mk.injEq, true_and] at hc
    subst hc
    cases key <;> simp [MatchRule.arg0Namespace, value, Call.sets, hn]
  | arg index string =>
    simp only [call, MatchRule.arg_eq] at hc
    split at hc
    · cases hc
    · simp only [Prod.mk.injEq, true_and] at hc
      subst hc
      cases key with
      | arg n =>
        by_cases hin : index = n
        · subst hin
          simp [value, Call.sets, Map.find_assign_self]
        · have hne : n ≠ index := fun e => hin e.symm
          simp [value, Call.sets, hin, Map.find_assign_ne _ _ _ _ hne]
      | _ => simp [value, Call.sets]
  | argPath index string =>
    simp only [call, MatchRule.argPath_eq] at hc
    split at hc
    · cases hc
    · simp only [Prod.mk.injEq, true_and] at hc
      subst hc
      cases key with
      | argPath n =>
        by_cases hin : index = n
        · subst hin
          simp [value, Call.sets, Map.find_assign_self]
        · have hne : n ≠ index := fun e => hin e.symm
          simp [value, Call.sets, hin, Map.find_assign_ne _ _ _ _ hne]
      | _ => simp [value, Call.sets]

end MatchRule
namespace MatchRule

/-- The values that the rule at the end of a chain holds: for each key the
value that the chain sets, or, when the chain does not set it, the value that
the rule held at the start. -/
theorem build_value : ∀ (calls : List Call) (r0 r : MatchRule),
    (∀ c ∈ calls, c.WellTyped) → build calls r0 = Except.ok r → ∀ key,
      r.value key = match valueSet calls key with
        | some v => some v
        | none => r0.value key := by
  intro calls
  induction calls with
  | nil =>
    intro r0 r _ hb key
    simp only [build, Except.ok.injEq] at hb
    subst hb
    rfl
  | cons c rest ih =>
    intro r0 r hw hb key
    have hwc := hw c (List.mem_cons_self _ _)
    have hwr : ∀ c1 ∈ rest, c1.WellTyped := fun c1 h1 => hw c1 (List.mem_cons_of_mem _ h1)
    unfold build at hb
    cases hc : r0.call c with
    | mk thrown r1 =>
      rw [hc] at hb
      cases thrown with
      | some e => cases hb
      | none =>
        simp only at hb
        have h1 := ih r1 r hwr hb key
        have h2 := call_value r0 r1 c hwc hc key
        have hv : valueSet (c :: rest) key =
            (match valueSet rest key with
             | some v => some v
             | none => if c.sets.1 = key then some c.sets.2 else none) := rfl
        rw [h1, h2, hv]
        cases valueSet rest key with
        | some v => rfl
        | none =>
          simp only
          by_cases hk : c.sets.1 = key
          · rw [if_pos hk, if_pos hk]
          · rw [if_neg hk, if_neg hk]

theorem build_built : ∀ (calls : List Call) (r0 r : MatchRule),
    (∀ c ∈ calls, c.WellTyped) → build calls r0 = Except.ok r → Built r0 → Built r := by
  intro calls
  induction calls with
  | nil =>
    intro r0 r _ hb h0
    simp only [build, Except.ok.injEq] at hb
    subst hb
    exact h0
  | cons c rest ih =>
    intro r0 r hw hb h0
    have hwc := hw c (List.mem_cons_self _ _)
    have hwr : ∀ c1 ∈ rest, c1.WellTyped := fun c1 h1 => hw c1 (List.mem_cons_of_mem _ h1)
    unfold build at hb
    cases hc : r0.call c with
    | mk thrown r1 =>
      rw [hc] at hb
      cases thrown with
      | some e => cases hb
      | none =>
        simp only at hb
        refine ih r1 r hwr hb ?_
        have hr1 : r1 = (r0.call c).2 := by rw [hc]
        rw [hr1]
        cases c with
        | type t => exact Built.type r0 t h0
        | sender name => exact Built.sender r0 name h0 hwc
        | interface name => exact Built.interface r0 name h0 hwc
        | member name => exact Built.member r0 name h0 hwc
        | path name => exact Built.path r0 name h0 hwc
        | pathNamespace name => exact Built.pathNamespace r0 name h0 hwc
        | destination name => exact Built.destination r0 name h0 hwc
        | arg0Namespace name => exact Built.arg0Namespace r0 name h0 hwc
        | arg index string => exact Built.arg r0 index string h0 hwc
        | argPath index string => exact Built.argPath r0 index string h0 hwc

theorem entry_eq (key : String) (k : Key) (value : Str) (hk : k.text = lit key) :
    (entry key value).map renderEntry =
      ((if value = [] then none else some value).map
        (fun v => renderEntry (k.text, v))).toList := by
  unfold entry
  split
  · rfl
  · rw [hk]; rfl

theorem filterMap_cons_toList {α β : Type} (f : α → Option β) (a : α) (l : List α) :
    (a :: l).filterMap f = (f a).toList ++ l.filterMap f := by
  rw [List.filterMap_cons]
  cases f a <;> rfl

/-- The entries of a rule are the values that it holds for the keys, listed
in the fixed order of the keys. -/
theorem entries_eq_order (r : MatchRule) :
    r.entries.map renderEntry =
      Key.order.filterMap (fun key => (r.value key).map (fun v => renderEntry (key.text, v))) := by
  have harg : (List.range 64).filterMap
      (fun x => Option.map renderEntry
        ((r.m_arg.find x).map (fun v => (lit "arg" ++ lit (toString x), v)))) =
      (List.range 64).filterMap
        ((fun key => (r.value key).map (fun v => renderEntry (key.text, v))) ∘ Key.arg) := by
    apply List.filterMap_congr
    intro x _
    simp only [value, Key.text, Function.comp]
    cases r.m_arg.find x <;> rfl
  have hpath : (List.range 64).filterMap
      (fun x => Option.map renderEntry
        ((r.m_argPath.find x).map (fun v => (lit "arg" ++ lit (toString x) ++ lit "path", v)))) =
      (List.range 64).filterMap
        ((fun key => (r.value key).map (fun v => renderEntry (key.text, v))) ∘ Key.argPath) := by
    apply List.filterMap_congr
    intro x _
    simp only [value, Key.text, Function.comp]
    cases r.m_argPath.find x <;> rfl
  unfold entries Key.order
  simp only [List.map_append, List.map_filterMap, List.filterMap_append, List.filterMap_map,
    filterMap_cons_toList, List.filterMap_nil, List.append_nil]
  rw [harg, hpath]
  simp only [List.append_assoc, entry_eq "type" Key.type _ rfl, entry_eq "sender" Key.sender _ rfl,
    entry_eq "interface" Key.interface _ rfl, entry_eq "member" Key.member _ rfl,
    entry_eq "path" Key.path _ rfl, entry_eq "path_namespace" Key.pathNamespace _ rfl,
    entry_eq "destination" Key.destination _ rfl,
    entry_eq "arg0namespace" Key.arg0Namespace _ rfl, value]

end MatchRule

section MatchRuleChains

open MatchRule

/-- **C24.** Match-rule serialisation. For every chain of builder calls on
`MatchRule()` that throws nothing, the arguments being values of the parameter
types, `str()` of the rule built is the serialisation that the documentation
describes: the entries `key='value'` of exactly the keys that the calls set,
each with the value of the last call that set it (the name of the type, the
name or path, the string with its apostrophes escaped), in the fixed order
type, sender, interface, member, path, path_namespace, destination,
arg0namespace, then `argN` in ascending `N`, then `argNpath` in ascending `N`,
joined by single commas. The order of the calls matters only through the
values set: two chains that set the same values give the same string. The
rule with nothing set serialises to the empty string. -/
theorem MatchRule_str_serialisation (calls : List Call) (r : MatchRule)
    (hw : ∀ c ∈ calls, c.WellTyped) (hb : build calls MatchRule.new = Except.ok r) :
    r.str = serialisation calls ∧
    (∀ key, r.value key = valueSet calls key) ∧
    (∀ calls2 r2, (∀ c ∈ calls2, c.WellTyped) → build calls2 MatchRule.new = Except.ok r2 →
      (∀ key, valueSet calls2 key = valueSet calls key) → r2.str = r.str) ∧
    build [] MatchRule.new = Except.ok MatchRule.new ∧ MatchRule.new.str = [] := by
  have hval : ∀ (cs : List Call) (q : MatchRule), (∀ c ∈ cs, c.WellTyped) →
      build cs MatchRule.new = Except.ok q → ∀ key, q.value key = valueSet cs key := by
    intro cs q hq hbq key
    rw [build_value cs MatchRule.new q hq hbq key, value_new]
    cases valueSet cs key <;> rfl
  have hstr : ∀ (cs : List Call) (q : MatchRule), (∀ c ∈ cs, c.WellTyped) →
      build cs MatchRule.new = Except.ok q → q.str = serialisation cs := by
    intro cs q hq hbq
    rw [str_eq_join q (build_built cs MatchRule.new q hq hbq Built.new), entries_eq_order]
    unfold serialisation
    congr 1
    apply List.filterMap_congr
    intro key _
    rw [hval cs q hq hbq key]
  refine ⟨hstr calls r hw hb, hval calls r hw hb, ?_, rfl, rfl⟩
  intro calls2 r2 hw2 hb2 hsame
  rw [hstr calls2 r2 hw2 hb2, hstr calls r hw hb]
  unfold serialisation
  congr 1
  apply List.filterMap_congr
  intro key _
  rw [hsame key]

theorem MatchRule.wellTyped_exampleCalls : ∀ c ∈ exampleCalls, c.WellTyped := by
  intro c hc
  simp only [exampleCalls, List.mem_cons, List.mem_singleton, List.not_mem_nil, or_false] at hc
  rcases hc with h | h | h | h | h | h | h | h
  all_goals
    subst h
    first
      | exact trivial
      | exact (rfl : _ = Except.ok _)
      | (show _ < 256; decide)

/-- Match-rule serialisation at the chain `arg(42)`, `interface(a.b)`,
`argPath(3)`, `member`, `arg(0)`, `type`, `interface(c.d)`, `sender`: the
entries come in the order of the keys, the interface has the value set
last. -/
theorem MatchRule_str_serialisation_witness :
    (∀ c ∈ exampleCalls, c.WellTyped) ∧
    (∃ r, build exampleCalls MatchRule.new = Except.ok r ∧
      r.str = lit
        "type='signal',sender=':1.234',interface='c.d',member='Changed',arg0='foo',arg42='bar',arg3path='/it'\\''s'") :=
  ⟨wellTyped_exampleCalls, _, rfl,
    (MatchRule_str_serialisation exampleCalls _ wellTyped_exampleCalls rfl).1.trans rfl⟩

end MatchRuleChains

/-! ## Handlers run after their entry is removed -/

namespace MessageProtocol

variable {H Msg Err : Type}

theorem invokeErrorHandler_invoked (p : MessageProtocol H Msg Err) (s : Nat) (e : Err) :
    ∃ added, (p.invokeErrorHandler s e).invoked = p.invoked ++ added ∧
      ∀ inv ∈ added, inv.withMessage = false := by
  unfold invokeErrorHandler
  cases (if s != 0 then p.m_methodReturnHandlers.find s else none) with
  | some h =>
    refine ⟨[Invocation.methodReturn h (some e) none], rfl, ?_⟩
    intro inv hinv
    rw [List.mem_singleton] at hinv
    subst hinv
    rfl
  | none =>
    cases p.m_errorHandler with
    | some h =>
      refine ⟨[Invocation.error h (some e)], rfl, ?_⟩
      intro inv hinv
      rw [List.mem_singleton] at hinv
      subst hinv
      rfl
    | none => exact ⟨[], (List.append_nil _).symm, fun inv hinv => by cases hinv⟩

theorem releasePendingHandlers_invoked (p : MessageProtocol H Msg Err) :
    ∃ added, p.releasePendingHandlers.invoked = p.invoked ++ added ∧
      ∀ inv ∈ added, inv.withMessage = false := by
  refine ⟨p.m_methodReturnHandlers.map (fun elem => Invocation.methodReturn elem.2 none none)
      ++ p.m_methodCallHandlers.map (fun elem => Invocation.methodCall elem.2 none)
      ++ p.m_signalHandlers.map (fun elem => Invocation.signal elem.2 none)
      ++ (match p.m_errorHandler with
          | some h => [Invocation.error h none]
          | none => []), ?_, ?_⟩
  · unfold releasePendingHandlers
    simp only [List.append_assoc]
  · intro inv hinv
    simp only [List.mem_append, List.mem_map] at hinv
    rcases hinv with ((⟨e, _, he⟩ | ⟨e, _, he⟩) | ⟨e, _, he⟩) | hinv
    · subst he; rfl
    · subst he; rfl
    · subst he; rfl
    · cases hp : p.m_errorHandler with
      | some h =>
        rw [hp] at hinv
        simp only [List.mem_singleton] at hinv
        subst hinv
        rfl
      | none =>
        rw [hp] at hinv
        cases hinv

/-- What the dispatch of a message adds to the calls of `invoke`: nothing, or
one call; and when that call is the one that `invokeMethodReturnHandler`,
`invokeMethodCallHandler` or `invokeSignalHandler` makes, the handler was the
entry of the key that the lookup selected, and the key has no entry when the
dispatch returns. -/
theorem dispatchMessage_invoked (p : MessageProtocol H Msg Err) (header : DispatchHeader)
    (message : Msg) (asError : Err) :
    ∃ added, (p.dispatchMessage header message asError).invoked = p.invoked ++ added ∧
      ∀ inv ∈ added, inv.withMessage = true →
        added = [inv] ∧ Selects p (p.dispatchMessage header message asError) header message inv := by
  have herase : ∀ {K : Type} [DecidableEq K] (m : Map K H) (k : K), (m.erase k).find k = none :=
    fun m k => by rw [Map.find_erase, if_pos rfl]
  unfold MessageProtocol.dispatchMessage
  cases ht : header.type with
  | Invalid => exact ⟨[], (List.append_nil _).symm, fun inv hinv => by cases hinv⟩
  | Error =>
    obtain ⟨added, h1, h2⟩ := invokeErrorHandler_invoked p header.replySerial asError
    refine ⟨added, h1, ?_⟩
    intro inv hinv hw
    rw [h2 inv hinv] at hw
    cases hw
  | MethodReturn =>
    simp only
    unfold invokeMethodReturnHandler
    cases h1 : p.m_methodReturnHandlers.find header.replySerial with
    | none => exact ⟨[], (List.append_nil _).symm, fun inv hinv => by cases hinv⟩
    | some h =>
      refine ⟨[Invocation.methodReturn h none (some message)], rfl, ?_⟩
      intro inv hinv _
      rw [List.mem_singleton] at hinv
      subst hinv
      exact ⟨rfl, rfl, ht, h1, herase _ _⟩
  | MethodCall =>
    simp only
    unfold invokeMethodCallHandler
    cases h1 : p.m_methodCallHandlers.find (getFullName header.interface header.member) with
    | some h =>
      refine ⟨[Invocation.methodCall h (some message)], rfl, ?_⟩
      intro inv hinv _
      rw [List.mem_singleton] at hinv
      subst hinv
      refine ⟨rfl, rfl, ht, getFullName header.interface header.member, ?_, h1, herase _ _⟩
      simp only [methodCallKey, h1, Option.isSome_some, if_true]
    | none =>
      cases h2 : p.m_methodCallHandlers.find
          (anyMethod (getFullName header.interface header.member)) with
      | some h =>
        refine ⟨[Invocation.methodCall h (some message)], rfl, ?_⟩
        intro inv hinv _
        rw [List.mem_singleton] at hinv
        subst hinv
        refine ⟨rfl, rfl, ht, anyMethod (getFullName header.interface header.member), ?_, h2,
          herase _ _⟩
        simp [methodCallKey, h1, h2]
      | none =>
        cases h3 : p.m_methodCallHandlers.find [] with
        | some h =>
          refine ⟨[Invocation.methodCall h (some message)], rfl, ?_⟩
          intro inv hinv _
          rw [List.mem_singleton] at hinv
          subst hinv
          refine ⟨rfl, rfl, ht, [], ?_, h3, herase _ _⟩
          simp [methodCallKey, h1, h2, h3]
        | none => exact ⟨[], (List.append_nil _).symm, fun inv hinv => by cases hinv⟩
  | Signal =>
    simp only
    unfold invokeSignalHandler
    cases h1 : p.m_signalHandlers.find (getFullName header.interface header.member) with
    | some h =>
      refine ⟨[Invocation.signal h (some message)], rfl, ?_⟩
      intro inv hinv _
      rw [List.mem_singleton] at hinv
      subst hinv
      refine ⟨rfl, rfl, ht, getFullName header.interface header.member, ?_, h1, herase _ _⟩
      simp only [signalKey, h1, Option.isSome_some, if_true]
    | none =>
      cases h3 : p.m_signalHandlers.find [] with
      | some h =>
        refine ⟨[Invocation.signal h (some message)], rfl, ?_⟩
        intro inv hinv _
        rw [List.mem_singleton] at hinv
        subst hinv
        refine ⟨rfl, rfl, ht, [], ?_, h3, herase _ _⟩
        simp [signalKey, h1, h3]
      | none => exact ⟨[], (List.append_nil _).symm, fun inv hinv => by cases hinv⟩

end MessageProtocol
namespace Driver

open MessageProtocol

variable {H Msg Err : Type}

/-- What one job adds to the calls of `invoke`. A call with a message is
added by the dispatch of a message only, and by a dispatch that selected its
handler and removed the entry. -/
theorem step_invoked (d : Driver H Msg Err) (j : Job H Msg Err) :
    ∃ added, (d.step j).protocol.invoked = d.protocol.invoked ++ added ∧
      ∀ inv ∈ added, inv.withMessage = true →
        ∃ header message asError, j = Job.dispatchMessage header message asError ∧
          added = [inv] ∧ Selects d.protocol (d.step j).protocol header message inv := by
  have hnone : ∀ (q : MessageProtocol H Msg Err), q.invoked = d.protocol.invoked →
      ∃ added, q.invoked = d.protocol.invoked ++ added ∧
        ∀ inv ∈ added, inv.withMessage = true →
          ∃ header message asError, j = Job.dispatchMessage header message asError ∧
            added = [inv] ∧ Selects d.protocol q header message inv :=
    fun q hq => ⟨[], by rw [hq, List.append_nil], fun inv hinv => by cases hinv⟩
  have hfalse : ∀ (q : MessageProtocol H Msg Err),
      (∃ added, q.invoked = d.protocol.invoked ++ added ∧
        ∀ inv ∈ added, inv.withMessage = false) →
      ∃ added, q.invoked = d.protocol.invoked ++ added ∧
        ∀ inv ∈ added, inv.withMessage = true →
          ∃ header message asError, j = Job.dispatchMessage header message asError ∧
            added = [inv] ∧ Selects d.protocol q header message inv := by
    intro q ⟨added, h1, h2⟩
    refine ⟨added, h1, ?_⟩
    intro inv hinv hw
    rw [h2 inv hinv] at hw
    cases hw
  cases j with
  | sendMethodCall serial isReplyExpected handler =>
    apply hnone
    show (d.protocol.sendMethodCall serial isReplyExpected handler).1.invoked = _
    by_cases hs : ((if isReplyExpected then serial else 0) != 0) = true
    · have he : (d.protocol.sendMethodCall serial isReplyExpected handler).1 =
          (d.protocol.storeMethodReturnHandler
            (if isReplyExpected then serial else 0) handler).2 := by
        simp only [MessageProtocol.sendMethodCall, hs, if_true]
      rw [he]
      rfl
    · have he : (d.protocol.sendMethodCall serial isReplyExpected handler).1 = d.protocol := by
        simp only [MessageProtocol.sendMethodCall, hs, Bool.false_eq_true, if_false]
      rw [he]
  | writeCompleted completion error =>
    show ∃ added, (d.protocol.writeCompleted completion error).invoked = _ ∧ _
    cases completion with
    | reply replySerial =>
      cases error with
      | some e => exact hfalse _ (invokeErrorHandler_invoked d.protocol replySerial e)
      | none => exact hnone _ rfl
    | direct handler =>
      apply hfalse
      refine ⟨[Invocation.methodReturn handler error none], rfl, ?_⟩
      intro inv hinv
      rw [List.mem_singleton] at hinv
      subst hinv
      cases error <;> rfl
  | receiveMethodCall interface handler => exact hnone _ rfl
  | receiveSignal signal handler => exact hnone _ rfl
  | cancelReceiveSignal signal =>
    apply hnone
    show (d.protocol.cancelReceiveSignal signal).2.invoked = _
    unfold MessageProtocol.cancelReceiveSignal
    split <;> rfl
  | receiveError handler => exact hnone _ rfl
  | dispatchMessage header message asError =>
    obtain ⟨added, h1, h2⟩ := dispatchMessage_invoked d.protocol header message asError
    refine ⟨added, h1, ?_⟩
    intro inv hinv hw
    exact ⟨header, message, asError, rfl, h2 inv hinv hw⟩
  | readFailed error => exact hfalse _ (invokeErrorHandler_invoked d.protocol 0 error)
  | releasePendingHandlers => exact hfalse _ (releasePendingHandlers_invoked d.protocol)
  | handler =>
    apply hnone
    show (match d.next with
      | some _ => { d with ran := d.ran + 1 }
      | none => d).protocol.invoked = _
    cases d.next <;> rfl

theorem run_append_singleton (jobs : List (Job H Msg Err)) (j : Job H Msg Err) :
    run (jobs ++ [j]) = (run jobs).step j := by
  unfold run
  rw [List.foldl_append]
  rfl

/-- Every call of `invoke` with a message, at any place of the trace, was
added by a dispatch among the jobs run so far, which selected its handler and
removed the entry before it returned. -/
theorem run_selected (jobs : List (Job H Msg Err)) :
    ∀ (i : Nat) (inv : Invocation H Msg Err),
      (run jobs).protocol.invoked.get? i = some inv → inv.withMessage = true →
      ∃ before header message asError after,
        jobs = before ++ Job.dispatchMessage header message asError :: after ∧
        (run before).protocol.invoked.length = i ∧
        (run (before ++ [Job.dispatchMessage header message asError])).protocol.invoked =
          (run before).protocol.invoked ++ [inv] ∧
        Selects (run before).protocol
          (run (before ++ [Job.dispatchMessage header message asError])).protocol
          header message inv := by
  induction jobs using List.reverseRecOn with
  | nil =>
    intro i inv hget _
    cases i <;> cases hget
  | append_singleton jobs j ih =>
    intro i inv hget hw
    obtain ⟨added, hadd, hsel⟩ := step_invoked (run jobs) j
    rw [run_append_singleton, hadd] at hget
    by_cases hi : i < (run jobs).protocol.invoked.length
    · rw [List.get?_eq_getElem?, List.getElem?_append_left hi, ← List.get?_eq_getElem?] at hget
      obtain ⟨before, header, message, asError, after, hj, hlen, hinv, hs⟩ := ih i inv hget hw
      refine ⟨before, header, message, asError, after ++ [j], ?_, hlen, hinv, hs⟩
      rw [hj, List.append_assoc, List.cons_append]
    · have hle : (run jobs).protocol.invoked.length ≤ i := Nat.le_of_not_lt hi
      rw [List.get?_eq_getElem?, List.getElem?_append_right hle] at hget
      have hmem : inv ∈ added := List.getElem?_mem hget
      obtain ⟨header, message, asError, hj, hone, hs⟩ := hsel inv hmem hw
      rw [hone] at hget
      have hidx : i - (run jobs).protocol.invoked.length = 0 := by
        cases hk : i - (run jobs).protocol.invoked.length with
        | zero => rfl
        | succ k => rw [hk] at hget; cases hget
      subst hj
      refine ⟨jobs, header, message, asError, [], rfl, by omega, ?_, ?_⟩
      · rw [run_append_singleton, hadd, hone]
      · rw [run_append_singleton]
        exact hs

end Driver

section RemovedBeforeInvocation

open MessageProtocol Driver

variable {H Msg Err : Type}

/-- **C34.** One-shot handlers are removed before invocation. In every run
of the driver, when the handler that the driver runs next is one that a
dispatch selected (a reply handler, a method-call handler or a signal handler
called with a message), then the dispatch that selected it is one of the jobs
that the driver has run before: it added this call of `invoke` to the trace,
the handler was the entry of the selected key (the reply serial; for a method
call the first of the full name, the name before its last period and the empty
string that has an entry; for a signal the full name or the empty string), and
when that dispatch returned the key had no entry in its table. -/
theorem handler_removed_before_invocation (jobs : List (Job H Msg Err))
    (inv : Invocation H Msg Err) (hnext : (run jobs).next = some inv)
    (hmsg : inv.withMessage = true) :
    ∃ before header message asError after,
      jobs = before ++ Job.dispatchMessage header message asError :: after ∧
      (run before).protocol.invoked.length = (run jobs).ran ∧
      (run (before ++ [Job.dispatchMessage header message asError])).protocol.invoked =
        (run before).protocol.invoked ++ [inv] ∧
      Selects (run before).protocol
        (run (before ++ [Job.dispatchMessage header message asError])).protocol
        header message inv :=
  run_selected jobs (run jobs).ran inv hnext hmsg

/-- The server that registers its handler again from inside the handler:
after the second call is dispatched, the handler that the driver runs next is
the one that this dispatch selected, and its entry is gone. -/
theorem handler_removed_before_invocation_witness :
    (run servingRun).next = some (Invocation.methodCall "serve" (some ())) ∧
    (run servingRun).protocol.m_methodCallHandlers = [] ∧
    ∃ before header message asError after,
      servingRun = before ++ Job.dispatchMessage header message asError :: after ∧
      (run before).protocol.invoked.length = (run servingRun).ran ∧
      (run (before ++ [Job.dispatchMessage header message asError])).protocol.invoked =
        (run before).protocol.invoked ++ [Invocation.methodCall "serve" (some ())] ∧
      Selects (run before).protocol
        (run (before ++ [Job.dispatchMessage header message asError])).protocol
        header message (Invocation.methodCall "serve" (some ())) :=
  ⟨rfl, rfl, handler_removed_before_invocation servingRun _ rfl rfl⟩

end RemovedBeforeInvocation

/-! ## Dispatching a received frame -/

namespace MessageProtocol

open Message

variable {H : Type}

/-- A frame whose header does not decode leaves `dispatchMessage` by the
exception, before a handler table is looked at. -/
theorem dispatchOctetBuffer_header_throws (p : MessageProtocol H Members Error) (fuel : Nat)
    (message : OctetBuffer) (e : Thrown) (hd : Header.ofBuffer fuel message = Except.error e) :
    p.dispatchOctetBuffer fuel message = Except.error e := by
  unfold dispatchOctetBuffer
  rw [hd]

/-- A method_return that decodes reaches `invokeMethodReturnHandler`, which
is the `MethodReturn` label of the switch. -/
theorem dispatchOctetBuffer_methodReturn (p : MessageProtocol H Members Error) (fuel : Nat)
    (message : OctetBuffer) (decoded : Header.Decoded) (methodReturn : Members) (asError : Error)
    (hd : Header.ofBuffer fuel message = Except.ok decoded)
    (ht : decoded.header.type = MessageType.MethodReturn)
    (hm : Message.ofBuffer fuel decoded = Except.ok methodReturn) :
    p.dispatchOctetBuffer fuel message =
      Except.ok (p.dispatchMessage
        { type := MessageType.MethodReturn, interface := decoded.header.interface,
          member := decoded.header.member, replySerial := decoded.header.replySerial }
        methodReturn asError) := by
  unfold dispatchOctetBuffer
  rw [hd]
  simp only [ht, hm]
  rfl

/-- A method_return whose body does not decode leaves `dispatchMessage` by
the exception: no handler is looked up. -/
theorem dispatchOctetBuffer_methodReturn_throws (p : MessageProtocol H Members Error)
    (fuel : Nat) (message : OctetBuffer) (decoded : Header.Decoded) (e : Thrown)
    (hd : Header.ofBuffer fuel message = Except.ok decoded)
    (ht : decoded.header.type = MessageType.MethodReturn)
    (hm : Message.ofBuffer fuel decoded = Except.error e) :
    p.dispatchOctetBuffer fuel message = Except.error e := by
  unfold dispatchOctetBuffer
  rw [hd]
  simp only [ht, hm]

/-- An error that decodes, and whose first parameter converts to a string,
reaches `invokeErrorHandler`, which is the `Error` label of the switch. -/
theorem dispatchOctetBuffer_error (p : MessageProtocol H Members Error) (fuel : Nat)
    (message : OctetBuffer) (decoded : Header.Decoded) (error : Members) (asError : Error)
    (hd : Header.ofBuffer fuel message = Except.ok decoded)
    (ht : decoded.header.type = MessageType.Error)
    (hm : Message.Error.ofBuffer fuel decoded = Except.ok error)
    (he : Error.ofMessage error = Except.ok asError) :
    p.dispatchOctetBuffer fuel message =
      Except.ok (p.dispatchMessage
        { type := MessageType.Error, interface := decoded.header.interface,
          member := decoded.header.member, replySerial := decoded.header.replySerial }
        error asError) := by
  unfold dispatchOctetBuffer
  rw [hd]
  simp only [ht, hm, he]
  rfl

/-- An error whose body does not decode, or whose first parameter does not
convert to a string, leaves `dispatchMessage` by the exception: neither the
reply handlers nor the error sink are looked at. -/
theorem dispatchOctetBuffer_error_throws (p : MessageProtocol H Members Error) (fuel : Nat)
    (message : OctetBuffer) (decoded : Header.Decoded) (e : Thrown)
    (hd : Header.ofBuffer fuel message = Except.ok decoded)
    (ht : decoded.header.type = MessageType.Error)
    (hm : Message.Error.ofBuffer fuel decoded = Except.error e) :
    p.dispatchOctetBuffer fuel message = Except.error e := by
  unfold dispatchOctetBuffer
  rw [hd]
  simp only [ht, hm]

end MessageProtocol

section NotDelivered

open Message MessageProtocol

set_option maxRecDepth 100000

/-- **C10.** Reply correlation, at a reply that carries a file descriptor.
The multiplexer `pendingCall` holds the reply handler of a call sent with the
serial 1. The frame `fdReply` is a complete method_return (76 octets, as its
header announces) with the reply serial 1, the signature `h` and one
descriptor. Its header decodes; building the message throws, because
`Struct::unmarshall` calls `Type::create` with the type code `h`, for which
`create` has no case; so `dispatchMessage` is left by the exception before
`invokeMethodReturnHandler` is called: the handler registered under the serial
1 is not invoked and its entry stays. A reply whose body is a string
(`textReply`) is delivered to that handler and its entry removed. -/
theorem reply_with_unix_fd_fires_no_handler :
    pendingCall.m_methodReturnHandlers.find 1 = some "reply" ∧
    Header.getMessageSize fdReply.m_data = Except.ok fdReply.m_data.length ∧
    (∀ n, (Header.ofBuffer (n + 19) fdReply).map
        (fun d => (d.header.type, d.header.replySerial, d.header.signature.m_Value,
          d.header.unixFds, d.body)) =
      Except.ok (MessageType.MethodReturn, 1, ['h'], 1,
        { m_data := [0, 0, 0, 0], m_fds := [7] })) ∧
    (∀ n, pendingCall.dispatchOctetBuffer (n + 19) fdReply =
      Except.error "Type::create() called with invalid type code h") ∧
    (∀ n, (pendingCall.dispatchOctetBuffer (n + 19) textReply).map
        (fun p => (p.invoked.map (fun inv => match inv with
            | Invocation.methodReturn h none (some m) => (h, m.m_Parameters.length)
            | _ => ("", 0)),
          p.m_methodReturnHandlers.find 1)) =
      Except.ok ([("reply", 1)], none)) :=
  ⟨rfl, rfl, fun _ => rfl, fun _ => rfl, fun _ => rfl⟩

/-- **C11.** Error routing, at an error whose first parameter is a number.
The multiplexer `pendingCall` holds the reply handler of a call sent with the
serial 1, and an error sink. The frame `errorWithNumber r` is a complete error
(84 octets, as its header announces) with the reply serial `r`, the error name
`a.b.E`, the signature `u` and the body 7. Header and body decode; the
constructor of the received `Message::Error` then evaluates `getMessage()`,
which converts the first parameter to a string and throws `BadCast`; so
`dispatchMessage` is left by the exception before `invokeErrorHandler` is
called. With the reply serial 1 the pending reply handler is not invoked, and
with the reply serial 2, which matches no pending handler, the error sink is
not invoked. The same errors with a string as their body (`errorWithText`)
are delivered: to the reply handler, whose entry is removed, and to the
sink. -/
theorem error_with_number_reaches_no_handler :
    pendingCall.m_methodReturnHandlers.find 1 = some "reply" ∧
    pendingCall.m_methodReturnHandlers.find 2 = none ∧
    pendingCall.m_errorHandler = some "sink" ∧
    Header.getMessageSize (errorWithNumber 1).m_data =
      Except.ok (errorWithNumber 1).m_data.length ∧
    (∀ n, (Header.ofBuffer (n + 19) (errorWithNumber 1)).map
        (fun d => (d.header.type, d.header.replySerial, d.header.errorName,
          d.header.signature.m_Value, d.body)) =
      Except.ok (MessageType.Error, 1, lit "a.b.E", ['u'],
        { m_data := [7, 0, 0, 0], m_fds := [] })) ∧
    (∀ n, ((Header.ofBuffer (n + 19) (errorWithNumber 1)).bind
        (Message.ofBuffer (n + 19))).map (fun m => m.m_Parameters) =
      Except.ok [Any.Uint32 7]) ∧
    (∀ n, pendingCall.dispatchOctetBuffer (n + 19) (errorWithNumber 1) =
      Except.error "Uint32: cannot cast to String") ∧
    (∀ n, pendingCall.dispatchOctetBuffer (n + 19) (errorWithNumber 2) =
      Except.error "Uint32: cannot cast to String") ∧
    (∀ n, (pendingCall.dispatchOctetBuffer (n + 19) (errorWithText 1)).map
        (fun p => (p.invoked, p.m_methodReturnHandlers.find 1, p.m_errorHandler)) =
      Except.ok ([Invocation.methodReturn "reply"
          (some { category := lit "a.b.E", message := lit "no", m_error := true }) none],
        none, some "sink")) ∧
    (∀ n, (pendingCall.dispatchOctetBuffer (n + 19) (errorWithText 2)).map
        (fun p => (p.invoked, p.m_methodReturnHandlers.find 1, p.m_errorHandler)) =
      Except.ok ([Invocation.error "sink"
          (some { category := lit "a.b.E", message := lit "no", m_error := true })],
        some "reply", none)) :=
  ⟨rfl, rfl, rfl, rfl, fun _ => rfl, fun _ => rfl, fun _ => rfl, fun _ => rfl, fun _ => rfl,
    fun _ => rfl⟩

end NotDelivered

/-! ## Match rules: built rules and chains of calls -/

namespace MatchRule

theorem build_append : ∀ (calls : List Call) (c : Call) (r0 r r1 : MatchRule),
    build calls r0 = Except.ok r → r.call c = (none, r1) →
    build (calls ++ [c]) r0 = Except.ok r1 := by
  intro calls
  induction calls with
  | nil =>
    intro c r0 r r1 hb hc
    simp only [build, Except.ok.injEq] at hb
    subst hb
    simp only [List.nil_append, build, hc]
  | cons a rest ih =>
    intro c r0 r r1 hb hc
    unfold build at hb
    rw [List.cons_append]
    unfold build
    cases ha : r0.call a with
    | mk thrown r2 =>
      rw [ha] at hb
      cases thrown with
      | some e => cases hb
      | none =>
        simp only at hb ⊢
        exact ih c r2 r r1 hb hc

/-- A call that throws leaves the rule as it was. -/
theorem call_thrown (r r1 : MatchRule) (c : Call) (e : Thrown)
    (hc : r.call c = (some e, r1)) : r1 = r := by
  cases c with
  | type t => cases hc
  | sender name => cases hc
  | interface name => cases hc
  | member name => cases hc
  | destination name => cases hc
  | arg0Namespace name => cases hc
  | path name =>
    simp only [call, MatchRule.path] at hc
    split at hc
    · simp only [Prod.mk.injEq] at hc
      exact hc.2.symm
    · cases hc
  | pathNamespace name =>
    simp only [call, MatchRule.pathNamespace] at hc
    split at hc
    · simp only [Prod.mk.injEq] at hc
      exact hc.2.symm
    · cases hc
  | arg index string =>
    simp only [call, MatchRule.arg] at hc
    split at hc
    · simp only [Prod.mk.injEq] at hc
      exact hc.2.symm
    · cases hc
  | argPath index string =>
    simp only [call, MatchRule.argPath] at hc
    split at hc
    · simp only [Prod.mk.injEq] at hc
      exact hc.2.symm
    · cases hc

theorem exists_chain_call (r : MatchRule) (c : Call) (hw : c.WellTyped)
    (h : ∃ calls, (∀ c1 ∈ calls, c1.WellTyped) ∧ build calls MatchRule.new = Except.ok r) :
    ∃ calls, (∀ c1 ∈ calls, c1.WellTyped) ∧
      build calls MatchRule.new = Except.ok (r.call c).2 := by
  obtain ⟨calls, hwc, hb⟩ := h
  cases hc : r.call c with
  | mk thrown r1 =>
    cases thrown with
    | some e =>
      have h1 := call_thrown r r1 c e hc
      subst h1
      exact ⟨calls, hwc, hb⟩
    | none =>
      refine ⟨calls ++ [c], ?_, build_append calls c _ r r1 hb hc⟩
      intro c1 hc1
      rcases List.mem_append.mp hc1 with h1 | h1
      · exact hwc c1 h1
      · rw [List.mem_singleton] at h1
        subst h1
        exact hw

/-- Every rule that the builder calls make of `MatchRule()`, also with calls
that threw, is the rule at the end of a chain of calls that throws nothing:
the chain of the calls that did not throw. -/
theorem Built.exists_chain {r : MatchRule} (h : Built r) :
    ∃ calls, (∀ c ∈ calls, c.WellTyped) ∧ build calls MatchRule.new = Except.ok r := by
  induction h with
  | new => exact ⟨[], ⟨fun c hc => (by cases hc), rfl⟩⟩
  | type r t _ ih => exact exists_chain_call r (Call.type t) trivial ih
  | sender r name _ hn ih => exact exists_chain_call r (Call.sender name) hn ih
  | interface r name _ hn ih => exact exists_chain_call r (Call.interface name) hn ih
  | member r name _ hn ih => exact exists_chain_call r (Call.member name) hn ih
  | path r name _ hn ih => exact exists_chain_call r (Call.path name) hn ih
  | pathNamespace r name _ hn ih => exact exists_chain_call r (Call.pathNamespace name) hn ih
  | destination r name _ hn ih => exact exists_chain_call r (Call.destination name) hn ih
  | arg0Namespace r name _ hn ih => exact exists_chain_call r (Call.arg0Namespace name) hn ih
  | arg r index string _ hi ih => exact exists_chain_call r (Call.arg index string) hi ih
  | argPath r index string _ hi ih => exact exists_chain_call r (Call.argPath index string) hi ih

end MatchRule

end DBus
